import Mathlib

/-! # Deploy Receiver: authenticated upload protocol

A shallow embedding of the upload core of the repository: the client-side
request signer (`client-gui/internal/crypto/crypto.go`) and the server-side
verifier, path resolver, upload handler and archive extractor (`main.go`).

Conventions of the embedding.

* A Go `string` is the list of its characters (`GoString`); a Go `[]byte` is a
  `List UInt8`.  Every test the code makes on a string is a test on ASCII
  characters, so the two views agree on well-formed (UTF-8) text.
* A Go `int64` is an `Int` inside the 64-bit range; arithmetic that can leave the
  range is wrapped explicitly with `wrapInt64`.
* The clock (`time.Now().Unix()`), the random source (`rand.Read`), the working
  directory and the Ed25519 primitives of the standard library are parameters.
* Functions of the Go standard library are modelled next to the code that uses
  them; they keep their Go names.
* The file system is a map from path text to what is there; an operation on it
  returns the new map.
-/

namespace DeployReceiver

/-! ## Strings -/

/-- A Go string, as the list of its characters. -/
abbrev GoString := List Char

/-- Go `strings.HasPrefix`. -/
def HasPrefix (s pre : GoString) : Bool := pre.isPrefixOf s

/-- Go `strings.HasSuffix`. -/
def HasSuffix (s suf : GoString) : Bool := suf.reverse.isPrefixOf s.reverse

/-- Go `strings.Contains`: `substr` occurs somewhere in `s`. -/
def Contains : GoString → GoString → Bool
  | [], substr => substr.isPrefixOf []
  | c :: cs, substr => substr.isPrefixOf (c :: cs) || Contains cs substr

/-- The pieces of `s` between the characters that satisfy `p`, in order (empty
pieces included); there is always at least one piece. -/
def splitBy (p : Char → Bool) : GoString → List GoString
  | [] => [[]]
  | c :: cs =>
    if p c then [] :: splitBy p cs
    else
      match splitBy p cs with
      | [] => [[c]]
      | e :: es => (c :: e) :: es

/-- Go `strings.Split(s, sep)` for a one-character separator. -/
def Split (s : GoString) (sep : Char) : List GoString := splitBy (fun c => c = sep) s

/-- Go `strings.SplitN(s, sep, 2)` for a one-character separator: the text before
the first separator and the text after it, or `s` alone when there is none. -/
def SplitN2 (s : GoString) (sep : Char) : List GoString :=
  if s.contains sep then [s.takeWhile (· != sep), (s.dropWhile (· != sep)).drop 1]
  else [s]

/-- Go `strings.TrimPrefix`. -/
def TrimPrefix (s pre : GoString) : GoString :=
  if HasPrefix s pre then s.drop pre.length else s

/-- Go `strings.TrimSuffix`. -/
def TrimSuffix (s suf : GoString) : GoString :=
  if HasSuffix s suf then s.take (s.length - suf.length) else s

/-- Go `unicode.IsSpace`. -/
def isSpace (c : Char) : Bool :=
  c = '\t' || c = '\n' || c.toNat = 0x0B || c.toNat = 0x0C || c = '\r' || c = ' ' ||
  c.toNat = 0x85 || c.toNat = 0xA0 || c.toNat = 0x1680 ||
  (0x2000 ≤ c.toNat && c.toNat ≤ 0x200A) ||
  c.toNat = 0x2028 || c.toNat = 0x2029 || c.toNat = 0x202F || c.toNat = 0x205F ||
  c.toNat = 0x3000

/-- Go `strings.TrimSpace`: leading and trailing white space removed. -/
def TrimSpace (s : GoString) : GoString :=
  ((s.dropWhile isSpace).reverse.dropWhile isSpace).reverse

/-- Go `strings.LastIndex(s, sep)` for a one-character separator; `none` stands
for the result `-1`. -/
def LastIndex (s : GoString) (sep : Char) : Option Nat :=
  match s with
  | [] => none
  | c :: cs =>
    match LastIndex cs sep with
    | some i => some (i + 1)
    | none => if c = sep then some 0 else none

/-! ## Machine integers and `strconv` -/

/-- Smallest `int64`. -/
def minInt64 : Int := -9223372036854775808

/-- Largest `int64`. -/
def maxInt64 : Int := 9223372036854775807

/-- The value is representable as an `int64`. -/
def IsInt64 (x : Int) : Prop := minInt64 ≤ x ∧ x ≤ maxInt64

instance (x : Int) : Decidable (IsInt64 x) := by unfold IsInt64; infer_instance

/-- Two's-complement wrap-around of a mathematical integer into the `int64`
range: the result of Go's `int64` arithmetic. -/
def wrapInt64 (x : Int) : Int :=
  (x + 9223372036854775808) % 18446744073709551616 - 9223372036854775808

/-- Value of a decimal digit character. -/
def digitValue (c : Char) : Option Nat :=
  if '0' ≤ c ∧ c ≤ '9' then some (c.toNat - '0'.toNat) else none

/-- Accumulating loop of Go `strconv.ParseUint(s, 10, 64)` over the digits;
`none` on a character that is not a decimal digit. -/
def parseDigits (acc : Nat) : GoString → Option Nat
  | [] => some acc
  | c :: cs =>
    match digitValue c with
    | some d => parseDigits (10 * acc + d) cs
    | none => none

/-- Go `strconv.ParseInt(s, 10, 64)`; `none` stands for any error (syntax or
range), which is all the caller looks at. -/
def ParseInt (s : GoString) : Option Int :=
  let signed (neg : Bool) (digits : GoString) : Option Int :=
    match digits with
    | [] => none
    | _ :: _ =>
      match parseDigits 0 digits with
      | none => none
      | some un =>
        if !neg && un ≥ 9223372036854775808 then none
        else if neg && un > 9223372036854775808 then none
        else some (if neg then -(un : Int) else (un : Int))
  match s with
  | [] => none
  | '+' :: rest => signed false rest
  | '-' :: rest => signed true rest
  | _ :: _ => signed false s

/-- Go `fmt.Sprintf("%d", x)` for an integer: decimal digits, `-` in front of a
negative number. -/
def formatInt (x : Int) : GoString :=
  if x < 0 then '-' :: Nat.toDigits 10 x.natAbs else Nat.toDigits 10 x.toNat

/-! ## `encoding/hex` -/

/-- Go `hextable`. -/
def hextable : GoString := "0123456789abcdef".toList

/-- Go `hex.EncodeToString`: two lower-case digits per byte. -/
def EncodeToString : List UInt8 → GoString
  | [] => []
  | b :: bs =>
    hextable.getD (b.toNat / 16) '0' :: hextable.getD (b.toNat % 16) '0' :: EncodeToString bs

/-- Go `fromHexChar`: the value of a hexadecimal digit of either case. -/
def fromHexChar (c : Char) : Option Nat :=
  if '0' ≤ c ∧ c ≤ '9' then some (c.toNat - '0'.toNat)
  else if 'a' ≤ c ∧ c ≤ 'f' then some (c.toNat - 'a'.toNat + 10)
  else if 'A' ≤ c ∧ c ≤ 'F' then some (c.toNat - 'A'.toNat + 10)
  else none

/-- Go `hex.DecodeString`; `none` stands for either error (a character that is
not a hexadecimal digit, or an odd length). -/
def DecodeString : GoString → Option (List UInt8)
  | [] => some []
  | [_] => none
  | p :: q :: rest =>
    match fromHexChar p, fromHexChar q, DecodeString rest with
    | some a, some b, some bs => some (UInt8.ofNat (a * 16 + b) :: bs)
    | _, _, _ => none

/-! ## Ed25519 (standard library, taken as a parameter) -/

/-- The three primitives of Go `crypto/ed25519` that the code calls.  They are
functions of the standard library, not of this repository, so they are
parameters of the embedding. -/
structure Ed25519 where
  /-- The function `ed25519.NewKeyFromSeed`: the 64-byte private key of a 32-byte seed. -/
  NewKeyFromSeed : List UInt8 → List UInt8
  /-- The function `ed25519.Sign` on a 64-byte private key and a message. -/
  Sign : List UInt8 → GoString → List UInt8
  /-- The function `ed25519.Verify` on a 32-byte public key, a message and a 64-byte
  signature. -/
  Verify : List UInt8 → GoString → List UInt8 → Bool

/-- Go `ed25519.PublicKeySize`. -/
def PublicKeySize : Nat := 32

/-- Go `ed25519.SignatureSize`. -/
def SignatureSize : Nat := 64

/-- Go `PrivateKey.Public()`: the last 32 bytes of the 64-byte private key. -/
def Public (privateKey : List UInt8) : List UInt8 := privateKey.drop 32

/-- What the code relies on from the library: a private key made from a seed is
64 bytes long, signatures are 64 bytes long, and a signature made with a key pair
verifies under the public half of that pair. -/
structure Ed25519.Correct (E : Ed25519) : Prop where
  key_length : ∀ seed, seed.length = 32 → (E.NewKeyFromSeed seed).length = 64
  sig_length : ∀ sk msg, (E.Sign sk msg).length = 64
  verify_sign : ∀ seed msg, seed.length = 32 →
    E.Verify (Public (E.NewKeyFromSeed seed)) msg (E.Sign (E.NewKeyFromSeed seed) msg) = true

/-- A Go run-time panic. -/
inductive Panic where
  | badPublicKeyLength (n : Nat)
  deriving DecidableEq, Repr

/-- Go `ed25519.Verify` as called: it panics when the public key is not 32 bytes
long and answers `false` when the signature is not 64 bytes long. -/
def ed25519Verify (E : Ed25519) (publicKey : List UInt8) (message : GoString)
    (sig : List UInt8) : Except Panic Bool :=
  if publicKey.length ≠ PublicKeySize then .error (.badPublicKeyLength publicKey.length)
  else if sig.length ≠ SignatureSize then .ok false
  else .ok (E.Verify publicKey message sig)

/-! ## Client: `internal/crypto` -/

/-- The two errors of `Sign` and `GetPublicKeyFromPrivate`. -/
inductive KeyError where
  | invalidHex
  | badLength
  deriving DecidableEq, Repr

/-- Source `crypto.Sign`: sign a message with a private key given in hex. -/
def Sign (E : Ed25519) (privateKeyHex message : GoString) : Except KeyError GoString :=
  match DecodeString privateKeyHex with
  | none => .error .invalidHex
  | some keyBytes =>
    if keyBytes.length = 64 then
      .ok (EncodeToString (E.Sign keyBytes message))
    else if keyBytes.length = 32 then
      .ok (EncodeToString (E.Sign (E.NewKeyFromSeed keyBytes) message))
    else .error .badLength

/-- Source `crypto.GenerateNonce`; `rnd` is the 16-byte buffer after `rand.Read`. -/
def GenerateNonce (rnd : List UInt8) : GoString := EncodeToString rnd

/-- Source `crypto.GetTimestamp`; `unixNow` is `time.Now().Unix()`. -/
def GetTimestamp (unixNow : Int) : GoString := formatInt unixNow

/-- The three header values made by the signer. -/
structure SignedHeaders where
  timestamp : GoString
  nonce : GoString
  signature : GoString
  deriving DecidableEq, Repr

/-- Source `crypto.CreateSignedHeaders`, at client time `unixNow` with random
bytes `rnd`. -/
def CreateSignedHeaders (E : Ed25519) (unixNow : Int) (rnd : List UInt8)
    (privateKeyHex urlPath : GoString) : Except KeyError SignedHeaders :=
  let timestamp := GetTimestamp unixNow
  let nonce := GenerateNonce rnd
  let message := timestamp ++ nonce ++ urlPath
  match Sign E privateKeyHex message with
  | .error e => .error e
  | .ok signature => .ok ⟨timestamp, nonce, signature⟩

/-! ## Server: configuration and requests -/

/-- Source `SecurityConfig`. -/
structure SecurityConfig where
  Enabled : Bool
  PublicKey : GoString
  TimestampLimit : Int
  AllowedIPs : List GoString

/-- Source `Config`; the map `Paths` is an association list, looked up by key. -/
structure Config where
  Port : Int
  Paths : List (GoString × GoString)
  LogDir : GoString
  MaxUpload : Int
  Security : SecurityConfig

/-- The globals `config` and `publicKey` of the server. -/
structure Server where
  config : Config
  publicKey : List UInt8

/-- Source `loadConfig`, from the point where the file has been decoded into
`config`: defaults are filled in and the public key is parsed.  `prevKey` is the
value the global `publicKey` had before; `none` is the error return. -/
def loadConfig (config : Config) (prevKey : List UInt8) : Option Server :=
  let config := if config.Port = 0 then { config with Port := 8022 } else config
  let config := if config.LogDir = [] then { config with LogDir := "logs".toList } else config
  let config := if config.MaxUpload = 0 then { config with MaxUpload := 500 } else config
  let config :=
    if config.Security.TimestampLimit = 0 then
      { config with Security := { config.Security with TimestampLimit := 300 } }
    else config
  if config.Security.Enabled && config.Security.PublicKey ≠ [] then
    match DecodeString config.Security.PublicKey with
    | none => none
    | some pubKeyBytes =>
      if pubKeyBytes.length ≠ PublicKeySize then none
      else some ⟨config, pubKeyBytes⟩
  else some ⟨config, prevKey⟩

/-- Go `http.Header` / `url.Values`: the values recorded under a key, in order
(none when the key is absent). -/
abbrev Values := GoString → List GoString

/-- Go `Header.Get`: the first value under the key, the empty string when there
is none. -/
def Values.Get (h : Values) (key : GoString) : GoString :=
  match h key with
  | [] => []
  | v :: _ => v

/-- The parts of `*http.Request` that the handlers read. -/
structure Request where
  Method : GoString
  /-- The field `r.URL.Path`: the decoded path, without the query. -/
  Path : GoString
  /-- The call `r.URL.Query()`. -/
  Query : Values
  Header : Values
  RemoteAddr : GoString
  Body : List UInt8

/-- Source `getClientIP`. -/
def getClientIP (r : Request) : GoString :=
  let xff := r.Header.Get "X-Forwarded-For".toList
  if xff ≠ [] then
    TrimSpace ((Split xff ',').headD [])
  else
    let xri := r.Header.Get "X-Real-IP".toList
    if xri ≠ [] then xri
    else
      let ip := r.RemoteAddr
      match LastIndex ip ':' with
      | some idx => ip.take idx
      | none => ip

/-- The reason string returned by `verifyRequest`, by case (the text itself is a
log message in the source). -/
inductive Reason where
  /-- The empty reason of an accepted request. -/
  | empty
  /-- Source text: IP不在白名单 -/
  | ipNotAllowed (clientIP : GoString)
  /-- Source text: 缺少认证头 -/
  | missingHeaders
  /-- Source text: 无效的时间戳格式 -/
  | badTimestamp
  /-- Source text: 时间戳已过期 -/
  | expired (diff limit : Int)
  /-- Source text: 无效的签名格式 -/
  | badSignatureFormat
  /-- Source text: 签名验证失败 -/
  | badSignature
  deriving DecidableEq, Repr

/-- Source `verifyRequest`, at server time `now` (`time.Now().Unix()`). -/
def verifyRequest (E : Ed25519) (srv : Server) (now : Int) (r : Request) :
    Except Panic (Bool × Reason) :=
  if !srv.config.Security.Enabled then .ok (true, .empty)
  else
    let clientIP := getClientIP r
    if srv.config.Security.AllowedIPs.length > 0 &&
        !(srv.config.Security.AllowedIPs.any fun ip => ip = clientIP || ip = "*".toList) then
      .ok (false, .ipNotAllowed clientIP)
    else
      let timestamp := r.Header.Get "X-Timestamp".toList
      let signature := r.Header.Get "X-Signature".toList
      let nonce := r.Header.Get "X-Nonce".toList
      if timestamp = [] || signature = [] then .ok (false, .missingHeaders)
      else
        match ParseInt timestamp with
        | none => .ok (false, .badTimestamp)
        | some ts =>
          let diff := wrapInt64 (now - ts)
          let diff := if diff < 0 then wrapInt64 (-diff) else diff
          if diff > srv.config.Security.TimestampLimit then
            .ok (false, .expired diff srv.config.Security.TimestampLimit)
          else
            let message := timestamp ++ nonce ++ r.Path
            match DecodeString signature with
            | none => .ok (false, .badSignatureFormat)
            | some sigBytes =>
              match ed25519Verify E srv.publicKey message sigBytes with
              | .error p => .error p
              | .ok false => .ok (false, .badSignature)
              | .ok true => .ok (true, .empty)


/-! ## `path/filepath`

The server imports `golang.org/x/sys/windows/svc` and so builds for Windows only;
`path/filepath` then has the Windows meaning (both `\` and `/` separate, `\` is
written, paths may start with a volume name).  The model takes the operating
system as a parameter and covers the Unix meaning as well.  It follows the
sources of Go 1.22: `Clean` is the loop of `path.go` read element by element. -/

/-- The operating system the program is built for (`runtime.GOOS`). -/
inductive GOOS where
  | windows
  | unix
  deriving DecidableEq, Repr

/-- Go `os.IsPathSeparator`. -/
def IsPathSeparator (os : GOOS) (c : Char) : Bool :=
  match os with
  | .windows => c = '\\' || c = '/'
  | .unix => c = '/'

/-- Go `filepath.Separator` (and `os.PathSeparator`). -/
def Separator (os : GOOS) : Char :=
  match os with
  | .windows => '\\'
  | .unix => '/'

/-- Go `filepath.FromSlash`: every `/` becomes the separator. -/
def FromSlash (os : GOOS) (path : GoString) : GoString :=
  match os with
  | .windows => path.map fun c => if c = '/' then '\\' else c
  | .unix => path

/-- ASCII upper case of a character (`toUpper` in `path_windows.go`). -/
def toUpper (c : Char) : Char :=
  if 'a' ≤ c ∧ c ≤ 'z' then Char.ofNat (c.toNat - 32) else c

/-- Go `pathHasPrefixFold`: `s` begins with `pre`, ignoring case and the kind of
separator, and the prefix ends at a separator or at the end of `s`. -/
def pathHasPrefixFold (os : GOOS) : GoString → GoString → Bool
  | [], [] => true
  | c :: _, [] => IsPathSeparator os c
  | [], _ :: _ => false
  | c :: s, p :: pre =>
    (if IsPathSeparator os p then IsPathSeparator os c else toUpper p = toUpper c) &&
      pathHasPrefixFold os s pre

/-- Loop of Go `uncLen`: the index of the second separator met from index `i`
on, or the end of the path. -/
def uncLenFrom (os : GOOS) : GoString → Nat → Nat → Nat
  | [], i, _ => i
  | c :: cs, i, count =>
    if IsPathSeparator os c then
      if count + 1 = 2 then i else uncLenFrom os cs (i + 1) (count + 1)
    else uncLenFrom os cs (i + 1) count

/-- Go `uncLen`: length of the volume prefix of a UNC path whose host starts
at index `prefixLen`. -/
def uncLen (os : GOOS) (path : GoString) (prefixLen : Nat) : Nat :=
  if prefixLen ≤ path.length then uncLenFrom os (path.drop prefixLen) prefixLen 0
  else path.length

/-- Go `volumeNameLen`: length of the leading volume name on Windows (a drive
letter with its colon, a UNC host and share, a device prefix); 0 on Unix. -/
def volumeNameLen (os : GOOS) (path : GoString) : Nat :=
  match os with
  | .unix => 0
  | .windows =>
    if path.length ≥ 2 ∧ path.get? 1 = some ':' then 2
    else if path.length = 0 ∨ !(IsPathSeparator os (path.headD 'x')) then 0
    else if pathHasPrefixFold os path "\\\\.\\UNC".toList then uncLen os path 8
    else if pathHasPrefixFold os path "\\\\.".toList ∨ pathHasPrefixFold os path "\\\\?".toList ∨
        pathHasPrefixFold os path "\\??".toList then
      if path.length = 3 then 3
      else
        let after := path.drop 4
        if after.any (IsPathSeparator os) then
          4 + (after.takeWhile fun c => !(IsPathSeparator os c)).length
        else path.length
    else if path.length ≥ 2 ∧ IsPathSeparator os (path.getD 1 'x') then uncLen os path 2
    else 0

/-- Go `filepath.VolumeName`. -/
def VolumeName (os : GOOS) (path : GoString) : GoString :=
  FromSlash os (path.take (volumeNameLen os path))

/-- Go `filepath.IsAbs`. -/
def IsAbs (os : GOOS) (path : GoString) : Bool :=
  match os with
  | .unix => HasPrefix path ['/']
  | .windows =>
    let l := volumeNameLen os path
    if l = 0 then false
    else if IsPathSeparator os (path.headD 'x') && IsPathSeparator os (path.getD 1 'x') then true
    else
      match path.drop l with
      | [] => false
      | c :: _ => IsPathSeparator os c

/-- The path elements: the pieces between separators (empty pieces included). -/
def splitElems (os : GOOS) (path : GoString) : List GoString :=
  splitBy (IsPathSeparator os) path

/-- One round of the loop of `Clean`, on the next path element: an empty element
and `.` are skipped; `..` removes the last element written when there is one to
remove (one that is not itself a leading `..`), is dropped at the root, and is
written otherwise; any other element is written. -/
def cleanStep (rooted : Bool) (out : List GoString) (elem : GoString) : List GoString :=
  if elem = [] then out
  else if elem = ['.'] then out
  else if elem = ['.', '.'] then
    let canBacktrack : Bool :=
      match out.getLast? with
      | some last => decide (last ≠ ['.', '.'])
      | none => false
    if canBacktrack then out.dropLast
    else if !rooted then out ++ [elem]
    else out
  else out ++ [elem]

/-- The text written by the loop of `Clean`: the elements with separators
between them, after a leading separator when rooted; `.` when nothing was
written. -/
def renderElems (os : GOOS) (rooted : Bool) (out : List GoString) : GoString :=
  let body := [Separator os].intercalate out
  if rooted then Separator os :: body
  else if body = [] then ['.'] else body

/-- Go `postClean` (Windows, path without volume name, output not simply the
start of the input): keep a cleaned relative path from turning into one with a
drive letter or into a Root Local Device path.  Go asks whether `Clean` had to
allocate its output buffer and scans the whole buffer, bytes left behind by a
`..` included; the function here looks at the output alone.  Both leave the
output as it is when the path has a volume name, and when the path has neither
colon nor question mark; the theorems on Windows paths keep to these. -/
def postClean (os : GOOS) (volLen : Nat) (path out : GoString) : GoString :=
  if os = .windows ∧ volLen = 0 ∧ ¬ out.isPrefixOf path then
    if (out.takeWhile fun c => !(IsPathSeparator os c)).contains ':' then
      '.' :: Separator os :: out
    else
      match out with
      | c0 :: '?' :: '?' :: _ =>
        if IsPathSeparator os c0 then Separator os :: '.' :: out else out
      | _ => out
  else out

/-- Go `filepath.Clean`. -/
def Clean (os : GOOS) (path : GoString) : GoString :=
  let volLen := volumeNameLen os path
  let rest := path.drop volLen
  match rest with
  | [] =>
    if volLen > 1 ∧ IsPathSeparator os (path.headD 'x') ∧ IsPathSeparator os (path.getD 1 'x') then
      FromSlash os path
    else path ++ ['.']
  | c :: _ =>
    let rooted := IsPathSeparator os c
    let out := renderElems os rooted ((splitElems os rest).foldl (cleanStep rooted) [])
    FromSlash os (path.take volLen ++ postClean os volLen rest out)

/-- One round of the loop of the Windows `join`: `b` is the text built so far. -/
def joinStepWindows (b e : GoString) : GoString :=
  match b.getLast? with
  | none => e
  | some lastChar =>
    if IsPathSeparator .windows lastChar then
      let e1 := e.dropWhile (IsPathSeparator .windows)
      if b.length = 1 ∧ pathHasPrefixFold .windows e1 "??".toList then b ++ '.' :: '\\' :: e1
      else b ++ e1
    else if lastChar = ':' then b ++ e
    else b ++ '\\' :: e

/-- Go `filepath.Join`. -/
def Join (os : GOOS) (elem : List GoString) : GoString :=
  match os with
  | .unix =>
    match elem.dropWhile (· = []) with
    | [] => []
    | es => Clean os (['/'].intercalate es)
  | .windows =>
    match elem.foldl joinStepWindows [] with
    | [] => []
    | b => Clean os b

/-- Go `filepath.Abs`, as documented: an absolute path is cleaned, any other
path is joined to the working directory `wd` (`os.Getwd`).  (On Windows the
run time asks the operating system for the full path: `AbsOn`.) -/
def Abs (os : GOOS) (wd path : GoString) : GoString :=
  if IsAbs os path then Clean os path else Join os [wd, path]

/-- Go `filepath.Abs` with its error dropped, as `handleUpload` calls it.  On
Unix it is the text function `Abs`.  On Windows it is `Clean` of
`syscall.FullPath`, the empty path standing for `.`; `FullPath` is the answer
of the operating system (`GetFullPathName`, which knows the current
directories, device names such as `nul`, and drops trailing dots and spaces),
`none` its error, on which `filepath.Abs` returns the empty text. -/
def AbsOn (os : GOOS) (FullPath : GoString → Option GoString) (wd path : GoString) : GoString :=
  match os with
  | .unix => Abs .unix wd path
  | .windows =>
    match FullPath (if path = [] then ['.'] else path) with
    | none => []
    | some full => Clean .windows full

/-- Go `filepath.Dir`. -/
def Dir (os : GOOS) (path : GoString) : GoString :=
  let vol := VolumeName os path
  let rest := path.drop (volumeNameLen os path)
  let dir := Clean os (rest.reverse.dropWhile fun c => !(IsPathSeparator os c)).reverse
  if dir = ['.'] ∧ vol.length > 2 then vol else vol ++ dir

/-! ## Server: file names and the upload target -/

/-- Source `isValidFilename`. -/
def isValidFilename (os : GOOS) (filename : GoString) : Bool :=
  let cleaned := Clean os filename
  if Contains cleaned "..".toList then false
  else if IsAbs os cleaned then false
  else
    let suspicious : List GoString :=
      ["<".toList, ">".toList, ":".toList, "\"".toList, "|".toList, "?".toList, "*".toList,
        [Char.ofNat 0]]
    if suspicious.any fun s => Contains filename s then false
    else
      let parts := Split cleaned (Separator os)
      if parts.any fun part => HasPrefix part ".".toList && part ≠ ".".toList then false
      else true

/-- The four path failures of `handleUpload`, each answered with status 400. -/
inductive PathError where
  /-- Source text: URL格式错误 -/
  | badURL
  /-- Source text: 未知的路径标识 -/
  | unknownPathKey (pathKey : GoString)
  /-- Source text: 非法的文件名 -/
  | invalidFilename
  /-- Source text: 路径安全检查失败 -/
  | pathCheckFailed
  deriving DecidableEq, Repr

/-- What the path stage of `handleUpload` hands to the rest of the handler. -/
structure UploadTarget where
  pathKey : GoString
  filename : GoString
  baseDir : GoString
  fullPath : GoString
  absBase : GoString
  absPath : GoString
  deriving DecidableEq, Repr

/-- Source `handleUpload`, the path stage (from `strings.TrimPrefix` to the prefix
check): the URL path is split into path key and file name, the key is looked up,
the name validated, the target joined and checked against the base directory.
An error is a response with status 400. -/
def handleUploadPath (os : GOOS) (wd : GoString) (config : Config) (r : Request) :
    Except PathError UploadTarget :=
  let path := TrimPrefix r.Path "/upload/".toList
  let parts := SplitN2 path '/'
  if parts.length < 2 || parts.getD 0 [] = [] || parts.getD 1 [] = [] then .error .badURL
  else
    let pathKey := parts.getD 0 []
    let filename := parts.getD 1 []
    match config.Paths.lookup pathKey with
    | none => .error (.unknownPathKey pathKey)
    | some baseDir =>
      if !isValidFilename os filename then .error .invalidFilename
      else
        let fullPath := Join os [baseDir, filename]
        let absBase := Abs os wd baseDir
        let absPath := Abs os wd fullPath
        if !HasPrefix absPath absBase then .error .pathCheckFailed
        else .ok ⟨pathKey, filename, baseDir, fullPath, absBase, absPath⟩

/-- Source `handleUpload`, the path stage, with `filepath.Abs` answered by the
operating system (`AbsOn`). -/
def handleUploadPathOn (os : GOOS) (FullPath : GoString → Option GoString) (wd : GoString)
    (config : Config) (r : Request) : Except PathError UploadTarget :=
  let path := TrimPrefix r.Path "/upload/".toList
  let parts := SplitN2 path '/'
  if parts.length < 2 || parts.getD 0 [] = [] || parts.getD 1 [] = [] then .error .badURL
  else
    let pathKey := parts.getD 0 []
    let filename := parts.getD 1 []
    match config.Paths.lookup pathKey with
    | none => .error (.unknownPathKey pathKey)
    | some baseDir =>
      if !isValidFilename os filename then .error .invalidFilename
      else
        let fullPath := Join os [baseDir, filename]
        let absBase := AbsOn os FullPath wd baseDir
        let absPath := AbsOn os FullPath wd fullPath
        if !HasPrefix absPath absBase then .error .pathCheckFailed
        else .ok ⟨pathKey, filename, baseDir, fullPath, absBase, absPath⟩

/-- A path element that `Clean` writes as it stands: not empty, not `.`, not
`..`, and free of separators. -/
def IsNameElem (os : GOOS) (e : GoString) : Prop :=
  e ≠ [] ∧ e ≠ ['.'] ∧ e ≠ ['.', '.'] ∧ ∀ c ∈ e, IsPathSeparator os c = false

/-- The elements that the loop of `Clean` has written: name elements, after
leading `..` elements when the path is not rooted. -/
def CleanShape (os : GOOS) (rooted : Bool) (S : List GoString) : Prop :=
  ∃ k N, S = List.replicate k ['.', '.'] ++ N ∧ (rooted = true → k = 0) ∧
    ∀ a ∈ N, IsNameElem os a

/-! ## The file system and `archive/zip`

A file or directory is identified by the path text that reaches it; the model
knows no links.  Of the ways an operation can fail it keeps those that come from
the shape of the tree (a file where a directory is needed, a directory where a
file is to be written).

The definitions whose name ends in `On` drop the first sentence: they take a
function `key` that sends a path to the file or directory it names (two
spellings of a path on a volume that ignores case, or two paths joined by a
link, have the same `key`), and the file system holds the node of each `key`. -/

/-- A node of the file system. -/
inductive Node where
  | dir
  | file (perm : Nat) (data : List UInt8)
  deriving DecidableEq, Repr

/-- The file system: what there is at each path. -/
abbrev FileSystem := GoString → Option Node

/-- The file system with the node at `path` replaced. -/
def FileSystem.set (fs : FileSystem) (path : GoString) (n : Node) : FileSystem :=
  fun q => if q = path then some n else fs q

/-- The directories that `os.MkdirAll(path)` walks through, outermost first: the
starts of `path` that are longer than the volume name, end where a separator
follows or `path` ends, and do not end in a separator themselves. -/
def dirChain (os : GOOS) (path : GoString) : List GoString :=
  (List.range (path.length + 1)).filterMap fun i =>
    if volumeNameLen os path < i ∧
        (i = path.length ∨ IsPathSeparator os (path.getD i 'x') = true) ∧
        (path.take i).getLast?.all (fun c => !IsPathSeparator os c) = true then
      some (path.take i)
    else none

/-- The recursion of `os.MkdirAll` along the chain of a path, innermost directory
first: a directory that is there ends the walk, a file in the way is an error,
and a missing directory is made once its parent is there.  The chain ends below
the root or the volume name, which are there. -/
def mkdirUp (fs : FileSystem) : List GoString → FileSystem × Bool
  | [] => (fs, true)
  | d :: ds =>
    match fs d with
    | some .dir => (fs, true)
    | some (.file _ _) => (fs, false)
    | none =>
      match mkdirUp fs ds with
      | (fs1, false) => (fs1, false)
      | (fs1, true) => (fs1.set d .dir, true)

/-- Go `os.MkdirAll`; the second component tells whether it returned `nil`. -/
def MkdirAll (os : GOOS) (fs : FileSystem) (path : GoString) : FileSystem × Bool :=
  if path = [] then (fs, false) else mkdirUp fs (dirChain os path).reverse

/-- Go `os.OpenFile(path, O_WRONLY|O_CREATE|O_TRUNC, perm)`, called after the
parent directory has been made: an existing file is emptied, a missing one is
created empty; `none` is the error of opening a directory. -/
def OpenFile (fs : FileSystem) (path : GoString) (perm : Nat) : Option FileSystem :=
  match fs path with
  | some .dir => none
  | some (.file p _) => some (fs.set path (.file p []))
  | none => some (fs.set path (.file perm []))

/-- Writing `data` through the file opened at `path` (`io.Copy`, `Write`). -/
def writeFileData (fs : FileSystem) (path : GoString) (data : List UInt8) : FileSystem :=
  match fs path with
  | some (.file p _) => fs.set path (.file p data)
  | _ => fs

/-- An entry of a zip archive (`*zip.File`), as far as `unzipFile` looks at it. -/
structure ZipEntry where
  /-- The name stored in the archive. -/
  Name : GoString
  /-- The result of `f.FileInfo().IsDir()`. -/
  IsDir : Bool
  /-- The permission bits of `f.Mode()`. -/
  Mode : Nat
  /-- Whether `f.Open()` returns an error on the archive as uploaded. -/
  OpenFails : Bool
  /-- The bytes that `io.Copy` takes out of the entry of the archive as uploaded. -/
  Data : List UInt8
  /-- Whether `io.Copy` returns an error after these bytes. -/
  CopyFails : Bool
  deriving DecidableEq, Repr

/-- The errors of `unzipFile`. -/
inductive UnzipError where
  /-- The archive cannot be opened or read (`zip.OpenReader`). -/
  | openReader
  /-- Source text: 非法路径 -/
  | illegalPath (name : GoString)
  /-- An error of `os.MkdirAll` for the parent directory of a file entry. -/
  | mkdir
  /-- An error of `os.OpenFile`. -/
  | openFile
  /-- An error of `f.Open()`. -/
  | entryOpen
  /-- An error of `io.Copy`. -/
  | copy
  deriving DecidableEq, Repr

/-- Source `unzipFile`, the loop over the entries of the archive at `src`.  The
archive is read while the loop runs: `os.OpenFile` comes before `f.Open()`, so
an entry whose target is the archive itself finds the archive emptied
(`O_TRUNC`) and `f.Open()` fails. -/
def unzipEntries (os : GOOS) (src dest : GoString) :
    FileSystem → List ZipEntry → FileSystem × Option UnzipError
  | fs, [] => (fs, none)
  | fs, f :: rest =>
    let fpath := Join os [dest, f.Name]
    if !HasPrefix fpath (Clean os dest ++ [Separator os]) then (fs, some (.illegalPath f.Name))
    else if f.IsDir then
      unzipEntries os src dest (MkdirAll os fs fpath).1 rest
    else
      match MkdirAll os fs (Dir os fpath) with
      | (fs1, false) => (fs1, some .mkdir)
      | (fs1, true) =>
        match OpenFile fs1 fpath f.Mode with
        | none => (fs1, some .openFile)
        | some fs2 =>
          if f.OpenFails || fpath = src then (fs2, some .entryOpen)
          else
            let fs3 := writeFileData fs2 fpath f.Data
            if f.CopyFails then (fs3, some .copy)
            else unzipEntries os src dest fs3 rest

/-- Source `unzipFile`; `zipOpenReader` stands for `zip.OpenReader` on the
content of the archive file: the entries, or `none` on error. -/
def unzipFile (os : GOOS) (zipOpenReader : List UInt8 → Option (List ZipEntry))
    (fs : FileSystem) (src dest : GoString) : FileSystem × Option UnzipError :=
  match fs src with
  | some (.file _ data) =>
    match zipOpenReader data with
    | none => (fs, some .openReader)
    | some entries => unzipEntries os src dest (MkdirAll os fs dest).1 entries
  | _ => (fs, some .openReader)

/-- Go `os.MkdirAll` where `key` tells which directory a path names. -/
def MkdirAllOn (key : GoString → GoString) (os : GOOS) (fs : FileSystem) (path : GoString) :
    FileSystem × Bool :=
  if path = [] then (fs, false) else mkdirUp fs ((dirChain os path).reverse.map key)

/-- Source `unzipFile`, the loop over the entries, where `key` tells which file
a path names: the target of an entry is the archive itself when the two paths
name the same file. -/
def unzipEntriesOn (key : GoString → GoString) (os : GOOS) (src dest : GoString) :
    FileSystem → List ZipEntry → FileSystem × Option UnzipError
  | fs, [] => (fs, none)
  | fs, f :: rest =>
    let fpath := Join os [dest, f.Name]
    if !HasPrefix fpath (Clean os dest ++ [Separator os]) then (fs, some (.illegalPath f.Name))
    else if f.IsDir then
      unzipEntriesOn key os src dest (MkdirAllOn key os fs fpath).1 rest
    else
      match MkdirAllOn key os fs (Dir os fpath) with
      | (fs1, false) => (fs1, some .mkdir)
      | (fs1, true) =>
        match OpenFile fs1 (key fpath) f.Mode with
        | none => (fs1, some .openFile)
        | some fs2 =>
          if f.OpenFails || key fpath = key src then (fs2, some .entryOpen)
          else
            let fs3 := writeFileData fs2 (key fpath) f.Data
            if f.CopyFails then (fs3, some .copy)
            else unzipEntriesOn key os src dest fs3 rest

/-- Source `unzipFile` where `key` tells which file a path names; with every
path naming a file of its own (`key` the identity) this is `unzipFile`. -/
def unzipFileOn (key : GoString → GoString) (os : GOOS)
    (zipOpenReader : List UInt8 → Option (List ZipEntry))
    (fs : FileSystem) (src dest : GoString) : FileSystem × Option UnzipError :=
  match fs (key src) with
  | some (.file _ data) =>
    match zipOpenReader data with
    | none => (fs, some .openReader)
    | some entries => unzipEntriesOn key os src dest (MkdirAllOn key os fs dest).1 entries
  | _ => (fs, some .openReader)

/-! ## Client: public key and verification (`internal/crypto`) -/

/-- Source `crypto.GetPublicKeyFromPrivate`: the hex text of the public half of
a private key given in hex. -/
def GetPublicKeyFromPrivate (E : Ed25519) (privateKeyHex : GoString) :
    Except KeyError GoString :=
  match DecodeString privateKeyHex with
  | none => .error .invalidHex
  | some keyBytes =>
    if keyBytes.length = 64 then
      .ok (EncodeToString (Public keyBytes))
    else if keyBytes.length = 32 then
      .ok (EncodeToString (Public (E.NewKeyFromSeed keyBytes)))
    else .error .badLength

/-- Source `crypto.Verify`: check a hex signature under a hex public key. -/
def Verify (E : Ed25519) (publicKeyHex message signatureHex : GoString) : Bool :=
  match DecodeString publicKeyHex with
  | none => false
  | some publicKey =>
    if publicKey.length ≠ PublicKeySize then false
    else
      match DecodeString signatureHex with
      | none => false
      | some signature =>
        if signature.length ≠ SignatureSize then false
        else E.Verify publicKey message signature

/-! ## Server: the upload handler

The handler reads the request, the configuration, the clock, the file system
and the counters, and leaves a response, a new file system, new counters and
log lines.  The log (console and log file) is kept apart from the file system
of the uploads. -/

/-- Go `strings.ToLower`; `lowerRune` stands for `unicode.ToLower` on the
characters outside ASCII. -/
def ToLower (lowerRune : Char → Char) (s : GoString) : GoString :=
  s.map fun c =>
    if c.toNat < 128 then
      if 'A' ≤ c ∧ c ≤ 'Z' then Char.ofNat (c.toNat + 32) else c
    else lowerRune c

/-- Go `filepath.Ext`: the text from the last dot of the last path element on,
empty when that element has no dot. -/
def Ext (os : GOOS) (path : GoString) : GoString :=
  let last := (path.reverse.takeWhile fun c => !(IsPathSeparator os c)).reverse
  if last.contains '.' then '.' :: (last.reverse.takeWhile fun c => c != '.').reverse
  else []

/-- The two ways in which reading the request body fails. -/
inductive ReadError where
  /-- Go text: http: request body too large -/
  | tooLarge
  /-- Any other error of the transport. -/
  | other
  deriving DecidableEq, Repr

/-- Go `io.ReadAll` on `http.MaxBytesReader(w, r.Body, n)`: `body` holds the
bytes that arrive and `bodyFails` tells whether the stream then ends in a
transport error instead of its regular end.  A negative limit counts as 0; the
reader reports a body as too large once it has more than `n` bytes. -/
def ReadAllMaxBytes (n : Int) (body : List UInt8) (bodyFails : Bool) :
    Except ReadError (List UInt8) :=
  let n := if n < 0 then 0 else n
  if (body.length : Int) > n then .error .tooLarge
  else if bodyFails then .error .other
  else .ok body

/-- Go `os.WriteFile(path, data, perm)`: open with `O_WRONLY|O_CREATE|O_TRUNC`,
write, close; `none` is the error return. -/
def WriteFile (fs : FileSystem) (path : GoString) (data : List UInt8) (perm : Nat) :
    Option FileSystem :=
  match OpenFile fs path perm with
  | none => none
  | some fs1 => some (writeFileData fs1 path data)

/-- The global `stats` of the server, without its mutex.  `int` is taken as 64
bits wide; `lastUploadTime` is the instant as the clock gives it. -/
structure Stats where
  totalUploads : Int
  totalBytes : Int
  lastUploadTime : Int
  failedAuth : Int
  deriving DecidableEq, Repr

/-- What a handler can change: the file system and the counters. -/
structure ServerState where
  fs : FileSystem
  stats : Stats

/-- The error responses of `handleUpload` (`http.Error`), by case. -/
inductive ErrorText where
  /-- Source text: 仅支持POST请求 -/
  | methodNotAllowed
  /-- Source text: 认证失败, followed by the reason. -/
  | authFailed (reason : Reason)
  /-- The text of the path failure. -/
  | path (e : PathError)
  /-- Source text: 创建目录失败 -/
  | mkdirFailed
  /-- Source text: 文件过大, with the configured maximum in MB. -/
  | tooLarge (maxUpload : Int)
  /-- Source text: 读取数据失败 -/
  | readFailed
  /-- Source text: 保存文件失败 -/
  | saveFailed
  deriving DecidableEq, Repr

/-- The JSON object of the success response; `extract_dir` is `none` when the
key is absent. -/
structure UploadResult where
  status : GoString
  path : GoString
  size : Int
  path_key : GoString
  filename : GoString
  extracted : Bool
  extract_dir : Option GoString
  deriving DecidableEq, Repr

/-- The response of `handleUpload`: an error with its status code, or the JSON
object sent with status 200. -/
inductive Response where
  | error (code : Nat) (text : ErrorText)
  | json (body : UploadResult)
  deriving DecidableEq, Repr

/-- The lines that `handleUpload` logs, by case. -/
inductive LogLine where
  /-- Source text: 认证失败 -/
  | warnAuthFailed (clientIP : GoString) (reason : Reason)
  /-- The line logged with a path failure. -/
  | errorPath (clientIP : GoString) (e : PathError)
  /-- Source text: 创建目录失败 -/
  | errorMkdir (clientIP : GoString)
  /-- Source text: 读取失败 -/
  | errorRead (clientIP : GoString) (e : ReadError)
  /-- Source text: 保存失败 -/
  | errorSave (clientIP : GoString)
  /-- Source text: 解压失败 -/
  | warnUnzip (clientIP : GoString) (e : UnzipError)
  /-- Source text: 已解压到 -/
  | infoUnzipped (clientIP : GoString) (extractDir : GoString)
  /-- Source text: 已保存 -/
  | infoSaved (clientIP : GoString) (filename : GoString) (size : Int)
  deriving DecidableEq, Repr

/-- What the handlers take from outside the program: the operating system, the
working directory, the Ed25519 library, the reader of zip archives and the
lower-case table of Unicode. -/
structure Env where
  os : GOOS
  wd : GoString
  E : Ed25519
  zipOpenReader : List UInt8 → Option (List ZipEntry)
  lowerRune : Char → Char

/-- Source `handleUpload`, the extraction stage: whether extraction is asked for
(`extract=true` and a name that ends in `.zip` in lower case). -/
def autoExtract (env : Env) (r : Request) (filename : GoString) : Bool :=
  decide (r.Query.Get "extract".toList = "true".toList) &&
    HasSuffix (ToLower env.lowerRune filename) ".zip".toList

/-- Source `handleUpload`, the extraction stage: the directory to extract to. -/
def extractDirOf (env : Env) (fullPath : GoString) : GoString :=
  TrimSuffix fullPath (Ext env.os fullPath)

/-- Source `handleUpload`, from `os.MkdirAll` to the end: the directory of the
target is made, the body read under the size limit and written to the target,
the archive extracted when asked for, the counters updated at `uploadTime` and
the success response built. -/
def handleUploadStore (env : Env) (config : Config) (uploadTime : Int) (bodyFails : Bool)
    (st : ServerState) (r : Request) (clientIP : GoString) (t : UploadTarget) :
    Response × ServerState × List LogLine :=
  match MkdirAll env.os st.fs (Dir env.os t.fullPath) with
  | (fs1, false) => (.error 500 .mkdirFailed, ⟨fs1, st.stats⟩, [.errorMkdir clientIP])
  | (fs1, true) =>
    match ReadAllMaxBytes (wrapInt64 (wrapInt64 (config.MaxUpload * 1024) * 1024)) r.Body
        bodyFails with
    | .error .tooLarge =>
      (.error 413 (.tooLarge config.MaxUpload), ⟨fs1, st.stats⟩, [.errorRead clientIP .tooLarge])
    | .error .other => (.error 500 .readFailed, ⟨fs1, st.stats⟩, [.errorRead clientIP .other])
    | .ok data =>
      match WriteFile fs1 t.fullPath data 420 with
      | none => (.error 500 .saveFailed, ⟨fs1, st.stats⟩, [.errorSave clientIP])
      | some fs2 =>
        let stats : Stats :=
          { totalUploads := wrapInt64 (st.stats.totalUploads + 1)
            totalBytes := wrapInt64 (st.stats.totalBytes + data.length)
            lastUploadTime := uploadTime
            failedAuth := st.stats.failedAuth }
        let result (extracted : Bool) : UploadResult :=
          { status := "ok".toList
            path := t.fullPath
            size := data.length
            path_key := t.pathKey
            filename := t.filename
            extracted := extracted
            extract_dir := if extracted then some (extractDirOf env t.fullPath) else none }
        if autoExtract env r t.filename then
          match unzipFile env.os env.zipOpenReader fs2 t.fullPath (extractDirOf env t.fullPath) with
          | (fs3, some e) =>
            (.json (result false), ⟨fs3, stats⟩,
              [.warnUnzip clientIP e, .infoSaved clientIP t.filename data.length])
          | (fs3, none) =>
            (.json (result true), ⟨fs3, stats⟩,
              [.infoUnzipped clientIP (extractDirOf env t.fullPath),
                .infoSaved clientIP t.filename data.length])
        else
          (.json (result false), ⟨fs2, stats⟩, [.infoSaved clientIP t.filename data.length])

/-- Source `handleUpload`, at verification time `now`; the counters are updated
at `uploadTime`.  A panic (of `ed25519.Verify`) ends the handler. -/
def handleUpload (env : Env) (srv : Server) (now uploadTime : Int) (bodyFails : Bool)
    (st : ServerState) (r : Request) : Except Panic (Response × ServerState × List LogLine) :=
  let clientIP := getClientIP r
  if r.Method ≠ "POST".toList then .ok (.error 405 .methodNotAllowed, st, [])
  else
    match verifyRequest env.E srv now r with
    | .error p => .error p
    | .ok (false, reason) =>
      .ok (.error 401 (.authFailed reason),
        ⟨st.fs, { st.stats with failedAuth := wrapInt64 (st.stats.failedAuth + 1) }⟩,
        [.warnAuthFailed clientIP reason])
    | .ok (true, _) =>
      match handleUploadPath env.os env.wd srv.config r with
      | .error e => .ok (.error 400 (.path e), st, [.errorPath clientIP e])
      | .ok t => .ok (handleUploadStore env srv.config uploadTime bodyFails st r clientIP t)

/-- The response of a run of the handler, `none` when it panicked. -/
def responseOf (res : Except Panic (Response × ServerState × List LogLine)) :
    Option Response :=
  match res with
  | .ok (resp, _, _) => some resp
  | .error _ => none

/-- The state after a run of the handler that started in `st`; a panic is
caught by `net/http` and has changed nothing. -/
def stateAfter (st : ServerState)
    (res : Except Panic (Response × ServerState × List LogLine)) : ServerState :=
  match res with
  | .ok (_, st1, _) => st1
  | .error _ => st

/-- A request as it arrives, with what its run of the handler reads from
outside: the two readings of the clock and the fate of the body stream. -/
structure Arrival where
  r : Request
  now : Int
  uploadTime : Int
  bodyFails : Bool

/-- The state after a sequence of requests to `/upload/`, handled one after the
other. -/
def serveUploads (env : Env) (srv : Server) : ServerState → List Arrival → ServerState
  | st, [] => st
  | st, a :: rest =>
    serveUploads env srv
      (stateAfter st (handleUpload env srv a.now a.uploadTime a.bodyFails st a.r)) rest

/-! ## Client: the upload request

`UploadFile` builds the text of the URL, signs the path part of that text and
hands the text to `http.NewRequest`, which parses it with `net/url`.  The model
follows `url.Parse` of Go 1.22 for everything but the authority, whose syntax
check (`parseAuthority`) is a parameter. -/

/-- Go `filepath.Base`: the last element of the path, after removal of trailing
separators and of the volume name. -/
def Base (os : GOOS) (path : GoString) : GoString :=
  if path = [] then ['.']
  else
    let path := (path.reverse.dropWhile (IsPathSeparator os)).reverse
    let path := path.drop (volumeNameLen os path)
    let path := (path.reverse.takeWhile fun c => !(IsPathSeparator os c)).reverse
    if path = [] then [Separator os] else path

/-- Go `strings.Cut(s, sep)` for a one-character separator: the text before the
first separator and the text after it (`s` and the empty text when there is
none). -/
def Cut (s : GoString) (sep : Char) : GoString × GoString :=
  (s.takeWhile (fun c => c != sep), (s.dropWhile (fun c => c != sep)).drop 1)

/-- Go `stringContainsCTLByte` of `net/url`: a byte under `0x20` or the byte
`0x7f` occurs. -/
def stringContainsCTLByte (s : GoString) : Bool :=
  s.any fun c => c.toNat < 0x20 || c.toNat = 0x7f

/-- Loop of Go `getScheme`, at index `i` with `s` still to read. -/
def getSchemeFrom (rawURL : GoString) : Nat → GoString → Option (GoString × GoString)
  | _, [] => some ([], rawURL)
  | i, c :: s =>
    if ('a' ≤ c ∧ c ≤ 'z') ∨ ('A' ≤ c ∧ c ≤ 'Z') then getSchemeFrom rawURL (i + 1) s
    else if ('0' ≤ c ∧ c ≤ '9') ∨ c = '+' ∨ c = '-' ∨ c = '.' then
      if i = 0 then some ([], rawURL) else getSchemeFrom rawURL (i + 1) s
    else if c = ':' then
      if i = 0 then none else some (rawURL.take i, s)
    else some ([], rawURL)

/-- Go `getScheme` of `net/url`: the scheme before the first colon and the text
after it, or no scheme and the whole text; `none` stands for the error of a text
that starts with a colon. -/
def getScheme (rawURL : GoString) : Option (GoString × GoString) :=
  getSchemeFrom rawURL 0 rawURL

/-- Go `ishex` of `net/url`. -/
def ishex (c : Char) : Bool :=
  ('0' ≤ c ∧ c ≤ '9') ∨ ('a' ≤ c ∧ c ≤ 'f') ∨ ('A' ≤ c ∧ c ≤ 'F')

/-- Go `unhex` of `net/url`. -/
def unhex (c : Char) : Nat :=
  if '0' ≤ c ∧ c ≤ '9' then c.toNat - '0'.toNat
  else if 'a' ≤ c ∧ c ≤ 'f' then c.toNat - 'a'.toNat + 10
  else if 'A' ≤ c ∧ c ≤ 'F' then c.toNat - 'A'.toNat + 10
  else 0

/-- Go `unescape` of `net/url` in the modes of a path and of a fragment: every
`%XX` becomes the byte `XX` (written here as the character of that code); `none`
stands for the error of a `%` that two hex digits do not follow. -/
def unescape : GoString → Option GoString
  | [] => some []
  | c :: s =>
    if c = '%' then
      match s with
      | a :: b :: t =>
        if ishex a && ishex b then
          (unescape t).map fun r => Char.ofNat (unhex a * 16 + unhex b) :: r
        else none
      | _ => none
    else (unescape s).map fun r => c :: r

/-- The fields of Go `url.URL` that matter to a request (`Host` stands for the
authority as `parseAuthority` returns it). -/
structure URL where
  Scheme : GoString
  Opaque : GoString
  Host : GoString
  Path : GoString
  ForceQuery : Bool
  RawQuery : GoString
  Fragment : GoString
  deriving DecidableEq, Repr

/-- Go `parse(rawURL, false)` of `net/url`; `parseAuthority` stands for the
function of that name (`none` for its errors), and `none` for any error. -/
def parse (parseAuthority : GoString → Option GoString) (rawURL : GoString) : Option URL :=
  if stringContainsCTLByte rawURL then none
  else if rawURL = ['*'] then some ⟨[], [], [], ['*'], false, [], []⟩
  else
    match getScheme rawURL with
    | none => none
    | some (scheme, rest) =>
      let scheme := ToLower (fun c => c) scheme
      let forceQuery := HasSuffix rest ['?'] && rest.count '?' = 1
      let rawQuery := if forceQuery then [] else (Cut rest '?').2
      let rest := if forceQuery then rest.take (rest.length - 1) else (Cut rest '?').1
      if !HasPrefix rest ['/'] && scheme ≠ [] then
        some ⟨scheme, rest, [], [], forceQuery, rawQuery, []⟩
      else if !HasPrefix rest ['/'] && (Cut rest '/').1.contains ':' then none
      else if (scheme ≠ [] || !HasPrefix rest ['/', '/', '/']) && HasPrefix rest ['/', '/'] then
        let authority := (rest.drop 2).takeWhile fun c => c != '/'
        let rest := (rest.drop 2).dropWhile fun c => c != '/'
        match parseAuthority authority with
        | none => none
        | some host =>
          match unescape rest with
          | none => none
          | some path => some ⟨scheme, [], host, path, forceQuery, rawQuery, []⟩
      else
        match unescape rest with
        | none => none
        | some path => some ⟨scheme, [], [], path, forceQuery, rawQuery, []⟩

/-- Go `url.Parse`: the fragment is cut off at the first `#`, the rest is parsed,
and the fragment is unescaped. -/
def Parse (parseAuthority : GoString → Option GoString) (rawURL : GoString) : Option URL :=
  match parse parseAuthority (Cut rawURL '#').1 with
  | none => none
  | some url =>
    if (Cut rawURL '#').2 = [] then some url
    else
      match unescape (Cut rawURL '#').2 with
      | none => none
      | some frag => some { url with Fragment := frag }

/-- The field `r.URL.Path` that the server reads for a request made with the
parsed URL `u`. `http.Client` sends only `http` and `https` URLs with a host; it
writes `u.RequestURI()`, the escaped form of `u.Path` (`/` when the path is
empty), on the request line, and the server unescapes that text. -/
def serverPath (u : URL) : Option GoString :=
  if (u.Scheme = "http".toList ∨ u.Scheme = "https".toList) ∧ u.Host ≠ [] then
    some (if u.Path = [] then ['/'] else u.Path)
  else none

/-- Source `UploadFile`, the variable `urlPath`: the text that is signed. -/
def UploadFile.urlPath (os : GOOS) (pathKey filePath : GoString) : GoString :=
  "/upload/".toList ++ pathKey ++ "/".toList ++ Base os filePath

/-- Source `UploadFile`, the variable `fullURL`: the text that is requested. -/
def UploadFile.fullURL (os : GOOS) (serverURL pathKey filePath : GoString) (extract : Bool) :
    GoString :=
  let fullURL := serverURL ++ UploadFile.urlPath os pathKey filePath
  if extract then fullURL ++ "?extract=true".toList else fullURL

/-- The request that `UploadFile` has built when it calls `client.Do`. -/
structure UploadRequest where
  Method : GoString
  URL : URL
  Header : Values
  ContentLength : Nat
  Body : List UInt8

/-- The two errors of `UploadFile` between the opening of the file and the
sending of the request. -/
inductive UploadError where
  /-- Source text: 签名失败 -/
  | sign (e : KeyError)
  /-- Source text: 创建请求失败 -/
  | createRequest
  deriving DecidableEq, Repr

/-- Source `UploadFile`, from the file name to the finished request, for a file
that was opened and read (`fileContent`); the client runs on `os` at time
`unixNow` and draws the random bytes `rnd`. -/
def UploadFile (E : Ed25519) (parseAuthority : GoString → Option GoString) (os : GOOS)
    (unixNow : Int) (rnd : List UInt8) (serverURL pathKey filePath privateKey : GoString)
    (extract : Bool) (fileContent : List UInt8) : Except UploadError UploadRequest :=
  let urlPath := UploadFile.urlPath os pathKey filePath
  let fullURL := UploadFile.fullURL os serverURL pathKey filePath extract
  let signed : Except KeyError SignedHeaders :=
    if privateKey ≠ [] then CreateSignedHeaders E unixNow rnd privateKey urlPath
    else .ok ⟨[], [], []⟩
  match signed with
  | .error e => .error (.sign e)
  | .ok h =>
    match Parse parseAuthority fullURL with
    | none => .error .createRequest
    | some u =>
      .ok
        { Method := "POST".toList
          URL := u
          Header := fun key =>
            if key = "Content-Type".toList then ["application/octet-stream".toList]
            else if privateKey ≠ [] ∧ key = "X-Timestamp".toList then [h.timestamp]
            else if privateKey ≠ [] ∧ key = "X-Nonce".toList then [h.nonce]
            else if privateKey ≠ [] ∧ key = "X-Signature".toList then [h.signature]
            else []
          ContentLength := fileContent.length
          Body := fileContent }


/-! ## A small signature scheme, to instantiate the Ed25519 parameter in examples -/

/-- Example scheme: the byte standing for a character (its code when ASCII). -/
def toyByte (c : Char) : UInt8 := if c.toNat < 128 then UInt8.ofNat c.toNat else 255

/-- Example scheme: a 64-byte digest of a message, made of its length (capped)
and its first 63 characters. -/
def toyDigest (msg : GoString) : List UInt8 :=
  UInt8.ofNat (min msg.length 255) ::
    ((msg.take 63).map toyByte ++ List.replicate (63 - msg.length) 0)

/-- Example scheme: the public key of a seed. -/
def toyPublic (seed : List UInt8) : List UInt8 := seed.map (· + 1)

/-- Example scheme: the signature that a public key accepts for a message. -/
def toyTag (publicKey : List UInt8) (msg : GoString) : List UInt8 :=
  List.zipWith (· + ·) (toyDigest msg) ((publicKey ++ publicKey ++ List.replicate 64 0).take 64)

/-- Example scheme, standing in for Ed25519 where a concrete instance is needed:
keys are seed followed by public key, signing is deterministic, and a public key
accepts exactly one signature for each message. -/
def toyEd25519 : Ed25519 where
  NewKeyFromSeed := fun seed => seed ++ toyPublic seed
  Sign := fun sk msg => toyTag (toyPublic (sk.take 32)) msg
  Verify := fun pk msg sig => decide (sig = toyTag pk msg)

/-- Example seed: the bytes 0, 1, ..., 31. -/
def exampleSeed : List UInt8 := (List.range 32).map UInt8.ofNat

/-- Example private key text: the hex form of the 64-byte key of `exampleSeed`. -/
def examplePrivateKeyHex : GoString := EncodeToString (toyEd25519.NewKeyFromSeed exampleSeed)

/-- Example random bytes for the nonce. -/
def exampleRnd : List UInt8 := (List.range 16).map fun i => UInt8.ofNat (16 * i + 10)

/-- Example decoded `config.json`: security on, the public key of `exampleSeed`,
a freshness limit and an allow-list. -/
def exampleConfig (limit : Int) (allowedIPs : List GoString) : Config where
  Port := 8022
  Paths := [("web".toList, "C:\\www".toList)]
  LogDir := "logs".toList
  MaxUpload := 500
  Security :=
    { Enabled := true
      PublicKey := EncodeToString (toyPublic exampleSeed)
      TimestampLimit := limit
      AllowedIPs := allowedIPs }

/-- Example server state: `exampleConfig` as `loadConfig` leaves it. -/
def exampleServer (limit : Int) (allowedIPs : List GoString) : Server :=
  ⟨exampleConfig limit allowedIPs, toyPublic exampleSeed⟩

/-- Example request: a POST of `body` to `path` from `10.0.0.5` carrying the three
authentication headers. -/
def exampleRequest (path timestamp nonce signature : GoString) : Request where
  Method := "POST".toList
  Path := path
  Query := fun _ => []
  Header := fun key =>
    if key = "X-Timestamp".toList then [timestamp]
    else if key = "X-Nonce".toList then [nonce]
    else if key = "X-Signature".toList then [signature]
    else []
  RemoteAddr := "10.0.0.5:50000".toList
  Body := [1, 2, 3]

/-- Example request signed with the example key: the signature header is the hex
text of the signature of `timestamp ‖ nonce ‖ path`. -/
def exampleSignedRequest (path timestamp nonce : GoString) : Request :=
  exampleRequest path timestamp nonce
    (EncodeToString
      (toyEd25519.Sign (toyEd25519.NewKeyFromSeed exampleSeed) (timestamp ++ nonce ++ path)))

deriving instance DecidableEq for Except

/-- Example private key text of 64 bytes that is no key pair: 32 zero bytes
followed by the byte 2 and 31 zero bytes (as an Ed25519 public key this second
half is not a point of the curve). -/
def exampleMalformedKeyHex : GoString :=
  EncodeToString (List.replicate 32 0 ++ 2 :: List.replicate 31 0)

/-- Example server state with security switched off: an allow-list that does not
hold the example client, no public key. -/
def exampleOpenServer : Server :=
  ⟨{ exampleConfig 300 ["192.168.1.1".toList] with
      Security :=
        { Enabled := false
          PublicKey := []
          TimestampLimit := 300
          AllowedIPs := ["192.168.1.1".toList] } }, []⟩

/-- Example entry of an archive: a file `name` with content `data`. -/
def exampleFileEntry (name : String) (data : List UInt8) : ZipEntry :=
  ⟨name.toList, false, 420, false, data, false⟩

/-- Example archive: a page, a directory, an entry that climbs out of the
destination, and one more file. -/
def exampleEntries : List ZipEntry :=
  [exampleFileEntry "index.html" [60, 104, 49, 62], ⟨"css/".toList, true, 493, false, [], false⟩,
    exampleFileEntry "../evil.txt" [120], exampleFileEntry "late.txt" [122]]

/-- Example file system: the directory `C:\www` with the uploaded archive
`site.zip` in it, and the directory `C:\srv` with an archive `a.zip` in it. -/
def exampleFS : FileSystem := fun q =>
  if q = "C:\\www".toList ∨ q = "C:\\srv".toList then some .dir
  else if q = "C:\\www\\site.zip".toList ∨ q = "C:\\srv\\a.zip".toList then
    some (.file 420 [80, 75])
  else none

/-- Example file system seen from the working directory `C:\srv\app`: an archive
`a.zip` in it, and the two directories above it. -/
def exampleRelativeFS : FileSystem := fun q =>
  if q = "..".toList ∨ q = "..\\..".toList then some .dir
  else if q = "a.zip".toList then some (.file 420 [80, 75])
  else none

/-- Example surroundings: Windows, the working directory `C:\srv\app`, the example
signature scheme, a zip reader that knows the example archive, and no lower
case outside ASCII. -/
def exampleEnv : Env where
  os := .windows
  wd := "C:\\srv\\app".toList
  E := toyEd25519
  zipOpenReader := fun data => if data = [80, 75] then some exampleEntries else none
  lowerRune := id

/-- Example state: the example file system and counters that have seen some
traffic. -/
def exampleState : ServerState := ⟨exampleFS, ⟨7, 4096, 1699990000, 2⟩⟩

/-- Example upload: a POST of `body` to `path` from `10.0.0.5` without
authentication headers, with `extract=true` in the query when `extract` is set. -/
def exampleUpload (path : String) (extract : Bool) (body : List UInt8) : Request where
  Method := "POST".toList
  Path := path.toList
  Query := fun key => if extract ∧ key = "extract".toList then ["true".toList] else []
  Header := fun _ => []
  RemoteAddr := "10.0.0.5:50000".toList
  Body := body

/-- Example server state with security switched off and a negative maximum
upload size. -/
def exampleNegativeLimitServer : Server :=
  ⟨{ exampleOpenServer.config with MaxUpload := -1 }, []⟩

/-- Example of a volume that ignores case: two paths name the same file when
they differ in the case of ASCII letters only. -/
def exampleFoldKey (p : GoString) : GoString := ToLower id p

/-- The example file system on a volume that ignores case. -/
def exampleFoldFS : FileSystem := fun k =>
  if k = "c:\\www".toList ∨ k = "c:\\srv".toList then some .dir
  else if k = "c:\\www\\site.zip".toList ∨ k = "c:\\srv\\a.zip".toList then
    some (.file 420 [80, 75])
  else none

/-- Example request for the client address: a POST from `remoteAddr` whose
`X-Forwarded-For` and `X-Real-IP` headers have the given values. -/
def exampleAddressRequest (xff xri remoteAddr : GoString) : Request where
  Method := "POST".toList
  Path := "/upload/web/site.zip".toList
  Query := fun _ => []
  Header := fun key =>
    if key = "X-Forwarded-For".toList then [xff]
    else if key = "X-Real-IP".toList then [xri]
    else []
  RemoteAddr := remoteAddr
  Body := [1, 2, 3]

/-- Example authority check: what Go's `parseAuthority` returns for the authority
`10.0.0.1:8022` of the examples, whose host is that text; no other authority is
used. -/
def exampleParseAuthority (authority : GoString) : Option GoString :=
  if authority = "10.0.0.1:8022".toList then some authority else none

/-- Example transport: the client's request as the upload handler receives it
from `10.0.0.5`, when it is sent at all. -/
def exampleReceived (req : UploadRequest) : Option Request :=
  (serverPath req.URL).map fun path =>
    { Method := req.Method
      Path := path
      Query := fun key =>
        if key = "extract".toList ∧ req.URL.RawQuery = "extract=true".toList then ["true".toList]
        else []
      Header := req.Header
      RemoteAddr := "10.0.0.5:50000".toList
      Body := req.Body }

/-- Example headers: what the example key signs at client time 1700000000 for
the text `urlPath`. -/
def exampleSignedHeaders (urlPath : GoString) : SignedHeaders :=
  ⟨GetTimestamp 1700000000, GenerateNonce exampleRnd,
    EncodeToString (toyEd25519.Sign (toyEd25519.NewKeyFromSeed exampleSeed)
      (GetTimestamp 1700000000 ++ GenerateNonce exampleRnd ++ urlPath))⟩

/-- Example answers of the operating system to `GetFullPathName`, for fully
qualified paths: a path whose last element is the device name `nul`, in any
case, is the device `\\.\nul` (Windows 10 and earlier); any other path is given
back. -/
def exampleFullPath (p : GoString) : Option GoString :=
  if ToLower id (Base .windows p) = "nul".toList then some "\\\\.\\nul".toList else some p

/-! # Theorems -/

set_option maxRecDepth 8192

/-! ## Decimal text -/

theorem digitValue_digitChar (m : Nat) (hm : m < 10) :
    digitValue (Nat.digitChar m) = some m := by
  interval_cases m <;> decide

theorem digitChar_ne_sign (m : Nat) (hm : m < 10) :
    Nat.digitChar m ≠ '+' ∧ Nat.digitChar m ≠ '-' := by
  interval_cases m <;> decide

/-- The digits written by `Nat.toDigitsCore` are read back by `parseDigits`. -/
theorem toDigitsCore_parse (fuel : Nat) : ∀ (n : Nat) (rest : GoString), n < fuel →
    ∃ ds : GoString, Nat.toDigitsCore 10 fuel n rest = ds ++ rest ∧
      (∃ m, m < 10 ∧ ds.head? = some (Nat.digitChar m)) ∧
      ∀ (a : Nat) (tail : GoString),
        parseDigits a (ds ++ tail) = parseDigits (a * 10 ^ ds.length + n) tail := by
  induction fuel with
  | zero => intro n rest h; omega
  | succ fuel ih =>
    intro n rest hn
    rw [Nat.toDigitsCore]
    by_cases h0 : n / 10 = 0
    · have hlt : n < 10 := by omega
      refine ⟨[Nat.digitChar (n % 10)], by simp [h0], ⟨n % 10, by omega, rfl⟩, ?_⟩
      intro a tail
      simp only [List.singleton_append, parseDigits, digitValue_digitChar _ (Nat.mod_lt n (by omega)),
        List.length_singleton, pow_one]
      congr 1
      omega
    · obtain ⟨ds, hds, hhead, hparse⟩ := ih (n / 10) (Nat.digitChar (n % 10) :: rest) (by omega)
      refine ⟨ds ++ [Nat.digitChar (n % 10)], by simp [h0, hds], ?_, ?_⟩
      · obtain ⟨m, hm, hm2⟩ := hhead
        refine ⟨m, hm, ?_⟩
        cases ds with
        | nil => simp at hm2
        | cons d ds => simpa using hm2
      · intro a tail
        rw [List.append_assoc, hparse]
        simp only [List.singleton_append, parseDigits,
          digitValue_digitChar _ (Nat.mod_lt n (by omega)), List.length_append,
          List.length_singleton, pow_succ]
        congr 1
        have := Nat.div_add_mod n 10
        nlinarith [this]

theorem toDigits_parse (n : Nat) :
    parseDigits 0 (Nat.toDigits 10 n) = some n ∧
    ∃ m d, m < 10 ∧ Nat.toDigits 10 n = Nat.digitChar m :: d := by
  obtain ⟨ds, hds, ⟨m, hm, hhead⟩, hparse⟩ := toDigitsCore_parse (n + 1) n [] (by omega)
  have hd : Nat.toDigits 10 n = ds := by
    simpa [Nat.toDigits] using hds
  constructor
  · have := hparse 0 []
    simpa [hd, parseDigits] using this
  · cases ds with
    | nil => simp at hhead
    | cons d ds =>
      simp at hhead
      exact ⟨m, ds, hm, by rw [hd, hhead]⟩

/-- Reading back what `%d` wrote gives the number, for every `int64`. -/
theorem ParseInt_formatInt (x : Int) (hx : IsInt64 x) : ParseInt (formatInt x) = some x := by
  unfold IsInt64 minInt64 maxInt64 at hx
  unfold formatInt
  by_cases hneg : x < 0
  · obtain ⟨hp, m, d, hm, hd⟩ := toDigits_parse x.natAbs
    simp only [hneg, if_true, ParseInt]
    rw [hd] at hp ⊢
    simp only [hp]
    have h1 : ¬ (x.natAbs > 9223372036854775808) := by omega
    have h2 : ((x.natAbs : Nat) : Int) = -x := by omega
    simp only [Bool.not_true, Bool.false_and, Bool.true_and, decide_eq_true_eq, h1, if_false,
      if_true, h2, neg_neg]
    rfl
  · obtain ⟨hp, m, d, hm, hd⟩ := toDigits_parse x.toNat
    obtain ⟨hplus, hminus⟩ := digitChar_ne_sign m hm
    simp only [hneg, if_false]
    rw [hd] at hp ⊢
    unfold ParseInt
    split
    · simp at *
    · rename_i h; simp at h; exact absurd h.1 hplus
    · rename_i h; simp at h; exact absurd h.1 hminus
    · simp only [hp]
      have h1 : ¬ (x.toNat ≥ 9223372036854775808) := by omega
      simp [h1]
      omega

theorem formatInt_ne_nil (x : Int) : formatInt x ≠ [] := by
  unfold formatInt
  split
  · simp
  · obtain ⟨_, m, d, _, hd⟩ := toDigits_parse x.toNat
    rw [hd]; simp

/-! ## Hexadecimal text -/

theorem fromHexChar_hextable (n : Nat) (hn : n < 16) :
    fromHexChar (hextable.getD n '0') = some n := by
  interval_cases n <;> decide

theorem UInt8_ofNat_div_mod (b : UInt8) : UInt8.ofNat (b.toNat / 16 * 16 + b.toNat % 16) = b := by
  have h : b.toNat / 16 * 16 + b.toNat % 16 = b.toNat := by omega
  rw [h]
  cases b with
  | mk v => 
    apply UInt8.eq_of_val_eq
    simp [UInt8.ofNat, UInt8.toNat]

/-- Decoding what `EncodeToString` wrote gives the bytes back. -/
theorem DecodeString_EncodeToString (bs : List UInt8) :
    DecodeString (EncodeToString bs) = some bs := by
  induction bs with
  | nil => rfl
  | cons b bs ih =>
    have hlt : b.toNat < 256 := b.val.isLt
    simp only [EncodeToString, DecodeString, ih,
      fromHexChar_hextable _ (show b.toNat / 16 < 16 by omega),
      fromHexChar_hextable _ (Nat.mod_lt _ (by omega)), UInt8_ofNat_div_mod]

theorem EncodeToString_length (bs : List UInt8) : (EncodeToString bs).length = 2 * bs.length := by
  induction bs with
  | nil => rfl
  | cons b bs ih => simp [EncodeToString, ih]; omega

/-! ## The freshness window -/

theorem wrapInt64_of_IsInt64 (x : Int) (hx : IsInt64 x) : wrapInt64 x = x := by
  unfold IsInt64 minInt64 maxInt64 at hx
  unfold wrapInt64
  omega

/-- The difference computed by `verifyRequest` (`now - ts` in `int64` arithmetic,
negated, again in `int64`, when negative) is the true distance as long as that
distance is itself an `int64`. -/
theorem diff_eq_abs (now ts : Int) (h : |now - ts| ≤ maxInt64) :
    (if wrapInt64 (now - ts) < 0 then wrapInt64 (-wrapInt64 (now - ts))
      else wrapInt64 (now - ts)) = |now - ts| := by
  unfold maxInt64 at h
  have h1 : wrapInt64 (now - ts) = now - ts := by
    unfold wrapInt64
    rcases abs_cases (now - ts) with ⟨h2, _⟩ | ⟨h2, _⟩ <;> omega
  rw [h1]
  rcases abs_cases (now - ts) with ⟨h2, h3⟩ | ⟨h2, h3⟩
  · rw [h2, if_neg (by omega)]
  · rw [h2, if_pos h3]
    unfold wrapInt64
    omega

/-! ## `verifyRequest`, check by check -/

theorem verifyRequest_disabled (E : Ed25519) (srv : Server) (now : Int) (r : Request)
    (h : srv.config.Security.Enabled = false) :
    verifyRequest E srv now r = .ok (true, .empty) := by
  simp [verifyRequest, h]

/-- With security on and the allow-list passed, a request whose timestamp parses
and lies inside the window is decided by the signature alone. -/
theorem verifyRequest_of_fresh (E : Ed25519) (srv : Server) (now : Int) (r : Request) (ts : Int)
    (hen : srv.config.Security.Enabled = true)
    (hip : srv.config.Security.AllowedIPs = [] ∨
      (srv.config.Security.AllowedIPs.any fun ip => ip = getClientIP r || ip = "*".toList) = true)
    (hsig : r.Header.Get "X-Signature".toList ≠ [])
    (hparse : ParseInt (r.Header.Get "X-Timestamp".toList) = some ts)
    (hfresh : ¬ (if wrapInt64 (now - ts) < 0 then wrapInt64 (-wrapInt64 (now - ts))
      else wrapInt64 (now - ts)) > srv.config.Security.TimestampLimit) :
    verifyRequest E srv now r =
      match DecodeString (r.Header.Get "X-Signature".toList) with
      | none => .ok (false, .badSignatureFormat)
      | some sigBytes =>
        match ed25519Verify E srv.publicKey
          (r.Header.Get "X-Timestamp".toList ++ r.Header.Get "X-Nonce".toList ++ r.Path)
          sigBytes with
        | .error p => .error p
        | .ok false => .ok (false, .badSignature)
        | .ok true => .ok (true, .empty) := by
  have hts : r.Header.Get "X-Timestamp".toList ≠ [] := by
    intro h; rw [h] at hparse; simp [ParseInt] at hparse
  have hip2 : (decide (srv.config.Security.AllowedIPs.length > 0) &&
      !(srv.config.Security.AllowedIPs.any fun ip =>
        decide (ip = getClientIP r) || decide (ip = "*".toList))) = false := by
    rcases hip with h | h
    · simp [h]
    · simp only [h, Bool.not_true, Bool.and_false]
  unfold verifyRequest
  simp only [hen, Bool.not_true, Bool.false_eq_true, if_false, hip2, hts, hsig, decide_False,
    Bool.or_self, hparse, hfresh]

/-! ## The example scheme satisfies what is asked of Ed25519 -/

theorem toyTag_length (pk : List UInt8) (msg : GoString) : (toyTag pk msg).length = 64 := by
  simp only [toyTag, toyDigest, List.length_zipWith, List.length_cons, List.length_append,
    List.length_map, List.length_take, List.length_replicate]
  omega

theorem toyEd25519_correct : toyEd25519.Correct where
  key_length := by
    intro seed h
    simp [toyEd25519, toyPublic, h]
  sig_length := by
    intro sk msg
    exact toyTag_length _ _
  verify_sign := by
    intro seed msg h
    simp [toyEd25519, Public, h]

/-! ## Loading the configuration -/

theorem loadConfig_security (config : Config) (prevKey : List UInt8) (srv : Server)
    (pk : List UInt8)
    (hload : loadConfig config prevKey = some srv)
    (hen : config.Security.Enabled = true)
    (hpk : DecodeString config.Security.PublicKey = some pk)
    (hlen : pk.length = 32) :
    srv.publicKey = pk ∧ srv.config.Security.Enabled = true ∧
    srv.config.Security.AllowedIPs = config.Security.AllowedIPs ∧
    srv.config.Security.TimestampLimit =
      (if config.Security.TimestampLimit = 0 then 300 else config.Security.TimestampLimit) := by
  have hne : config.Security.PublicKey ≠ [] := by
    intro h
    rw [h] at hpk
    simp [DecodeString] at hpk
    rw [hpk] at hlen
    simp at hlen
  unfold loadConfig at hload
  simp only [PublicKeySize] at hload
  split_ifs at hload <;> simp_all
  all_goals (subst hload; simp_all)

/-! ## C1: round trip of signing and verification -/

theorem Public_length (E : Ed25519) (hE : E.Correct) (seed : List UInt8)
    (hseed : seed.length = 32) : (Public (E.NewKeyFromSeed seed)).length = 32 := by
  simp [Public, hE.key_length seed hseed]

/-- `Sign` with the hex text of a key pair, or of its seed, signs with that pair. -/
theorem Sign_of_key (E : Ed25519) (hE : E.Correct) (seed : List UInt8)
    (hseed : seed.length = 32) (privateKeyHex message : GoString)
    (hpriv : DecodeString privateKeyHex = some (E.NewKeyFromSeed seed) ∨
      DecodeString privateKeyHex = some seed) :
    Sign E privateKeyHex message =
      .ok (EncodeToString (E.Sign (E.NewKeyFromSeed seed) message)) := by
  rcases hpriv with h | h
  · simp [Sign, h, hE.key_length seed hseed]
  · simp [Sign, h, hseed]

/-- C1. Sign/verify round trip: for every key pair (the private key given as hex
text of the 64-byte key or of its 32-byte seed, the server loaded with the hex
text of the matching public key, security enabled, no allow-list), every path
`p`, every signing time `t` and random bytes `rnd`, `CreateSignedHeaders` succeeds
and every request with URL path `p` carrying the three returned header values is
accepted by `verifyRequest` at any server time `now` with
`|now - t| ≤ TimestampLimit`. -/
theorem sign_verify_round_trip (E : Ed25519) (hE : E.Correct)
    (seed : List UInt8) (hseed : seed.length = 32)
    (privateKeyHex : GoString)
    (hpriv : DecodeString privateKeyHex = some (E.NewKeyFromSeed seed) ∨
      DecodeString privateKeyHex = some seed)
    (config : Config) (prevKey : List UInt8) (srv : Server)
    (hload : loadConfig config prevKey = some srv)
    (hen : config.Security.Enabled = true)
    (hpub : DecodeString config.Security.PublicKey = some (Public (E.NewKeyFromSeed seed)))
    (hips : config.Security.AllowedIPs = [])
    (p : GoString) (t now : Int) (rnd : List UInt8)
    (ht : IsInt64 t) (hlimit : IsInt64 srv.config.Security.TimestampLimit)
    (hfresh : |now - t| ≤ srv.config.Security.TimestampLimit) :
    ∃ h : SignedHeaders, CreateSignedHeaders E t rnd privateKeyHex p = .ok h ∧
      ∀ r : Request, r.Path = p →
        r.Header.Get "X-Timestamp".toList = h.timestamp →
        r.Header.Get "X-Nonce".toList = h.nonce →
        r.Header.Get "X-Signature".toList = h.signature →
        verifyRequest E srv now r = .ok (true, .empty) := by
  obtain ⟨hkey, hen2, hips2, -⟩ :=
    loadConfig_security config prevKey srv _ hload hen hpub (Public_length E hE seed hseed)
  refine ⟨⟨GetTimestamp t, GenerateNonce rnd, EncodeToString (E.Sign (E.NewKeyFromSeed seed)
    (GetTimestamp t ++ GenerateNonce rnd ++ p))⟩, ?_, ?_⟩
  · simp only [CreateSignedHeaders, Sign_of_key E hE seed hseed privateKeyHex _ hpriv]
  · intro r hp hts hnonce hsig
    have hsigne : r.Header.Get "X-Signature".toList ≠ [] := by
      intro h0
      have hl := congrArg List.length (hsig.symm.trans h0)
      simp [EncodeToString_length, hE.sig_length] at hl
    have hparse : ParseInt (r.Header.Get "X-Timestamp".toList) = some t := by
      rw [hts]; exact ParseInt_formatInt t ht
    have hmax : |now - t| ≤ maxInt64 := le_trans hfresh hlimit.2
    rw [verifyRequest_of_fresh E srv now r t hen2 (Or.inl (hips2.trans hips)) hsigne hparse
      (by rw [diff_eq_abs now t hmax]; exact not_lt.mpr hfresh)]
    rw [hsig, hts, hnonce, hp, DecodeString_EncodeToString, hkey]
    simp [ed25519Verify, PublicKeySize, SignatureSize, Public_length E hE seed hseed,
      hE.sig_length, hE.verify_sign seed _ hseed]

theorem exampleSeed_length : exampleSeed.length = 32 := by decide

theorem loadConfig_exampleConfig (limit : Int) (hl : limit ≠ 0) (ips : List GoString) :
    loadConfig (exampleConfig limit ips) [] = some (exampleServer limit ips) := by
  have hne : EncodeToString (toyPublic exampleSeed) ≠ [] := by decide
  have hlen : (toyPublic exampleSeed).length = 32 := by decide
  simp [loadConfig, exampleConfig, exampleServer, hl, hne, DecodeString_EncodeToString,
    PublicKeySize, hlen]

/-- Witness of C1: the example key pair, the path `/upload/web/site.zip`, signed
at `1700000000` and verified five minutes later under a 300 second limit. -/
theorem sign_verify_round_trip_witness :
    ∃ h : SignedHeaders,
      CreateSignedHeaders toyEd25519 1700000000 exampleRnd examplePrivateKeyHex
        "/upload/web/site.zip".toList = .ok h ∧
      ∀ r : Request, r.Path = "/upload/web/site.zip".toList →
        r.Header.Get "X-Timestamp".toList = h.timestamp →
        r.Header.Get "X-Nonce".toList = h.nonce →
        r.Header.Get "X-Signature".toList = h.signature →
        verifyRequest toyEd25519 (exampleServer 300 []) 1700000300 r = .ok (true, .empty) :=
  sign_verify_round_trip toyEd25519 toyEd25519_correct exampleSeed exampleSeed_length
    examplePrivateKeyHex (Or.inl (DecodeString_EncodeToString _))
    (exampleConfig 300 []) [] (exampleServer 300 [])
    (loadConfig_exampleConfig 300 (by decide) [])
    rfl (DecodeString_EncodeToString _) rfl
    "/upload/web/site.zip".toList 1700000000 1700000300 exampleRnd
    (by decide) (by decide) (by decide)

/-! ## C2: tampering with a signed request -/

/-- An accepted request (security enabled) carries a signature text that decodes
to bytes which the public key accepts for `timestamp ‖ nonce ‖ path`. -/
theorem verifyRequest_accept_inv (E : Ed25519) (srv : Server) (now : Int) (r : Request)
    (reason : Reason)
    (hen : srv.config.Security.Enabled = true)
    (hacc : verifyRequest E srv now r = .ok (true, reason)) :
    ∃ sigBytes, DecodeString (r.Header.Get "X-Signature".toList) = some sigBytes ∧
      ed25519Verify E srv.publicKey
        (r.Header.Get "X-Timestamp".toList ++ r.Header.Get "X-Nonce".toList ++ r.Path)
        sigBytes = .ok true := by
  unfold verifyRequest at hacc
  simp only [hen, Bool.not_true, Bool.false_eq_true, if_false] at hacc
  split at hacc
  · simp at hacc
  · split at hacc
    · simp at hacc
    · split at hacc
      · simp at hacc
      · split_ifs at hacc
        all_goals first
          | (simp at hacc; done)
          | (split at hacc
             · simp at hacc
             · rename_i sigBytes hdec
               refine ⟨sigBytes, hdec, ?_⟩
               split at hacc
               · simp at hacc
               · simp at hacc
               · assumption)

/-- C8, as stated, fails at the edge of the `int64` range: with the limit
`L = 2^63 - 1` and server time `1700000000`, the correctly signed request whose
timestamp text is the decimal form of `now + L` is not accepted; `ParseInt`
cannot represent the number and the request is rejected for its format. -/
theorem freshness_boundary_counterexample :
    (0 : Int) ≤ maxInt64 ∧
    ed25519Verify toyEd25519 (exampleServer maxInt64 []).publicKey
      (formatInt (1700000000 + maxInt64) ++ GenerateNonce exampleRnd ++
        "/upload/web/site.zip".toList)
      (toyEd25519.Sign (toyEd25519.NewKeyFromSeed exampleSeed)
        (formatInt (1700000000 + maxInt64) ++ GenerateNonce exampleRnd ++
          "/upload/web/site.zip".toList)) = .ok true ∧
    verifyRequest toyEd25519 (exampleServer maxInt64 []) 1700000000
      (exampleSignedRequest "/upload/web/site.zip".toList (formatInt (1700000000 + maxInt64))
        (GenerateNonce exampleRnd)) = .ok (false, .badTimestamp) :=
  ⟨by decide, by decide, by decide⟩

/-- C8, amended. With security enabled, no allow-list, a limit `L ≥ 0` and a
server time `now` for which `now - L - 1` and `now + L + 1` are representable as
`int64`, a correctly signed request whose `X-Timestamp` parses to `ts` is accepted
when `ts = now - L` or `ts = now + L` and rejected as expired (difference `L + 1`)
when `ts = now - L - 1` or `ts = now + L + 1`. -/
theorem freshness_boundary (E : Ed25519) (srv : Server) (now L ts : Int) (r : Request)
    (sigBytes : List UInt8)
    (hen : srv.config.Security.Enabled = true)
    (hips : srv.config.Security.AllowedIPs = [])
    (hL : srv.config.Security.TimestampLimit = L) (hL0 : 0 ≤ L)
    (hlo : IsInt64 (now - L - 1)) (hhi : IsInt64 (now + L + 1))
    (hparse : ParseInt (r.Header.Get "X-Timestamp".toList) = some ts)
    (hdec : DecodeString (r.Header.Get "X-Signature".toList) = some sigBytes)
    (hver : ed25519Verify E srv.publicKey
      (r.Header.Get "X-Timestamp".toList ++ r.Header.Get "X-Nonce".toList ++ r.Path)
      sigBytes = .ok true) :
    ((ts = now - L ∨ ts = now + L) → verifyRequest E srv now r = .ok (true, .empty)) ∧
    ((ts = now - L - 1 ∨ ts = now + L + 1) →
      verifyRequest E srv now r = .ok (false, .expired (L + 1) L)) := by
  have hsigne : r.Header.Get "X-Signature".toList ≠ [] := by
    intro h0
    rw [h0] at hdec
    simp only [DecodeString, Option.some.injEq] at hdec
    subst hdec
    simp [ed25519Verify, SignatureSize] at hver
    split_ifs at hver
    simp at hver
  have hts : r.Header.Get "X-Timestamp".toList ≠ [] := by
    intro h; rw [h] at hparse; simp [ParseInt] at hparse
  have hbound : L + 1 ≤ maxInt64 := by
    unfold IsInt64 minInt64 maxInt64 at *
    omega
  constructor
  · intro hcase
    have habs : |now - ts| = L := by
      rcases hcase with h | h <;> subst h
      · rw [show now - (now - L) = L by ring]; exact abs_of_nonneg hL0
      · rw [show now - (now + L) = -L by ring, abs_neg]; exact abs_of_nonneg hL0
    rw [verifyRequest_of_fresh E srv now r ts hen (Or.inl hips) hsigne hparse
      (by rw [diff_eq_abs now ts (by rw [habs]; omega), habs, hL]; exact lt_irrefl L)]
    simp only [hdec, hver]
  · intro hcase
    have habs : |now - ts| = L + 1 := by
      rcases hcase with h | h <;> subst h
      · rw [show now - (now - L - 1) = L + 1 by ring]; exact abs_of_nonneg (by omega)
      · rw [show now - (now + L + 1) = -(L + 1) by ring, abs_neg]
        exact abs_of_nonneg (by omega)
    have hd := diff_eq_abs now ts (by rw [habs]; exact hbound)
    unfold verifyRequest
    simp only [hen, hips, Bool.not_true, Bool.false_eq_true, if_false, List.length_nil,
      gt_iff_lt, lt_self_iff_false, decide_False, Bool.false_and, hts, hsigne, Bool.or_self,
      hparse, hd, habs, hL]
    simp

/-- Witness of C8 (amended): limit 300 at server time 1700000000, for the four
timestamps `now - 300`, `now + 300`, `now - 301` and `now + 301`. -/
theorem freshness_boundary_witness :
    verifyRequest toyEd25519 (exampleServer 300 []) 1700000000
      (exampleSignedRequest "/upload/web/site.zip".toList "1699999700".toList
        (GenerateNonce exampleRnd)) = .ok (true, .empty) ∧
    verifyRequest toyEd25519 (exampleServer 300 []) 1700000000
      (exampleSignedRequest "/upload/web/site.zip".toList "1700000300".toList
        (GenerateNonce exampleRnd)) = .ok (true, .empty) ∧
    verifyRequest toyEd25519 (exampleServer 300 []) 1700000000
      (exampleSignedRequest "/upload/web/site.zip".toList "1699999699".toList
        (GenerateNonce exampleRnd)) = .ok (false, .expired 301 300) ∧
    verifyRequest toyEd25519 (exampleServer 300 []) 1700000000
      (exampleSignedRequest "/upload/web/site.zip".toList "1700000301".toList
        (GenerateNonce exampleRnd)) = .ok (false, .expired 301 300) :=
  ⟨(freshness_boundary toyEd25519 (exampleServer 300 []) 1700000000 300 1699999700
      (exampleSignedRequest "/upload/web/site.zip".toList "1699999700".toList
        (GenerateNonce exampleRnd)) _ rfl rfl rfl (by decide) (by decide) (by decide)
      (by decide) (DecodeString_EncodeToString _) (by decide)).1 (Or.inl (by decide)),
   (freshness_boundary toyEd25519 (exampleServer 300 []) 1700000000 300 1700000300
      (exampleSignedRequest "/upload/web/site.zip".toList "1700000300".toList
        (GenerateNonce exampleRnd)) _ rfl rfl rfl (by decide) (by decide) (by decide)
      (by decide) (DecodeString_EncodeToString _) (by decide)).1 (Or.inr (by decide)),
   (freshness_boundary toyEd25519 (exampleServer 300 []) 1700000000 300 1699999699
      (exampleSignedRequest "/upload/web/site.zip".toList "1699999699".toList
        (GenerateNonce exampleRnd)) _ rfl rfl rfl (by decide) (by decide) (by decide)
      (by decide) (DecodeString_EncodeToString _) (by decide)).2 (Or.inl (by decide)),
   (freshness_boundary toyEd25519 (exampleServer 300 []) 1700000000 300 1700000301
      (exampleSignedRequest "/upload/web/site.zip".toList "1700000301".toList
        (GenerateNonce exampleRnd)) _ rfl rfl rfl (by decide) (by decide) (by decide)
      (by decide) (DecodeString_EncodeToString _) (by decide)).2 (Or.inr (by decide))⟩

/-! ## C9: header presence -/

/-- What `Header.Get` returning the empty string means: the header is absent, or
its first value is empty. -/
theorem Values_Get_eq_nil (h : Values) (key : GoString) :
    h.Get key = [] ↔ (h key = [] ∨ ∃ rest, h key = [] :: rest) := by
  unfold Values.Get
  cases hk : h key with
  | nil => simp
  | cons v rest => simp

/-- C9. Header presence: with security enabled and the IP check passed,
`verifyRequest` rejects (missing headers) every request whose `X-Timestamp` or
`X-Signature` header is absent or empty, whatever else it carries; and a request
with an empty or absent `X-Nonce`, a timestamp inside the window and a signature
valid for `timestamp ‖ path` is accepted. -/
theorem header_presence (E : Ed25519) (srv : Server) (now : Int) (r : Request)
    (hen : srv.config.Security.Enabled = true)
    (hip : srv.config.Security.AllowedIPs = [] ∨
      (srv.config.Security.AllowedIPs.any fun ip => ip = getClientIP r || ip = "*".toList) = true) :
    (((r.Header "X-Timestamp".toList = [] ∨ ∃ rest, r.Header "X-Timestamp".toList = [] :: rest) ∨
      (r.Header "X-Signature".toList = [] ∨ ∃ rest, r.Header "X-Signature".toList = [] :: rest)) →
      verifyRequest E srv now r = .ok (false, .missingHeaders)) ∧
    (∀ (ts : Int) (sigBytes : List UInt8),
      r.Header.Get "X-Nonce".toList = [] →
      ParseInt (r.Header.Get "X-Timestamp".toList) = some ts →
      IsInt64 srv.config.Security.TimestampLimit →
      |now - ts| ≤ srv.config.Security.TimestampLimit →
      DecodeString (r.Header.Get "X-Signature".toList) = some sigBytes →
      ed25519Verify E srv.publicKey (r.Header.Get "X-Timestamp".toList ++ r.Path) sigBytes
        = .ok true →
      verifyRequest E srv now r = .ok (true, .empty)) := by
  have hip2 : (decide (srv.config.Security.AllowedIPs.length > 0) &&
      !(srv.config.Security.AllowedIPs.any fun ip =>
        decide (ip = getClientIP r) || decide (ip = "*".toList))) = false := by
    rcases hip with h | h
    · simp [h]
    · simp only [h, Bool.not_true, Bool.and_false]
  constructor
  · intro hmiss
    rw [← Values_Get_eq_nil, ← Values_Get_eq_nil] at hmiss
    unfold verifyRequest
    rcases hmiss with h | h <;>
      simp only [hen, Bool.not_true, Bool.false_eq_true, if_false, hip2, h, decide_True,
        Bool.true_or, Bool.or_true, if_true]
  · intro ts sigBytes hnonce hparse hlim hfresh hdec hver
    have hsigne : r.Header.Get "X-Signature".toList ≠ [] := by
      intro h0
      rw [h0] at hdec
      simp only [DecodeString, Option.some.injEq] at hdec
      subst hdec
      simp [ed25519Verify, SignatureSize] at hver
      split_ifs at hver
      simp at hver
    rw [verifyRequest_of_fresh E srv now r ts hen hip hsigne hparse
      (by rw [diff_eq_abs now ts (le_trans hfresh hlim.2)]; exact not_lt.mpr hfresh)]
    simp only [hdec, hnonce, List.append_nil, hver]

/-- Witness of C9: an unsigned request (no `X-Signature`) is rejected, and a
request with an empty nonce signed over `timestamp ‖ path` is accepted. -/
theorem header_presence_witness :
    verifyRequest toyEd25519 (exampleServer 300 []) 1700000000
      (exampleRequest "/upload/web/site.zip".toList "1700000000".toList
        (GenerateNonce exampleRnd) []) = .ok (false, .missingHeaders) ∧
    verifyRequest toyEd25519 (exampleServer 300 []) 1700000000
      (exampleSignedRequest "/upload/web/site.zip".toList "1700000000".toList [])
      = .ok (true, .empty) :=
  ⟨(header_presence toyEd25519 (exampleServer 300 []) 1700000000
      (exampleRequest "/upload/web/site.zip".toList "1700000000".toList
        (GenerateNonce exampleRnd) []) rfl (Or.inl rfl)).1
      (Or.inr (Or.inr ⟨[], rfl⟩)),
   (header_presence toyEd25519 (exampleServer 300 []) 1700000000
      (exampleSignedRequest "/upload/web/site.zip".toList "1700000000".toList [])
      rfl (Or.inl rfl)).2 1700000000 _ rfl (by decide) (by decide) (by decide)
      (DecodeString_EncodeToString _) (by decide)⟩

/-! ## C10: the IP allow-list -/

/-- A listed address, or an entry `*`, makes the loop over the allow-list succeed. -/
theorem any_eq_true_of_mem (ips : List GoString) (clientIP : GoString)
    (h : clientIP ∈ ips ∨ "*".toList ∈ ips) :
    (ips.any fun ip => decide (ip = clientIP) || decide (ip = "*".toList)) = true := by
  rw [List.any_eq_true]
  rcases h with h | h
  · exact ⟨clientIP, h, by simp⟩
  · exact ⟨"*".toList, h, by simp⟩

/-- C10. IP allow-list: with security enabled and a non-empty `AllowedIPs`, a
request whose resolved client IP equals no entry is rejected (IP not allowed)
when no entry is `*`, whatever its headers. When the resolved IP equals an entry,
or some entry is `*`, the allow-list does not reject the request (the result is
no IP rejection) and the header, timestamp and signature checks decide: missing
`X-Timestamp` or `X-Signature` is a rejection for missing headers; else a time
stamp that does not parse is a rejection for its format; else a difference above
the limit is a rejection as expired; else a signature that is not hex is a
rejection for its format; else the result is that of `ed25519.Verify` on the
message made of time stamp, nonce and path. -/
theorem ip_allow_list (E : Ed25519) (srv : Server) (now : Int) (r : Request)
    (hen : srv.config.Security.Enabled = true)
    (hne : srv.config.Security.AllowedIPs ≠ []) :
    ((getClientIP r ∉ srv.config.Security.AllowedIPs ∧
        "*".toList ∉ srv.config.Security.AllowedIPs) →
      verifyRequest E srv now r = .ok (false, .ipNotAllowed (getClientIP r))) ∧
    ((getClientIP r ∈ srv.config.Security.AllowedIPs ∨
        "*".toList ∈ srv.config.Security.AllowedIPs) →
      (∀ ip, verifyRequest E srv now r ≠ .ok (false, .ipNotAllowed ip)) ∧
      ((r.Header.Get "X-Timestamp".toList = [] ∨ r.Header.Get "X-Signature".toList = []) →
        verifyRequest E srv now r = .ok (false, .missingHeaders)) ∧
      (r.Header.Get "X-Timestamp".toList ≠ [] → r.Header.Get "X-Signature".toList ≠ [] →
        (ParseInt (r.Header.Get "X-Timestamp".toList) = none →
          verifyRequest E srv now r = .ok (false, .badTimestamp)) ∧
        ∀ ts, ParseInt (r.Header.Get "X-Timestamp".toList) = some ts →
          ((if wrapInt64 (now - ts) < 0 then wrapInt64 (-wrapInt64 (now - ts))
              else wrapInt64 (now - ts)) > srv.config.Security.TimestampLimit →
            verifyRequest E srv now r = .ok (false, .expired
              (if wrapInt64 (now - ts) < 0 then wrapInt64 (-wrapInt64 (now - ts))
                else wrapInt64 (now - ts)) srv.config.Security.TimestampLimit)) ∧
          (¬ (if wrapInt64 (now - ts) < 0 then wrapInt64 (-wrapInt64 (now - ts))
              else wrapInt64 (now - ts)) > srv.config.Security.TimestampLimit →
            (DecodeString (r.Header.Get "X-Signature".toList) = none →
              verifyRequest E srv now r = .ok (false, .badSignatureFormat)) ∧
            ∀ sigBytes, DecodeString (r.Header.Get "X-Signature".toList) = some sigBytes →
              verifyRequest E srv now r =
                match ed25519Verify E srv.publicKey
                  (r.Header.Get "X-Timestamp".toList ++ r.Header.Get "X-Nonce".toList ++ r.Path)
                  sigBytes with
                | .error p => .error p
                | .ok false => .ok (false, .badSignature)
                | .ok true => .ok (true, .empty)))) := by
  have hlen : srv.config.Security.AllowedIPs.length > 0 := List.length_pos.mpr hne
  constructor
  · rintro ⟨h1, h2⟩
    have hany : (srv.config.Security.AllowedIPs.any fun ip =>
        decide (ip = getClientIP r) || decide (ip = "*".toList)) = false := by
      rw [List.any_eq_false]
      intro ip hip
      have hx : ip ≠ getClientIP r := fun h => h1 (h ▸ hip)
      have hy : ip ≠ "*".toList := fun h => h2 (h ▸ hip)
      simp only [hx, hy, decide_False, Bool.or_self, Bool.false_eq_true, not_false_eq_true]
    unfold verifyRequest
    simp only [hen, hlen, hany, Bool.not_true, Bool.false_eq_true, if_false, decide_True,
      Bool.not_false, Bool.and_self, if_true]
  · intro h
    have hany := any_eq_true_of_mem _ _ h
    have hrest : verifyRequest E srv now r =
        if (decide (r.Header.Get "X-Timestamp".toList = []) ||
            decide (r.Header.Get "X-Signature".toList = [])) = true then
          .ok (false, .missingHeaders)
        else
          match ParseInt (r.Header.Get "X-Timestamp".toList) with
          | none => .ok (false, .badTimestamp)
          | some ts =>
            if (if wrapInt64 (now - ts) < 0 then wrapInt64 (-wrapInt64 (now - ts))
                else wrapInt64 (now - ts)) > srv.config.Security.TimestampLimit then
              .ok (false, .expired
                (if wrapInt64 (now - ts) < 0 then wrapInt64 (-wrapInt64 (now - ts))
                  else wrapInt64 (now - ts)) srv.config.Security.TimestampLimit)
            else
              match DecodeString (r.Header.Get "X-Signature".toList) with
              | none => .ok (false, .badSignatureFormat)
              | some sigBytes =>
                match ed25519Verify E srv.publicKey
                  (r.Header.Get "X-Timestamp".toList ++ r.Header.Get "X-Nonce".toList ++ r.Path)
                  sigBytes with
                | .error p => .error p
                | .ok false => .ok (false, .badSignature)
                | .ok true => .ok (true, .empty) := by
      unfold verifyRequest
      simp only [hen, hany, Bool.not_true, Bool.and_false, Bool.false_eq_true, if_false]
    have hmiss : (r.Header.Get "X-Timestamp".toList = [] ∨
        r.Header.Get "X-Signature".toList = []) →
        verifyRequest E srv now r = .ok (false, .missingHeaders) := by
      intro hm
      rw [hrest, if_pos]
      rcases hm with hm | hm
      · rw [decide_eq_true hm, Bool.true_or]
      · rw [decide_eq_true hm, Bool.or_true]
    have hpres : r.Header.Get "X-Timestamp".toList ≠ [] →
        r.Header.Get "X-Signature".toList ≠ [] →
        verifyRequest E srv now r =
          match ParseInt (r.Header.Get "X-Timestamp".toList) with
          | none => .ok (false, .badTimestamp)
          | some ts =>
            if (if wrapInt64 (now - ts) < 0 then wrapInt64 (-wrapInt64 (now - ts))
                else wrapInt64 (now - ts)) > srv.config.Security.TimestampLimit then
              .ok (false, .expired
                (if wrapInt64 (now - ts) < 0 then wrapInt64 (-wrapInt64 (now - ts))
                  else wrapInt64 (now - ts)) srv.config.Security.TimestampLimit)
            else
              match DecodeString (r.Header.Get "X-Signature".toList) with
              | none => .ok (false, .badSignatureFormat)
              | some sigBytes =>
                match ed25519Verify E srv.publicKey
                  (r.Header.Get "X-Timestamp".toList ++ r.Header.Get "X-Nonce".toList ++ r.Path)
                  sigBytes with
                | .error p => .error p
                | .ok false => .ok (false, .badSignature)
                | .ok true => .ok (true, .empty) := by
      intro h1 h2
      rw [hrest, if_neg]
      rw [decide_eq_false h1, decide_eq_false h2]
      decide
    refine ⟨?_, hmiss, ?_⟩
    · intro ip hip
      by_cases hm : r.Header.Get "X-Timestamp".toList = [] ∨
          r.Header.Get "X-Signature".toList = []
      · rw [hmiss hm] at hip
        simp at hip
      · rw [not_or] at hm
        rw [hpres hm.1 hm.2] at hip
        cases hparse : ParseInt (r.Header.Get "X-Timestamp".toList) with
        | none =>
          rw [hparse] at hip
          simp at hip
        | some ts =>
          rw [hparse] at hip
          simp only at hip
          by_cases hexp : (if wrapInt64 (now - ts) < 0 then wrapInt64 (-wrapInt64 (now - ts))
              else wrapInt64 (now - ts)) > srv.config.Security.TimestampLimit
          · rw [if_pos hexp] at hip
            simp at hip
          · rw [if_neg hexp] at hip
            cases hdec : DecodeString (r.Header.Get "X-Signature".toList) with
            | none =>
              rw [hdec] at hip
              simp at hip
            | some sigBytes =>
              rw [hdec] at hip
              simp only at hip
              cases hv : ed25519Verify E srv.publicKey
                (r.Header.Get "X-Timestamp".toList ++ r.Header.Get "X-Nonce".toList ++ r.Path)
                sigBytes with
              | error p =>
                rw [hv] at hip
                simp at hip
              | ok b =>
                rw [hv] at hip
                cases b <;> simp at hip
    · intro h1 h2
      have hp := hpres h1 h2
      refine ⟨?_, ?_⟩
      · intro hnone
        rw [hp, hnone]
      · intro ts hts
        rw [hts] at hp
        simp only at hp
        refine ⟨?_, ?_⟩
        · intro hexp
          rw [hp, if_pos hexp]
        · intro hfresh
          rw [if_neg hfresh] at hp
          refine ⟨?_, ?_⟩
          · intro hnone
            rw [hp, hnone]
          · intro sigBytes hdec
            rw [hp, hdec]

/-- Witness of C10: the example request comes from `10.0.0.5`. Correctly signed,
it is rejected under the allow-list `[192.168.1.1]`, and accepted under
`[10.0.0.5]` and under `[*]`; under `[10.0.0.5]` the same request with the
signature of another message is rejected for its signature, and without
`X-Signature` for the missing header. -/
theorem ip_allow_list_witness :
    verifyRequest toyEd25519 (exampleServer 300 ["192.168.1.1".toList]) 1700000000
      (exampleSignedRequest "/upload/web/site.zip".toList "1700000000".toList
        (GenerateNonce exampleRnd)) = .ok (false, .ipNotAllowed "10.0.0.5".toList) ∧
    verifyRequest toyEd25519 (exampleServer 300 ["10.0.0.5".toList]) 1700000000
      (exampleSignedRequest "/upload/web/site.zip".toList "1700000000".toList
        (GenerateNonce exampleRnd)) = .ok (true, .empty) ∧
    verifyRequest toyEd25519 (exampleServer 300 ["*".toList]) 1700000000
      (exampleSignedRequest "/upload/web/site.zip".toList "1700000000".toList
        (GenerateNonce exampleRnd)) = .ok (true, .empty) ∧
    verifyRequest toyEd25519 (exampleServer 300 ["10.0.0.5".toList]) 1700000000
      (exampleRequest "/upload/web/site.zip".toList "1700000000".toList
        (GenerateNonce exampleRnd)
        (EncodeToString (toyEd25519.Sign (toyEd25519.NewKeyFromSeed exampleSeed)
          ("1700000000".toList ++ GenerateNonce exampleRnd ++ "/upload/web/other.zip".toList)))) =
      .ok (false, .badSignature) ∧
    verifyRequest toyEd25519 (exampleServer 300 ["10.0.0.5".toList]) 1700000000
      (exampleRequest "/upload/web/site.zip".toList "1700000000".toList
        (GenerateNonce exampleRnd) []) = .ok (false, .missingHeaders) :=
  ⟨(ip_allow_list toyEd25519 (exampleServer 300 ["192.168.1.1".toList]) 1700000000
      (exampleSignedRequest "/upload/web/site.zip".toList "1700000000".toList
        (GenerateNonce exampleRnd)) rfl (by decide)).1 ⟨by decide, by decide⟩,
   Eq.trans
     ((((((ip_allow_list toyEd25519 (exampleServer 300 ["10.0.0.5".toList]) 1700000000
      (exampleSignedRequest "/upload/web/site.zip".toList "1700000000".toList
        (GenerateNonce exampleRnd)) rfl (by decide)).2 (Or.inl (by decide))).2.2 (by decide) (by decide)).2 1700000000 (by decide)).2 (by decide)).2 _
       (DecodeString_EncodeToString _)) (by decide),
   Eq.trans
     ((((((ip_allow_list toyEd25519 (exampleServer 300 ["*".toList]) 1700000000
      (exampleSignedRequest "/upload/web/site.zip".toList "1700000000".toList
        (GenerateNonce exampleRnd)) rfl (by decide)).2 (Or.inr (by decide))).2.2 (by decide) (by decide)).2 1700000000 (by decide)).2 (by decide)).2 _
       (DecodeString_EncodeToString _)) (by decide),
   Eq.trans
     ((((((ip_allow_list toyEd25519 (exampleServer 300 ["10.0.0.5".toList]) 1700000000
      (exampleRequest "/upload/web/site.zip".toList "1700000000".toList
        (GenerateNonce exampleRnd)
        (EncodeToString (toyEd25519.Sign (toyEd25519.NewKeyFromSeed exampleSeed)
          ("1700000000".toList ++ GenerateNonce exampleRnd ++ "/upload/web/other.zip".toList)))) rfl (by decide)).2 (Or.inl (by decide))).2.2 (by decide) (by decide)).2 1700000000 (by decide)).2 (by decide)).2 _
       (DecodeString_EncodeToString _)) (by decide),
   ((ip_allow_list toyEd25519 (exampleServer 300 ["10.0.0.5".toList]) 1700000000
      (exampleRequest "/upload/web/site.zip".toList "1700000000".toList
        (GenerateNonce exampleRnd) []) rfl (by decide)).2 (Or.inl (by decide))).2.1 (Or.inr (by decide))⟩

/-! ## Strings: `Split` and `Contains` -/

theorem splitBy_ne_nil (p : Char → Bool) (s : GoString) : splitBy p s ≠ [] := by
  cases s with
  | nil => simp [splitBy]
  | cons c cs =>
    unfold splitBy
    split_ifs
    · simp
    · split <;> simp

theorem isPrefixOf_nil_left (s : GoString) : ([] : GoString).isPrefixOf s = true := by
  cases s <;> rfl

theorem Contains_cons_of_Contains (c : Char) (s sub : GoString) (h : Contains s sub = true) :
    Contains (c :: s) sub = true := by
  simp [Contains, h]

theorem Contains_of_isPrefixOf (s sub : GoString) (h : sub.isPrefixOf s = true) :
    Contains s sub = true := by
  cases s with
  | nil => simpa [Contains] using h
  | cons c cs => simp [Contains, h]

theorem Contains_singleton_of_mem : ∀ (s : GoString) (c : Char), c ∈ s → Contains s [c] = true
  | [], c, h => by simp at h
  | d :: s, c, h => by
    rcases List.mem_cons.mp h with h1 | h1
    · subst h1
      apply Contains_of_isPrefixOf
      simp [List.isPrefixOf, isPrefixOf_nil_left]
    · exact Contains_cons_of_Contains d s [c] (Contains_singleton_of_mem s c h1)

/-! ## C4 and C5: what `isValidFilename` rejects -/

/-- C5. Dot-segment rejection: `isValidFilename` returns false for every file name
whose cleaned form, split on the path separator, has a segment that begins with
`.` and is not exactly `.`. -/
theorem dot_segment_rejection (os : GOOS) (filename part : GoString)
    (hmem : part ∈ Split (Clean os filename) (Separator os))
    (hdot : part.head? = some '.') (hne : part ≠ ".".toList) :
    isValidFilename os filename = false := by
  have hany : ((Split (Clean os filename) (Separator os)).any fun part =>
      HasPrefix part ".".toList && decide (part ≠ ".".toList)) = true := by
    rw [List.any_eq_true]
    refine ⟨part, hmem, ?_⟩
    cases part with
    | nil => simp at hdot
    | cons c cs =>
      simp only [List.head?_cons, Option.some.injEq] at hdot
      subst hdot
      have hcs : cs ≠ [] := fun h => hne (by rw [h]; rfl)
      simp [HasPrefix, List.isPrefixOf, isPrefixOf_nil_left, hcs]
  unfold isValidFilename
  simp only [hany, if_true, ite_self]

/-- Witness of C5: the names `.env`, `a/.git/config` and `sub/.hidden`, on
Windows and on Unix. -/
theorem dot_segment_rejection_witness :
    isValidFilename .windows ".env".toList = false ∧
    isValidFilename .windows "a/.git/config".toList = false ∧
    isValidFilename .windows "sub/.hidden".toList = false ∧
    isValidFilename .unix "a/.git/config".toList = false :=
  ⟨dot_segment_rejection .windows ".env".toList ".env".toList (by decide) (by decide) (by decide),
   dot_segment_rejection .windows "a/.git/config".toList ".git".toList (by decide) (by decide)
     (by decide),
   dot_segment_rejection .windows "sub/.hidden".toList ".hidden".toList (by decide) (by decide)
     (by decide),
   dot_segment_rejection .unix "a/.git/config".toList ".git".toList (by decide) (by decide)
     (by decide)⟩

/-! ## C3: the target of an upload and the base directory -/

/-- C3, evaluated at the failing input: for the file name `.` (request path
`/upload/web/.`) every path check of `handleUpload` passes and the target is the
base directory itself, on Windows and on Unix. -/
theorem upload_target_is_base_directory :
    handleUploadPath .windows "C:\\srv".toList (exampleConfig 300 [])
      (exampleRequest "/upload/web/.".toList [] [] []) =
      .ok ⟨"web".toList, ".".toList, "C:\\www".toList, "C:\\www".toList, "C:\\www".toList,
        "C:\\www".toList⟩ ∧
    handleUploadPath .unix "/srv".toList
      { exampleConfig 300 [] with Paths := [("web".toList, "/var/www".toList)] }
      (exampleRequest "/upload/web/.".toList [] [] []) =
      .ok ⟨"web".toList, ".".toList, "/var/www".toList, "/var/www".toList, "/var/www".toList,
        "/var/www".toList⟩ := by
  refine ⟨by decide, by decide⟩

/-! ## Splitting and joining at separators -/

theorem intercalate_singleton (c : Char) (x : GoString) : [c].intercalate [x] = x := by
  simp [List.intercalate]

theorem intercalate_cons_cons (c : Char) (x y : GoString) (rest : List GoString) :
    [c].intercalate (x :: y :: rest) = x ++ c :: [c].intercalate (y :: rest) := by
  simp [List.intercalate]

theorem intercalate_append (c : Char) : ∀ (xs ys : List GoString), xs ≠ [] → ys ≠ [] →
    [c].intercalate (xs ++ ys) = [c].intercalate xs ++ c :: [c].intercalate ys
  | [], _, h, _ => absurd rfl h
  | [x], y :: ys, _, _ => by
    rw [List.singleton_append, intercalate_cons_cons, intercalate_singleton]
  | x :: x2 :: xs, ys, _, hy => by
    rw [List.cons_append, List.cons_append, intercalate_cons_cons, intercalate_cons_cons,
      ← List.cons_append, intercalate_append c (x2 :: xs) ys (by simp) hy, List.append_assoc]
    rfl
  | [_], [], _, h => absurd rfl h

theorem splitBy_eq_single (p : Char → Bool) : ∀ (s : GoString), (∀ c ∈ s, p c = false) →
    splitBy p s = [s]
  | [], _ => rfl
  | c :: cs, h => by
    have hc : p c = false := h c (List.mem_cons_self _ _)
    have ih := splitBy_eq_single p cs (fun x hx => h x (List.mem_cons_of_mem _ hx))
    simp [splitBy, hc, ih]

/-- Splitting distributes over a separator. -/
theorem splitBy_append_sep (p : Char → Bool) (c : Char) (hc : p c = true) (b : GoString) :
    ∀ a : GoString, splitBy p (a ++ c :: b) = splitBy p a ++ splitBy p b
  | [] => by simp [splitBy, hc]
  | x :: a => by
    have ih := splitBy_append_sep p c hc b a
    by_cases hx : p x = true
    · simp [splitBy, hx, ih]
    · cases hsa : splitBy p a with
      | nil => exact absurd hsa (splitBy_ne_nil p a)
      | cons e es =>
        have e1 : splitBy p (x :: (a ++ c :: b)) = (x :: e) :: (es ++ splitBy p b) := by
          rw [splitBy, if_neg hx, ih, hsa]; rfl
        have e2 : splitBy p (x :: a) = (x :: e) :: es := by
          rw [splitBy, if_neg hx, hsa]
        rw [List.cons_append, e1, e2]; rfl

/-- A sep-free piece in front of a string joins the first piece of the split. -/
theorem splitBy_append_free (p : Char → Bool) (b : GoString) :
    ∀ t : GoString, (∀ c ∈ t, p c = false) →
      splitBy p (t ++ b) = (t ++ (splitBy p b).headD []) :: (splitBy p b).tail
  | [], _ => by
    cases hsb : splitBy p b with
    | nil => exact absurd hsb (splitBy_ne_nil p b)
    | cons e es => simp [hsb]
  | x :: t, h => by
    have hx : p x = false := h x (List.mem_cons_self _ _)
    have ih := splitBy_append_free p b t (fun c hc => h c (List.mem_cons_of_mem _ hc))
    simp [splitBy, hx, ih]

/-- Splitting what was joined with a separator gives the pieces back. -/
theorem splitBy_intercalate (p : Char → Bool) (c : Char) (hc : p c = true) :
    ∀ segs : List GoString, segs ≠ [] → (∀ s ∈ segs, ∀ x ∈ s, p x = false) →
      splitBy p ([c].intercalate segs) = segs
  | [], h, _ => absurd rfl h
  | [s], _, hfree => by
    rw [intercalate_singleton]
    exact splitBy_eq_single p s (hfree s (List.mem_singleton_self s))
  | s :: s2 :: rest, _, hfree => by
    rw [intercalate_cons_cons, splitBy_append_sep p c hc,
      splitBy_eq_single p s (hfree s (List.mem_cons_self _ _)),
      splitBy_intercalate p c hc (s2 :: rest) (by simp)
        (fun t ht => hfree t (List.mem_cons_of_mem _ ht))]
    rfl

/-- The pieces of a split are free of separators. -/
theorem mem_splitBy_free (p : Char → Bool) : ∀ (s e : GoString), e ∈ splitBy p s →
    ∀ x ∈ e, p x = false
  | [], e, he => by
    simp only [splitBy, List.mem_singleton] at he
    subst he; simp
  | c :: cs, e, he => by
    unfold splitBy at he
    split_ifs at he with hc
    · rcases List.mem_cons.mp he with h1 | h1
      · subst h1; simp
      · exact mem_splitBy_free p cs e h1
    · split at he
      · rename_i h0; exact absurd h0 (splitBy_ne_nil p cs)
      · rename_i q qs hq
        rcases List.mem_cons.mp he with h1 | h1
        · subst h1
          intro x hx
          rcases List.mem_cons.mp hx with h2 | h2
          · subst h2; simpa using hc
          · exact mem_splitBy_free p cs q (by rw [hq]; exact List.mem_cons_self _ _) x h2
        · exact mem_splitBy_free p cs e (by rw [hq]; exact List.mem_cons_of_mem _ h1)

theorem mem_intercalate (c : Char) : ∀ (segs : List GoString) (x : Char),
    x ∈ [c].intercalate segs → x = c ∨ ∃ s ∈ segs, x ∈ s
  | [], x, h => by simp [List.intercalate] at h
  | [s], x, h => by
    rw [intercalate_singleton] at h
    exact Or.inr ⟨s, List.mem_singleton_self s, h⟩
  | s :: s2 :: rest, x, h => by
    rw [intercalate_cons_cons] at h
    rcases List.mem_append.mp h with h1 | h1
    · exact Or.inr ⟨s, List.mem_cons_self _ _, h1⟩
    · rcases List.mem_cons.mp h1 with h2 | h2
      · exact Or.inl h2
      · rcases mem_intercalate c (s2 :: rest) x h2 with h3 | ⟨t, ht, hx⟩
        · exact Or.inl h3
        · exact Or.inr ⟨t, List.mem_cons_of_mem _ ht, hx⟩

theorem intercalate_head (c : Char) (s : GoString) (segs : List GoString) (x : Char)
    (xs : GoString) (hs : s = x :: xs) :
    ∃ ys, [c].intercalate (s :: segs) = x :: ys := by
  subst hs
  cases segs with
  | nil => exact ⟨xs, by rw [intercalate_singleton]⟩
  | cons s2 rest => exact ⟨_, by rw [intercalate_cons_cons]; rfl⟩

theorem mem_of_Contains_singleton : ∀ (s : GoString) (c : Char), Contains s [c] = true → c ∈ s
  | [], c, h => by simp [Contains, List.isPrefixOf] at h
  | d :: s, c, h => by
    simp only [Contains, List.isPrefixOf, Bool.or_eq_true, Bool.and_eq_true, beq_iff_eq] at h
    rcases h with h | h
    · rw [h.1]; exact List.mem_cons_self _ _
    · exact List.mem_cons_of_mem _ (mem_of_Contains_singleton s c h)

/-- Two dots in a row do not arise from joining dot-dot-free pieces with a
character other than the dot. -/
theorem Contains_dotdot_append (c : Char) (hc : c ≠ '.') (b : GoString)
    (hb : Contains b "..".toList = false) :
    ∀ a : GoString, Contains a "..".toList = false → Contains (a ++ c :: b) "..".toList = false
  | [], _ => by
    simp only [List.nil_append, Contains, Bool.or_eq_false_iff]
    refine ⟨?_, hb⟩
    simp [List.isPrefixOf, hc.symm]
  | x :: a, ha => by
    simp only [Contains, Bool.or_eq_false_iff] at ha
    have ih := Contains_dotdot_append c hc b hb a ha.2
    simp only [List.cons_append, Contains, Bool.or_eq_false_iff]
    refine ⟨?_, ih⟩
    cases a with
    | nil => simp [List.isPrefixOf, hc.symm]
    | cons y a => simpa [List.isPrefixOf] using ha.1

theorem Contains_dotdot_intercalate (c : Char) (hc : c ≠ '.') :
    ∀ segs : List GoString, (∀ s ∈ segs, Contains s "..".toList = false) →
      Contains ([c].intercalate segs) "..".toList = false
  | [], _ => by simp [List.intercalate, Contains, List.isPrefixOf]
  | [s], h => by
    rw [intercalate_singleton]; exact h s (List.mem_singleton_self s)
  | s :: s2 :: rest, h => by
    rw [intercalate_cons_cons]
    exact Contains_dotdot_append c hc _
      (Contains_dotdot_intercalate c hc (s2 :: rest) (fun t ht => h t (List.mem_cons_of_mem _ ht)))
      s (h s (List.mem_cons_self _ _))

/-! ## `Clean` on ordinary paths -/

theorem IsPathSeparator_Separator (os : GOOS) : IsPathSeparator os (Separator os) = true := by
  cases os <;> rfl

theorem IsPathSeparator_slash (os : GOOS) : IsPathSeparator os '/' = true := by
  cases os <;> rfl

theorem Separator_ne_dot (os : GOOS) : Separator os ≠ '.' := by
  cases os <;> decide

theorem cleanStep_name (os : GOOS) (rooted : Bool) (out : List GoString) (e : GoString)
    (he : IsNameElem os e) : cleanStep rooted out e = out ++ [e] := by
  unfold cleanStep
  rw [if_neg he.1, if_neg he.2.1, if_neg he.2.2.1]

theorem foldl_cleanStep_names (os : GOOS) (rooted : Bool) :
    ∀ (es out : List GoString), (∀ e ∈ es, IsNameElem os e) →
      es.foldl (cleanStep rooted) out = out ++ es
  | [], out, _ => by simp
  | e :: es, out, h => by
    rw [List.foldl_cons, cleanStep_name os rooted out e (h e (List.mem_cons_self _ _)),
      foldl_cleanStep_names os rooted es _ (fun x hx => h x (List.mem_cons_of_mem _ hx))]
    simp

theorem FromSlash_of_not_mem (os : GOOS) (s : GoString) (h : '/' ∉ s) : FromSlash os s = s := by
  cases os with
  | unix => rfl
  | windows =>
    unfold FromSlash
    simp only []
    induction s with
    | nil => rfl
    | cons c cs ih =>
      have hc : c ≠ '/' := fun e => h (e ▸ List.mem_cons_self _ _)
      simp only [List.map_cons, if_neg hc, List.cons.injEq, true_and]
      exact ih (fun hm => h (List.mem_cons_of_mem _ hm))

theorem FromSlash_append (os : GOOS) (a b : GoString) :
    FromSlash os (a ++ b) = FromSlash os a ++ FromSlash os b := by
  cases os <;> simp [FromSlash]

theorem postClean_of_plain (os : GOOS) (volLen : Nat) (path out : GoString)
    (h1 : ':' ∉ out) (h2 : '?' ∉ out) : postClean os volLen path out = out := by
  unfold postClean
  split_ifs with h3 h4
  · exfalso
    have h5 : ':' ∈ List.takeWhile (fun c => !IsPathSeparator os c) out := by simpa using h4
    exact h1 (List.takeWhile_subset _ h5)
  · split
    · exfalso; apply h2; simp
    · rfl
  · rfl

theorem postClean_of_volume (os : GOOS) (volLen : Nat) (path out : GoString)
    (h : os = .windows → volLen ≠ 0) : postClean os volLen path out = out := by
  unfold postClean
  rw [if_neg]
  rintro ⟨h1, h2, -⟩
  exact h h1 h2

/-- A path that starts with a character other than a separator and does not go
on with a colon has no volume name. -/
theorem volumeNameLen_of_plain (os : GOOS) (x : Char) (rest : GoString)
    (hx : IsPathSeparator os x = false) (hrest : rest.head? ≠ some ':') :
    volumeNameLen os (x :: rest) = 0 := by
  cases os with
  | unix => rfl
  | windows =>
    unfold volumeNameLen
    simp only []
    rw [if_neg, if_pos]
    · right; simp [hx]
    · rintro ⟨-, h⟩
      apply hrest
      cases rest with
      | nil => simp at h
      | cons y ys => simpa using h

/-- The hypothesis of C6 on the segments of a relative path, and what it gives
for the joined text. -/
theorem ordinary_head (c : Char) (segs : List GoString) (hne : segs ≠ [])
    (hseg : ∀ s ∈ segs, s ≠ []) :
    ∃ x xs s rest, segs = s :: rest ∧ s = x :: xs ∧
      ∃ ys, [c].intercalate segs = x :: ys := by
  cases segs with
  | nil => exact absurd rfl hne
  | cons s rest =>
    cases hs : s with
    | nil => exact absurd hs (hseg s (List.mem_cons_self _ _))
    | cons x xs =>
      obtain ⟨ys, hys⟩ := intercalate_head c (x :: xs) rest x xs rfl
      exact ⟨x, xs, x :: xs, rest, rfl, rfl, ys, hys⟩

theorem volumeNameLen_intercalate (os : GOOS) (c : Char) (hc : c ≠ ':') (segs : List GoString)
    (hne : segs ≠ []) (hseg : ∀ s ∈ segs, s ≠ [])
    (hfree : ∀ s ∈ segs, ∀ x ∈ s, IsPathSeparator os x = false ∧ x ≠ ':') :
    volumeNameLen os ([c].intercalate segs) = 0 := by
  obtain ⟨x, xs, s, rest, hsegs, hs, ys, hys⟩ := ordinary_head c segs hne hseg
  have hx : IsPathSeparator os x = false :=
    (hfree s (by rw [hsegs]; exact List.mem_cons_self _ _) x (by rw [hs]; exact List.mem_cons_self _ _)).1
  rw [hys]
  apply volumeNameLen_of_plain os x ys hx
  intro h
  have hmem : ':' ∈ [c].intercalate segs := by
    rw [hys]
    cases ys with
    | nil => simp at h
    | cons y ys' =>
      simp only [List.head?_cons, Option.some.injEq] at h
      rw [h]; simp
  rcases mem_intercalate c segs ':' hmem with h1 | ⟨t, ht, hx2⟩
  · exact hc h1.symm
  · exact (hfree t ht ':' hx2).2 rfl

theorem not_mem_intercalate (c : Char) (segs : List GoString) (z : Char) (hz : z ≠ c)
    (h : ∀ s ∈ segs, z ∉ s) : z ∉ [c].intercalate segs := by
  intro hm
  rcases mem_intercalate c segs z hm with h1 | ⟨t, ht, hx⟩
  · exact hz h1
  · exact h t ht hx

/-- `Clean` on a relative path made of ordinary segments joined by `/`: the same
segments joined by the separator. -/
theorem Clean_ordinary (os : GOOS) (segs : List GoString) (hne : segs ≠ [])
    (hname : ∀ s ∈ segs, IsNameElem os s)
    (hplain : ∀ s ∈ segs, ':' ∉ s ∧ '?' ∉ s) :
    Clean os (['/'].intercalate segs) = [Separator os].intercalate segs := by
  have hseg : ∀ s ∈ segs, s ≠ [] := fun s hs => (hname s hs).1
  have hfree : ∀ s ∈ segs, ∀ x ∈ s, IsPathSeparator os x = false ∧ x ≠ ':' :=
    fun s hs x hx => ⟨(hname s hs).2.2.2 x hx, fun e => (hplain s hs).1 (e ▸ hx)⟩
  have hvol := volumeNameLen_intercalate os '/' (by decide) segs hne hseg hfree
  obtain ⟨x, xs, s, rest, hsegs, hs, ys, hys⟩ := ordinary_head '/' segs hne hseg
  have hx : IsPathSeparator os x = false :=
    (hfree s (by rw [hsegs]; exact List.mem_cons_self _ _) x (by rw [hs]; exact List.mem_cons_self _ _)).1
  have hsplit : splitElems os (['/'].intercalate segs) = segs :=
    splitBy_intercalate _ '/' (IsPathSeparator_slash os) segs hne (fun t ht => (hname t ht).2.2.2)
  have hbody : [Separator os].intercalate segs ≠ [] := by
    obtain ⟨_, _, _, _, _, _, zs, hzs⟩ := ordinary_head (Separator os) segs hne hseg
    rw [hzs]; simp
  have hsepc : Separator os ≠ ':' := by cases os <;> decide
  have hsepq : Separator os ≠ '?' := by cases os <;> decide
  have hseps : IsPathSeparator os '/' = true := IsPathSeparator_slash os
  have h1 : ':' ∉ [Separator os].intercalate segs :=
    not_mem_intercalate _ segs ':' hsepc.symm (fun t ht => (hplain t ht).1)
  have h2 : '?' ∉ [Separator os].intercalate segs :=
    not_mem_intercalate _ segs '?' hsepq.symm (fun t ht => (hplain t ht).2)
  have h3 : FromSlash os ([Separator os].intercalate segs) = [Separator os].intercalate segs := by
    cases os with
    | unix => rfl
    | windows =>
      apply FromSlash_of_not_mem
      apply not_mem_intercalate _ segs '/' (by decide)
      intro t ht hxt
      have := (hname t ht).2.2.2 '/' hxt
      simp [IsPathSeparator] at this
  unfold Clean
  simp only [hvol, List.drop_zero, List.take_zero, List.nil_append]
  rw [hys]
  simp only []
  rw [← hys, hsplit, hx, foldl_cleanStep_names os false segs [] hname]
  simp only [List.nil_append, renderElems, Bool.false_eq_true, if_false, if_neg hbody]
  rw [postClean_of_plain os 0 _ _ h1 h2, h3]

/-! ## Ordinary relative paths and `isValidFilename` -/

theorem IsAbs_of_plain (os : GOOS) (x : Char) (rest : GoString)
    (hx : IsPathSeparator os x = false) (hrest : rest.head? ≠ some ':') :
    IsAbs os (x :: rest) = false := by
  cases os with
  | unix =>
    have : x ≠ '/' := by simpa [IsPathSeparator] using hx
    simp [IsAbs, HasPrefix, List.isPrefixOf, this.symm]
  | windows =>
    unfold IsAbs
    simp only [volumeNameLen_of_plain .windows x rest hx hrest, if_true]

/-- What C6 asks of a segment gives a name element free of `:` and `?`. -/
theorem ordinary_segment (os : GOOS) (s : GoString)
    (h : s ≠ [] ∧ s.head? ≠ some '.' ∧ Contains s "..".toList = false ∧
      ∀ c ∈ s, IsPathSeparator os c = false ∧
        c ∉ ['<', '>', ':', '"', '|', '?', '*', Char.ofNat 0]) :
    IsNameElem os s ∧ ':' ∉ s ∧ '?' ∉ s := by
  obtain ⟨h1, h2, -, h4⟩ := h
  refine ⟨⟨h1, ?_, ?_, fun c hc => (h4 c hc).1⟩, ?_, ?_⟩
  · intro e; rw [e] at h2; exact h2 rfl
  · intro e; rw [e] at h2; exact h2 rfl
  · intro hm; exact (h4 ':' hm).2 (by decide)
  · intro hm; exact (h4 '?' hm).2 (by decide)

/-- First half of C6 (amended): `isValidFilename` accepts every relative path made
of one or more non-empty segments joined by `/`, where no segment begins with
`.`, none contains two dots in a row, and none contains a path separator or one
of the characters `< > : " | ? *` or NUL. -/
theorem isValidFilename_ordinary (os : GOOS) (segs : List GoString) (hne : segs ≠ [])
    (hseg : ∀ s ∈ segs, s ≠ [] ∧ s.head? ≠ some '.' ∧ Contains s "..".toList = false ∧
      ∀ c ∈ s, IsPathSeparator os c = false ∧
        c ∉ ['<', '>', ':', '"', '|', '?', '*', Char.ofNat 0]) :
    isValidFilename os (['/'].intercalate segs) = true := by
  have hname : ∀ s ∈ segs, IsNameElem os s := fun s hs => (ordinary_segment os s (hseg s hs)).1
  have hplain : ∀ s ∈ segs, ':' ∉ s ∧ '?' ∉ s := fun s hs => (ordinary_segment os s (hseg s hs)).2
  have hnonempty : ∀ s ∈ segs, s ≠ [] := fun s hs => (hseg s hs).1
  have hsepc : Separator os ≠ ':' := by cases os <;> decide
  have hfree : ∀ s ∈ segs, ∀ x ∈ s, IsPathSeparator os x = false ∧ x ≠ ':' :=
    fun s hs x hx => ⟨(hname s hs).2.2.2 x hx, fun e => (hplain s hs).1 (e ▸ hx)⟩
  -- no two dots in a row in the cleaned name
  have h1 : Contains ([Separator os].intercalate segs) "..".toList = false :=
    Contains_dotdot_intercalate _ (Separator_ne_dot os) segs (fun s hs => (hseg s hs).2.2.1)
  -- the cleaned name is not absolute
  obtain ⟨x, xs, s, rest, hsegs, hs, ys, hys⟩ := ordinary_head (Separator os) segs hne hnonempty
  have hx : IsPathSeparator os x = false :=
    (hfree s (by rw [hsegs]; exact List.mem_cons_self _ _) x (by rw [hs]; exact List.mem_cons_self _ _)).1
  have hys2 : ys.head? ≠ some ':' := by
    intro h
    have hmem : ':' ∈ [Separator os].intercalate segs := by
      rw [hys]
      cases ys with
      | nil => simp at h
      | cons y ys' =>
        simp only [List.head?_cons, Option.some.injEq] at h
        rw [h]; simp
    exact not_mem_intercalate _ segs ':' hsepc.symm (fun t ht => (hplain t ht).1) hmem
  have h2 : IsAbs os ([Separator os].intercalate segs) = false := by
    rw [hys]; exact IsAbs_of_plain os x ys hx hys2
  -- no suspicious character in the name as given
  have h3 : (["<".toList, ">".toList, ":".toList, "\"".toList, "|".toList, "?".toList,
      "*".toList, [Char.ofNat 0]].any fun s => Contains (['/'].intercalate segs) s) = false := by
    rw [List.any_eq_false]
    intro sus hsus hcont
    have hchar : ∃ c, sus = [c] ∧ c ∈ ['<', '>', ':', '"', '|', '?', '*', Char.ofNat 0] := by
      simp only [List.mem_cons, List.mem_singleton, List.not_mem_nil, or_false] at hsus
      rcases hsus with h | h | h | h | h | h | h | h <;> exact ⟨_, h, by decide⟩
    obtain ⟨c, hc, hcs⟩ := hchar
    rw [hc] at hcont
    rcases mem_intercalate '/' segs c (mem_of_Contains_singleton _ c hcont) with h | ⟨t, ht, hxt⟩
    · rw [h] at hcs; exact absurd hcs (by decide)
    · exact ((hseg t ht).2.2.2 c hxt).2 hcs
  -- no segment of the cleaned name starts with a dot
  have h4 : Split ([Separator os].intercalate segs) (Separator os) = segs := by
    apply splitBy_intercalate _ (Separator os) (by simp) segs hne
    intro t ht y hy
    have hy1 := (hname t ht).2.2.2 y hy
    have : y ≠ Separator os := fun e => by
      rw [e, IsPathSeparator_Separator] at hy1; exact absurd hy1 (by simp)
    simpa using this
  have h5 : (segs.any fun part => HasPrefix part ".".toList && decide (part ≠ ".".toList))
      = false := by
    rw [List.any_eq_false]
    intro part hpart
    obtain ⟨hp1, hp2, -, -⟩ := hseg part hpart
    cases part with
    | nil => exact absurd rfl hp1
    | cons y ys =>
      have : y ≠ '.' := fun e => hp2 (by rw [e]; rfl)
      simp [HasPrefix, List.isPrefixOf, this.symm]
  unfold isValidFilename
  simp only [Clean_ordinary os segs hne hname hplain, h1, h2, h3, h4, h5, Bool.false_eq_true,
    if_false]

/-! ## `Clean` on rooted paths -/

theorem IsNameElem_of_mem_dropLast (os : GOOS) (out : List GoString)
    (h : ∀ e ∈ out, IsNameElem os e) : ∀ e ∈ out.dropLast, IsNameElem os e :=
  fun e he => h e (List.mem_of_mem_dropLast he)

/-- On a rooted path the loop of `Clean` only ever holds name elements. -/
theorem cleanStep_rooted_names (os : GOOS) (out : List GoString) (e : GoString)
    (he : ∀ x ∈ e, IsPathSeparator os x = false) (hout : ∀ a ∈ out, IsNameElem os a) :
    ∀ a ∈ cleanStep true out e, IsNameElem os a := by
  unfold cleanStep
  simp only [Bool.not_true, Bool.false_eq_true, if_false]
  by_cases h1 : e = []
  · rw [if_pos h1]; exact hout
  rw [if_neg h1]
  by_cases h2 : e = ['.']
  · rw [if_pos h2]; exact hout
  rw [if_neg h2]
  by_cases h3 : e = ['.', '.']
  · rw [if_pos h3]
    split_ifs
    · exact IsNameElem_of_mem_dropLast os out hout
    · exact hout
  rw [if_neg h3]
  intro a ha
  rcases List.mem_append.mp ha with h | h
  · exact hout a h
  · rw [List.mem_singleton] at h
    subst h
    exact ⟨h1, h2, h3, he⟩

theorem foldl_cleanStep_rooted_names (os : GOOS) :
    ∀ (es out : List GoString), (∀ e ∈ es, ∀ x ∈ e, IsPathSeparator os x = false) →
      (∀ a ∈ out, IsNameElem os a) → ∀ a ∈ es.foldl (cleanStep true) out, IsNameElem os a
  | [], out, _, hout => by simpa using hout
  | e :: es, out, hes, hout => by
    rw [List.foldl_cons]
    exact foldl_cleanStep_rooted_names os es _ (fun x hx => hes x (List.mem_cons_of_mem _ hx))
      (cleanStep_rooted_names os out e (hes e (List.mem_cons_self _ _)) hout)

theorem renderElems_rooted (os : GOOS) (out : List GoString) :
    renderElems os true out = Separator os :: [Separator os].intercalate out := by
  simp [renderElems]

theorem FromSlash_renderElems (os : GOOS) (out : List GoString)
    (hout : ∀ a ∈ out, IsNameElem os a) :
    FromSlash os (renderElems os true out) = renderElems os true out := by
  cases os with
  | unix => rfl
  | windows =>
    apply FromSlash_of_not_mem
    rw [renderElems_rooted]
    intro hm
    rcases List.mem_cons.mp hm with h | h
    · exact absurd h (by decide)
    · refine not_mem_intercalate _ out '/' (by decide) ?_ h
      intro t ht hxt
      have := (hout t ht).2.2.2 '/' hxt
      simp [IsPathSeparator] at this

theorem FromSlash_idem (os : GOOS) (s : GoString) : FromSlash os (FromSlash os s) = FromSlash os s := by
  cases os with
  | unix => rfl
  | windows =>
    simp only [FromSlash, List.map_map]
    apply List.map_congr_left
    intro c _
    by_cases h : c = '/'
    · subst h; decide
    · simp [h]

/-- `Clean` on a path whose part after the volume name starts with a separator
(on Windows: after a volume name that is not empty): the volume name, then the
elements that the loop keeps, each after a separator. -/
theorem Clean_rooted (os : GOOS) (path : GoString) (c : Char) (rest : GoString)
    (hdrop : path.drop (volumeNameLen os path) = c :: rest)
    (hc : IsPathSeparator os c = true)
    (hvol : os = .windows → volumeNameLen os path ≠ 0) :
    Clean os path = FromSlash os (path.take (volumeNameLen os path)) ++
      renderElems os true ((splitElems os (c :: rest)).foldl (cleanStep true) []) ∧
    ∀ a ∈ (splitElems os (c :: rest)).foldl (cleanStep true) [], IsNameElem os a := by
  have hnames : ∀ a ∈ (splitElems os (c :: rest)).foldl (cleanStep true) [], IsNameElem os a :=
    foldl_cleanStep_rooted_names os _ [] (fun e he => mem_splitBy_free _ _ e he) (by simp)
  refine ⟨?_, hnames⟩
  unfold Clean
  simp only [hdrop, hc]
  rw [postClean_of_volume os _ _ _ hvol, FromSlash_append, FromSlash_renderElems os _ hnames]

/-! ## Absolute base directories -/

theorem volumeNameLen_drive (path : GoString) (h : path.get? 1 = some ':') :
    volumeNameLen .windows path = 2 := by
  unfold volumeNameLen
  simp only []
  rw [if_pos]
  refine ⟨?_, h⟩
  cases path with
  | nil => simp at h
  | cons a t =>
    cases t with
    | nil => simp at h
    | cons b t => simp

/-- An absolute path (on Windows: one with a drive letter) is a volume name
followed by a separator. -/
theorem IsAbs_shape (os : GOOS) (base : GoString) (habs : IsAbs os base = true)
    (hdrive : os = .windows → base.get? 1 = some ':') :
    ∃ c rest, base.drop (volumeNameLen os base) = c :: rest ∧ IsPathSeparator os c = true ∧
      (os = .windows → volumeNameLen os base = 2) := by
  cases os with
  | unix =>
    cases base with
    | nil => simp [IsAbs, HasPrefix, List.isPrefixOf] at habs
    | cons c rest =>
      refine ⟨c, rest, rfl, ?_, by simp⟩
      have : '/' = c := by simpa [IsAbs, HasPrefix, List.isPrefixOf] using habs
      simp [IsPathSeparator, this.symm]
  | windows =>
    have hv := volumeNameLen_drive base (hdrive rfl)
    have h1 : base.getD 1 'x' = ':' := by
      rw [List.getD_eq_getElem?_getD, ← List.get?_eq_getElem?, hdrive rfl]; rfl
    unfold IsAbs at habs
    simp only [hv, h1] at habs
    have h2 : IsPathSeparator .windows ':' = false := by decide
    simp only [h2, Bool.and_false, Bool.false_eq_true, if_false] at habs
    rw [hv]
    cases hd : base.drop 2 with
    | nil => rw [hd] at habs; simp at habs
    | cons c rest =>
      rw [hd] at habs
      exact ⟨c, rest, rfl, by simpa using habs, fun _ => rfl⟩

/-- A text with a separator in it ends in a separator followed by a piece free of
separators. -/
theorem last_separator (p : Char → Bool) : ∀ s : GoString, (∃ x ∈ s, p x = true) →
    ∃ pre c t, s = pre ++ c :: t ∧ p c = true ∧ ∀ x ∈ t, p x = false
  | [], h => by simp at h
  | x :: xs, h => by
    by_cases hxs : ∃ y ∈ xs, p y = true
    · obtain ⟨pre, c, t, h1, h2, h3⟩ := last_separator p xs hxs
      exact ⟨x :: pre, c, t, by rw [h1]; rfl, h2, h3⟩
    · have hx : p x = true := by
        obtain ⟨y, hy, hpy⟩ := h
        rcases List.mem_cons.mp hy with h1 | h1
        · rw [← h1]; exact hpy
        · exact absurd ⟨y, h1, hpy⟩ hxs
      refine ⟨[], x, xs, rfl, hx, ?_⟩
      intro y hy
      by_contra hpy
      exact hxs ⟨y, hy, by simpa using hpy⟩

/-! ## Joining a relative path to an absolute base directory -/

theorem foldl_cleanStep_append (rooted : Bool) (es fs out : List GoString) :
    (es ++ fs).foldl (cleanStep rooted) out = fs.foldl (cleanStep rooted) (es.foldl (cleanStep rooted) out) :=
  List.foldl_append _ _ _ _

theorem cleanStep_nil (rooted : Bool) (out : List GoString) : cleanStep rooted out [] = out := by
  simp [cleanStep]

/-- The elements that `Clean` keeps of `base‖mid‖path`, for a rooted `base` that
ends in `c‖t` and an ordinary relative path: those of `base`, then those of the
path; or, when nothing separates `t` from the path, those of `base` with the
first segment of the path glued to `t`. -/
theorem foldl_cleanStep_join (os : GOOS) (pre : GoString) (c : Char) (t : GoString)
    (hc : IsPathSeparator os c = true) (ht : ∀ x ∈ t, IsPathSeparator os x = false)
    (segs : List GoString) (hne : segs ≠ []) (hname : ∀ s ∈ segs, IsNameElem os s)
    (mid : GoString) (hmid : mid = [] ∨ ∃ m, mid = [m] ∧ IsPathSeparator os m = true)
    (hglue : mid = [] → t = [] ∨ IsNameElem os t) :
    (splitElems os (pre ++ c :: (t ++ mid ++ ['/'].intercalate segs))).foldl (cleanStep true) [] =
        (splitElems os (pre ++ c :: t)).foldl (cleanStep true) [] ++ segs ∨
    ∃ seg1 tail, segs = seg1 :: tail ∧ t ≠ [] ∧
      (splitElems os (pre ++ c :: (t ++ mid ++ ['/'].intercalate segs))).foldl (cleanStep true) [] =
        (splitElems os pre).foldl (cleanStep true) [] ++ (t ++ seg1) :: tail ∧
      (splitElems os (pre ++ c :: t)).foldl (cleanStep true) [] =
        (splitElems os pre).foldl (cleanStep true) [] ++ [t] := by
  have hsplitf : splitElems os (['/'].intercalate segs) = segs :=
    splitBy_intercalate _ '/' (IsPathSeparator_slash os) segs hne (fun s hs => (hname s hs).2.2.2)
  have hbase : splitElems os (pre ++ c :: t) = splitElems os pre ++ [t] := by
    unfold splitElems
    rw [splitBy_append_sep _ c hc, splitBy_eq_single _ t ht]
  rcases hmid with hm | ⟨m, hm, hpm⟩
  · -- nothing between the base and the path
    subst hm
    rw [List.append_nil]
    have hsplit : splitElems os (pre ++ c :: (t ++ ['/'].intercalate segs)) =
        splitElems os pre ++ (t ++ segs.headD []) :: segs.tail := by
      unfold splitElems
      rw [splitBy_append_sep _ c hc, splitBy_append_free _ _ t ht]
      unfold splitElems at hsplitf
      rw [hsplitf]
    cases segs with
    | nil => exact absurd rfl hne
    | cons seg1 tail =>
      have hseg1 := hname seg1 (List.mem_cons_self _ _)
      have htail : ∀ s ∈ tail, IsNameElem os s := fun s hs => hname s (List.mem_cons_of_mem _ hs)
      rcases hglue rfl with h0 | hnm
      · left
        subst h0
        rw [hsplit, hbase, foldl_cleanStep_append, foldl_cleanStep_append]
        simp only [List.nil_append, List.headD_cons, List.tail_cons, List.foldl_cons,
          List.foldl_nil, cleanStep_nil]
        rw [← List.foldl_cons, foldl_cleanStep_names os true (seg1 :: tail) _ hname]
      · right
        refine ⟨seg1, tail, rfl, hnm.1, ?_, ?_⟩
        · have hglued : IsNameElem os (t ++ seg1) := by
            refine ⟨by simp [hnm.1], ?_, ?_, ?_⟩
            · intro h
              have h1 := congrArg List.length h
              have h2 := List.length_pos.mpr hnm.1
              have h3 := List.length_pos.mpr hseg1.1
              simp only [List.length_append, List.length_singleton] at h1
              omega
            · intro h
              cases t with
              | nil => exact hnm.1 rfl
              | cons a t =>
                cases t with
                | nil =>
                  simp only [List.singleton_append, List.cons.injEq] at h
                  exact hseg1.2.1 h.2
                | cons b t =>
                  simp only [List.cons_append, List.cons.injEq, List.append_eq_nil] at h
                  exact hseg1.1 h.2.2.2
            · intro x hx
              rcases List.mem_append.mp hx with h | h
              · exact ht x h
              · exact hseg1.2.2.2 x h
          rw [hsplit, foldl_cleanStep_append]
          simp only [List.headD_cons, List.tail_cons]
          rw [foldl_cleanStep_names os true ((t ++ seg1) :: tail) _
            (fun s hs => by
              rcases List.mem_cons.mp hs with h | h
              · rw [h]; exact hglued
              · exact htail s h)]
        · rw [hbase, foldl_cleanStep_append]
          simp only [List.foldl_cons, List.foldl_nil]
          exact cleanStep_name os true _ t hnm
  · -- a separator between the base and the path
    left
    subst hm
    have hsplit : splitElems os (pre ++ c :: (t ++ [m] ++ ['/'].intercalate segs)) =
        splitElems os (pre ++ c :: t) ++ segs := by
      have e : pre ++ c :: (t ++ [m] ++ ['/'].intercalate segs) =
          (pre ++ c :: t) ++ m :: ['/'].intercalate segs := by simp
      rw [e]
      unfold splitElems
      rw [splitBy_append_sep _ m hpm]
      unfold splitElems at hsplitf
      rw [hsplitf]
    rw [hsplit, foldl_cleanStep_append, foldl_cleanStep_names os true segs _ hname]

/-- The text `Clean` writes for the elements of the base directory is the start
of the text it writes for base directory and path together. -/
theorem intercalate_prefix_join (c : Char) (sb s2 p : List GoString) (t : GoString)
    (segs : List GoString) (hne : segs ≠ [])
    (h : s2 = sb ++ segs ∨
      ∃ seg1 tail, segs = seg1 :: tail ∧ t ≠ [] ∧ s2 = p ++ (t ++ seg1) :: tail ∧ sb = p ++ [t]) :
    [c].intercalate sb <+: [c].intercalate s2 := by
  rcases h with h | ⟨seg1, tail, -, -, h2, hb⟩
  · subst h
    cases sb with
    | nil => simp [List.intercalate]
    | cons a sb =>
      rw [intercalate_append c (a :: sb) segs (by simp) hne]
      exact List.prefix_append _ _
  · subst h2 hb
    have hg : [c].intercalate [t] <+: [c].intercalate ((t ++ seg1) :: tail) := by
      rw [intercalate_singleton]
      cases tail with
      | nil => rw [intercalate_singleton]; exact List.prefix_append _ _
      | cons s tail =>
        rw [intercalate_cons_cons, List.append_assoc]
        exact List.prefix_append _ _
    cases p with
    | nil => simpa using hg
    | cons a p =>
      rw [intercalate_append c (a :: p) [t] (by simp) (by simp),
        intercalate_append c (a :: p) ((t ++ seg1) :: tail) (by simp) (by simp)]
      exact (List.prefix_append_right_inj _).mpr ((List.prefix_cons_inj _).mpr hg)

theorem toUpper_ne_question (x : Char) (h : x ≠ '?') : toUpper x ≠ '?' := by
  by_cases hz : 'a' ≤ x ∧ x ≤ 'z'
  · have h1 : 97 ≤ x.toNat := hz.1
    have h2 : x.toNat ≤ 122 := hz.2
    rw [← Char.ofNat_toNat x]
    generalize x.toNat = n at h1 h2
    interval_cases n <;> decide
  · simp [toUpper, hz, h]

/-- The Windows `join` writes `.\` after a lone separator only before an element
that starts with a question mark. -/
theorem pathHasPrefixFold_question (e : GoString)
    (h : pathHasPrefixFold .windows e "??".toList = true) : e.head? = some '?' := by
  cases e with
  | nil => cases h
  | cons c s =>
    have hc : toUpper '?' = toUpper c := by
      have h1 : ((if IsPathSeparator .windows '?' then IsPathSeparator .windows c
          else decide (toUpper '?' = toUpper c)) &&
          pathHasPrefixFold .windows s ['?']) = true := h
      rw [if_neg (by decide), Bool.and_eq_true] at h1
      exact of_decide_eq_true h1.1
    by_cases hq : c = '?'
    · rw [hq]; rfl
    · exact absurd hc.symm (toUpper_ne_question c hq)

/-- `Join` of a non-empty base directory and a relative path that starts with a
character other than a separator: `Clean` of the two texts, with a separator
between them unless (on Windows) the base directory ends in a separator or a
colon.  (The base directory is not a lone separator, or the path does not
start with a question mark.) -/
theorem Join_shape (os : GOOS) (base f : GoString) (hb : base ≠ []) (x : Char) (xs : GoString)
    (hf : f = x :: xs) (hx : IsPathSeparator os x = false)
    (hrule : os = .windows → base.length ≠ 1 ∨ x ≠ '?') :
    ∃ mid, Join os [base, f] = Clean os (base ++ mid ++ f) ∧
      (mid = [] ∨ ∃ m, mid = [m] ∧ IsPathSeparator os m = true) ∧
      (mid = [] → ∃ last, base.getLast? = some last ∧
        (IsPathSeparator os last = true ∨ (IsPathSeparator os last = false ∧ last = ':'))) := by
  cases os with
  | unix =>
    refine ⟨['/'], ?_, Or.inr ⟨'/', rfl, rfl⟩, by simp⟩
    unfold Join
    simp only [List.dropWhile_cons, hb, decide_False, Bool.false_eq_true, if_false]
    rw [intercalate_cons_cons, intercalate_singleton]
    simp
  | windows =>
    cases hlast : base.getLast? with
    | none => exact absurd (List.getLast?_eq_none_iff.mp hlast) hb
    | some last =>
      have hstep0 : joinStepWindows [] base = base := by simp [joinStepWindows]
      have hfold : [base, f].foldl joinStepWindows [] = joinStepWindows base f := by
        simp [List.foldl, hstep0]
      by_cases hs : IsPathSeparator .windows last = true
      · refine ⟨[], ?_, Or.inl rfl, fun _ => ⟨last, rfl, Or.inl hs⟩⟩
        have hj : joinStepWindows base f = base ++ f := by
          have hd : f.dropWhile (IsPathSeparator .windows) = f := by
            rw [hf, List.dropWhile_cons, hx]
            simp
          simp only [joinStepWindows, hlast, hs, if_true, hd]
          rw [if_neg]
          rintro ⟨h1, h2⟩
          have h3 := pathHasPrefixFold_question f h2
          rw [hf] at h3
          rcases hrule rfl with h | h
          · exact h h1
          · exact h (by simpa using h3)
        unfold Join
        simp only [hfold, hj, List.append_nil]
        cases hbf : base ++ f with
        | nil => simp [hb] at hbf
        | cons a as => rfl
      · by_cases hcol : last = ':'
        · refine ⟨[], ?_, Or.inl rfl, fun _ => ⟨last, rfl, Or.inr ⟨by simpa using hs, hcol⟩⟩⟩
          have hj : joinStepWindows base f = base ++ f := by
            have hs2 : IsPathSeparator .windows ':' = false := by decide
            simp only [joinStepWindows, hlast, hcol, hs2, Bool.false_eq_true, if_true, if_false]
          unfold Join
          simp only [hfold, hj, List.append_nil]
          cases hbf : base ++ f with
          | nil => simp [hb] at hbf
          | cons a as => rfl
        · refine ⟨['\\'], ?_, Or.inr ⟨'\\', rfl, rfl⟩, by simp⟩
          have hj : joinStepWindows base f = base ++ '\\' :: f := by
            simp only [joinStepWindows, hlast, hs, hcol, if_false]
            simp
          unfold Join
          simp only [hfold, hj]
          cases hbf : base ++ '\\' :: f with
          | nil => simp at hbf
          | cons a as => simp [← hbf]

/-- The path stage of `handleUpload` on a request path `/upload/key/name`. -/
theorem upload_path_parts (key name : GoString) (hkey : '/' ∉ key) :
    SplitN2 (TrimPrefix ("/upload/".toList ++ key ++ '/' :: name) "/upload/".toList) '/' =
      [key, name] := by
  have h1 : TrimPrefix ("/upload/".toList ++ key ++ '/' :: name) "/upload/".toList =
      key ++ '/' :: name := by
    unfold TrimPrefix HasPrefix
    rw [List.append_assoc, if_pos (List.isPrefixOf_iff_prefix.mpr (List.prefix_append _ _))]
    exact List.drop_left _ _
  have h2 : (key ++ '/' :: name).contains '/' = true := by simp
  have h3 : ∀ (k : GoString), '/' ∉ k →
      (k ++ '/' :: name).takeWhile (· != '/') = k ∧
      (k ++ '/' :: name).dropWhile (· != '/') = '/' :: name := by
    intro k
    induction k with
    | nil => intro _; simp
    | cons a k ih =>
      intro hk
      have ha : a ≠ '/' := fun e => hk (e ▸ List.mem_cons_self _ _)
      have := ih (fun hm => hk (List.mem_cons_of_mem _ hm))
      simp [ha, this.1, this.2]
  rw [h1]
  unfold SplitN2
  rw [if_pos h2, (h3 key hkey).1, (h3 key hkey).2]
  rfl

/-- The base directory ends in `c‖t`; when `Join` puts nothing between it and the
path, `t` is empty or a name element that ends in a colon. -/
theorem glue_condition (os : GOOS) (v pre : GoString) (c : Char) (t : GoString)
    (ht : ∀ x ∈ t, IsPathSeparator os x = false)
    (last : Char) (hlast : (v ++ (pre ++ c :: t)).getLast? = some last)
    (hcase : IsPathSeparator os last = true ∨ (IsPathSeparator os last = false ∧ last = ':')) :
    t = [] ∨ IsNameElem os t := by
  cases ht0 : t with
  | nil => exact Or.inl rfl
  | cons a as =>
    right
    rw [← ht0]
    have hne : t ≠ [] := by rw [ht0]; simp
    have hl : t.getLast? = some last := by
      have e : v ++ (pre ++ c :: t) = (v ++ pre ++ [c]) ++ t := by simp
      rw [e, List.getLast?_append_of_ne_nil _ hne] at hlast
      exact hlast
    have hmem : last ∈ t := List.mem_of_getLast?_eq_some hl
    have hcolon : last = ':' := by
      rcases hcase with h | h
      · rw [ht last hmem] at h; exact absurd h (by simp)
      · exact h.2
    rw [hcolon] at hmem
    refine ⟨hne, ?_, ?_, ht⟩
    · intro h; rw [h] at hmem; exact absurd hmem (by decide)
    · intro h; rw [h] at hmem; exact absurd hmem (by decide)

/-- An ordinary relative path joined to an absolute base directory (on Windows:
one with a drive letter): the result is absolute and clean, and the cleaned base
directory is the start of it. -/
theorem Join_abs_ordinary (os : GOOS) (base : GoString) (habs : IsAbs os base = true)
    (hdrive : os = .windows → base.get? 1 = some ':')
    (segs : List GoString) (hne : segs ≠ []) (hname : ∀ s ∈ segs, IsNameElem os s) :
    IsAbs os (Join os [base, ['/'].intercalate segs]) = true ∧
    Clean os (Join os [base, ['/'].intercalate segs]) = Join os [base, ['/'].intercalate segs] ∧
    Clean os base <+: Join os [base, ['/'].intercalate segs] := by
  obtain ⟨c, rest, hdrop, hc, hv2⟩ := IsAbs_shape os base habs hdrive
  have hvol : os = .windows → volumeNameLen os base ≠ 0 := fun h => by rw [hv2 h]; decide
  obtain ⟨hCb, hSb⟩ := Clean_rooted os base c rest hdrop hc hvol
  have hvlt : volumeNameLen os base < base.length := by
    by_contra hge
    rw [List.drop_eq_nil_of_le (by omega)] at hdrop
    simp at hdrop
  have hbne : base ≠ [] := by
    intro h; rw [h] at hvlt; simp at hvlt
  obtain ⟨x, xs, s, srest, hsegs, hs, ys, hys⟩ :=
    ordinary_head '/' segs hne (fun s hs => (hname s hs).1)
  have hx : IsPathSeparator os x = false :=
    (hname s (by rw [hsegs]; exact List.mem_cons_self _ _)).2.2.2 x
      (by rw [hs]; exact List.mem_cons_self _ _)
  obtain ⟨mid, hJ, hmid, hlast⟩ := Join_shape os base _ hbne x ys hys hx
    (fun hw => Or.inl (fun h1 => by
      have := hv2 hw
      omega))
  obtain ⟨pre, c2, t, hdec, hc2, ht⟩ :=
    last_separator (IsPathSeparator os) (c :: rest) ⟨c, List.mem_cons_self _ _, hc⟩
  have hbase : base = base.take (volumeNameLen os base) ++ (pre ++ c2 :: t) := by
    rw [← hdec, ← hdrop, List.take_append_drop]
  have hglue : mid = [] → t = [] ∨ IsNameElem os t := by
    intro hm
    obtain ⟨last, hl, hcase⟩ := hlast hm
    rw [hbase] at hl
    exact glue_condition os _ pre c2 t ht last hl hcase
  -- the joined text has the volume name of the base directory
  have hvJ : volumeNameLen os (base ++ mid ++ ['/'].intercalate segs) = volumeNameLen os base := by
    cases os with
    | unix => rfl
    | windows =>
      rw [hv2 rfl]
      apply volumeNameLen_drive
      have h1 : 1 < base.length := by have := hv2 rfl; omega
      rw [List.append_assoc, List.get?_eq_getElem?, List.getElem?_append_left h1,
        ← List.get?_eq_getElem?]
      exact hdrive rfl
  have hdropJ : (base ++ mid ++ ['/'].intercalate segs).drop
      (volumeNameLen os (base ++ mid ++ ['/'].intercalate segs)) =
        c :: (rest ++ mid ++ ['/'].intercalate segs) := by
    rw [hvJ, List.append_assoc, List.drop_append_of_le_length (by omega), hdrop]
    simp
  have htakeJ : (base ++ mid ++ ['/'].intercalate segs).take
      (volumeNameLen os (base ++ mid ++ ['/'].intercalate segs)) =
        base.take (volumeNameLen os base) := by
    rw [hvJ, List.append_assoc, List.take_append_of_le_length (by omega)]
  obtain ⟨hCJ, hSJ⟩ := Clean_rooted os _ c _ hdropJ hc (fun h => by rw [hvJ]; exact hvol h)
  rw [htakeJ] at hCJ
  -- the elements kept from the joined text
  have hrw : c :: (rest ++ mid ++ ['/'].intercalate segs) =
      pre ++ c2 :: (t ++ mid ++ ['/'].intercalate segs) := by
    have : c :: (rest ++ mid ++ ['/'].intercalate segs) =
        (c :: rest) ++ mid ++ ['/'].intercalate segs := by simp
    rw [this, hdec]; simp
  have hshape := foldl_cleanStep_join os pre c2 t hc2 ht segs hne hname mid hmid hglue
  rw [← hrw, ← hdec] at hshape
  have hpre := intercalate_prefix_join (Separator os) _ _
    ((splitElems os pre).foldl (cleanStep true) []) t segs hne hshape
  have hS2ne : (splitElems os (c :: (rest ++ mid ++ ['/'].intercalate segs))).foldl
      (cleanStep true) [] ≠ [] := by
    rcases hshape with h | ⟨seg1, tail, -, -, h, -⟩
    · rw [h]; simp [hne]
    · rw [h]; simp
  generalize hS2 : (splitElems os (c :: (rest ++ mid ++ ['/'].intercalate segs))).foldl
    (cleanStep true) [] = S2 at hCJ hSJ hpre hS2ne
  generalize hSbdef : (splitElems os (c :: rest)).foldl (cleanStep true) [] = Sb at hCb hSb hpre
  generalize hVdef : FromSlash os (base.take (volumeNameLen os base)) = V at hCb hCJ
  have hVlen : V.length = volumeNameLen os base := by
    rw [← hVdef]
    cases os <;> simp [FromSlash] <;> omega
  rw [hJ, hCJ]
  -- the result, `V ‖ sep ‖ elements`
  have hvR : volumeNameLen os (V ++ renderElems os true S2) = volumeNameLen os base := by
    cases os with
    | unix => rfl
    | windows =>
      rw [hv2 rfl]
      apply volumeNameLen_drive
      have h1 : 1 < V.length := by rw [hVlen, hv2 rfl]; decide
      rw [List.get?_eq_getElem?, List.getElem?_append_left h1, ← hVdef]
      have h2 : 1 < base.length := by have := hv2 rfl; omega
      have h3 : (base.take (volumeNameLen GOOS.windows base)).get? 1 = some ':' := by
        rw [hv2 rfl, List.get?_eq_getElem?, List.getElem?_take_of_lt (by decide),
          ← List.get?_eq_getElem?]
        exact hdrive rfl
      simp only [FromSlash, List.get?_eq_getElem?, List.getElem?_map] at h3 ⊢
      rw [h3]; rfl
  have hdropR : (V ++ renderElems os true S2).drop (volumeNameLen os (V ++ renderElems os true S2)) =
      Separator os :: [Separator os].intercalate S2 := by
    rw [hvR, ← hVlen, List.drop_left, renderElems_rooted]
  have htakeR : (V ++ renderElems os true S2).take (volumeNameLen os (V ++ renderElems os true S2)) =
      V := by
    rw [hvR, ← hVlen, List.take_left]
  refine ⟨?_, ?_, ?_⟩
  · -- absolute
    cases os with
    | unix =>
      have hV0 : V = [] := List.length_eq_zero.mp (by rw [hVlen]; rfl)
      rw [hV0, renderElems_rooted]
      simp [IsAbs, HasPrefix, List.isPrefixOf, Separator, isPrefixOf_nil_left]
    | windows =>
      unfold IsAbs
      simp only [hvR, hv2 rfl]
      have h1 : 1 < V.length := by rw [hVlen, hv2 rfl]; decide
      have hg : (V ++ renderElems .windows true S2).getD 1 'x' = ':' := by
        have h2 : 1 < base.length := by have := hv2 rfl; omega
        have h3 : (base.take (volumeNameLen GOOS.windows base)).get? 1 = some ':' := by
          rw [hv2 rfl, List.get?_eq_getElem?, List.getElem?_take_of_lt (by decide),
            ← List.get?_eq_getElem?]
          exact hdrive rfl
        rw [List.getD_eq_getElem?_getD, List.getElem?_append_left h1, ← hVdef]
        simp only [FromSlash, List.get?_eq_getElem?, List.getElem?_map] at h3 ⊢
        rw [h3]; rfl
      have hsepc : IsPathSeparator .windows ':' = false := by decide
      have hd := hdropR
      rw [hvR, hv2 rfl] at hd
      simp only [hg, hsepc, Bool.and_false, Bool.false_eq_true, if_false, hd]
      simp [Separator, IsPathSeparator]
  · -- clean
    obtain ⟨hCR, -⟩ := Clean_rooted os _ (Separator os) _ hdropR (IsPathSeparator_Separator os)
      (fun h => by rw [hvR]; exact hvol h)
    rw [hCR, htakeR]
    have hV2 : FromSlash os V = V := by rw [← hVdef]; exact FromSlash_idem os _
    have hsplit : splitElems os (Separator os :: [Separator os].intercalate S2) = [] :: S2 := by
      unfold splitElems
      rw [splitBy, if_pos (IsPathSeparator_Separator os),
        splitBy_intercalate _ _ (IsPathSeparator_Separator os) S2 hS2ne
          (fun s hs => (hSJ s hs).2.2.2)]
    rw [hV2, hsplit, List.foldl_cons, cleanStep_nil, foldl_cleanStep_names os true S2 [] hSJ]
    simp
  · -- starts with the cleaned base directory
    rw [hCb, renderElems_rooted, renderElems_rooted]
    exact (List.prefix_append_right_inj _).mpr ((List.prefix_cons_inj _).mpr hpre)

/-! ## The file system: what an operation can change -/

theorem mem_dirChain (os : GOOS) (path q : GoString) (h : q ∈ dirChain os path) :
    q <+: path ∧ ∀ q0 c, q = q0 ++ [c] → IsPathSeparator os c = false := by
  unfold dirChain at h
  rw [List.mem_filterMap] at h
  obtain ⟨i, -, hi⟩ := h
  split_ifs at hi with hc
  obtain ⟨-, -, h3⟩ := hc
  cases hi
  refine ⟨ List.take_prefix _ _, ?_⟩
  intro q0 c hq
  rw [hq] at h3
  simpa using h3

theorem FileSystem_set_ne (fs : FileSystem) (p q : GoString) (n : Node) (h : q ≠ p) :
    fs.set p n q = fs q := by
  simp [FileSystem.set, h]

theorem FileSystem_set_self (fs : FileSystem) (p : GoString) (n : Node) :
    fs.set p n p = some n := by
  simp [FileSystem.set]

/-- The recursion of `MkdirAll` changes nothing but missing directories of the
chain, which it makes. -/
theorem mkdirUp_frame : ∀ (ds : List GoString) (fs : FileSystem) (q : GoString),
    (mkdirUp fs ds).1 q ≠ fs q →
      q ∈ ds ∧ fs q = none ∧ (mkdirUp fs ds).1 q = some .dir
  | [], fs, q, h => absurd rfl h
  | d :: ds, fs, q, h => by
    unfold mkdirUp at h ⊢
    cases hd : fs d with
    | some n =>
      cases n with
      | dir => simp only [hd] at h; exact absurd rfl h
      | file perm data => simp only [hd] at h; exact absurd rfl h
    | none =>
      simp only [hd] at h ⊢
      have ih := mkdirUp_frame ds fs q
      rcases hrec : mkdirUp fs ds with ⟨fs1, ok⟩
      rw [hrec] at h ih
      cases ok with
      | false =>
        obtain ⟨h1, h2, h3⟩ := ih h
        exact ⟨List.mem_cons_of_mem _ h1, h2, h3⟩
      | true =>
        simp only [] at h ih ⊢
        by_cases hq : q = d
        · subst hq
          exact ⟨List.mem_cons_self _ _, hd, FileSystem_set_self _ _ _⟩
        · rw [FileSystem_set_ne _ _ _ _ hq] at h ⊢
          obtain ⟨h1, h2, h3⟩ := ih h
          exact ⟨List.mem_cons_of_mem _ h1, h2, h3⟩

theorem MkdirAllOn_frame (key : GoString → GoString) (os : GOOS) (fs : FileSystem)
    (path k : GoString) (h : (MkdirAllOn key os fs path).1 k ≠ fs k) :
    (∃ q ∈ dirChain os path, key q = k) ∧ fs k = none ∧
      (MkdirAllOn key os fs path).1 k = some .dir := by
  unfold MkdirAllOn at h ⊢
  by_cases hp : path = []
  · simp only [hp, if_true] at h
    exact absurd rfl h
  · simp only [hp, if_false] at h ⊢
    obtain ⟨h1, h2, h3⟩ := mkdirUp_frame _ fs k h
    obtain ⟨q, hq1, hq2⟩ := List.mem_map.mp h1
    exact ⟨⟨q, List.mem_reverse.mp hq1, hq2⟩, h2, h3⟩

theorem MkdirAll_frame (os : GOOS) (fs : FileSystem) (path q : GoString)
    (h : (MkdirAll os fs path).1 q ≠ fs q) :
    q ∈ dirChain os path ∧ fs q = none ∧ (MkdirAll os fs path).1 q = some .dir := by
  unfold MkdirAll at h ⊢
  by_cases hp : path = []
  · simp only [hp, if_true] at h
    exact absurd rfl h
  · simp only [hp, if_false] at h ⊢
    obtain ⟨h1, h2, h3⟩ := mkdirUp_frame _ fs q h
    exact ⟨List.mem_reverse.mp h1, h2, h3⟩

theorem OpenFile_frame (fs fs2 : FileSystem) (path : GoString) (perm : Nat)
    (h : OpenFile fs path perm = some fs2) (q : GoString) (hq : fs2 q ≠ fs q) : q = path := by
  by_contra hne
  apply hq
  unfold OpenFile at h
  cases hp : fs path with
  | some n =>
    cases n with
    | dir => simp [hp] at h
    | file p data =>
      simp only [hp, Option.some.injEq] at h
      rw [← h, FileSystem_set_ne _ _ _ _ hne]
  | none =>
    simp only [hp, Option.some.injEq] at h
    rw [← h, FileSystem_set_ne _ _ _ _ hne]

theorem writeFileData_frame (fs : FileSystem) (path : GoString) (data : List UInt8)
    (q : GoString) (hq : writeFileData fs path data q ≠ fs q) : q = path := by
  by_contra hne
  apply hq
  unfold writeFileData
  cases hp : fs path with
  | some n =>
    cases n with
    | dir => rfl
    | file p d => simp only [FileSystem_set_ne _ _ _ _ hne]
  | none => rfl

/-- Two changes in a row, each of them either inside `A` or the making of a
missing directory inside `B`. -/
theorem frame_trans (A B : GoString → Prop) (fs fs1 out : FileSystem)
    (H1 : ∀ q, fs1 q ≠ fs q → A q ∨ (B q ∧ fs q = none ∧ fs1 q = some .dir))
    (H2 : ∀ q, out q ≠ fs1 q → A q ∨ (B q ∧ fs1 q = none ∧ out q = some .dir)) :
    ∀ q, out q ≠ fs q → A q ∨ (B q ∧ fs q = none ∧ out q = some .dir) := by
  intro q hq
  by_cases h1 : out q = fs1 q
  · rcases H1 q (by rw [← h1]; exact hq) with h | ⟨hb, h0, hd⟩
    · exact Or.inl h
    · exact Or.inr ⟨hb, h0, by rw [h1]; exact hd⟩
  · rcases H2 q h1 with h | ⟨hb, h0, hd⟩
    · exact Or.inl h
    · by_cases h2 : fs1 q = fs q
      · exact Or.inr ⟨hb, by rw [← h2]; exact h0, hd⟩
      · rcases H1 q h2 with h | ⟨-, -, hd1⟩
        · exact Or.inl h
        · rw [h0] at hd1; cases hd1

/-- A start of a path under `D‖sep` that does not end in a separator is under
`D‖sep` itself or a start of `D`. -/
theorem prefix_dichotomy (os : GOOS) (D q fpath : GoString) (hq : q <+: fpath)
    (hD : (D ++ [Separator os]) <+: fpath)
    (hend : ∀ q0 c, q = q0 ++ [c] → IsPathSeparator os c = false) :
    (D ++ [Separator os]) <+: q ∨ q <+: D := by
  rcases List.prefix_or_prefix_of_prefix hq hD with h | h
  · rcases List.prefix_concat_iff.mp h with h1 | h1
    · have := hend D (Separator os) h1
      rw [IsPathSeparator_Separator] at this
      cases this
    · exact Or.inr h1
  · exact Or.inl h

/-- What `MkdirAllOn` on a start of a path under `D‖sep` can change: files named
by a path under `D‖sep`, and missing directories named by a start of `D`. -/
theorem MkdirAllOn_under (key : GoString → GoString) (os : GOOS) (D p fpath : GoString)
    (fs : FileSystem) (hp : p <+: fpath) (hD : (D ++ [Separator os]) <+: fpath) (k : GoString)
    (h : (MkdirAllOn key os fs p).1 k ≠ fs k) :
    (∃ q, (D ++ [Separator os]) <+: q ∧ key q = k) ∨
      ((∃ q, q <+: D ∧ key q = k) ∧ fs k = none ∧ (MkdirAllOn key os fs p).1 k = some .dir) := by
  obtain ⟨⟨q, h1, hk⟩, h2, h3⟩ := MkdirAllOn_frame key os fs p k h
  obtain ⟨h4, h5⟩ := mem_dirChain os p q h1
  rcases prefix_dichotomy os D q fpath (h4.trans hp) hD h5 with h6 | h6
  · exact Or.inl ⟨q, h6, hk⟩
  · exact Or.inr ⟨⟨q, h6, hk⟩, h2, h3⟩

/-- The loop of `unzipFile` changes nothing but files named by a path under the
cleaned destination followed by a separator, and missing directories named by a
start of the cleaned destination, which it makes. -/
theorem unzipEntriesOn_frame (key : GoString → GoString) (os : GOOS) (src dest : GoString)
    (hdir : ∀ name, HasPrefix (Join os [dest, name]) (Clean os dest ++ [Separator os]) = true →
      Dir os (Join os [dest, name]) <+: Join os [dest, name]) :
    ∀ (entries : List ZipEntry) (fs : FileSystem) (k : GoString),
      (unzipEntriesOn key os src dest fs entries).1 k ≠ fs k →
        (∃ q, (Clean os dest ++ [Separator os]) <+: q ∧ key q = k) ∨
          ((∃ q, q <+: Clean os dest ∧ key q = k) ∧ fs k = none ∧
            (unzipEntriesOn key os src dest fs entries).1 k = some .dir)
  | [], fs, k, h => absurd rfl h
  | f :: rest, fs, k, h => by
    revert k
    unfold unzipEntriesOn
    simp only []
    by_cases hlegal : HasPrefix (Join os [dest, f.Name]) (Clean os dest ++ [Separator os]) = true
    · have hD : (Clean os dest ++ [Separator os]) <+: Join os [dest, f.Name] :=
        List.isPrefixOf_iff_prefix.mp hlegal
      simp only [hlegal, Bool.not_true, Bool.false_eq_true, if_false]
      by_cases hisdir : f.IsDir = true
      · simp only [hisdir, if_true]
        exact frame_trans _ _ fs _ _
          (MkdirAllOn_under key os _ _ _ fs (List.prefix_refl _) hD)
          (unzipEntriesOn_frame key os src dest hdir rest _)
      · simp only [hisdir, Bool.false_eq_true, if_false]
        have hM := MkdirAllOn_under key os _ _ _ fs (hdir f.Name hlegal) hD
        rcases hmk : MkdirAllOn key os fs (Dir os (Join os [dest, f.Name])) with ⟨fs1, ok⟩
        rw [hmk] at hM
        cases ok with
        | false => exact hM
        | true =>
          simp only []
          cases hop : OpenFile fs1 (key (Join os [dest, f.Name])) f.Mode with
          | none => exact hM
          | some fs2 =>
            simp only []
            have hO : ∀ k, fs2 k ≠ fs1 k →
                (∃ q, (Clean os dest ++ [Separator os]) <+: q ∧ key q = k) ∨
                ((∃ q, q <+: Clean os dest ∧ key q = k) ∧ fs1 k = none ∧ fs2 k = some .dir) :=
              fun k hk => Or.inl ⟨_, hD, (OpenFile_frame fs1 fs2 _ _ hop k hk).symm⟩
            have hMO := frame_trans _ _ fs fs1 fs2 hM hO
            by_cases hof : (f.OpenFails ||
                decide (key (Join os [dest, f.Name]) = key src)) = true
            · simp only [hof, if_true]
              exact hMO
            · simp only [hof, Bool.false_eq_true, if_false]
              have hW : ∀ k,
                  writeFileData fs2 (key (Join os [dest, f.Name])) f.Data k ≠ fs2 k →
                  (∃ q, (Clean os dest ++ [Separator os]) <+: q ∧ key q = k) ∨
                  ((∃ q, q <+: Clean os dest ∧ key q = k) ∧ fs2 k = none ∧
                    writeFileData fs2 (key (Join os [dest, f.Name])) f.Data k = some .dir) :=
                fun k hk => Or.inl ⟨_, hD, (writeFileData_frame fs2 _ _ k hk).symm⟩
              have hMOW := frame_trans _ _ fs fs2 _ hMO hW
              by_cases hcf : f.CopyFails = true
              · simp only [hcf, if_true]
                exact hMOW
              · simp only [hcf, Bool.false_eq_true, if_false]
                exact frame_trans _ _ fs _ _ hMOW
                  (unzipEntriesOn_frame key os src dest hdir rest _)
    · simp only [hlegal, Bool.not_false, if_true]
      intro k h
      exact absurd rfl h

/-- An entry that fails the check ends the loop: the entries before it have been
extracted, the ones after it are not looked at. -/
theorem unzipEntriesOn_illegal (key : GoString → GoString) (os : GOOS) (src dest : GoString)
    (bad : ZipEntry) (post : List ZipEntry)
    (hbad : HasPrefix (Join os [dest, bad.Name]) (Clean os dest ++ [Separator os]) = false) :
    ∀ (pre : List ZipEntry) (fs : FileSystem),
      (unzipEntriesOn key os src dest fs pre).2 = none →
      unzipEntriesOn key os src dest fs (pre ++ bad :: post) =
        ((unzipEntriesOn key os src dest fs pre).1, some (.illegalPath bad.Name))
  | [], fs, _ => by
    simp only [List.nil_append]
    unfold unzipEntriesOn
    simp [hbad]
  | f :: pre, fs, h => by
    rw [List.cons_append]
    unfold unzipEntriesOn at h ⊢
    simp only [] at h ⊢
    by_cases hlegal : HasPrefix (Join os [dest, f.Name]) (Clean os dest ++ [Separator os]) = true
    · simp only [hlegal, Bool.not_true, Bool.false_eq_true, if_false] at h ⊢
      by_cases hisdir : f.IsDir = true
      · simp only [hisdir, if_true] at h ⊢
        exact unzipEntriesOn_illegal key os src dest bad post hbad pre _ h
      · simp only [hisdir, Bool.false_eq_true, if_false] at h ⊢
        rcases hmk : MkdirAllOn key os fs (Dir os (Join os [dest, f.Name])) with ⟨fs1, ok⟩
        rw [hmk] at h
        cases ok with
        | false => simp at h
        | true =>
          simp only [] at h ⊢
          cases hop : OpenFile fs1 (key (Join os [dest, f.Name])) f.Mode with
          | none => rw [hop] at h; simp at h
          | some fs2 =>
            rw [hop] at h
            simp only [] at h ⊢
            by_cases hof : (f.OpenFails ||
                decide (key (Join os [dest, f.Name]) = key src)) = true
            · rw [if_pos hof] at h
              cases h
            · simp only [if_neg hof] at h ⊢
              by_cases hcf : f.CopyFails = true
              · simp [hcf] at h
              · simp only [hcf, Bool.false_eq_true, if_false] at h ⊢
                exact unzipEntriesOn_illegal key os src dest bad post hbad pre _ h
    · simp [hlegal] at h

/-- With every path naming a file of its own, `MkdirAllOn` is `MkdirAll`. -/
theorem MkdirAllOn_id (os : GOOS) (fs : FileSystem) (path : GoString) :
    MkdirAllOn (fun p => p) os fs path = MkdirAll os fs path := by
  unfold MkdirAllOn MkdirAll
  rw [List.map_id']

/-- With every path naming a file of its own, the loop of `unzipFileOn` is the
loop of `unzipFile`. -/
theorem unzipEntriesOn_id (os : GOOS) (src dest : GoString) :
    ∀ (entries : List ZipEntry) (fs : FileSystem),
      unzipEntriesOn (fun p => p) os src dest fs entries = unzipEntries os src dest fs entries
  | [], fs => by
    unfold unzipEntriesOn unzipEntries
    rfl
  | f :: rest, fs => by
    unfold unzipEntriesOn unzipEntries
    simp only [MkdirAllOn_id, unzipEntriesOn_id os src dest rest]

theorem unzipFileOn_id (os : GOOS) (zipOpenReader : List UInt8 → Option (List ZipEntry))
    (fs : FileSystem) (src dest : GoString) :
    unzipFileOn (fun p => p) os zipOpenReader fs src dest =
      unzipFile os zipOpenReader fs src dest := by
  unfold unzipFileOn unzipFile
  simp only [MkdirAllOn_id, unzipEntriesOn_id]

/-! ## Path elements: where their characters come from -/

/-- A Windows path that starts with one separator and goes on with a character
that is no separator, colon or question mark has no volume name. -/
theorem volumeNameLen_rooted_plain (os : GOOS) (s x : Char) (rest : GoString)
    (hs : IsPathSeparator os s = true) (hx : IsPathSeparator os x = false)
    (hc : x ≠ ':') (hq : x ≠ '?') : volumeNameLen os (s :: x :: rest) = 0 := by
  cases os with
  | unix => rfl
  | windows =>
    have hU : toUpper '?' = '?' := by decide
    have hq2 : ¬ ('?' = toUpper x) := fun e => toUpper_ne_question x hq e.symm
    have hb : IsPathSeparator .windows '\\' = true := by decide
    have hqs : IsPathSeparator .windows '?' = false := by decide
    simp [volumeNameLen, pathHasPrefixFold, hs, hx, hc, hb, hqs, hU, hq2]

theorem foldl_cleanStep_subset (rooted : Bool) : ∀ (es out : List GoString) (a : GoString),
    a ∈ es.foldl (cleanStep rooted) out → a ∈ out ∨ a ∈ es
  | [], out, a, h => Or.inl h
  | e :: es, out, a, h => by
    rw [List.foldl_cons] at h
    rcases foldl_cleanStep_subset rooted es _ a h with h1 | h1
    · have : a ∈ out ∨ a = e := by
        unfold cleanStep at h1
        simp only [] at h1
        split_ifs at h1
        all_goals first
          | exact Or.inl h1
          | exact Or.inl (List.mem_of_mem_dropLast h1)
          | (rcases List.mem_append.mp h1 with h2 | h2
             · exact Or.inl h2
             · exact Or.inr (by simpa using h2))
      rcases this with h2 | h2
      · exact Or.inl h2
      · exact Or.inr (h2 ▸ List.mem_cons_self _ _)
    · exact Or.inr (List.mem_cons_of_mem _ h1)

theorem mem_of_mem_splitBy (p : Char → Bool) : ∀ (s e : GoString), e ∈ splitBy p s →
    ∀ x ∈ e, x ∈ s
  | [], e, he => by
    simp only [splitBy, List.mem_singleton] at he
    subst he; simp
  | c :: cs, e, he => by
    unfold splitBy at he
    intro x hx
    split_ifs at he with hc
    · rcases List.mem_cons.mp he with h | h
      · subst h; simp at hx
      · exact List.mem_cons_of_mem _ (mem_of_mem_splitBy p cs e h x hx)
    · cases hsp : splitBy p cs with
      | nil => exact absurd hsp (splitBy_ne_nil p cs)
      | cons e1 es =>
        rw [hsp] at he
        rcases List.mem_cons.mp he with h | h
        · subst h
          rcases List.mem_cons.mp hx with h2 | h2
          · rw [h2]; exact List.mem_cons_self _ _
          · exact List.mem_cons_of_mem _
              (mem_of_mem_splitBy p cs e1 (by rw [hsp]; exact List.mem_cons_self _ _) x h2)
        · exact List.mem_cons_of_mem _
            (mem_of_mem_splitBy p cs e (by rw [hsp]; exact List.mem_cons_of_mem _ h) x hx)

/-- The text up to the last separator, as `Dir` cuts it. -/
theorem dropWhile_reverse_last (p : Char → Bool) (P : GoString) (s : Char) (l : GoString)
    (hs : p s = true) (hl : ∀ x ∈ l, p x = false) :
    ((P ++ s :: l).reverse.dropWhile fun c => !(p c)).reverse = P ++ [s] := by
  have h1 : (P ++ s :: l).reverse = l.reverse ++ s :: P.reverse := by simp
  have h2 : ∀ (A B : GoString), (∀ x ∈ A, p x = false) →
      (A ++ s :: B).dropWhile (fun c => !(p c)) = s :: B := by
    intro A B hA
    induction A with
    | nil => simp [List.dropWhile, hs]
    | cons a A ih =>
      have ha : p a = false := hA a (List.mem_cons_self _ _)
      simp only [List.cons_append, List.dropWhile, ha, Bool.not_false]
      exact ih (fun x hx => hA x (List.mem_cons_of_mem _ hx))
  rw [h1, h2 _ _ (fun x hx => hl x (List.mem_reverse.mp hx))]
  simp

/-! ## The entry `../evil.txt` -/

theorem evil_name (os : GOOS) : IsNameElem os "evil.txt".toList := by
  cases os <;> exact ⟨by decide, by decide, by decide, by decide⟩

theorem evil_split (os : GOOS) :
    splitBy (IsPathSeparator os) "../evil.txt".toList = ["..".toList, "evil.txt".toList] := by
  cases os <;> decide

/-- The text of joined elements, cut after some leading elements. -/
theorem intercalate_split (c : Char) (P : List GoString) :
    ∃ Z, ∀ L : List GoString, L ≠ [] → [c].intercalate (P ++ L) = Z ++ [c].intercalate L := by
  by_cases hP : P = []
  · exact ⟨[], fun L _ => by rw [hP]; rfl⟩
  · refine ⟨[c].intercalate P ++ [c], fun L hL => ?_⟩
    rw [intercalate_append c P L hP hL]
    simp

/-! ## C11: security switched off -/

/-- C11. Security opt-out: when `config.Security.Enabled` is false,
`verifyRequest` accepts every request with the empty reason, whatever the
request, the server time, the allow-list, the public key (of any length, so the
call does not panic either) and the timestamp limit. -/
theorem security_opt_out (E : Ed25519) (srv : Server) (now : Int) (r : Request)
    (h : srv.config.Security.Enabled = false) :
    verifyRequest E srv now r = .ok (true, .empty) := by
  unfold verifyRequest
  simp [h]

/-- C11, witness: a server with security off, an allow-list that does not hold
the client, no public key, and a request without any authentication header. -/
theorem security_opt_out_witness :
    exampleOpenServer.config.Security.Enabled = false ∧
    verifyRequest toyEd25519 exampleOpenServer 1700000000
      (exampleRequest "/upload/web/a.txt".toList [] [] []) = .ok (true, .empty) :=
  ⟨rfl, security_opt_out toyEd25519 exampleOpenServer 1700000000 _ rfl⟩

/-! ## C12: the format of the private key -/

/-- C12. Private-key format: `Sign` and `GetPublicKeyFromPrivate` succeed exactly
when the private key text is valid hex that decodes to 64 or to 32 bytes; on
invalid hex both return the invalid-format error, on any other decoded length
both return the length error; so both accept the same keys. -/
theorem private_key_format (E : Ed25519) (privateKeyHex message : GoString) :
    ((∃ sig, Sign E privateKeyHex message = .ok sig) ↔
      ∃ keyBytes, DecodeString privateKeyHex = some keyBytes ∧
        (keyBytes.length = 64 ∨ keyBytes.length = 32)) ∧
    ((∃ pub, GetPublicKeyFromPrivate E privateKeyHex = .ok pub) ↔
      ∃ keyBytes, DecodeString privateKeyHex = some keyBytes ∧
        (keyBytes.length = 64 ∨ keyBytes.length = 32)) ∧
    (DecodeString privateKeyHex = none →
      Sign E privateKeyHex message = .error .invalidHex ∧
      GetPublicKeyFromPrivate E privateKeyHex = .error .invalidHex) ∧
    (∀ keyBytes, DecodeString privateKeyHex = some keyBytes →
      keyBytes.length ≠ 64 → keyBytes.length ≠ 32 →
      Sign E privateKeyHex message = .error .badLength ∧
      GetPublicKeyFromPrivate E privateKeyHex = .error .badLength) := by
  unfold Sign GetPublicKeyFromPrivate
  cases hdec : DecodeString privateKeyHex with
  | none => simp
  | some keyBytes =>
    by_cases h64 : keyBytes.length = 64
    · simp [h64]
    · by_cases h32 : keyBytes.length = 32
      · simp [h32]
      · simp [h64, h32]

/-- C12, examples: the hex text of a 64-byte key and of a 32-byte seed are
accepted by both operations; text with a letter that is no hex digit, text of
odd length, the empty text and the hex text of 33 bytes are refused by both. -/
theorem private_key_format_witness :
    (∃ sig, Sign toyEd25519 examplePrivateKeyHex "m".toList = .ok sig) ∧
    (∃ pub, GetPublicKeyFromPrivate toyEd25519 (EncodeToString exampleSeed) = .ok pub) ∧
    Sign toyEd25519 "zz".toList "m".toList = .error .invalidHex ∧
    GetPublicKeyFromPrivate toyEd25519 "abc".toList = .error .invalidHex ∧
    Sign toyEd25519 [] "m".toList = .error .badLength ∧
    GetPublicKeyFromPrivate toyEd25519 (EncodeToString (List.replicate 33 7)) =
      .error .badLength :=
  ⟨(private_key_format toyEd25519 examplePrivateKeyHex "m".toList).1.mpr
      ⟨toyEd25519.NewKeyFromSeed exampleSeed, by decide, Or.inl (by decide)⟩,
    (private_key_format toyEd25519 (EncodeToString exampleSeed) "m".toList).2.1.mpr
      ⟨exampleSeed, by decide, Or.inr (by decide)⟩,
    ((private_key_format toyEd25519 "zz".toList "m".toList).2.2.1 (by decide)).1,
    ((private_key_format toyEd25519 "abc".toList "m".toList).2.2.1 (by decide)).2,
    ((private_key_format toyEd25519 [] "m".toList).2.2.2 [] (by decide) (by decide)
      (by decide)).1,
    ((private_key_format toyEd25519 (EncodeToString (List.replicate 33 7)) "m".toList).2.2.2
      (List.replicate 33 7) (by decide) (by decide) (by decide)).2⟩

/-! ## C13: the derived public key -/

/-- C13, as stated, fails for a 64-byte key that is no key pair: `Sign` and
`GetPublicKeyFromPrivate` both accept the example text (32 zero bytes, then 2,
then 31 zero bytes), and the signature does not verify under the derived key. -/
theorem derived_public_key_counterexample :
    ∃ pub sig, GetPublicKeyFromPrivate toyEd25519 exampleMalformedKeyHex = .ok pub ∧
      Sign toyEd25519 exampleMalformedKeyHex "m".toList = .ok sig ∧
      Verify toyEd25519 pub "m".toList sig = false :=
  ⟨EncodeToString (Public (List.replicate 32 0 ++ 2 :: List.replicate 31 0)),
    EncodeToString (toyEd25519.Sign (List.replicate 32 0 ++ 2 :: List.replicate 31 0)
      "m".toList), by decide, by decide, by decide⟩

/-- C13 (amended): for every private key text that decodes to a 32-byte seed, or
to a 64-byte key that is the key pair of its first 32 bytes, and every message,
`GetPublicKeyFromPrivate` returns the hex text of the public half of the key that
`Sign` signs with, and the signature verifies under it. -/
theorem derived_public_key (E : Ed25519) (hE : E.Correct) (privateKeyHex message : GoString)
    (keyBytes : List UInt8) (hdec : DecodeString privateKeyHex = some keyBytes)
    (hkey : keyBytes.length = 32 ∨
      (keyBytes.length = 64 ∧ E.NewKeyFromSeed (keyBytes.take 32) = keyBytes)) :
    ∃ sk, GetPublicKeyFromPrivate E privateKeyHex = .ok (EncodeToString (Public sk)) ∧
      Sign E privateKeyHex message = .ok (EncodeToString (E.Sign sk message)) ∧
      Verify E (EncodeToString (Public sk)) message (EncodeToString (E.Sign sk message)) =
        true := by
  have hver : ∀ seed : List UInt8, seed.length = 32 →
      Verify E (EncodeToString (Public (E.NewKeyFromSeed seed))) message
        (EncodeToString (E.Sign (E.NewKeyFromSeed seed) message)) = true := by
    intro seed hseed
    simp [Verify, DecodeString_EncodeToString, PublicKeySize, SignatureSize,
      Public_length E hE seed hseed, hE.sig_length, hE.verify_sign seed _ hseed]
  rcases hkey with h32 | ⟨h64, hpair⟩
  · refine ⟨E.NewKeyFromSeed keyBytes, ?_, ?_, hver keyBytes h32⟩
    · simp [GetPublicKeyFromPrivate, hdec, h32]
    · simp [Sign, hdec, h32]
  · have hseed : (keyBytes.take 32).length = 32 := by simp [h64]
    refine ⟨keyBytes, ?_, ?_, ?_⟩
    · simp [GetPublicKeyFromPrivate, hdec, h64]
    · simp [Sign, hdec, h64]
    · have := hver (keyBytes.take 32) hseed
      rwa [hpair] at this

/-- C13, witness: the example key pair, given as its 64 bytes. -/
theorem derived_public_key_witness :
    DecodeString examplePrivateKeyHex = some (toyEd25519.NewKeyFromSeed exampleSeed) ∧
    ∃ sk, GetPublicKeyFromPrivate toyEd25519 examplePrivateKeyHex =
        .ok (EncodeToString (Public sk)) ∧
      Sign toyEd25519 examplePrivateKeyHex "m".toList =
        .ok (EncodeToString (toyEd25519.Sign sk "m".toList)) ∧
      Verify toyEd25519 (EncodeToString (Public sk)) "m".toList
        (EncodeToString (toyEd25519.Sign sk "m".toList)) = true :=
  ⟨by decide, derived_public_key toyEd25519 toyEd25519_correct examplePrivateKeyHex "m".toList
    (toyEd25519.NewKeyFromSeed exampleSeed) (by decide) (Or.inr ⟨by decide, by decide⟩)⟩

/-! ## The upload handler, branch by branch -/

theorem handleUpload_method (env : Env) (srv : Server) (now uploadTime : Int) (bodyFails : Bool)
    (st : ServerState) (r : Request) (h : r.Method ≠ "POST".toList) :
    handleUpload env srv now uploadTime bodyFails st r =
      .ok (.error 405 .methodNotAllowed, st, []) := by
  unfold handleUpload
  simp only [h, ne_eq, not_false_eq_true, if_true]

theorem handleUpload_rejected (env : Env) (srv : Server) (now uploadTime : Int)
    (bodyFails : Bool) (st : ServerState) (r : Request) (reason : Reason)
    (hpost : r.Method = "POST".toList)
    (hrej : verifyRequest env.E srv now r = .ok (false, reason)) :
    handleUpload env srv now uploadTime bodyFails st r =
      .ok (.error 401 (.authFailed reason),
        ⟨st.fs, { st.stats with failedAuth := wrapInt64 (st.stats.failedAuth + 1) }⟩,
        [.warnAuthFailed (getClientIP r) reason]) := by
  unfold handleUpload
  simp only [hpost, ne_eq, not_true_eq_false, if_false, hrej]

theorem handleUpload_panic (env : Env) (srv : Server) (now uploadTime : Int)
    (bodyFails : Bool) (st : ServerState) (r : Request) (p : Panic)
    (hpost : r.Method = "POST".toList)
    (hpanic : verifyRequest env.E srv now r = .error p) :
    handleUpload env srv now uploadTime bodyFails st r = .error p := by
  unfold handleUpload
  simp only [hpost, ne_eq, not_true_eq_false, if_false, hpanic]

theorem handleUpload_path_error (env : Env) (srv : Server) (now uploadTime : Int)
    (bodyFails : Bool) (st : ServerState) (r : Request) (reason : Reason) (e : PathError)
    (hpost : r.Method = "POST".toList)
    (hauth : verifyRequest env.E srv now r = .ok (true, reason))
    (hpath : handleUploadPath env.os env.wd srv.config r = .error e) :
    handleUpload env srv now uploadTime bodyFails st r =
      .ok (.error 400 (.path e), st, [.errorPath (getClientIP r) e]) := by
  unfold handleUpload
  simp only [hpost, ne_eq, not_true_eq_false, if_false, hauth, hpath]

theorem handleUpload_store (env : Env) (srv : Server) (now uploadTime : Int)
    (bodyFails : Bool) (st : ServerState) (r : Request) (reason : Reason) (t : UploadTarget)
    (hpost : r.Method = "POST".toList)
    (hauth : verifyRequest env.E srv now r = .ok (true, reason))
    (hpath : handleUploadPath env.os env.wd srv.config r = .ok t) :
    handleUpload env srv now uploadTime bodyFails st r =
      .ok (handleUploadStore env srv.config uploadTime bodyFails st r (getClientIP r) t) := by
  unfold handleUpload
  simp only [hpost, ne_eq, not_true_eq_false, if_false, hauth, hpath]

/-- The five ways a run of the handler can go. -/
theorem handleUpload_cases (env : Env) (srv : Server) (now uploadTime : Int)
    (bodyFails : Bool) (st : ServerState) (r : Request) :
    handleUpload env srv now uploadTime bodyFails st r =
        .ok (.error 405 .methodNotAllowed, st, []) ∨
    (∃ p, handleUpload env srv now uploadTime bodyFails st r = .error p) ∨
    (∃ reason, verifyRequest env.E srv now r = .ok (false, reason) ∧
      handleUpload env srv now uploadTime bodyFails st r =
        .ok (.error 401 (.authFailed reason),
          ⟨st.fs, { st.stats with failedAuth := wrapInt64 (st.stats.failedAuth + 1) }⟩,
          [.warnAuthFailed (getClientIP r) reason])) ∨
    (∃ e, handleUpload env srv now uploadTime bodyFails st r =
        .ok (.error 400 (.path e), st, [.errorPath (getClientIP r) e])) ∨
    (∃ t, handleUploadPath env.os env.wd srv.config r = .ok t ∧
      handleUpload env srv now uploadTime bodyFails st r =
        .ok (handleUploadStore env srv.config uploadTime bodyFails st r (getClientIP r) t)) := by
  by_cases hpost : r.Method = "POST".toList
  · cases hv : verifyRequest env.E srv now r with
    | error p =>
      exact Or.inr (Or.inl ⟨p,
        handleUpload_panic env srv now uploadTime bodyFails st r p hpost hv⟩)
    | ok res =>
      obtain ⟨ok, reason⟩ := res
      cases ok with
      | false =>
        exact Or.inr (Or.inr (Or.inl ⟨reason, rfl,
          handleUpload_rejected env srv now uploadTime bodyFails st r reason hpost hv⟩))
      | true =>
        cases hp : handleUploadPath env.os env.wd srv.config r with
        | error e =>
          exact Or.inr (Or.inr (Or.inr (Or.inl ⟨e,
            handleUpload_path_error env srv now uploadTime bodyFails st r reason e hpost hv hp⟩)))
        | ok t =>
          exact Or.inr (Or.inr (Or.inr (Or.inr ⟨t, rfl,
            handleUpload_store env srv now uploadTime bodyFails st r reason t hpost hv hp⟩)))
  · exact Or.inl (handleUpload_method env srv now uploadTime bodyFails st r hpost)

/-- The counters after an increment that stays inside the 64-bit range. -/
theorem wrapInt64_add (x n : Int) (hx : minInt64 ≤ x) (hn : 0 ≤ n) (h : x + n ≤ maxInt64) :
    wrapInt64 (x + n) = x + n :=
  wrapInt64_of_IsInt64 _ ⟨by omega, h⟩

/-! ## C14: authentication failure -/

/-- C14. Authentication failure: for every POST request that `verifyRequest`
rejects, `handleUpload` answers 401, `failedAuth` goes up by one (the counter
being below the largest 64-bit integer), `totalUploads`, `totalBytes` and
`lastUploadTime` stay as they are, and the file system is the one before the
request: no directory made, no file written, nothing extracted. -/
theorem authentication_failure (env : Env) (srv : Server) (now uploadTime : Int)
    (bodyFails : Bool) (st : ServerState) (r : Request) (reason : Reason)
    (hpost : r.Method = "POST".toList)
    (hrej : verifyRequest env.E srv now r = .ok (false, reason))
    (hlo : minInt64 ≤ st.stats.failedAuth) (hhi : st.stats.failedAuth < maxInt64) :
    responseOf (handleUpload env srv now uploadTime bodyFails st r) =
      some (.error 401 (.authFailed reason)) ∧
    (stateAfter st (handleUpload env srv now uploadTime bodyFails st r)).stats.failedAuth =
      st.stats.failedAuth + 1 ∧
    (stateAfter st (handleUpload env srv now uploadTime bodyFails st r)).stats.totalUploads =
      st.stats.totalUploads ∧
    (stateAfter st (handleUpload env srv now uploadTime bodyFails st r)).stats.totalBytes =
      st.stats.totalBytes ∧
    (stateAfter st (handleUpload env srv now uploadTime bodyFails st r)).stats.lastUploadTime =
      st.stats.lastUploadTime ∧
    (stateAfter st (handleUpload env srv now uploadTime bodyFails st r)).fs = st.fs := by
  rw [handleUpload_rejected env srv now uploadTime bodyFails st r reason hpost hrej]
  refine ⟨rfl, ?_, rfl, rfl, rfl, rfl⟩
  exact wrapInt64_add _ 1 hlo (by decide) (by omega)

/-- C14, witness: a POST without authentication headers to the example server
(security on) is answered 401 and counted. -/
theorem authentication_failure_witness :
    (exampleUpload "/upload/web/site.zip" true [80, 75]).Method = "POST".toList ∧
    verifyRequest exampleEnv.E (exampleServer 300 []) 1700000000
      (exampleUpload "/upload/web/site.zip" true [80, 75]) = .ok (false, .missingHeaders) ∧
    responseOf (handleUpload exampleEnv (exampleServer 300 []) 1700000000 1700000001 false
      exampleState (exampleUpload "/upload/web/site.zip" true [80, 75])) =
        some (.error 401 (.authFailed .missingHeaders)) ∧
    (stateAfter exampleState (handleUpload exampleEnv (exampleServer 300 []) 1700000000
      1700000001 false exampleState
      (exampleUpload "/upload/web/site.zip" true [80, 75]))).stats.failedAuth = 2 + 1 ∧
    (stateAfter exampleState (handleUpload exampleEnv (exampleServer 300 []) 1700000000
      1700000001 false exampleState
      (exampleUpload "/upload/web/site.zip" true [80, 75]))).fs = exampleFS :=
  ⟨rfl, by decide,
    (authentication_failure exampleEnv (exampleServer 300 []) 1700000000 1700000001 false
      exampleState (exampleUpload "/upload/web/site.zip" true [80, 75]) .missingHeaders rfl
      (by decide) (by decide) (by decide)).1,
    (authentication_failure exampleEnv (exampleServer 300 []) 1700000000 1700000001 false
      exampleState (exampleUpload "/upload/web/site.zip" true [80, 75]) .missingHeaders rfl
      (by decide) (by decide) (by decide)).2.1,
    (authentication_failure exampleEnv (exampleServer 300 []) 1700000000 1700000001 false
      exampleState (exampleUpload "/upload/web/site.zip" true [80, 75]) .missingHeaders rfl
      (by decide) (by decide) (by decide)).2.2.2.2.2⟩

/-! ## C15: path failures -/

theorem TrimPrefix_append (pre rest : GoString) : TrimPrefix (pre ++ rest) pre = rest := by
  unfold TrimPrefix HasPrefix
  rw [if_pos (List.isPrefixOf_iff_prefix.mpr (List.prefix_append _ _))]
  exact List.drop_left _ _

/-- A text with the separator in it is the piece before the first separator, the
separator, and the remainder. -/
theorem split_first (sep : Char) : ∀ s : GoString, s.contains sep = true →
    s = s.takeWhile (· != sep) ++ sep :: (s.dropWhile (· != sep)).drop 1 ∧
    sep ∉ s.takeWhile (· != sep)
  | [], h => by simp at h
  | c :: cs, h => by
    by_cases hc : c = sep
    · subst hc
      simp
    · have hcs : cs.contains sep = true := by
        simp only [List.contains_cons, Bool.or_eq_true, beq_iff_eq] at h
        rcases h with h | h
        · exact absurd h.symm hc
        · exact h
      obtain ⟨h1, h2⟩ := split_first sep cs hcs
      have hne : (c != sep) = true := by simpa using hc
      constructor
      · rw [List.takeWhile_cons, List.dropWhile_cons, if_pos hne, if_pos hne, List.cons_append,
          ← h1]
      · rw [List.takeWhile_cons, if_pos hne]
        intro hm
        rcases List.mem_cons.mp hm with h3 | h3
        · exact hc h3.symm
        · exact h2 h3

/-- The path stage answers with the URL error unless the text after `/upload/`
is key, `/`, name. -/
theorem handleUploadPath_badURL (os : GOOS) (wd : GoString) (config : Config) (r : Request)
    (rest : GoString) (hpath : r.Path = "/upload/".toList ++ rest)
    (hnot : ¬ ∃ key name, key ≠ [] ∧ '/' ∉ key ∧ name ≠ [] ∧ rest = key ++ '/' :: name) :
    handleUploadPath os wd config r = .error .badURL := by
  unfold handleUploadPath
  simp only [hpath, TrimPrefix_append]
  rw [if_pos]
  unfold SplitN2
  by_cases hc : rest.contains '/' = true
  · obtain ⟨h1, h2⟩ := split_first '/' rest hc
    rw [if_pos hc]
    by_cases hk : rest.takeWhile (· != '/') = []
    · simp [hk]
    · by_cases hn : (rest.dropWhile (· != '/')).drop 1 = []
      · simp [hn]
      · exact absurd ⟨_, _, hk, h2, hn, h1⟩ hnot
  · rw [if_neg hc]
    simp

/-- The path stage on a request path `/upload/key/name`, after the URL check. -/
theorem handleUploadPath_parts (os : GOOS) (wd : GoString) (config : Config) (r : Request)
    (key name : GoString) (hpath : r.Path = "/upload/".toList ++ key ++ '/' :: name)
    (hkey : key ≠ []) (hslash : '/' ∉ key) (hname : name ≠ []) :
    handleUploadPath os wd config r =
      match config.Paths.lookup key with
      | none => .error (.unknownPathKey key)
      | some baseDir =>
        if !isValidFilename os name then .error .invalidFilename
        else if !HasPrefix (Abs os wd (Join os [baseDir, name])) (Abs os wd baseDir) then
          .error .pathCheckFailed
        else .ok ⟨key, name, baseDir, Join os [baseDir, name], Abs os wd baseDir,
          Abs os wd (Join os [baseDir, name])⟩ := by
  unfold handleUploadPath
  simp only [hpath, upload_path_parts key name hslash]
  simp [hkey, hname]

/-- C15. Path failures give 400: for every authenticated POST request,
`handleUpload` answers 400 and returns the state it started in (nothing written,
no counter changed) when the text after `/upload/` is not a non-empty path key,
a `/` and a non-empty relative path, when the path key is not configured, and
when `isValidFilename` rejects the relative path. -/
theorem path_failures (env : Env) (srv : Server) (now uploadTime : Int) (bodyFails : Bool)
    (st : ServerState) (r : Request) (reason : Reason)
    (hpost : r.Method = "POST".toList)
    (hauth : verifyRequest env.E srv now r = .ok (true, reason)) :
    (∀ rest, r.Path = "/upload/".toList ++ rest →
      (¬ ∃ key name, key ≠ [] ∧ '/' ∉ key ∧ name ≠ [] ∧ rest = key ++ '/' :: name) →
      handleUpload env srv now uploadTime bodyFails st r =
        .ok (.error 400 (.path .badURL), st, [.errorPath (getClientIP r) .badURL])) ∧
    (∀ key name, r.Path = "/upload/".toList ++ key ++ '/' :: name →
      key ≠ [] → '/' ∉ key → name ≠ [] →
      (srv.config.Paths.lookup key = none →
        handleUpload env srv now uploadTime bodyFails st r =
          .ok (.error 400 (.path (.unknownPathKey key)), st,
            [.errorPath (getClientIP r) (.unknownPathKey key)])) ∧
      (∀ baseDir, srv.config.Paths.lookup key = some baseDir →
        isValidFilename env.os name = false →
        handleUpload env srv now uploadTime bodyFails st r =
          .ok (.error 400 (.path .invalidFilename), st,
            [.errorPath (getClientIP r) .invalidFilename]))) := by
  refine ⟨?_, ?_⟩
  · intro rest hpath hnot
    exact handleUpload_path_error env srv now uploadTime bodyFails st r reason _ hpost hauth
      (handleUploadPath_badURL env.os env.wd srv.config r rest hpath hnot)
  · intro key name hpath hkey hslash hname
    have hparts := handleUploadPath_parts env.os env.wd srv.config r key name hpath hkey hslash
      hname
    refine ⟨?_, ?_⟩
    · intro hnone
      rw [hnone] at hparts
      exact handleUpload_path_error env srv now uploadTime bodyFails st r reason _ hpost hauth
        hparts
    · intro baseDir hsome hinvalid
      rw [hsome] at hparts
      simp only [hinvalid, Bool.not_false, if_true] at hparts
      exact handleUpload_path_error env srv now uploadTime bodyFails st r reason _ hpost hauth
        hparts

/-! ## The storing stage of the handler -/

theorem wrapInt64_range (x : Int) : minInt64 ≤ wrapInt64 x ∧ wrapInt64 x ≤ maxInt64 := by
  unfold wrapInt64 minInt64 maxInt64
  omega

/-- The body comes out of the limited reader as it went in, or not at all. -/
theorem ReadAllMaxBytes_ok (n : Int) (body data : List UInt8) (bodyFails : Bool)
    (h : ReadAllMaxBytes n body bodyFails = .ok data) :
    data = body ∧ bodyFails = false ∧ (body.length : Int) ≤ (if n < 0 then 0 else n) := by
  unfold ReadAllMaxBytes at h
  simp only [] at h
  by_cases h1 : (body.length : Int) > (if n < 0 then 0 else n)
  · rw [if_pos h1] at h
    cases h
  · rw [if_neg h1] at h
    cases bodyFails with
    | true => simp at h
    | false =>
      simp only [Bool.false_eq_true, if_false, Except.ok.injEq] at h
      exact ⟨h.symm, rfl, not_lt.mp h1⟩

theorem ReadAllMaxBytes_tooLarge (n : Int) (body : List UInt8) (bodyFails : Bool)
    (h : (if n < 0 then 0 else n) < (body.length : Int)) :
    ReadAllMaxBytes n body bodyFails = .error .tooLarge := by
  unfold ReadAllMaxBytes
  simp only []
  rw [if_pos h]

/-- The limit in bytes for a maximum of `M` MB that is not negative: `M` MiB when
that fits into 64 bits, and at most the largest 64-bit integer otherwise. -/
theorem upload_limit (M : Int) (hM : 0 ≤ M) :
    (M * 1024 * 1024 ≤ maxInt64 →
      (if wrapInt64 (wrapInt64 (M * 1024) * 1024) < 0 then 0
        else wrapInt64 (wrapInt64 (M * 1024) * 1024)) = M * 1024 * 1024) ∧
    (if wrapInt64 (wrapInt64 (M * 1024) * 1024) < 0 then 0
      else wrapInt64 (wrapInt64 (M * 1024) * 1024)) ≤ maxInt64 := by
  constructor
  · intro hfit
    have h1 : wrapInt64 (M * 1024) = M * 1024 :=
      wrapInt64_of_IsInt64 _ ⟨by unfold minInt64; omega, by omega⟩
    have h2 : wrapInt64 (M * 1024 * 1024) = M * 1024 * 1024 :=
      wrapInt64_of_IsInt64 _ ⟨by unfold minInt64; omega, hfit⟩
    rw [h1, h2, if_neg (by omega)]
  · split_ifs
    · unfold maxInt64; omega
    · exact (wrapInt64_range _).2

/-- The storing stage when it ends in an error response: the status is 500 or
413, the counters are untouched and the file system is the one that
`os.MkdirAll` on the directory of the target has left. -/
theorem handleUploadStore_error (env : Env) (config : Config) (uploadTime : Int)
    (bodyFails : Bool) (st : ServerState) (r : Request) (clientIP : GoString)
    (t : UploadTarget) (code : Nat) (text : ErrorText)
    (h : (handleUploadStore env config uploadTime bodyFails st r clientIP t).1 =
      .error code text) :
    (code = 500 ∨ code = 413) ∧
    (handleUploadStore env config uploadTime bodyFails st r clientIP t).2.1.stats = st.stats ∧
    (handleUploadStore env config uploadTime bodyFails st r clientIP t).2.1.fs =
      (MkdirAll env.os st.fs (Dir env.os t.fullPath)).1 := by
  unfold handleUploadStore at h ⊢
  rcases hmk : MkdirAll env.os st.fs (Dir env.os t.fullPath) with ⟨fs1, ok⟩
  rw [hmk] at h
  cases ok with
  | false =>
    simp only [Response.error.injEq] at h ⊢
    exact ⟨Or.inl h.1.symm, trivial, trivial⟩
  | true =>
    simp only [] at h ⊢
    cases hread : ReadAllMaxBytes (wrapInt64 (wrapInt64 (config.MaxUpload * 1024) * 1024))
        r.Body bodyFails with
    | error e =>
      rw [hread] at h
      cases e with
      | tooLarge =>
        simp only [Response.error.injEq] at h ⊢
        exact ⟨Or.inr h.1.symm, trivial, trivial⟩
      | other =>
        simp only [Response.error.injEq] at h ⊢
        exact ⟨Or.inl h.1.symm, trivial, trivial⟩
    | ok data =>
      rw [hread] at h
      simp only [] at h ⊢
      cases hw : WriteFile fs1 t.fullPath data 420 with
      | none =>
        rw [hw] at h
        simp only [Response.error.injEq] at h ⊢
        exact ⟨Or.inl h.1.symm, trivial, trivial⟩
      | some fs2 =>
        rw [hw] at h
        simp only [] at h
        by_cases hauto : autoExtract env r t.filename = true
        · simp only [hauto, if_true] at h
          rcases hu : unzipFile env.os env.zipOpenReader fs2 t.fullPath
            (extractDirOf env t.fullPath) with ⟨fs3, e⟩
          rw [hu] at h
          cases e <;> simp at h
        · simp only [hauto, Bool.false_eq_true, if_false] at h
          simp at h

/-- The storing stage when it ends in the success response: the directory was
made, the body read whole and written to the target; the counters are updated,
and the file system is the one after the write, or after `unzipFile` when
extraction is asked for. -/
theorem handleUploadStore_json (env : Env) (config : Config) (uploadTime : Int)
    (bodyFails : Bool) (st : ServerState) (r : Request) (clientIP : GoString)
    (t : UploadTarget) (body : UploadResult)
    (h : (handleUploadStore env config uploadTime bodyFails st r clientIP t).1 = .json body) :
    ∃ fs2, (MkdirAll env.os st.fs (Dir env.os t.fullPath)).2 = true ∧
      WriteFile (MkdirAll env.os st.fs (Dir env.os t.fullPath)).1 t.fullPath r.Body 420 =
        some fs2 ∧
      (r.Body.length : Int) ≤ maxInt64 ∧
      (handleUploadStore env config uploadTime bodyFails st r clientIP t).2.1.stats =
        ⟨wrapInt64 (st.stats.totalUploads + 1), wrapInt64 (st.stats.totalBytes + r.Body.length),
          uploadTime, st.stats.failedAuth⟩ ∧
      (handleUploadStore env config uploadTime bodyFails st r clientIP t).2.1.fs =
        (if autoExtract env r t.filename then
          (unzipFile env.os env.zipOpenReader fs2 t.fullPath (extractDirOf env t.fullPath)).1
        else fs2) ∧
      body = ⟨"ok".toList, t.fullPath, r.Body.length, t.pathKey, t.filename,
        autoExtract env r t.filename &&
          decide ((unzipFile env.os env.zipOpenReader fs2 t.fullPath
            (extractDirOf env t.fullPath)).2 = none),
        if autoExtract env r t.filename &&
            decide ((unzipFile env.os env.zipOpenReader fs2 t.fullPath
              (extractDirOf env t.fullPath)).2 = none)
        then some (extractDirOf env t.fullPath) else none⟩ := by
  unfold handleUploadStore at h ⊢
  rcases hmk : MkdirAll env.os st.fs (Dir env.os t.fullPath) with ⟨fs1, ok⟩
  rw [hmk] at h
  cases ok with
  | false => simp at h
  | true =>
    simp only [] at h ⊢
    cases hread : ReadAllMaxBytes (wrapInt64 (wrapInt64 (config.MaxUpload * 1024) * 1024))
        r.Body bodyFails with
    | error e =>
      rw [hread] at h
      cases e <;> simp at h
    | ok data =>
      obtain ⟨hdata, -, hlen⟩ := ReadAllMaxBytes_ok _ _ _ _ hread
      subst hdata
      have hmax : (r.Body.length : Int) ≤ maxInt64 := by
        refine le_trans hlen ?_
        split_ifs
        · unfold maxInt64; omega
        · exact (wrapInt64_range _).2
      rw [hread] at h
      simp only [] at h ⊢
      cases hw : WriteFile fs1 t.fullPath r.Body 420 with
      | none => rw [hw] at h; simp at h
      | some fs2 =>
        rw [hw] at h
        simp only [] at h ⊢
        refine ⟨fs2, trivial, ?_⟩
        by_cases hauto : autoExtract env r t.filename = true
        · simp only [hauto, if_true, Bool.true_and] at h ⊢
          rcases hu : unzipFile env.os env.zipOpenReader fs2 t.fullPath
            (extractDirOf env t.fullPath) with ⟨fs3, e⟩
          rw [hu] at h
          cases e with
          | none =>
            simp only [Response.json.injEq] at h
            simp [← h, hmax, hread]
          | some err =>
            simp only [Response.json.injEq] at h
            simp [← h, hmax, hread]
        · simp only [hauto, Bool.false_eq_true, if_false, Bool.false_and] at h ⊢
          simp only [Response.json.injEq] at h
          simp [← h, hmax, hread]

/-- C15, witness: on the example server with security off, a path without a
file name, a path key that is not configured and a file name that climbs are each
answered 400, the state being left as it was. -/
theorem path_failures_witness :
    (exampleUpload "/upload/nofile" false [1]).Method = "POST".toList ∧
    verifyRequest exampleEnv.E exampleOpenServer 1700000000
      (exampleUpload "/upload/nofile" false [1]) = .ok (true, .empty) ∧
    handleUpload exampleEnv exampleOpenServer 1700000000 1700000001 false exampleState
      (exampleUpload "/upload/nofile" false [1]) =
        .ok (.error 400 (.path .badURL), exampleState,
          [.errorPath (getClientIP (exampleUpload "/upload/nofile" false [1])) .badURL]) :=
  ⟨rfl, rfl,
    (path_failures exampleEnv exampleOpenServer 1700000000 1700000001 false exampleState
      (exampleUpload "/upload/nofile" false [1]) .empty rfl rfl).1 "nofile".toList rfl
      (by
        rintro ⟨key, name, -, -, -, h⟩
        have hm : '/' ∈ "nofile".toList := by rw [h]; simp
        revert hm
        decide)⟩

/-! ## C17: the file system when a request is aborted -/

/-- C17, as stated, fails when the body cannot be read: `os.MkdirAll` has run
before the body is read, so the request is answered 500 and the directories
`C:\www\sub` and `C:\www\sub\dir` above the target have been made. -/
theorem no_disk_effect_counterexample :
    responseOf (handleUpload exampleEnv exampleOpenServer 1700000000 1700000001 true
      exampleState (exampleUpload "/upload/web/sub/dir/file.txt" false [1, 2, 3])) =
        some (.error 500 .readFailed) ∧
    exampleState.fs "C:\\www\\sub\\dir".toList = none ∧
    (stateAfter exampleState (handleUpload exampleEnv exampleOpenServer 1700000000 1700000001
      true exampleState (exampleUpload "/upload/web/sub/dir/file.txt" false [1, 2, 3]))).fs
        "C:\\www\\sub\\dir".toList = some .dir := by
  refine ⟨?_, ?_, ?_⟩ <;> decide

/-- C17 (amended): when `handleUpload` ends in an error response, the counters
apart, then for the statuses 405, 401 and 400 (wrong method, failed
authentication, malformed URL, unknown path key, invalid file name, failed
prefix check) the file system is the one before the request; for every error
status (also 413 for a body over the ceiling and 500 for a body that cannot be
read, a directory that cannot be made or a file that cannot be written) the only
paths that differ are directories that were missing and have been made, each a
start of the directory of the target: no file is created or changed, nothing is
removed. -/
theorem no_disk_effect_before_persist (env : Env) (srv : Server) (now uploadTime : Int)
    (bodyFails : Bool) (st : ServerState) (r : Request) (code : Nat) (text : ErrorText)
    (hresp : responseOf (handleUpload env srv now uploadTime bodyFails st r) =
      some (.error code text)) :
    ((code = 405 ∨ code = 401 ∨ code = 400) →
      (stateAfter st (handleUpload env srv now uploadTime bodyFails st r)).fs = st.fs) ∧
    (∀ q, (stateAfter st (handleUpload env srv now uploadTime bodyFails st r)).fs q ≠ st.fs q →
      (code = 413 ∨ code = 500) ∧ st.fs q = none ∧
      (stateAfter st (handleUpload env srv now uploadTime bodyFails st r)).fs q = some .dir ∧
      ∃ t, handleUploadPath env.os env.wd srv.config r = .ok t ∧
        q <+: Dir env.os t.fullPath) := by
  rcases handleUpload_cases env srv now uploadTime bodyFails st r with
    h | ⟨p, h⟩ | ⟨reason, -, h⟩ | ⟨e, h⟩ | ⟨t, ht, h⟩
  · rw [h]
    exact ⟨fun _ => rfl, fun q hq => absurd rfl hq⟩
  · rw [h] at hresp
    cases hresp
  · rw [h]
    exact ⟨fun _ => rfl, fun q hq => absurd rfl hq⟩
  · rw [h]
    exact ⟨fun _ => rfl, fun q hq => absurd rfl hq⟩
  · rw [h] at hresp ⊢
    have hresp2 : (handleUploadStore env srv.config uploadTime bodyFails st r (getClientIP r)
        t).1 = .error code text := by
      simpa [responseOf] using hresp
    obtain ⟨hcode, -, hfs⟩ := handleUploadStore_error env srv.config uploadTime bodyFails st r
      (getClientIP r) t code text hresp2
    constructor
    · intro hc
      rcases hcode with h5 | h4 <;> rcases hc with h1 | h1 | h1 <;> omega
    · intro q hq
      simp only [stateAfter] at hq ⊢
      rw [hfs] at hq ⊢
      obtain ⟨h1, h2, h3⟩ := MkdirAll_frame env.os st.fs _ q hq
      exact ⟨hcode.symm, h2, h3, t, ht, (mem_dirChain env.os _ q h1).1⟩

/-- C17, witness: the upload of the counterexample, its body unreadable: the
target `C:\www\sub\dir\file.txt` is not there afterwards, and the archive
`C:\www\site.zip` is as before. -/
theorem no_disk_effect_before_persist_witness :
    responseOf (handleUpload exampleEnv exampleOpenServer 1700000000 1700000001 true
      exampleState (exampleUpload "/upload/web/sub/dir/file.txt" false [1, 2, 3])) =
        some (.error 500 .readFailed) ∧
    ∀ q, (stateAfter exampleState (handleUpload exampleEnv exampleOpenServer 1700000000
        1700000001 true exampleState
        (exampleUpload "/upload/web/sub/dir/file.txt" false [1, 2, 3]))).fs q ≠
          exampleState.fs q →
      (500 = 413 ∨ 500 = 500) ∧ exampleState.fs q = none ∧
      (stateAfter exampleState (handleUpload exampleEnv exampleOpenServer 1700000000
        1700000001 true exampleState
        (exampleUpload "/upload/web/sub/dir/file.txt" false [1, 2, 3]))).fs q = some .dir ∧
      ∃ t, handleUploadPath exampleEnv.os exampleEnv.wd exampleOpenServer.config
          (exampleUpload "/upload/web/sub/dir/file.txt" false [1, 2, 3]) = .ok t ∧
        q <+: Dir exampleEnv.os t.fullPath :=
  ⟨by decide,
    (no_disk_effect_before_persist exampleEnv exampleOpenServer 1700000000 1700000001 true
      exampleState (exampleUpload "/upload/web/sub/dir/file.txt" false [1, 2, 3]) 500
      .readFailed (by decide)).2⟩

/-! ## C16: the size ceiling -/

/-- The storing stage answers 413 only when the reader reports the body as too
large. -/
theorem handleUploadStore_413 (env : Env) (config : Config) (uploadTime : Int)
    (bodyFails : Bool) (st : ServerState) (r : Request) (clientIP : GoString)
    (t : UploadTarget) (text : ErrorText)
    (h : (handleUploadStore env config uploadTime bodyFails st r clientIP t).1 =
      .error 413 text) :
    ReadAllMaxBytes (wrapInt64 (wrapInt64 (config.MaxUpload * 1024) * 1024)) r.Body bodyFails =
      .error .tooLarge := by
  unfold handleUploadStore at h
  rcases hmk : MkdirAll env.os st.fs (Dir env.os t.fullPath) with ⟨fs1, ok⟩
  rw [hmk] at h
  cases ok with
  | false => simp at h
  | true =>
    simp only [] at h
    cases hread : ReadAllMaxBytes (wrapInt64 (wrapInt64 (config.MaxUpload * 1024) * 1024))
        r.Body bodyFails with
    | error e =>
      rw [hread] at h
      cases e with
      | tooLarge => rfl
      | other => simp at h
    | ok data =>
      rw [hread] at h
      simp only [] at h
      cases hw : WriteFile fs1 t.fullPath data 420 with
      | none => rw [hw] at h; simp at h
      | some fs2 =>
        rw [hw] at h
        simp only [] at h
        by_cases hauto : autoExtract env r t.filename = true
        · simp only [hauto, if_true] at h
          rcases hu : unzipFile env.os env.zipOpenReader fs2 t.fullPath
            (extractDirOf env t.fullPath) with ⟨fs3, e⟩
          rw [hu] at h
          cases e <;> simp at h
        · simp only [hauto, Bool.false_eq_true, if_false] at h
          simp at h

/-- C16, as stated, fails in two ways.  With a negative maximum the limit counts
as 0, so an empty body, which is longer than `-1 * 1024 * 1024` bytes, is stored
and answered with the success response.  And with a file where the directory
of the target should be, a body of 500 MiB and one byte is answered 500, the
directory being made before the body is read. -/
theorem size_ceiling_counterexample :
    (exampleNegativeLimitServer.config.MaxUpload = -1 ∧
      ((([] : List UInt8).length : Int) > -1 * 1024 * 1024) ∧
      responseOf (handleUpload exampleEnv exampleNegativeLimitServer 1700000000 1700000001
        false exampleState (exampleUpload "/upload/web/empty.txt" false [])) =
          some (.json ⟨"ok".toList, "C:\\www\\empty.txt".toList, 0, "web".toList,
            "empty.txt".toList, false, none⟩) ∧
      (stateAfter exampleState (handleUpload exampleEnv exampleNegativeLimitServer 1700000000
        1700000001 false exampleState (exampleUpload "/upload/web/empty.txt" false []))).fs
          "C:\\www\\empty.txt".toList = some (.file 420 [])) ∧
    (exampleOpenServer.config.MaxUpload = 500 ∧
      (((List.replicate 524288001 (0 : UInt8)).length : Int) > 500 * 1024 * 1024) ∧
      exampleState.fs "C:\\www\\site.zip".toList = some (.file 420 [80, 75]) ∧
      responseOf (handleUpload exampleEnv exampleOpenServer 1700000000 1700000001 false
        exampleState (exampleUpload "/upload/web/site.zip/x.txt" false
          (List.replicate 524288001 0))) = some (.error 500 .mkdirFailed)) := by
  refine ⟨⟨rfl, by decide, by decide, by decide⟩, ⟨rfl, ?_, by decide, by decide⟩⟩
  rw [List.length_replicate]
  decide

/-- C16 (amended): for every configured `MaxUpload = M` that is not negative and
every authenticated POST request whose target passes the path stage and whose
directory is there or can be made, a body longer than `M * 1024 * 1024` bytes
makes `handleUpload` answer 413, with no counter changed and no file created or
changed at the target path; a body of exactly `M * 1024 * 1024` bytes is not
answered 413. -/
theorem size_ceiling (env : Env) (srv : Server) (now uploadTime : Int) (bodyFails : Bool)
    (st : ServerState) (r : Request) (reason : Reason) (t : UploadTarget)
    (hpost : r.Method = "POST".toList)
    (hauth : verifyRequest env.E srv now r = .ok (true, reason))
    (htarget : handleUploadPath env.os env.wd srv.config r = .ok t)
    (hdir : (MkdirAll env.os st.fs (Dir env.os t.fullPath)).2 = true)
    (hM : 0 ≤ srv.config.MaxUpload) :
    ((r.Body.length : Int) > srv.config.MaxUpload * 1024 * 1024 →
      responseOf (handleUpload env srv now uploadTime bodyFails st r) =
        some (.error 413 (.tooLarge srv.config.MaxUpload)) ∧
      (stateAfter st (handleUpload env srv now uploadTime bodyFails st r)).stats = st.stats ∧
      ∀ perm data,
        (stateAfter st (handleUpload env srv now uploadTime bodyFails st r)).fs t.fullPath =
          some (.file perm data) → st.fs t.fullPath = some (.file perm data)) ∧
    ((r.Body.length : Int) = srv.config.MaxUpload * 1024 * 1024 →
      (r.Body.length : Int) ≤ maxInt64 →
      ∀ text, responseOf (handleUpload env srv now uploadTime bodyFails st r) ≠
        some (.error 413 text)) := by
  rw [handleUpload_store env srv now uploadTime bodyFails st r reason t hpost hauth htarget]
  obtain ⟨hfit, hmax⟩ := upload_limit srv.config.MaxUpload hM
  constructor
  · intro hlong
    have hread : ReadAllMaxBytes (wrapInt64 (wrapInt64 (srv.config.MaxUpload * 1024) * 1024))
        r.Body bodyFails = .error .tooLarge := by
      apply ReadAllMaxBytes_tooLarge
      by_cases hf : srv.config.MaxUpload * 1024 * 1024 ≤ maxInt64
      · rw [hfit hf]; exact hlong
      · exact lt_of_le_of_lt hmax (lt_trans (not_le.mp hf) hlong)
    rcases hmk : MkdirAll env.os st.fs (Dir env.os t.fullPath) with ⟨fs1, ok⟩
    rw [hmk] at hdir
    simp only at hdir
    subst hdir
    have hres : handleUploadStore env srv.config uploadTime bodyFails st r (getClientIP r) t =
        (.error 413 (.tooLarge srv.config.MaxUpload), ⟨fs1, st.stats⟩,
          [.errorRead (getClientIP r) .tooLarge]) := by
      unfold handleUploadStore
      rw [hmk]
      simp only [hread]
    rw [hres]
    refine ⟨rfl, rfl, ?_⟩
    intro perm data hfile
    simp only [stateAfter] at hfile
    by_contra hne
    have hq : (MkdirAll env.os st.fs (Dir env.os t.fullPath)).1 t.fullPath ≠
        st.fs t.fullPath := by
      rw [hmk]
      simp only
      rw [hfile]
      exact fun e => hne e.symm
    obtain ⟨-, -, h3⟩ := MkdirAll_frame env.os st.fs _ _ hq
    rw [hmk] at h3
    simp only at h3
    rw [hfile] at h3
    cases h3
  · intro hexact hlen text hresp
    have h413 : (handleUploadStore env srv.config uploadTime bodyFails st r (getClientIP r)
        t).1 = .error 413 text := by
      simpa [responseOf] using hresp
    have hread := handleUploadStore_413 env srv.config uploadTime bodyFails st r
      (getClientIP r) t text h413
    unfold ReadAllMaxBytes at hread
    simp only [] at hread
    rw [hfit (by rw [← hexact]; exact hlen), if_neg (by rw [hexact]; exact lt_irrefl _)] at hread
    split_ifs at hread
    cases hread

/-- C16, witness: on the example server (500 MB) a body of 500 MiB and one byte
sent to `/upload/web/big.bin` is answered 413; the counters stay. -/
theorem size_ceiling_witness :
    (exampleUpload "/upload/web/big.bin" false (List.replicate 524288001 0)).Method =
      "POST".toList ∧
    (0 : Int) ≤ exampleOpenServer.config.MaxUpload ∧
    responseOf (handleUpload exampleEnv exampleOpenServer 1700000000 1700000001 false
      exampleState (exampleUpload "/upload/web/big.bin" false (List.replicate 524288001 0))) =
        some (.error 413 (.tooLarge 500)) ∧
    (stateAfter exampleState (handleUpload exampleEnv exampleOpenServer 1700000000 1700000001
      false exampleState
      (exampleUpload "/upload/web/big.bin" false (List.replicate 524288001 0)))).stats =
        exampleState.stats :=
  ⟨rfl, by decide,
    ((size_ceiling exampleEnv exampleOpenServer 1700000000 1700000001 false exampleState
      (exampleUpload "/upload/web/big.bin" false (List.replicate 524288001 0)) .empty
      ⟨"web".toList, "big.bin".toList, "C:\\www".toList, "C:\\www\\big.bin".toList,
        "C:\\www".toList, "C:\\www\\big.bin".toList⟩ rfl rfl (by decide) (by decide)
      (by decide)).1 (by
        show (((List.replicate 524288001 (0 : UInt8)).length : Nat) : Int) > 500 * 1024 * 1024
        rw [List.length_replicate]
        decide)).1,
    ((size_ceiling exampleEnv exampleOpenServer 1700000000 1700000001 false exampleState
      (exampleUpload "/upload/web/big.bin" false (List.replicate 524288001 0)) .empty
      ⟨"web".toList, "big.bin".toList, "C:\\www".toList, "C:\\www\\big.bin".toList,
        "C:\\www".toList, "C:\\www\\big.bin".toList⟩ rfl rfl (by decide) (by decide)
      (by decide)).1 (by
        show (((List.replicate 524288001 (0 : UInt8)).length : Nat) : Int) > 500 * 1024 * 1024
        rw [List.length_replicate]
        decide)).2.1⟩

/-! ## C20: the counters -/

/-- The counters after one run of the handler: updated as for an upload when the
response is the success response, `failedAuth` incremented when it is 401, and
untouched otherwise. -/
theorem handleUpload_stats (env : Env) (srv : Server) (now uploadTime : Int)
    (bodyFails : Bool) (st : ServerState) (r : Request) :
    ((∃ body, responseOf (handleUpload env srv now uploadTime bodyFails st r) =
        some (.json body)) ∧
      (stateAfter st (handleUpload env srv now uploadTime bodyFails st r)).stats =
        ⟨wrapInt64 (st.stats.totalUploads + 1),
          wrapInt64 (st.stats.totalBytes + r.Body.length), uploadTime, st.stats.failedAuth⟩ ∧
      (r.Body.length : Int) ≤ maxInt64) ∨
    ((∃ reason, responseOf (handleUpload env srv now uploadTime bodyFails st r) =
        some (.error 401 (.authFailed reason))) ∧
      (stateAfter st (handleUpload env srv now uploadTime bodyFails st r)).stats =
        { st.stats with failedAuth := wrapInt64 (st.stats.failedAuth + 1) }) ∨
    ((∀ body, responseOf (handleUpload env srv now uploadTime bodyFails st r) ≠
        some (.json body)) ∧
      (∀ text, responseOf (handleUpload env srv now uploadTime bodyFails st r) ≠
        some (.error 401 text)) ∧
      (stateAfter st (handleUpload env srv now uploadTime bodyFails st r)).stats = st.stats) := by
  rcases handleUpload_cases env srv now uploadTime bodyFails st r with
    h | ⟨p, h⟩ | ⟨reason, -, h⟩ | ⟨e, h⟩ | ⟨t, -, h⟩
  · rw [h]
    exact Or.inr (Or.inr ⟨by simp [responseOf], by simp [responseOf], rfl⟩)
  · rw [h]
    exact Or.inr (Or.inr ⟨by simp [responseOf], by simp [responseOf], rfl⟩)
  · rw [h]
    exact Or.inr (Or.inl ⟨⟨reason, rfl⟩, rfl⟩)
  · rw [h]
    exact Or.inr (Or.inr ⟨by simp [responseOf], by simp [responseOf], rfl⟩)
  · rw [h]
    cases hresp : (handleUploadStore env srv.config uploadTime bodyFails st r (getClientIP r)
        t).1 with
    | error code text =>
      obtain ⟨hcode, hstats, -⟩ := handleUploadStore_error env srv.config uploadTime bodyFails
        st r (getClientIP r) t code text hresp
      refine Or.inr (Or.inr ⟨?_, ?_, hstats⟩)
      · intro body hb
        simp only [responseOf, Option.some.injEq] at hb
        rw [hresp] at hb
        cases hb
      · intro text2 hb
        simp only [responseOf, Option.some.injEq] at hb
        rw [hresp] at hb
        simp only [Response.error.injEq] at hb
        omega
    | json body =>
      obtain ⟨fs2, -, -, hlen, hstats, -, -⟩ := handleUploadStore_json env srv.config
        uploadTime bodyFails st r (getClientIP r) t body hresp
      exact Or.inl ⟨⟨body, by simp [responseOf, hresp]⟩, hstats, hlen⟩

/-- One run of the handler moves no counter down, and up by no more than one
(the bytes: by no more than the length of the body), as long as the counters do
not reach the end of the 64-bit range. -/
theorem handleUpload_stats_step (env : Env) (srv : Server) (now uploadTime : Int)
    (bodyFails : Bool) (st : ServerState) (r : Request)
    (hu : minInt64 ≤ st.stats.totalUploads) (hu2 : st.stats.totalUploads + 1 ≤ maxInt64)
    (hb : minInt64 ≤ st.stats.totalBytes)
    (hb2 : st.stats.totalBytes + r.Body.length ≤ maxInt64)
    (hf : minInt64 ≤ st.stats.failedAuth) (hf2 : st.stats.failedAuth + 1 ≤ maxInt64) :
    (st.stats.totalUploads ≤
        (stateAfter st (handleUpload env srv now uploadTime bodyFails st r)).stats.totalUploads ∧
      (stateAfter st (handleUpload env srv now uploadTime bodyFails st r)).stats.totalUploads ≤
        st.stats.totalUploads + 1) ∧
    (st.stats.totalBytes ≤
        (stateAfter st (handleUpload env srv now uploadTime bodyFails st r)).stats.totalBytes ∧
      (stateAfter st (handleUpload env srv now uploadTime bodyFails st r)).stats.totalBytes ≤
        st.stats.totalBytes + r.Body.length) ∧
    (st.stats.failedAuth ≤
        (stateAfter st (handleUpload env srv now uploadTime bodyFails st r)).stats.failedAuth ∧
      (stateAfter st (handleUpload env srv now uploadTime bodyFails st r)).stats.failedAuth ≤
        st.stats.failedAuth + 1) := by
  have hlen : (0 : Int) ≤ r.Body.length := Int.natCast_nonneg _
  rcases handleUpload_stats env srv now uploadTime bodyFails st r with
    ⟨-, h, -⟩ | ⟨-, h⟩ | ⟨-, -, h⟩
  · rw [h]
    simp only
    rw [wrapInt64_add _ 1 hu (by decide) hu2, wrapInt64_add _ _ hb hlen hb2]
    omega
  · rw [h]
    simp only
    rw [wrapInt64_add _ 1 hf (by decide) hf2]
    omega
  · rw [h]
    omega

/-- Over a sequence of requests no counter goes down, as long as the counters
do not reach the end of the 64-bit range. -/
theorem serveUploads_stats (env : Env) (srv : Server) :
    ∀ (arrivals : List Arrival) (st : ServerState),
      minInt64 ≤ st.stats.totalUploads → minInt64 ≤ st.stats.totalBytes →
      minInt64 ≤ st.stats.failedAuth →
      st.stats.totalUploads + arrivals.length ≤ maxInt64 →
      st.stats.failedAuth + arrivals.length ≤ maxInt64 →
      st.stats.totalBytes + (arrivals.map fun a => (a.r.Body.length : Int)).sum ≤ maxInt64 →
      st.stats.totalUploads ≤ (serveUploads env srv st arrivals).stats.totalUploads ∧
      st.stats.totalBytes ≤ (serveUploads env srv st arrivals).stats.totalBytes ∧
      st.stats.failedAuth ≤ (serveUploads env srv st arrivals).stats.failedAuth
  | [], st, _, _, _, _, _, _ => ⟨le_refl _, le_refl _, le_refl _⟩
  | a :: rest, st, hu, hb, hf, hu2, hf2, hb2 => by
    have hsum : (0 : Int) ≤ (rest.map fun a => (a.r.Body.length : Int)).sum :=
      List.sum_nonneg (by
        intro x hx
        obtain ⟨a, -, rfl⟩ := List.mem_map.mp hx
        exact Int.natCast_nonneg _)
    simp only [List.length_cons, List.map_cons, List.sum_cons, Nat.cast_add, Nat.cast_one]
      at hu2 hf2 hb2
    obtain ⟨⟨h1, h2⟩, ⟨h3, h4⟩, ⟨h5, h6⟩⟩ := handleUpload_stats_step env srv a.now
      a.uploadTime a.bodyFails st a.r hu (by omega) hb (by omega) hf (by omega)
    obtain ⟨i1, i2, i3⟩ := serveUploads_stats env srv rest
      (stateAfter st (handleUpload env srv a.now a.uploadTime a.bodyFails st a.r))
      (by omega) (by omega) (by omega) (by omega) (by omega) (by omega)
    unfold serveUploads
    exact ⟨le_trans h1 i1, le_trans h3 i2, le_trans h5 i3⟩

/-- C20. Counters: a successful upload increases `totalUploads` by one and
`totalBytes` by the length of the body and leaves `failedAuth`; a request
rejected for authentication (401) increases `failedAuth` by one and nothing else;
every other outcome leaves the counters as they are; and over any sequence of
requests no counter decreases.  The counters are 64-bit integers: the
statements hold as long as they stay below the largest one. -/
theorem counters (env : Env) (srv : Server) (now uploadTime : Int) (bodyFails : Bool)
    (st : ServerState) (r : Request)
    (hu : minInt64 ≤ st.stats.totalUploads) (hb : minInt64 ≤ st.stats.totalBytes)
    (hf : minInt64 ≤ st.stats.failedAuth) :
    (∀ body, responseOf (handleUpload env srv now uploadTime bodyFails st r) =
        some (.json body) →
      st.stats.totalUploads < maxInt64 → st.stats.totalBytes + r.Body.length ≤ maxInt64 →
      (stateAfter st (handleUpload env srv now uploadTime bodyFails st r)).stats.totalUploads =
        st.stats.totalUploads + 1 ∧
      (stateAfter st (handleUpload env srv now uploadTime bodyFails st r)).stats.totalBytes =
        st.stats.totalBytes + r.Body.length ∧
      (stateAfter st (handleUpload env srv now uploadTime bodyFails st r)).stats.failedAuth =
        st.stats.failedAuth) ∧
    (∀ text, responseOf (handleUpload env srv now uploadTime bodyFails st r) =
        some (.error 401 text) →
      st.stats.failedAuth < maxInt64 →
      (stateAfter st (handleUpload env srv now uploadTime bodyFails st r)).stats =
        { st.stats with failedAuth := st.stats.failedAuth + 1 }) ∧
    ((∀ body, responseOf (handleUpload env srv now uploadTime bodyFails st r) ≠
        some (.json body)) →
      (∀ text, responseOf (handleUpload env srv now uploadTime bodyFails st r) ≠
        some (.error 401 text)) →
      (stateAfter st (handleUpload env srv now uploadTime bodyFails st r)).stats = st.stats) ∧
    (∀ arrivals : List Arrival,
      st.stats.totalUploads + arrivals.length ≤ maxInt64 →
      st.stats.failedAuth + arrivals.length ≤ maxInt64 →
      st.stats.totalBytes + (arrivals.map fun a => (a.r.Body.length : Int)).sum ≤ maxInt64 →
      st.stats.totalUploads ≤ (serveUploads env srv st arrivals).stats.totalUploads ∧
      st.stats.totalBytes ≤ (serveUploads env srv st arrivals).stats.totalBytes ∧
      st.stats.failedAuth ≤ (serveUploads env srv st arrivals).stats.failedAuth) := by
  have hlen : (0 : Int) ≤ r.Body.length := Int.natCast_nonneg _
  refine ⟨?_, ?_, ?_, fun arrivals => serveUploads_stats env srv arrivals st hu hb hf⟩
  · intro body hresp hu2 hb2
    rcases handleUpload_stats env srv now uploadTime bodyFails st r with
      ⟨-, h, -⟩ | ⟨⟨reason, h1⟩, -⟩ | ⟨h1, -, -⟩
    · rw [h]
      exact ⟨wrapInt64_add _ 1 hu (by decide) (by omega), wrapInt64_add _ _ hb hlen hb2, rfl⟩
    · rw [h1] at hresp
      cases hresp
    · exact absurd hresp (h1 body)
  · intro text hresp hf2
    rcases handleUpload_stats env srv now uploadTime bodyFails st r with
      ⟨⟨body, h1⟩, -, -⟩ | ⟨-, h⟩ | ⟨-, h1, -⟩
    · rw [h1] at hresp
      cases hresp
    · rw [h, wrapInt64_add _ 1 hf (by decide) (by omega)]
    · exact absurd hresp (h1 text)
  · intro hj h401
    rcases handleUpload_stats env srv now uploadTime bodyFails st r with
      ⟨⟨body, h1⟩, -, -⟩ | ⟨⟨reason, h1⟩, -⟩ | ⟨-, -, h⟩
    · exact absurd h1 (hj body)
    · exact absurd h1 (h401 _)
    · exact h

/-- C20, witness: on the example server with security off an upload of three
bytes moves `totalUploads` from 7 to 8 and `totalBytes` from 4096 to 4099; and
over an upload, a request with a bad path and another upload no counter goes
down. -/
theorem counters_witness :
    minInt64 ≤ exampleState.stats.totalUploads ∧ minInt64 ≤ exampleState.stats.totalBytes ∧
    minInt64 ≤ exampleState.stats.failedAuth ∧
    ((stateAfter exampleState (handleUpload exampleEnv exampleOpenServer 1700000000 1700000001
        false exampleState (exampleUpload "/upload/web/a.txt" false [1, 2, 3]))).stats.totalUploads
        = 7 + 1 ∧
      (stateAfter exampleState (handleUpload exampleEnv exampleOpenServer 1700000000 1700000001
        false exampleState (exampleUpload "/upload/web/a.txt" false [1, 2, 3]))).stats.totalBytes
        = 4096 + 3 ∧
      (stateAfter exampleState (handleUpload exampleEnv exampleOpenServer 1700000000 1700000001
        false exampleState (exampleUpload "/upload/web/a.txt" false [1, 2, 3]))).stats.failedAuth
        = 2) ∧
    (exampleState.stats.totalUploads ≤ (serveUploads exampleEnv exampleOpenServer exampleState
        [⟨exampleUpload "/upload/web/a.txt" false [1, 2, 3], 1700000000, 1700000001, false⟩,
          ⟨exampleUpload "/upload/nokey/a.txt" false [1], 1700000002, 1700000003, false⟩,
          ⟨exampleUpload "/upload/web/a.txt" false [4, 5], 1700000004, 1700000005,
            false⟩]).stats.totalUploads ∧
      exampleState.stats.totalBytes ≤ (serveUploads exampleEnv exampleOpenServer exampleState
        [⟨exampleUpload "/upload/web/a.txt" false [1, 2, 3], 1700000000, 1700000001, false⟩,
          ⟨exampleUpload "/upload/nokey/a.txt" false [1], 1700000002, 1700000003, false⟩,
          ⟨exampleUpload "/upload/web/a.txt" false [4, 5], 1700000004, 1700000005,
            false⟩]).stats.totalBytes ∧
      exampleState.stats.failedAuth ≤ (serveUploads exampleEnv exampleOpenServer exampleState
        [⟨exampleUpload "/upload/web/a.txt" false [1, 2, 3], 1700000000, 1700000001, false⟩,
          ⟨exampleUpload "/upload/nokey/a.txt" false [1], 1700000002, 1700000003, false⟩,
          ⟨exampleUpload "/upload/web/a.txt" false [4, 5], 1700000004, 1700000005,
            false⟩]).stats.failedAuth) :=
  ⟨by decide, by decide, by decide,
    (counters exampleEnv exampleOpenServer 1700000000 1700000001 false exampleState
      (exampleUpload "/upload/web/a.txt" false [1, 2, 3]) (by decide) (by decide)
      (by decide)).1
      ⟨"ok".toList, "C:\\www\\a.txt".toList, 3, "web".toList, "a.txt".toList, false, none⟩
      (by decide) (by decide) (by decide),
    (counters exampleEnv exampleOpenServer 1700000000 1700000001 false exampleState
      (exampleUpload "/upload/web/a.txt" false [1, 2, 3]) (by decide) (by decide)
      (by decide)).2.2.2 _ (by decide) (by decide) (by decide)⟩

/-! ## C19: extraction -/

theorem MkdirAll_keeps (os : GOOS) (fs : FileSystem) (path q : GoString) (n : Node)
    (h : fs q = some n) : (MkdirAll os fs path).1 q = some n := by
  by_contra hne
  have hq : (MkdirAll os fs path).1 q ≠ fs q := by rw [h]; exact hne
  obtain ⟨-, h2, -⟩ := MkdirAll_frame os fs path q hq
  rw [h] at h2
  cases h2

theorem OpenFile_keeps_file (fs fs2 : FileSystem) (path : GoString) (perm : Nat)
    (q : GoString) (h : OpenFile fs path perm = some fs2)
    (hq : ∃ p d, fs q = some (.file p d)) : ∃ p d, fs2 q = some (.file p d) := by
  by_cases hqp : q = path
  · subst hqp
    unfold OpenFile at h
    obtain ⟨p, d, hf⟩ := hq
    rw [hf] at h
    simp only [Option.some.injEq] at h
    exact ⟨p, [], by rw [← h, FileSystem_set_self]⟩
  · have : fs2 q = fs q := by
      by_contra hne
      exact hqp (OpenFile_frame fs fs2 path perm h q hne)
    rw [this]
    exact hq

theorem writeFileData_keeps_file (fs : FileSystem) (path : GoString) (data : List UInt8)
    (q : GoString) (hq : ∃ p d, fs q = some (.file p d)) :
    ∃ p d, writeFileData fs path data q = some (.file p d) := by
  by_cases hqp : q = path
  · subst hqp
    obtain ⟨p, d, hf⟩ := hq
    unfold writeFileData
    rw [hf]
    exact ⟨p, data, FileSystem_set_self _ _ _⟩
  · have : writeFileData fs path data q = fs q := by
      by_contra hne
      exact hqp (writeFileData_frame fs path data q hne)
    rw [this]
    exact hq

/-- A file that is there stays a file through the loop of `unzipFile`. -/
theorem unzipEntries_keeps_file (os : GOOS) (src dest q : GoString) :
    ∀ (entries : List ZipEntry) (fs : FileSystem), (∃ p d, fs q = some (.file p d)) →
      ∃ p d, (unzipEntries os src dest fs entries).1 q = some (.file p d)
  | [], fs, h => h
  | f :: rest, fs, h => by
    unfold unzipEntries
    simp only []
    by_cases hlegal : HasPrefix (Join os [dest, f.Name]) (Clean os dest ++ [Separator os]) = true
    · simp only [hlegal, Bool.not_true, Bool.false_eq_true, if_false]
      by_cases hisdir : f.IsDir = true
      · simp only [hisdir, if_true]
        obtain ⟨p, d, hf⟩ := h
        exact unzipEntries_keeps_file os src dest q rest _
          ⟨p, d, MkdirAll_keeps os fs _ q _ hf⟩
      · simp only [hisdir, Bool.false_eq_true, if_false]
        have hM : ∃ p d, (MkdirAll os fs (Dir os (Join os [dest, f.Name]))).1 q =
            some (.file p d) := by
          obtain ⟨p, d, hf⟩ := h
          exact ⟨p, d, MkdirAll_keeps os fs _ q _ hf⟩
        rcases hmk : MkdirAll os fs (Dir os (Join os [dest, f.Name])) with ⟨fs1, ok⟩
        rw [hmk] at hM
        cases ok with
        | false => exact hM
        | true =>
          simp only []
          cases hop : OpenFile fs1 (Join os [dest, f.Name]) f.Mode with
          | none => exact hM
          | some fs2 =>
            simp only []
            have hO := OpenFile_keeps_file fs1 fs2 _ _ q hop hM
            by_cases hof : (f.OpenFails || decide (Join os [dest, f.Name] = src)) = true
            · simp only [hof, if_true]
              exact hO
            · simp only [hof, Bool.false_eq_true, if_false]
              have hW := writeFileData_keeps_file fs2 (Join os [dest, f.Name]) f.Data q hO
              by_cases hcf : f.CopyFails = true
              · simp only [hcf, if_true]
                exact hW
              · simp only [hcf, Bool.false_eq_true, if_false]
                exact unzipEntries_keeps_file os src dest q rest _ hW
    · simp only [hlegal, Bool.not_false, if_true]
      exact h

theorem unzipFile_keeps_file (os : GOOS) (zipOpenReader : List UInt8 → Option (List ZipEntry))
    (fs : FileSystem) (src dest q : GoString) (h : ∃ p d, fs q = some (.file p d)) :
    ∃ p d, (unzipFile os zipOpenReader fs src dest).1 q = some (.file p d) := by
  unfold unzipFile
  cases hsrc : fs src with
  | none => exact h
  | some n =>
    cases n with
    | dir => exact h
    | file perm data =>
      simp only []
      cases hz : zipOpenReader data with
      | none => exact h
      | some entries =>
        simp only []
        obtain ⟨p, d, hf⟩ := h
        exact unzipEntries_keeps_file os src dest q entries _
          ⟨p, d, MkdirAll_keeps os fs _ q _ hf⟩

/-- After `os.WriteFile` the target holds the data. -/
theorem WriteFile_content (fs fs2 : FileSystem) (path : GoString) (data : List UInt8)
    (perm : Nat) (h : WriteFile fs path data perm = some fs2) :
    (∃ p, fs2 path = some (.file p data)) ∧ ∀ q, q ≠ path → fs2 q = fs q := by
  unfold WriteFile at h
  cases hop : OpenFile fs path perm with
  | none => rw [hop] at h; cases h
  | some fs1 =>
    rw [hop] at h
    simp only [Option.some.injEq] at h
    have h1 : ∃ p, fs1 path = some (.file p []) := by
      unfold OpenFile at hop
      cases hp : fs path with
      | none =>
        rw [hp] at hop
        simp only [Option.some.injEq] at hop
        exact ⟨perm, by rw [← hop, FileSystem_set_self]⟩
      | some n =>
        rw [hp] at hop
        cases n with
        | dir => cases hop
        | file p d =>
          simp only [Option.some.injEq] at hop
          exact ⟨p, by rw [← hop, FileSystem_set_self]⟩
    obtain ⟨p, hp⟩ := h1
    constructor
    · refine ⟨p, ?_⟩
      rw [← h]
      unfold writeFileData
      rw [hp]
      exact FileSystem_set_self _ _ _
    · intro q hq
      rw [← h]
      have e1 : writeFileData fs1 path data q = fs1 q := by
        by_contra hne
        exact hq (writeFileData_frame fs1 path data q hne)
      have e2 : fs1 q = fs q := by
        by_contra hne
        exact hq (OpenFile_frame fs fs1 path perm hop q hne)
      rw [e1, e2]

/-- C19. Extraction is optional and non-fatal: after a successful file write,
`handleUpload` runs `unzipFile`, on the target and on the target path without
its extension, exactly when the query parameter `extract` is `true` and the
relative path ends in `.zip` in lower case; whether or not `unzipFile` fails the
response is the success response with status `ok`, `extracted` telling whether
`unzipFile` ran and returned no error and `extract_dir` present exactly when
`extracted` is true; the upload counters are incremented and the target still
holds a file. -/
theorem extraction_optional (env : Env) (srv : Server) (now uploadTime : Int)
    (bodyFails : Bool) (st : ServerState) (r : Request) (reason : Reason) (t : UploadTarget)
    (fs2 : FileSystem)
    (hpost : r.Method = "POST".toList)
    (hauth : verifyRequest env.E srv now r = .ok (true, reason))
    (htarget : handleUploadPath env.os env.wd srv.config r = .ok t)
    (hdir : (MkdirAll env.os st.fs (Dir env.os t.fullPath)).2 = true)
    (hread : ReadAllMaxBytes (wrapInt64 (wrapInt64 (srv.config.MaxUpload * 1024) * 1024))
      r.Body bodyFails = .ok r.Body)
    (hwrite : WriteFile (MkdirAll env.os st.fs (Dir env.os t.fullPath)).1 t.fullPath r.Body 420 =
      some fs2) :
    ∃ body, responseOf (handleUpload env srv now uploadTime bodyFails st r) =
        some (.json body) ∧
      body.status = "ok".toList ∧
      ((r.Query.Get "extract".toList = "true".toList ∧
          HasSuffix (ToLower env.lowerRune t.filename) ".zip".toList = true) →
        (stateAfter st (handleUpload env srv now uploadTime bodyFails st r)).fs =
          (unzipFile env.os env.zipOpenReader fs2 t.fullPath
            (TrimSuffix t.fullPath (Ext env.os t.fullPath))).1 ∧
        (body.extracted = true ↔
          (unzipFile env.os env.zipOpenReader fs2 t.fullPath
            (TrimSuffix t.fullPath (Ext env.os t.fullPath))).2 = none)) ∧
      (¬ (r.Query.Get "extract".toList = "true".toList ∧
          HasSuffix (ToLower env.lowerRune t.filename) ".zip".toList = true) →
        (stateAfter st (handleUpload env srv now uploadTime bodyFails st r)).fs = fs2 ∧
        body.extracted = false) ∧
      (body.extract_dir =
        if body.extracted then some (TrimSuffix t.fullPath (Ext env.os t.fullPath))
        else none) ∧
      (stateAfter st (handleUpload env srv now uploadTime bodyFails st r)).stats =
        ⟨wrapInt64 (st.stats.totalUploads + 1),
          wrapInt64 (st.stats.totalBytes + r.Body.length), uploadTime, st.stats.failedAuth⟩ ∧
      ∃ perm data,
        (stateAfter st (handleUpload env srv now uploadTime bodyFails st r)).fs t.fullPath =
          some (.file perm data) := by
  rw [handleUpload_store env srv now uploadTime bodyFails st r reason t hpost hauth htarget]
  have hjson : ∃ body, (handleUploadStore env srv.config uploadTime bodyFails st r
      (getClientIP r) t).1 = .json body := by
    unfold handleUploadStore
    rcases hmk : MkdirAll env.os st.fs (Dir env.os t.fullPath) with ⟨fs1, ok⟩
    rw [hmk] at hdir hwrite
    simp only at hdir hwrite
    subst hdir
    simp only [hread, hwrite]
    by_cases hauto : autoExtract env r t.filename = true
    · simp only [hauto, if_true]
      rcases hu : unzipFile env.os env.zipOpenReader fs2 t.fullPath
        (extractDirOf env t.fullPath) with ⟨fs3, e⟩
      cases e <;> exact ⟨_, rfl⟩
    · simp only [hauto, Bool.false_eq_true, if_false]
      exact ⟨_, rfl⟩
  obtain ⟨body, hbody⟩ := hjson
  obtain ⟨fs2b, -, hw2, -, hstats, hfs, hb⟩ := handleUploadStore_json env srv.config uploadTime
    bodyFails st r (getClientIP r) t body hbody
  have hfs2 : fs2b = fs2 := by
    rw [hwrite] at hw2
    exact (Option.some.inj hw2).symm
  subst hfs2
  have hauto : autoExtract env r t.filename = true ↔
      (r.Query.Get "extract".toList = "true".toList ∧
        HasSuffix (ToLower env.lowerRune t.filename) ".zip".toList = true) := by
    simp [autoExtract]
  have hdest : extractDirOf env t.fullPath = TrimSuffix t.fullPath (Ext env.os t.fullPath) := rfl
  rw [hdest] at hfs hb
  obtain ⟨p, hfile⟩ := (WriteFile_content _ _ _ _ _ hwrite).1
  refine ⟨body, by simp [responseOf, hbody], by rw [hb], ?_, ?_, ?_, hstats, ?_⟩
  · intro hatt
    have ha := hauto.mpr hatt
    simp only [stateAfter]
    rw [hfs, hb, if_pos ha]
    simp [ha]
  · intro hatt
    have ha : autoExtract env r t.filename = false := by
      cases h : autoExtract env r t.filename with
      | false => rfl
      | true => exact absurd (hauto.mp h) hatt
    simp only [stateAfter]
    rw [hfs, hb, ha]
    simp
  · rw [hb]
  · simp only [stateAfter]
    rw [hfs]
    split_ifs
    · exact unzipFile_keeps_file _ _ _ _ _ _ ⟨p, r.Body, hfile⟩
    · exact ⟨p, r.Body, hfile⟩

/-- C19, witness: the example archive uploaded as `site.zip` with `extract=true`:
the write succeeds, `unzipFile` runs and fails at the entry `../evil.txt`, and
the response is the success response with `extracted` false and no `extract_dir`;
the counters go up and `site.zip` is in place. -/
theorem extraction_optional_witness :
    (exampleUpload "/upload/web/site.zip" true [80, 75]).Method = "POST".toList ∧
    verifyRequest exampleEnv.E exampleOpenServer 1700000000
      (exampleUpload "/upload/web/site.zip" true [80, 75]) = .ok (true, .empty) ∧
    (unzipFile exampleEnv.os exampleEnv.zipOpenReader
      (writeFileData (exampleFS.set "C:\\www\\site.zip".toList (.file 420 []))
        "C:\\www\\site.zip".toList [80, 75])
      "C:\\www\\site.zip".toList "C:\\www\\site".toList).2 =
        some (.illegalPath "../evil.txt".toList) ∧
    ∃ body, responseOf (handleUpload exampleEnv exampleOpenServer 1700000000 1700000001 false
        exampleState (exampleUpload "/upload/web/site.zip" true [80, 75])) =
          some (.json body) ∧
      body.status = "ok".toList ∧ body.extracted = false ∧ body.extract_dir = none ∧
      (stateAfter exampleState (handleUpload exampleEnv exampleOpenServer 1700000000
        1700000001 false exampleState
        (exampleUpload "/upload/web/site.zip" true [80, 75]))).stats =
        ⟨wrapInt64 (7 + 1), wrapInt64 (4096 + 2), 1700000001, 2⟩ ∧
      ∃ perm data,
        (stateAfter exampleState (handleUpload exampleEnv exampleOpenServer 1700000000
          1700000001 false exampleState
          (exampleUpload "/upload/web/site.zip" true [80, 75]))).fs
            "C:\\www\\site.zip".toList = some (.file perm data) :=
  ⟨rfl, rfl, by decide,
    (extraction_optional exampleEnv exampleOpenServer 1700000000 1700000001 false exampleState
      (exampleUpload "/upload/web/site.zip" true [80, 75]) .empty
      ⟨"web".toList, "site.zip".toList, "C:\\www".toList, "C:\\www\\site.zip".toList,
        "C:\\www".toList, "C:\\www\\site.zip".toList⟩
      (writeFileData (exampleFS.set "C:\\www\\site.zip".toList (.file 420 []))
        "C:\\www\\site.zip".toList [80, 75]) rfl rfl (by decide)
      (by decide) (by decide) (by
        have hd : Dir exampleEnv.os "C:\\www\\site.zip".toList = "C:\\www".toList := by
          decide
        show WriteFile (MkdirAll exampleEnv.os exampleFS
          (Dir exampleEnv.os "C:\\www\\site.zip".toList)).1 "C:\\www\\site.zip".toList
            [80, 75] 420 = _
        rw [hd]
        rfl)).imp
      fun body h =>
        have hatt := h.2.2.1 ⟨by decide, by decide⟩
        have hex : body.extracted = false := by
          cases hb : body.extracted with
          | false => rfl
          | true =>
            have := hatt.2.mp hb
            have hd : TrimSuffix "C:\\www\\site.zip".toList
                (Ext exampleEnv.os "C:\\www\\site.zip".toList) = "C:\\www\\site".toList := by
              decide
            rw [show (⟨"web".toList, "site.zip".toList, "C:\\www".toList,
              "C:\\www\\site.zip".toList, "C:\\www".toList,
              "C:\\www\\site.zip".toList⟩ : UploadTarget).fullPath =
              "C:\\www\\site.zip".toList from rfl, hd] at this
            revert this
            decide
        ⟨h.1, h.2.1, hex, by rw [h.2.2.2.2.1, hex]; rfl, h.2.2.2.2.2.1, h.2.2.2.2.2.2⟩⟩

/-! ## C18: the stored file and the directory of the extraction -/

/-- A text is its last piece, free of separators, after a start that is empty
or ends in a separator. -/
theorem last_element (p : Char → Bool) (s : GoString) :
    ∃ n0 e, s = n0 ++ e ∧ (∀ x ∈ e, p x = false) ∧
      (n0 = [] ∨ ∃ P c, n0 = P ++ [c] ∧ p c = true) := by
  by_cases h : ∃ x ∈ s, p x = true
  · obtain ⟨pre, c, t, hs, hc, ht⟩ := last_separator p s h
    exact ⟨pre ++ [c], t, by rw [hs]; simp, ht, Or.inr ⟨pre, c, rfl, hc⟩⟩
  · refine ⟨[], s, rfl, ?_, Or.inl rfl⟩
    intro x hx
    cases hp : p x with
    | false => rfl
    | true => exact absurd ⟨x, hx, hp⟩ h

theorem takeWhile_reverse_last (p : Char → Bool) (P : GoString) (s : Char) (l : GoString)
    (hs : p s = true) (hl : ∀ x ∈ l, p x = false) :
    ((P ++ s :: l).reverse.takeWhile fun c => !(p c)).reverse = l := by
  have h1 : (P ++ s :: l).reverse = l.reverse ++ s :: P.reverse := by simp
  have h2 : ∀ (A B : GoString), (∀ x ∈ A, p x = false) →
      (A ++ s :: B).takeWhile (fun c => !(p c)) = A := by
    intro A B hA
    induction A with
    | nil => simp [List.takeWhile, hs]
    | cons a A ih =>
      have ha : p a = false := hA a (List.mem_cons_self _ _)
      rw [List.cons_append, List.takeWhile_cons, if_pos (by simp [ha]),
        ih (fun x hx => hA x (List.mem_cons_of_mem _ hx))]
  rw [h1, h2 _ _ (fun x hx => hl x (List.mem_reverse.mp hx))]
  simp

theorem takeWhile_reverse_free (p : Char → Bool) (l : GoString)
    (hl : ∀ x ∈ l, p x = false) :
    (l.reverse.takeWhile fun c => !(p c)).reverse = l := by
  have : l.reverse.takeWhile (fun c => !(p c)) = l.reverse := by
    apply List.takeWhile_eq_self_iff.mpr
    intro x hx
    simp [hl x (List.mem_reverse.mp hx)]
  rw [this, List.reverse_reverse]

theorem TrimSuffix_append (A suf : GoString) : TrimSuffix (A ++ suf) suf = A := by
  unfold TrimSuffix HasSuffix
  rw [if_pos]
  · simp
  · rw [List.reverse_append]
    exact List.isPrefixOf_iff_prefix.mpr (List.prefix_append _ _)

/-- `Ext` of a path whose last element is `e`: the text from the last dot of `e`
on. -/
theorem Ext_last (os : GOOS) (W e : GoString)
    (hW : W = [] ∨ ∃ P c, W = P ++ [c] ∧ IsPathSeparator os c = true)
    (he : ∀ x ∈ e, IsPathSeparator os x = false) :
    (¬ '.' ∈ e → Ext os (W ++ e) = []) ∧
    (∀ x tail, e = x ++ '.' :: tail → '.' ∉ tail → Ext os (W ++ e) = '.' :: tail) := by
  have hlast : ((W ++ e).reverse.takeWhile fun c => !(IsPathSeparator os c)).reverse = e := by
    rcases hW with h | ⟨P, c, h, hc⟩
    · rw [h, List.nil_append]
      exact takeWhile_reverse_free _ e he
    · rw [h, List.append_assoc, List.singleton_append]
      exact takeWhile_reverse_last _ P c e hc he
  constructor
  · intro hdot
    unfold Ext
    simp only [hlast]
    rw [if_neg]
    simpa using hdot
  · intro x tail hx htail
    unfold Ext
    simp only [hlast]
    rw [if_pos (by rw [hx]; simp)]
    have := takeWhile_reverse_last (fun c => c == '.') x '.' tail (by simp)
      (fun y hy => by
        have : y ≠ '.' := fun e => htail (e ▸ hy)
        simpa using this)
    rw [hx]
    have e2 : (fun c : Char => c != '.') = fun c => !(c == '.') := rfl
    rw [e2, this]

/-- What a valid file name has passed. -/
theorem isValidFilename_inv (os : GOOS) (name : GoString)
    (h : isValidFilename os name = true) :
    IsAbs os (Clean os name) = false ∧ ':' ∉ name ∧ '?' ∉ name ∧
    ∀ part ∈ Split (Clean os name) (Separator os), part.head? = some '.' → part = ['.'] := by
  unfold isValidFilename at h
  simp only [] at h
  split_ifs at h with h1 h2 h3 h4
  refine ⟨by simpa using h2, ?_, ?_, ?_⟩
  · intro hm
    apply h3
    rw [List.any_eq_true]
    exact ⟨":".toList, by simp, Contains_singleton_of_mem name ':' hm⟩
  · intro hm
    apply h3
    rw [List.any_eq_true]
    exact ⟨"?".toList, by simp, Contains_singleton_of_mem name '?' hm⟩
  · intro part hpart hdot
    by_contra hne
    apply h4
    rw [List.any_eq_true]
    refine ⟨part, hpart, ?_⟩
    cases part with
    | nil => simp at hdot
    | cons c cs =>
      simp only [List.head?_cons, Option.some.injEq] at hdot
      subst hdot
      have hcs : cs ≠ [] := fun h => hne (by rw [h])
      simp [HasPrefix, List.isPrefixOf, isPrefixOf_nil_left, hcs]

theorem uncLenFrom_ge (os : GOOS) : ∀ (cs : GoString) (i count : Nat),
    i ≤ uncLenFrom os cs i count
  | [], i, _ => le_refl _
  | c :: cs, i, count => by
    unfold uncLenFrom
    split_ifs
    · exact le_refl _
    · exact le_trans (Nat.le_succ i) (uncLenFrom_ge os cs (i + 1) (count + 1))
    · exact le_trans (Nat.le_succ i) (uncLenFrom_ge os cs (i + 1) count)

theorem uncLen_ge (os : GOOS) (path : GoString) (n : Nat) (h : 2 ≤ n) (hlen : 2 ≤ path.length) :
    2 ≤ uncLen os path n := by
  unfold uncLen
  split_ifs
  · exact le_trans h (uncLenFrom_ge os _ n 0)
  · exact hlen

/-- A Windows path that starts with two separators has a volume name of two
characters at least. -/
theorem volumeNameLen_two_separators (s1 s2 : Char) (tl : GoString)
    (h1 : IsPathSeparator .windows s1 = true) (h2 : IsPathSeparator .windows s2 = true) :
    2 ≤ volumeNameLen .windows (s1 :: s2 :: tl) := by
  unfold volumeNameLen
  simp only []
  have hlen : 2 ≤ (s1 :: s2 :: tl).length := by simp
  split_ifs with c1 c2 c3 c4 c5 c6 c7
  · exact le_refl _
  · simp [h1] at c2
  · exact uncLen_ge _ _ 8 (by decide) hlen
  · omega
  · omega
  · exact hlen
  · exact uncLen_ge _ _ 2 (le_refl _) hlen
  · exfalso
    apply c7
    exact ⟨hlen, by simpa using h2⟩

/-- On Windows a name whose cleaned form is not absolute does not start with
two separators. -/
theorem valid_not_two_separators (s1 s2 : Char) (tl : GoString)
    (h1 : IsPathSeparator .windows s1 = true) (h2 : IsPathSeparator .windows s2 = true) :
    IsAbs .windows (Clean .windows (s1 :: s2 :: tl)) = true := by
  have hv := volumeNameLen_two_separators s1 s2 tl h1 h2
  have key : ∃ a b rest, Clean .windows (s1 :: s2 :: tl) = a :: b :: rest ∧
      IsPathSeparator .windows a = true ∧ IsPathSeparator .windows b = true := by
    have hfs : ∀ c, IsPathSeparator .windows c = true →
        IsPathSeparator .windows (if c = '/' then '\\' else c) = true := by
      intro c hc
      split_ifs
      · rfl
      · exact hc
    unfold Clean
    simp only []
    cases hdrop : (s1 :: s2 :: tl).drop (volumeNameLen .windows (s1 :: s2 :: tl)) with
    | nil =>
      simp only []
      split_ifs
      · exact ⟨_, _, _, rfl, hfs s1 h1, hfs s2 h2⟩
      · exact ⟨s1, s2, tl ++ ['.'], rfl, h1, h2⟩
    | cons c rest =>
      simp only []
      obtain ⟨n, hn⟩ : ∃ n, volumeNameLen .windows (s1 :: s2 :: tl) = n + 2 :=
        ⟨_, (Nat.sub_add_cancel hv).symm⟩
      rw [hn]
      simp only [List.take_succ_cons, List.cons_append, FromSlash, List.map_cons]
      exact ⟨_, _, _, rfl, hfs s1 h1, hfs s2 h2⟩
  obtain ⟨a, b, rest, hC, ha, hb⟩ := key
  rw [hC]
  have hv2 := volumeNameLen_two_separators a b rest ha hb
  unfold IsAbs
  simp only []
  rw [if_neg (by omega)]
  simp [ha, hb]

theorem mem_renderElems (os : GOOS) (rooted : Bool) (S : List GoString) (x : Char)
    (h : x ∈ renderElems os rooted S) : x = Separator os ∨ x = '.' ∨ ∃ s ∈ S, x ∈ s := by
  unfold renderElems at h
  simp only [] at h
  split_ifs at h
  · rcases List.mem_cons.mp h with h1 | h1
    · exact Or.inl h1
    · rcases mem_intercalate _ _ _ h1 with h2 | h2
      · exact Or.inl h2
      · exact Or.inr (Or.inr h2)
  · exact Or.inr (Or.inl (by simpa using h))
  · rcases mem_intercalate _ _ _ h with h2 | h2
    · exact Or.inl h2
    · exact Or.inr (Or.inr h2)

/-- A valid file name has no volume name. -/
theorem valid_volume (os : GOOS) (name n0 e : GoString) (hname : name = n0 ++ e)
    (he : IsNameElem os e)
    (hvalid : isValidFilename os name = true) : volumeNameLen os name = 0 := by
  obtain ⟨habs, hcolon, hquest, -⟩ := isValidFilename_inv os name hvalid
  obtain ⟨x0, xs, hex⟩ := List.exists_cons_of_ne_nil he.1
  have hx0 : IsPathSeparator os x0 = false := he.2.2.2 x0 (by rw [hex]; exact List.mem_cons_self _ _)
  cases os with
  | unix => rfl
  | windows =>
    cases hn : n0 with
    | nil =>
      rw [hname, hn, List.nil_append, hex]
      apply volumeNameLen_of_plain _ _ _ hx0
      intro hh
      apply hcolon
      rw [hname, hn, List.nil_append, hex]
      cases xs with
      | nil => simp at hh
      | cons y ys =>
        simp only [List.head?_cons, Option.some.injEq] at hh
        rw [hh]; simp
    | cons a n1 =>
      have hnm : name = a :: (n1 ++ e) := by rw [hname, hn]; rfl
      obtain ⟨b, tl, hb⟩ : ∃ b tl, n1 ++ e = b :: tl := by
        cases h : n1 ++ e with
        | nil =>
          have := congrArg List.length h
          simp [hex] at this
        | cons b tl => exact ⟨b, tl, rfl⟩
      have hbmem : b ∈ name := by rw [hnm, hb]; simp
      by_cases ha : IsPathSeparator .windows a = true
      · by_cases hbs : IsPathSeparator .windows b = true
        · have := valid_not_two_separators a b tl ha hbs
          rw [← hb, ← hnm, habs] at this
          cases this
        · rw [hnm, hb]
          exact volumeNameLen_rooted_plain .windows a b tl ha (by simpa using hbs)
            (fun e => hcolon (e ▸ hbmem)) (fun e => hquest (e ▸ hbmem))
      · rw [hnm]
        apply volumeNameLen_of_plain _ _ _ (by simpa using ha)
        rw [hb]
        simp only [List.head?_cons, ne_eq, Option.some.injEq]
        exact fun e => hcolon (e ▸ hbmem)

/-- The last element of a valid file name, when it is a name element, does not
start with a dot. -/
theorem valid_last_element (os : GOOS) (name n0 e : GoString) (hname : name = n0 ++ e)
    (he : IsNameElem os e)
    (hn0 : n0 = [] ∨ ∃ P c, n0 = P ++ [c] ∧ IsPathSeparator os c = true)
    (hvalid : isValidFilename os name = true) : e.head? ≠ some '.' := by
  obtain ⟨habs, hcolon, hquest, hparts⟩ := isValidFilename_inv os name hvalid
  obtain ⟨x0, xs, hex⟩ := List.exists_cons_of_ne_nil he.1
  have hx0 : IsPathSeparator os x0 = false := he.2.2.2 x0 (by rw [hex]; exact List.mem_cons_self _ _)
  have hv0 := valid_volume os name n0 e hname he hvalid
  -- the elements that Clean keeps
  obtain ⟨c, tl, hct⟩ : ∃ c tl, name = c :: tl := by
    cases h : name with
    | nil =>
      rw [hname] at h
      have := congrArg List.length h
      simp [hex] at this
    | cons c tl => exact ⟨c, tl, rfl⟩
  have hsplit : ∃ I, splitElems os name = I ++ [e] := by
    unfold splitElems
    rcases hn0 with h | ⟨P, c1, h, hc1⟩
    · exact ⟨[], by rw [hname, h, List.nil_append, splitBy_eq_single _ e he.2.2.2]; rfl⟩
    · refine ⟨splitBy (IsPathSeparator os) P, ?_⟩
      rw [hname, h, List.append_assoc, List.singleton_append,
        splitBy_append_sep _ _ hc1, splitBy_eq_single _ e he.2.2.2]
  obtain ⟨I, hI⟩ := hsplit
  generalize hrooted : IsPathSeparator os c = rooted
  have hfold : (splitElems os name).foldl (cleanStep rooted) [] =
      I.foldl (cleanStep rooted) [] ++ [e] := by
    rw [hI, List.foldl_append]
    simp only [List.foldl_cons, List.foldl_nil]
    exact cleanStep_name os rooted _ e he
  have hSfree : ∀ a ∈ I.foldl (cleanStep rooted) [] ++ [e], ∀ x ∈ a,
      IsPathSeparator os x = false ∧ x ∈ name := by
    intro a ha x hx
    rw [← hfold] at ha
    rcases foldl_cleanStep_subset rooted _ [] a ha with h | h
    · simp at h
    · exact ⟨mem_splitBy_free _ _ a h x hx, mem_of_mem_splitBy _ _ a h x hx⟩
  generalize hSdef : I.foldl (cleanStep rooted) [] ++ [e] = S at hfold hSfree
  have hSne : S ≠ [] := by rw [← hSdef]; simp
  have hemem : e ∈ S := by rw [← hSdef]; simp
  -- the cleaned name
  have hout : ∀ x ∈ renderElems os rooted S, x ≠ ':' ∧ x ≠ '?' ∧ (os = .windows → x ≠ '/') := by
    intro x hx
    rcases mem_renderElems os rooted S x hx with h | h | ⟨s, hs, hxs⟩
    · rw [h]; cases os <;> simp [Separator]
    · rw [h]; simp
    · obtain ⟨h1, h2⟩ := hSfree s hs x hxs
      refine ⟨fun e => hcolon (e ▸ h2), fun e => hquest (e ▸ h2), ?_⟩
      intro hw e
      subst hw
      rw [e] at h1
      simp [IsPathSeparator] at h1
  have hClean : Clean os name = renderElems os rooted S := by
    unfold Clean
    simp only [hv0, List.drop_zero, List.take_zero, List.nil_append]
    rw [hct]
    simp only [hrooted]
    rw [← hct, hfold, postClean_of_plain os 0 name _ (fun h => (hout _ h).1 rfl)
      (fun h => (hout _ h).2.1 rfl)]
    cases os with
    | unix => rfl
    | windows => exact FromSlash_of_not_mem _ _ (fun h => (hout _ h).2.2 rfl rfl)
  -- its parts
  have hsep : (fun x : Char => decide (x = Separator os)) (Separator os) = true := by simp
  have hfree2 : ∀ s ∈ S, ∀ x ∈ s, (fun x : Char => decide (x = Separator os)) x = false := by
    intro s hs x hx
    have h1 := (hSfree s hs x hx).1
    simp only [decide_eq_false_iff_not]
    intro e
    rw [e, IsPathSeparator_Separator] at h1
    cases h1
  have hbody : splitBy (fun x : Char => decide (x = Separator os))
      ([Separator os].intercalate S) = S :=
    splitBy_intercalate _ _ hsep S hSne hfree2
  have hbne : [Separator os].intercalate S ≠ [] := by
    obtain ⟨Z, hZ⟩ := intercalate_split (Separator os) (I.foldl (cleanStep rooted) [])
    rw [← hSdef, hZ [e] (by simp), intercalate_singleton, hex]
    simp
  have hmem : e ∈ Split (Clean os name) (Separator os) := by
    rw [hClean]
    unfold Split renderElems
    simp only []
    cases rooted with
    | true =>
      simp only [if_true]
      rw [splitBy, if_pos hsep, hbody]
      exact List.mem_cons_of_mem _ hemem
    | false =>
      simp only [Bool.false_eq_true, if_false, if_neg hbne]
      rw [hbody]
      exact hemem
  intro hdot
  exact he.2.1 (hparts e hmem hdot)

/-- A name that ends in `.zip` in lower case ends in a character that is
neither a separator nor a dot. -/
theorem zip_last (lowerRune : Char → Char) (name : GoString)
    (h : HasSuffix (ToLower lowerRune name) ".zip".toList = true) :
    ∃ m c, name = m ++ [c] ∧ c ≠ '.' ∧ ∀ os, IsPathSeparator os c = false := by
  unfold HasSuffix ToLower at h
  rw [← List.map_reverse] at h
  cases hr : name.reverse with
  | nil =>
    rw [hr] at h
    simp [List.isPrefixOf] at h
  | cons c rest =>
    rw [hr] at h
    have hc : (if c.toNat < 128 then
        if 'A' ≤ c ∧ c ≤ 'Z' then Char.ofNat (c.toNat + 32) else c
      else lowerRune c) = 'p' := by
      have h2 : ".zip".toList.reverse = ['p', 'i', 'z', '.'] := by decide
      rw [h2] at h
      simp only [List.map_cons, List.isPrefixOf, Bool.and_eq_true, beq_iff_eq] at h
      exact h.1.symm
    have key : ∀ d : Char, d.toNat < 128 → ¬ ('A' ≤ d ∧ d ≤ 'Z') → d ≠ 'p' → c ≠ d := by
      intro d h1 h2 h3 e
      rw [e, if_pos h1, if_neg h2] at hc
      exact h3 hc
    refine ⟨rest.reverse, c, ?_, ?_, ?_⟩
    · have := congrArg List.reverse hr
      simpa using this
    · exact key '.' (by decide) (by decide) (by decide)
    · intro os
      cases os with
      | windows =>
        simp only [IsPathSeparator, Bool.or_eq_false_iff, decide_eq_false_iff_not]
        exact ⟨key '\\' (by decide) (by decide) (by decide),
          key '/' (by decide) (by decide) (by decide)⟩
      | unix =>
        simp only [IsPathSeparator, decide_eq_false_iff_not]
        exact key '/' (by decide) (by decide) (by decide)

theorem dropWhile_last (p : Char → Bool) (e : GoString) (he : ∀ x ∈ e, p x = false) :
    ∀ n0 : GoString, (n0 = [] ∨ ∃ P c, n0 = P ++ [c] ∧ p c = true) →
      ∃ k, (n0 ++ e).dropWhile p = k ++ e ∧ (k = [] ∨ ∃ P c, k = P ++ [c] ∧ p c = true) ∧
        (∀ x ∈ k, x ∈ n0) ∧ ∀ z zs, k = z :: zs → p z = false
  | [], _ => by
    refine ⟨[], ?_, Or.inl rfl, by simp, by simp⟩
    cases e with
    | nil => rfl
    | cons a as =>
      simp [List.dropWhile, he a (List.mem_cons_self _ _)]
  | a :: n1, h => by
    by_cases ha : p a = true
    · have h1 : n1 = [] ∨ ∃ P c, n1 = P ++ [c] ∧ p c = true := by
        rcases h with h | ⟨P, c, hP, hc⟩
        · cases h
        · cases P with
          | nil =>
            simp at hP
            exact Or.inl hP.2
          | cons b P1 =>
            simp at hP
            exact Or.inr ⟨P1, c, hP.2, hc⟩
      obtain ⟨k, hk, hk2, hk3, hk4⟩ := dropWhile_last p e he n1 h1
      refine ⟨k, ?_, hk2, fun x hx => List.mem_cons_of_mem _ (hk3 x hx), hk4⟩
      rw [List.cons_append, List.dropWhile_cons, if_pos ha, hk]
    · refine ⟨a :: n1, ?_, ?_, fun x hx => hx, ?_⟩
      · rw [List.cons_append, List.dropWhile_cons, if_neg ha]
      · rcases h with h | h
        · cases h
        · exact Or.inr h
      · intro z zs hz
        simp only [List.cons.injEq] at hz
        rw [← hz.1]
        simpa using ha

/-- Joining a name to a directory cleans a text that ends in the last element
of the name, after a separator. -/
theorem Join_last (os : GOOS) (base name n0 e : GoString) (hb : base ≠ [])
    (hname : name = n0 ++ e) (hfree : ∀ x ∈ e, IsPathSeparator os x = false)
    (hn0 : n0 = [] ∨ ∃ P c, n0 = P ++ [c] ∧ IsPathSeparator os c = true)
    (hlast : os = .windows → base.getLast? ≠ some ':') (hq : '?' ∉ name) :
    ∃ T, Join os [base, name] = Clean os (base ++ T ++ e) ∧
      (∃ P c, base ++ T = P ++ [c] ∧ IsPathSeparator os c = true) ∧
      (∀ x ∈ T, x ∈ name ∨ IsPathSeparator os x = true) ∧
      (os = .windows → ∀ b, base = [b] → IsPathSeparator os b = true →
        ∀ z zs, T = z :: zs → IsPathSeparator os z = false) := by
  have hn0name : ∀ x ∈ n0, x ∈ name := fun x hx => by rw [hname]; exact List.mem_append_left _ hx
  cases os with
  | unix =>
    refine ⟨'/' :: n0, ?_, ?_, ?_, fun h => by cases h⟩
    · unfold Join
      simp only [List.dropWhile_cons, hb, decide_False, Bool.false_eq_true, if_false]
      rw [intercalate_cons_cons, intercalate_singleton, hname]
      simp
    · rcases hn0 with h | ⟨P, c, hP, hc⟩
      · exact ⟨base, '/', by rw [h], rfl⟩
      · exact ⟨base ++ '/' :: P, c, by rw [hP]; simp, hc⟩
    · intro x hx
      rcases List.mem_cons.mp hx with h | h
      · exact Or.inr (by rw [h]; rfl)
      · exact Or.inl (hn0name x h)
  | windows =>
    cases hl : base.getLast? with
    | none => exact absurd (List.getLast?_eq_none_iff.mp hl) hb
    | some last =>
      have hbl : ∃ B, base = B ++ [last] := by
        obtain ⟨B, hB⟩ := List.getLast?_eq_some_iff.mp hl
        exact ⟨B, hB⟩
      have hstep0 : joinStepWindows [] base = base := by simp [joinStepWindows]
      have hfold : [base, name].foldl joinStepWindows [] = joinStepWindows base name := by
        simp [List.foldl, hstep0]
      have hj : ∃ T, joinStepWindows base name = base ++ T ++ e ∧
          (∃ P c, base ++ T = P ++ [c] ∧ IsPathSeparator .windows c = true) ∧
          (∀ x ∈ T, x ∈ name ∨ IsPathSeparator .windows x = true) ∧
          (∀ b, base = [b] → IsPathSeparator .windows b = true →
            ∀ z zs, T = z :: zs → IsPathSeparator .windows z = false) := by
        simp only [joinStepWindows, hl]
        by_cases hsep : IsPathSeparator .windows last = true
        · rw [if_pos hsep, if_neg (fun h => hq (List.mem_of_mem_head?
            (pathHasPrefixFold_question _ h.2) |> (List.dropWhile_suffix _).subset)), hname]
          obtain ⟨k, hk, hk2, hk3, hk4⟩ :=
            dropWhile_last (IsPathSeparator .windows) e hfree n0 hn0
          refine ⟨k, by rw [hk, List.append_assoc], ?_,
            fun x hx => Or.inl (by rw [← hname]; exact hn0name x (hk3 x hx)),
            fun _ _ _ => hk4⟩
          rcases hk2 with h | ⟨P, c, hP, hc⟩
          · obtain ⟨B, hB⟩ := hbl
            exact ⟨B, last, by rw [h, hB]; simp, hsep⟩
          · exact ⟨base ++ P, c, by rw [hP]; simp, hc⟩
        · rw [if_neg hsep, if_neg (fun h => hlast rfl (by rw [hl, h]))]
          refine ⟨'\\' :: n0, by rw [hname]; simp, ?_, ?_, ?_⟩
          · rcases hn0 with h | ⟨P, c, hP, hc⟩
            · exact ⟨base, '\\', by rw [h], rfl⟩
            · exact ⟨base ++ '\\' :: P, c, by rw [hP]; simp, hc⟩
          · intro x hx
            rcases List.mem_cons.mp hx with h | h
            · exact Or.inr (by rw [h]; rfl)
            · exact Or.inl (hn0name x h)
          · intro b hbb hbsep
            rw [hbb] at hl
            simp at hl
            rw [hl] at hbsep
            exact absurd hbsep hsep
      obtain ⟨T, hT, hT2, hT3, hT4⟩ := hj
      refine ⟨T, ?_, hT2, hT3, fun _ => hT4⟩
      unfold Join
      simp only [hfold, hT]
      cases hbf : base ++ T ++ e with
      | nil => simp [hb] at hbf
      | cons a as => rfl

theorem not_prefix_longer (A : GoString) (c : Char) : HasPrefix A (A ++ [c]) = false := by
  unfold HasPrefix
  rw [Bool.eq_false_iff]
  intro h
  have := (List.isPrefixOf_iff_prefix.mp h).length_le
  simp at this

theorem not_prefix_other (A t : GoString) (c d : Char) (h : c ≠ d) :
    HasPrefix (A ++ d :: t) (A ++ [c]) = false := by
  unfold HasPrefix
  rw [Bool.eq_false_iff]
  intro hp
  have h1 := (List.prefix_append_right_inj A).mp (List.isPrefixOf_iff_prefix.mp hp)
  obtain ⟨r, hr⟩ := h1
  simp at hr
  exact h hr.1

theorem TrimSuffix_nil (A : GoString) : TrimSuffix A [] = A := by
  simp [TrimSuffix, HasSuffix]


theorem getLast?_replicate_dotdot (k : Nat) (l : GoString)
    (h : (List.replicate k ['.', '.']).getLast? = some l) : l = ['.', '.'] := by
  have hmem := List.mem_of_getLast?_eq_some h
  exact (List.mem_replicate.mp hmem).2

theorem CleanShape_elem (os : GOOS) (rooted : Bool) (S : List GoString)
    (h : CleanShape os rooted S) :
    ∀ a ∈ S, a ≠ [] ∧ ∀ x ∈ a, IsPathSeparator os x = false := by
  obtain ⟨k, N, hS, -, hN⟩ := h
  intro a ha
  rw [hS] at ha
  rcases List.mem_append.mp ha with h1 | h1
  · rw [(List.mem_replicate.mp h1).2]
    refine ⟨by simp, ?_⟩
    intro x hx
    have : x = '.' := by simpa using hx
    rw [this]
    cases os <;> rfl
  · exact ⟨(hN a h1).1, (hN a h1).2.2.2⟩

theorem CleanShape_append (os : GOOS) (rooted : Bool) (S : List GoString) (e : GoString)
    (h : CleanShape os rooted S) (he : IsNameElem os e) : CleanShape os rooted (S ++ [e]) := by
  obtain ⟨k, N, hS, hk, hN⟩ := h
  refine ⟨k, N ++ [e], by rw [hS, List.append_assoc], hk, ?_⟩
  intro a ha
  rcases List.mem_append.mp ha with h1 | h1
  · exact hN a h1
  · rw [List.mem_singleton.mp h1]; exact he

theorem cleanStep_dotdot_stay (rooted : Bool) (out : List GoString)
    (h : ∀ l, out.getLast? = some l → l = ['.', '.']) :
    cleanStep rooted out ['.', '.'] = if rooted then out else out ++ [['.', '.']] := by
  unfold cleanStep
  cases hlast : out.getLast? with
  | none => cases rooted <;> simp
  | some last =>
    have := h last hlast
    subst this
    cases rooted <;> simp

theorem cleanStep_dotdot_back (rooted : Bool) (out : List GoString) (l : GoString)
    (hl : out.getLast? = some l) (hne : l ≠ ['.', '.']) :
    cleanStep rooted out ['.', '.'] = out.dropLast := by
  unfold cleanStep
  simp [hl, hne]

/-- One round of the loop of `Clean` keeps the shape of what is written. -/
theorem cleanStep_shape (os : GOOS) (rooted : Bool) (out : List GoString) (e : GoString)
    (he : ∀ x ∈ e, IsPathSeparator os x = false) (hout : CleanShape os rooted out) :
    CleanShape os rooted (cleanStep rooted out e) := by
  by_cases h1 : e = []
  · rw [h1, cleanStep_nil]; exact hout
  by_cases h2 : e = ['.']
  · unfold cleanStep
    rw [if_neg h1, if_pos h2]; exact hout
  by_cases h3 : e = ['.', '.']
  · subst h3
    obtain ⟨k, N, hS, hk, hN⟩ := hout
    rcases List.eq_nil_or_concat N with hN0 | ⟨N1, l, hNl⟩
    · -- nothing to remove
      have hout2 : out = List.replicate k ['.', '.'] := by rw [hS, hN0]; simp
      rw [cleanStep_dotdot_stay rooted out (fun l hl => by
        rw [hout2] at hl
        exact getLast?_replicate_dotdot k l hl)]
      cases rooted with
      | true => exact ⟨k, N, hS, hk, hN⟩
      | false =>
        simp only [Bool.false_eq_true, if_false]
        refine ⟨k + 1, [], ?_, by simp, by simp⟩
        rw [hout2, List.append_nil, List.replicate_succ']
    · have hout2 : out = (List.replicate k ['.', '.'] ++ N1) ++ [l] := by
        rw [hS, hNl]; simp
      have hl : IsNameElem os l := hN l (by rw [hNl]; simp)
      rw [cleanStep_dotdot_back rooted out l (by rw [hout2]; simp) hl.2.2.1]
      refine ⟨k, N1, ?_, hk, fun a ha => hN a (by rw [hNl]; simp [ha])⟩
      rw [hout2, List.dropLast_concat]
  rw [cleanStep_name os rooted out e ⟨h1, h2, h3, he⟩]
  exact CleanShape_append os rooted out e hout ⟨h1, h2, h3, he⟩

theorem foldl_cleanStep_shape (os : GOOS) (rooted : Bool) :
    ∀ (es out : List GoString), (∀ e ∈ es, ∀ x ∈ e, IsPathSeparator os x = false) →
      CleanShape os rooted out → CleanShape os rooted (es.foldl (cleanStep rooted) out)
  | [], out, _, hout => by simpa using hout
  | e :: es, out, hes, hout => by
    rw [List.foldl_cons]
    exact foldl_cleanStep_shape os rooted es _ (fun x hx => hes x (List.mem_cons_of_mem _ hx))
      (cleanStep_shape os rooted out e (hes e (List.mem_cons_self _ _)) hout)

theorem CleanShape_nil (os : GOOS) (rooted : Bool) : CleanShape os rooted [] :=
  ⟨0, [], rfl, fun _ => rfl, by simp⟩

theorem foldl_dotdots (rooted : Bool) : ∀ k j : Nat, (rooted = true → k = 0) →
    (List.replicate k ['.', '.']).foldl (cleanStep rooted) (List.replicate j ['.', '.']) =
      List.replicate (j + k) ['.', '.']
  | 0, j, _ => by simp
  | k + 1, j, h => by
    cases rooted with
    | true => exact absurd (h rfl) (by simp)
    | false =>
      rw [List.replicate_succ, List.foldl_cons]
      have hstep : cleanStep false (List.replicate j ['.', '.']) ['.', '.'] =
          List.replicate (j + 1) ['.', '.'] := by
        rw [cleanStep_dotdot_stay false _ (fun l hl => getLast?_replicate_dotdot j l hl)]
        simp [List.replicate_succ']
      rw [hstep, foldl_dotdots false k (j + 1) (by simp)]
      congr 1
      omega

/-- The loop of `Clean` run over elements it has written gives them back. -/
theorem foldl_cleanStep_fixed (os : GOOS) (rooted : Bool) (S : List GoString)
    (h : CleanShape os rooted S) : S.foldl (cleanStep rooted) [] = S := by
  obtain ⟨k, N, hS, hk, hN⟩ := h
  rw [hS, List.foldl_append]
  have := foldl_dotdots rooted k 0 hk
  simp only [List.replicate_zero, Nat.zero_add] at this
  rw [this, foldl_cleanStep_names os rooted N _ hN]

theorem postClean_self (os : GOOS) (volLen : Nat) (out : GoString) :
    postClean os volLen out out = out := by
  unfold postClean
  have : out.isPrefixOf out = true := List.isPrefixOf_iff_prefix.mpr (List.prefix_refl _)
  simp [this]

theorem FromSlash_render (os : GOOS) (rooted : Bool) (S : List GoString)
    (hS : ∀ a ∈ S, ∀ x ∈ a, IsPathSeparator os x = false) :
    FromSlash os (renderElems os rooted S) = renderElems os rooted S := by
  cases os with
  | unix => rfl
  | windows =>
    apply FromSlash_of_not_mem
    intro h
    rcases mem_renderElems .windows rooted S '/' h with h1 | h1 | ⟨s, hs, hx⟩
    · revert h1; decide
    · revert h1; decide
    · have := hS s hs '/' hx
      revert this
      decide

theorem renderElems_cases (os : GOOS) (rooted : Bool) (S : List GoString) (hne : S ≠ [])
    (hS : ∀ a ∈ S, a ≠ [] ∧ ∀ x ∈ a, IsPathSeparator os x = false) :
    ∃ c tl, renderElems os rooted S = c :: tl ∧ IsPathSeparator os c = rooted ∧
      splitElems os (c :: tl) = if rooted then [] :: S else S := by
  obtain ⟨x, xs, s, rest, hs, hsx, ys, hys⟩ :=
    ordinary_head (Separator os) S hne (fun a ha => (hS a ha).1)
  have hx : IsPathSeparator os x = false :=
    (hS s (by rw [hs]; simp)).2 x (by rw [hsx]; simp)
  have hsplit : splitBy (IsPathSeparator os) ([Separator os].intercalate S) = S :=
    splitBy_intercalate _ _ (IsPathSeparator_Separator os) S hne (fun a ha => (hS a ha).2)
  cases rooted with
  | true =>
    refine ⟨Separator os, [Separator os].intercalate S, by simp [renderElems],
      IsPathSeparator_Separator os, ?_⟩
    unfold splitElems
    rw [splitBy, if_pos (IsPathSeparator_Separator os), hsplit]
    rfl
  | false =>
    refine ⟨x, ys, by simp [renderElems, hys], hx, ?_⟩
    unfold splitElems
    rw [← hys, hsplit]
    rfl

/-- `Clean` gives back a path that is a volume name followed by elements it has
written. -/
theorem Clean_fixed (os : GOOS) (V : GoString) (rooted : Bool) (S : List GoString)
    (hne : S ≠ []) (hS : CleanShape os rooted S)
    (hvol : volumeNameLen os (V ++ renderElems os rooted S) = V.length)
    (hV : FromSlash os V = V) :
    Clean os (V ++ renderElems os rooted S) = V ++ renderElems os rooted S := by
  obtain ⟨c, tl, hR, hc, hsplit⟩ := renderElems_cases os rooted S hne (CleanShape_elem os rooted S hS)
  have hfold : (splitElems os (c :: tl)).foldl (cleanStep rooted) [] = S := by
    rw [hsplit]
    cases rooted with
    | true =>
      simp only [if_true, List.foldl_cons, cleanStep_nil]
      exact foldl_cleanStep_fixed os true S hS
    | false =>
      simp only [Bool.false_eq_true, if_false]
      exact foldl_cleanStep_fixed os false S hS
  unfold Clean
  simp only [hvol, List.drop_left, List.take_left]
  rw [hR]
  simp only [hc, hfold]
  rw [hR, postClean_self, FromSlash_append, hV, ← hR,
    FromSlash_render os rooted S (fun a ha => (CleanShape_elem os rooted S hS a ha).2)]

/-- `Clean` on a path that ends in a name element, after the start of the path
or a separator: the volume name, then the elements written, the last of them
that name element. -/
theorem Clean_last (os : GOOS) (X R0 e : GoString)
    (hdrop : X.drop (volumeNameLen os X) = R0 ++ e)
    (hR0 : R0 = [] ∨ ∃ P c, R0 = P ++ [c] ∧ IsPathSeparator os c = true)
    (he : IsNameElem os e)
    (hpost : os = .windows → volumeNameLen os X = 0 → ':' ∉ X ∧ '?' ∉ X) :
    ∃ rooted S, CleanShape os rooted S ∧
      Clean os X = FromSlash os (X.take (volumeNameLen os X)) ++
        renderElems os rooted (S ++ [e]) ∧
      (∀ a ∈ S, ∀ x ∈ a, x ∈ R0) ∧
      ∃ c tl, R0 ++ e = c :: tl ∧ IsPathSeparator os c = rooted := by
  obtain ⟨c, tl, hct⟩ : ∃ c tl, R0 ++ e = c :: tl := by
    cases h : R0 ++ e with
    | nil =>
      have := congrArg List.length h
      have hne := he.1
      cases e with
      | nil => exact absurd rfl hne
      | cons a as => simp at this
    | cons c tl => exact ⟨c, tl, rfl⟩
  have hsplit : ∃ I, splitElems os (c :: tl) = I ++ [e] ∧
      ∀ a ∈ I, (∀ x ∈ a, IsPathSeparator os x = false) ∧ ∀ x ∈ a, x ∈ R0 := by
    unfold splitElems
    rw [← hct]
    rcases hR0 with h | ⟨P, c1, h, hc1⟩
    · exact ⟨[], by rw [h, List.nil_append, splitBy_eq_single _ e he.2.2.2]; rfl, by simp⟩
    · refine ⟨splitBy (IsPathSeparator os) P, ?_, ?_⟩
      · rw [h, List.append_assoc, List.singleton_append,
          splitBy_append_sep _ _ hc1, splitBy_eq_single _ e he.2.2.2]
      · intro a ha
        refine ⟨mem_splitBy_free _ _ a ha, fun x hx => ?_⟩
        rw [h]
        exact List.mem_append_left _ (mem_of_mem_splitBy _ _ a ha x hx)
  obtain ⟨I, hI, hIfree⟩ := hsplit
  generalize hrooted : IsPathSeparator os c = rooted
  have hfold : (splitElems os (c :: tl)).foldl (cleanStep rooted) [] =
      I.foldl (cleanStep rooted) [] ++ [e] := by
    rw [hI, List.foldl_append]
    simp only [List.foldl_cons, List.foldl_nil]
    exact cleanStep_name os rooted _ e he
  have hshape : CleanShape os rooted (I.foldl (cleanStep rooted) []) :=
    foldl_cleanStep_shape os rooted I [] (fun a ha => (hIfree a ha).1) (CleanShape_nil os rooted)
  have hchars : ∀ a ∈ I.foldl (cleanStep rooted) [], ∀ x ∈ a, x ∈ R0 := by
    intro a ha x hx
    rcases foldl_cleanStep_subset rooted I [] a ha with h | h
    · simp at h
    · exact (hIfree a h).2 x hx
  refine ⟨rooted, I.foldl (cleanStep rooted) [], hshape, ?_, hchars, c, tl, hct, hrooted⟩
  have hshape2 := CleanShape_append os rooted _ e hshape he
  have hpc : postClean os (volumeNameLen os X) (c :: tl)
      (renderElems os rooted (I.foldl (cleanStep rooted) [] ++ [e])) =
      renderElems os rooted (I.foldl (cleanStep rooted) [] ++ [e]) := by
    by_cases hv : os = .windows ∧ volumeNameLen os X = 0
    · obtain ⟨hcolon, hquest⟩ := hpost hv.1 hv.2
      have hsub : ∀ x, x ∈ R0 ++ e → x ∈ X := by
        intro x hx
        rw [← hdrop] at hx
        exact List.mem_of_mem_drop hx
      have hout : ∀ x ∈ renderElems os rooted (I.foldl (cleanStep rooted) [] ++ [e]),
          x ≠ ':' ∧ x ≠ '?' := by
        intro x hx
        rcases mem_renderElems os rooted _ x hx with h | h | ⟨s, hs, hxs⟩
        · rw [h]; cases os <;> simp [Separator]
        · rw [h]; simp
        · have hxX : x ∈ X := by
            apply hsub
            rcases List.mem_append.mp hs with h1 | h1
            · exact List.mem_append_left _ (hchars s h1 x hxs)
            · rw [List.mem_singleton.mp h1] at hxs
              exact List.mem_append_right _ hxs
          exact ⟨fun e => hcolon (e ▸ hxX), fun e => hquest (e ▸ hxX)⟩
      exact postClean_of_plain os _ _ _ (fun h => (hout _ h).1 rfl) (fun h => (hout _ h).2 rfl)
    · apply postClean_of_volume
      intro hw h0
      exact hv ⟨hw, h0⟩
  unfold Clean
  simp only [hdrop]
  rw [hct]
  simp only [hrooted, hfold]
  rw [hpc, FromSlash_append, FromSlash_render os rooted _
    (fun a ha => (CleanShape_elem os rooted _ hshape2 a ha).2)]

theorem render_last (os : GOOS) (rooted : Bool) (S : List GoString) :
    ∃ B, (∀ y : GoString, y ≠ [] → renderElems os rooted (S ++ [y]) = B ++ y) ∧
      (B = [] ∨ ∃ P c, B = P ++ [c] ∧ IsPathSeparator os c = true) ∧
      (B = [] → rooted = false ∧ S = []) := by
  have hbody : ∀ y : GoString, y ≠ [] → [Separator os].intercalate (S ++ [y]) ≠ [] := by
    intro y hy h
    obtain ⟨Z, hZ⟩ := intercalate_split (Separator os) S
    rw [hZ [y] (by simp), intercalate_singleton] at h
    exact hy (List.append_eq_nil.mp h).2
  by_cases hS : S = []
  · subst hS
    cases rooted with
    | true =>
      refine ⟨[Separator os], fun y _ => ?_, Or.inr ⟨[], Separator os, rfl,
        IsPathSeparator_Separator os⟩, fun h => by simp at h⟩
      simp [renderElems, intercalate_singleton]
    | false =>
      refine ⟨[], fun y hy => ?_, Or.inl rfl, fun _ => ⟨rfl, rfl⟩⟩
      have := hbody y hy
      simp only [List.nil_append, intercalate_singleton] at this ⊢
      simp [renderElems, intercalate_singleton, this]
  · have hsplit : ∀ y : GoString, [Separator os].intercalate (S ++ [y]) =
        ([Separator os].intercalate S ++ [Separator os]) ++ y := by
      intro y
      rw [intercalate_append _ S [y] hS (by simp), intercalate_singleton]
      simp
    cases rooted with
    | true =>
      refine ⟨Separator os :: ([Separator os].intercalate S ++ [Separator os]), fun y _ => ?_,
        Or.inr ⟨Separator os :: [Separator os].intercalate S, Separator os, by simp,
          IsPathSeparator_Separator os⟩, fun h => by simp at h⟩
      rw [renderElems_rooted, hsplit]
      simp
    | false =>
      refine ⟨[Separator os].intercalate S ++ [Separator os], fun y hy => ?_,
        Or.inr ⟨[Separator os].intercalate S, Separator os, rfl,
          IsPathSeparator_Separator os⟩, fun h => by simp at h⟩
      have := hbody y hy
      unfold renderElems
      simp only [Bool.false_eq_true, if_false, if_neg this]
      exact hsplit y

theorem Clean_nil (os : GOOS) : Clean os [] = ['.'] := by
  cases os <;> rfl

theorem colon_not_separator (os : GOOS) : IsPathSeparator os ':' = false := by
  cases os <;> rfl

/-- The directory an archive is extracted to lies apart from the archive, for a
target that is a volume name followed by elements written by `Clean`, the last
of them a name element that does not start with a dot. -/
theorem extract_apart_core (os : GOOS) (V : GoString) (rooted : Bool) (S : List GoString)
    (e F : GoString)
    (hF : F = V ++ renderElems os rooted (S ++ [e]))
    (hS : CleanShape os rooted S) (he : IsNameElem os e) (hhead : e.head? ≠ some '.')
    (hV : FromSlash os V = V)
    (hvol : ∀ y, IsNameElem os y → (∀ c ∈ y, c ∈ e) →
      volumeNameLen os (V ++ renderElems os rooted (S ++ [y])) = V.length)
    (hkind : rooted = true ∨ S ≠ [] ∨ V = [] ∨ ∃ d, V = [d, ':']) :
    HasPrefix F (Clean os (TrimSuffix F (Ext os F)) ++ [Separator os]) = false := by
  obtain ⟨B, hB, hBsep, hB0⟩ := render_last os rooted S
  have hfix : ∀ y, IsNameElem os y → (∀ c ∈ y, c ∈ e) →
      Clean os (V ++ (B ++ y)) = V ++ (B ++ y) := by
    intro y hy hsub
    rw [← hB y hy.1]
    exact Clean_fixed os V rooted (S ++ [y]) (by simp) (CleanShape_append os rooted S y hS hy)
      (hvol y hy hsub) hV
  have hFe : F = V ++ (B ++ e) := by rw [hF, hB e he.1]
  -- the last element of the target, as `Ext` sees it
  have hlastel : ∃ W l0, V ++ B = W ++ l0 ∧
      (W = [] ∨ ∃ P c, W = P ++ [c] ∧ IsPathSeparator os c = true) ∧
      (∀ x ∈ l0, IsPathSeparator os x = false) ∧
      (l0 = [] ∨ ∃ d, V = [d, ':'] ∧ B = [] ∧ (l0 = [':'] ∨ l0 = [d, ':'])) := by
    rcases hBsep with hBnil | ⟨P, c, hP, hc⟩
    · obtain ⟨hr, hSn⟩ := hB0 hBnil
      rcases hkind with h | h | h | ⟨d, h⟩
      · rw [hr] at h; cases h
      · exact absurd hSn h
      · exact ⟨[], [], by rw [h, hBnil], Or.inl rfl, by simp, Or.inl rfl⟩
      · by_cases hd : IsPathSeparator os d = true
        · refine ⟨[d], [':'], by rw [h, hBnil]; rfl, Or.inr ⟨[], d, rfl, hd⟩, ?_,
            Or.inr ⟨d, h, hBnil, Or.inl rfl⟩⟩
          intro x hx
          rw [List.mem_singleton.mp hx]
          exact colon_not_separator os
        · refine ⟨[], [d, ':'], by rw [h, hBnil]; rfl, Or.inl rfl, ?_,
            Or.inr ⟨d, h, hBnil, Or.inr rfl⟩⟩
          intro x hx
          simp only [List.mem_cons, List.mem_singleton, List.not_mem_nil, or_false] at hx
          rcases hx with h1 | h1
          · rw [h1]; simpa using hd
          · rw [h1]; exact colon_not_separator os
    · exact ⟨V ++ P ++ [c], [], by rw [hP]; simp, Or.inr ⟨V ++ P, c, rfl, hc⟩, by simp,
        Or.inl rfl⟩
  obtain ⟨W, l0, hWl, hW, hl0, hl0kind⟩ := hlastel
  have hFW : ∀ y : GoString, V ++ (B ++ y) = W ++ (l0 ++ y) := by
    intro y
    rw [← List.append_assoc, hWl, List.append_assoc]
  have hExt := Ext_last os W (l0 ++ e) hW (by
    intro x hx
    rcases List.mem_append.mp hx with h | h
    · exact hl0 x h
    · exact he.2.2.2 x h)
  by_cases hdot : '.' ∈ e
  · obtain ⟨x, d, tail, hx, hd, htail⟩ :=
      last_separator (fun c => decide (c = '.')) e ⟨'.', hdot, by simp⟩
    have hd2 : d = '.' := by simpa using hd
    subst hd2
    have htail2 : '.' ∉ tail := fun h => by simpa using htail '.' h
    have hxne : x ≠ [] := by
      intro h
      rw [hx, h] at hhead
      simp at hhead
    have hxname : IsNameElem os x := by
      obtain ⟨a, as, hxa⟩ := List.exists_cons_of_ne_nil hxne
      have ha : a ≠ '.' := by
        intro h
        rw [hx, hxa, h] at hhead
        simp at hhead
      refine ⟨hxne, ?_, ?_, fun c hc => he.2.2.2 c (by rw [hx]; simp [hc])⟩
      · rw [hxa]
        intro h
        simp at h
        exact ha h.1
      · rw [hxa]
        intro h
        simp at h
        exact ha h.1
    have hE : Ext os F = '.' :: tail := by
      rw [hFe, hFW e]
      exact hExt.2 (l0 ++ x) tail (by rw [hx]; simp) htail2
    have hFx : F = (V ++ (B ++ x)) ++ '.' :: tail := by rw [hFe, hx]; simp
    rw [hE]
    nth_rewrite 2 [hFx]
    rw [TrimSuffix_append, hfix x hxname (fun c hc => by rw [hx]; simp [hc]), hFx]
    exact not_prefix_other _ _ _ _ (Separator_ne_dot os)
  · by_cases hdot0 : '.' ∈ l0
    · -- the drive letter is a dot: the extension is the whole path
      rcases hl0kind with h | ⟨d, hVd, hBn, h | h⟩
      · rw [h] at hdot0; simp at hdot0
      · rw [h] at hdot0; simp at hdot0
      · have hd : d = '.' := by
          rw [h] at hdot0
          simp only [List.mem_cons, List.mem_singleton, List.not_mem_nil, or_false] at hdot0
          rcases hdot0 with h1 | h1
          · exact h1.symm
          · cases h1
        have hE : Ext os F = F := by
          rw [hFe, hFW e]
          have := hExt.2 [] (':' :: e) (by rw [h, hd]; rfl) (by
            intro hm
            rcases List.mem_cons.mp hm with h1 | h1
            · cases h1
            · exact hdot h1)
          have hW0 : W = [] := by
            have hlen := congrArg List.length hWl
            rw [hVd, hBn, h] at hlen
            simp at hlen
            exact hlen
          rw [this, h, hd, hW0]
          rfl
        have hT : TrimSuffix F F = [] := by
          have := TrimSuffix_append [] F
          simpa using this
        rw [hE, hT, Clean_nil, hFe, hVd, hBn, hd]
        unfold HasPrefix
        have hsep : Separator os ≠ ':' := by cases os <;> decide
        simp [List.isPrefixOf, hsep]
    · have hE : Ext os F = [] := by
        rw [hFe, hFW e]
        apply hExt.1
        intro hm
        rcases List.mem_append.mp hm with h | h
        · exact hdot0 h
        · exact hdot h
      rw [hE, TrimSuffix_nil, hFe, hfix e he (fun c hc => hc)]
      exact not_prefix_longer _ _

theorem first_separator (p : Char → Bool) : ∀ l : GoString, (∃ x ∈ l, p x = true) →
    ∃ a s t, l = a ++ s :: t ∧ p s = true ∧ ∀ x ∈ a, p x = false
  | [], h => by simp at h
  | x :: xs, h => by
    by_cases hx : p x = true
    · exact ⟨[], x, xs, rfl, hx, by simp⟩
    · have hxs : ∃ y ∈ xs, p y = true := by
        obtain ⟨y, hy, hpy⟩ := h
        rcases List.mem_cons.mp hy with h1 | h1
        · rw [h1] at hpy; exact absurd hpy hx
        · exact ⟨y, h1, hpy⟩
      obtain ⟨a, s, t, hl, hs, ha⟩ := first_separator p xs hxs
      refine ⟨x :: a, s, t, by rw [hl]; rfl, hs, ?_⟩
      intro y hy
      rcases List.mem_cons.mp hy with h1 | h1
      · rw [h1]; simpa using hx
      · exact ha y h1

theorem uncLenFrom_free (os : GOOS) : ∀ (a : GoString) (t : GoString) (i count : Nat),
    (∀ x ∈ a, IsPathSeparator os x = false) →
    uncLenFrom os (a ++ t) i count = uncLenFrom os t (i + a.length) count
  | [], t, i, count, _ => by simp
  | x :: a, t, i, count, h => by
    rw [List.cons_append, uncLenFrom, if_neg (by simp [h x (List.mem_cons_self _ _)]),
      uncLenFrom_free os a t (i + 1) count (fun y hy => h y (List.mem_cons_of_mem _ hy))]
    congr 1
    simp
    omega

/-- The loop of `uncLen` stops at the second separator. -/
theorem uncLenFrom_second (os : GOOS) (a b rest : GoString) (s1 s2 : Char) (i : Nat)
    (ha : ∀ x ∈ a, IsPathSeparator os x = false) (hb : ∀ x ∈ b, IsPathSeparator os x = false)
    (h1 : IsPathSeparator os s1 = true) (h2 : IsPathSeparator os s2 = true) :
    uncLenFrom os (a ++ s1 :: (b ++ s2 :: rest)) i 0 = i + a.length + 1 + b.length := by
  rw [uncLenFrom_free os a _ i 0 ha, uncLenFrom, if_pos h1, if_neg (by decide),
    uncLenFrom_free os b _ _ _ hb, uncLenFrom, if_pos h2, if_pos (by decide)]

theorem toUpper_ne_dot (x : Char) (h : x ≠ '.') : toUpper x ≠ '.' := by
  by_cases hz : 'a' ≤ x ∧ x ≤ 'z'
  · have h1 : 97 ≤ x.toNat := hz.1
    have h2 : x.toNat ≤ 122 := hz.2
    rw [← Char.ofNat_toNat x]
    generalize x.toNat = n at h1 h2
    interval_cases n <;> decide
  · simp [toUpper, hz, h]

/-- A Windows path that starts with two separators, not followed by a dot or a
question mark, has the volume name of a UNC path. -/
theorem volumeNameLen_unc (p0 p1 p2 : Char) (rest : GoString)
    (h0 : IsPathSeparator .windows p0 = true) (h1 : IsPathSeparator .windows p1 = true)
    (hdot : p2 ≠ '.') (hquest : p2 ≠ '?') :
    volumeNameLen .windows (p0 :: p1 :: p2 :: rest) =
      uncLen .windows (p0 :: p1 :: p2 :: rest) 2 := by
  have hc : p1 ≠ ':' := by
    intro e
    rw [e] at h1
    revert h1
    decide
  have hU : toUpper '.' = '.' := by decide
  have hQ : toUpper '?' = '?' := by decide
  have hq2 : ¬ ('?' = toUpper p2) := fun e => toUpper_ne_question p2 hquest e.symm
  have hd2 : ¬ ('.' = toUpper p2) := fun e => toUpper_ne_dot p2 hdot e.symm
  have hb : IsPathSeparator .windows '\\' = true := by decide
  have hds : IsPathSeparator .windows '.' = false := by decide
  have hqs : IsPathSeparator .windows '?' = false := by decide
  simp [volumeNameLen, pathHasPrefixFold, h0, h1, hc, hb, hds, hqs, hU, hQ, hq2, hd2]

/-- The volume name of a UNC path: two separators, the host, a separator and
the share, up to the next separator. -/
theorem volumeNameLen_unc_text (x0 x1 s1 s2 : Char) (a b rest : GoString)
    (h0 : IsPathSeparator .windows x0 = true) (h1 : IsPathSeparator .windows x1 = true)
    (hs1 : IsPathSeparator .windows s1 = true) (hs2 : IsPathSeparator .windows s2 = true)
    (ha : ∀ x ∈ a, IsPathSeparator .windows x = false)
    (hb : ∀ x ∈ b, IsPathSeparator .windows x = false)
    (hadot : a.head? ≠ some '.') (haq : a.head? ≠ some '?') :
    volumeNameLen .windows (x0 :: x1 :: (a ++ s1 :: (b ++ s2 :: rest))) =
      2 + a.length + 1 + b.length := by
  obtain ⟨p2, prest, hp2, hp2dot, hp2q⟩ : ∃ p2 prest,
      a ++ s1 :: (b ++ s2 :: rest) = p2 :: prest ∧ p2 ≠ '.' ∧ p2 ≠ '?' := by
    cases a with
    | nil =>
      refine ⟨s1, b ++ s2 :: rest, rfl, ?_, ?_⟩
      · intro h; rw [h] at hs1; revert hs1; decide
      · intro h; rw [h] at hs1; revert hs1; decide
    | cons a0 a1 =>
      refine ⟨a0, a1 ++ s1 :: (b ++ s2 :: rest), rfl, ?_, ?_⟩
      · intro h; apply hadot; rw [h]; rfl
      · intro h; apply haq; rw [h]; rfl
  rw [hp2, volumeNameLen_unc _ _ _ _ h0 h1 hp2dot hp2q]
  unfold uncLen
  rw [if_pos (by simp)]
  simp only [List.drop_succ_cons, List.drop_zero]
  rw [← hp2, uncLenFrom_second .windows a b rest s1 s2 2 ha hb hs1 hs2]

theorem takeWhile_free (p : Char → Bool) (s : Char) (hs : p s = true) (rest : GoString) :
    ∀ a : GoString, (∀ x ∈ a, p x = false) →
      (a ++ s :: rest).takeWhile (fun c => !(p c)) = a
  | [], _ => by simp [List.takeWhile, hs]
  | x :: a, h => by
    rw [List.cons_append, List.takeWhile_cons, if_pos (by simp [h x (List.mem_cons_self _ _)]),
      takeWhile_free p s hs rest a (fun y hy => h y (List.mem_cons_of_mem _ hy))]

/-- The volume name of a Windows path that starts with `\\?\`: up to the next
separator. -/
theorem volumeNameLen_device_text (x0 x1 s s2 : Char) (a rest : GoString)
    (h0 : IsPathSeparator .windows x0 = true) (h1 : IsPathSeparator .windows x1 = true)
    (hs : IsPathSeparator .windows s = true) (hs2 : IsPathSeparator .windows s2 = true)
    (ha : ∀ x ∈ a, IsPathSeparator .windows x = false) :
    volumeNameLen .windows (x0 :: x1 :: '?' :: s :: (a ++ s2 :: rest)) = 4 + a.length := by
  have hc : x1 ≠ ':' := by
    intro e
    rw [e] at h1
    revert h1
    decide
  have hU : toUpper '.' = '.' := by decide
  have hQ : toUpper '?' = '?' := by decide
  have hb : IsPathSeparator .windows '\\' = true := by decide
  have hds : IsPathSeparator .windows '.' = false := by decide
  have hqs : IsPathSeparator .windows '?' = false := by decide
  have htw := takeWhile_free (IsPathSeparator .windows) s2 hs2 rest a ha
  have hany : (a ++ s2 :: rest).any (IsPathSeparator .windows) = true := by
    rw [List.any_eq_true]
    exact ⟨s2, by simp, hs2⟩
  unfold volumeNameLen
  simp only [List.length_cons, List.get?_cons_succ, List.get?_cons_zero, Option.some.injEq, hc,
    and_false, if_false, List.headD_cons, h0, Bool.not_true, Bool.false_eq_true, or_false,
    Nat.add_one_ne_zero]
  simp only [pathHasPrefixFold, h0, h1, hs, hb, hds, hqs, hU, hQ, if_true, Bool.false_eq_true,
    if_false, Bool.and_true, Bool.true_and, Bool.and_false, Bool.false_and, decide_True,
    decide_False, or_true, true_or, or_false, false_or]
  simp [hany, htw]

theorem Separator_ne_colon (os : GOOS) : Separator os ≠ ':' := by
  cases os <;> decide

/-- A path written by `Clean` from elements without colon and question mark has
no volume name. -/
theorem volumeNameLen_render_plain (os : GOOS) (rooted : Bool) (S : List GoString)
    (hne : S ≠ []) (hS : ∀ a ∈ S, a ≠ [] ∧ ∀ x ∈ a, IsPathSeparator os x = false)
    (hplain : ∀ a ∈ S, ':' ∉ a ∧ '?' ∉ a) :
    volumeNameLen os (renderElems os rooted S) = 0 := by
  cases rooted with
  | false =>
    have hbody : volumeNameLen os ([Separator os].intercalate S) = 0 :=
      volumeNameLen_intercalate os (Separator os) (Separator_ne_colon os) S hne
        (fun a ha => (hS a ha).1)
        (fun a ha x hx => ⟨(hS a ha).2 x hx, fun e => (hplain a ha).1 (e ▸ hx)⟩)
    obtain ⟨x, xs, s, rest, hs, hsx, ys, hys⟩ :=
      ordinary_head (Separator os) S hne (fun a ha => (hS a ha).1)
    unfold renderElems
    simp only [Bool.false_eq_true, if_false]
    rw [if_neg (by rw [hys]; simp)]
    exact hbody
  | true =>
    obtain ⟨x, xs, s, rest, hs, hsx, ys, hys⟩ :=
      ordinary_head (Separator os) S hne (fun a ha => (hS a ha).1)
    have hxs : x ∈ s := by rw [hsx]; simp
    have hsS : s ∈ S := by rw [hs]; simp
    rw [renderElems_rooted, hys]
    exact volumeNameLen_rooted_plain os (Separator os) x ys (IsPathSeparator_Separator os)
      ((hS s hsS).2 x hxs) (fun e => (hplain s hsS).1 (e ▸ hxs))
      (fun e => (hplain s hsS).2 (e ▸ hxs))

/-- The directory an archive is extracted to lies apart from the archive: the
target is the cleaned form of a text that ends in a name element `e`, not
starting with a dot, after the start or a separator, and that on Windows has a
drive letter as volume name, or no volume name, no colon and no question mark,
or the volume name of a UNC path (two separators, host, separator, share) or of
a path that starts with `\\?\`, followed by a separator. -/
theorem extract_apart_of_text (os : GOOS) (X R0 e : GoString)
    (hdrop : X.drop (volumeNameLen os X) = R0 ++ e)
    (hR0 : R0 = [] ∨ ∃ P c, R0 = P ++ [c] ∧ IsPathSeparator os c = true)
    (he : IsNameElem os e) (hhead : e.head? ≠ some '.')
    (hkind : os = .windows →
      X.get? 1 = some ':' ∨ (volumeNameLen os X = 0 ∧ ':' ∉ X ∧ '?' ∉ X) ∨
      (∃ x0 x1 a s1 b, X.take (volumeNameLen os X) = x0 :: x1 :: (a ++ s1 :: b) ∧
        IsPathSeparator os x0 = true ∧ IsPathSeparator os x1 = true ∧
        IsPathSeparator os s1 = true ∧ (∀ x ∈ a, IsPathSeparator os x = false) ∧
        (∀ x ∈ b, IsPathSeparator os x = false) ∧ a.head? ≠ some '.' ∧ a.head? ≠ some '?' ∧
        ∃ c tl, R0 ++ e = c :: tl ∧ IsPathSeparator os c = true) ∨
      ∃ x0 x1 s a, X.take (volumeNameLen os X) = x0 :: x1 :: '?' :: s :: a ∧
        IsPathSeparator os x0 = true ∧ IsPathSeparator os x1 = true ∧
        IsPathSeparator os s = true ∧ (∀ x ∈ a, IsPathSeparator os x = false) ∧
        ∃ c tl, R0 ++ e = c :: tl ∧ IsPathSeparator os c = true) :
    HasPrefix (Clean os X)
      (Clean os (TrimSuffix (Clean os X) (Ext os (Clean os X))) ++ [Separator os]) = false := by
  have hpost : os = .windows → volumeNameLen os X = 0 → ':' ∉ X ∧ '?' ∉ X := by
    intro hw h0
    rcases hkind hw with h | h | ⟨x0, x1, a, s1, b, h, -⟩ | ⟨x0, x1, s, a, h, -⟩
    · subst hw
      rw [volumeNameLen_drive X h] at h0
      cases h0
    · exact h.2
    · rw [h0] at h
      simp at h
    · rw [h0] at h
      simp at h
  obtain ⟨rooted, S, hS, hC, hchars, c, tl, hct, hroot⟩ :=
    Clean_last os X R0 e hdrop hR0 he hpost
  have hsubX : ∀ x, x ∈ R0 ++ e → x ∈ X := by
    intro x hx
    rw [← hdrop] at hx
    exact List.mem_of_mem_drop hx
  apply extract_apart_core os (FromSlash os (X.take (volumeNameLen os X))) rooted S e _ hC hS he
    hhead (FromSlash_idem os _)
  · -- the volume name of the written path
    intro y hy hsub
    have hSy := CleanShape_append os rooted S y hS hy
    cases os with
    | unix => rfl
    | windows =>
      rcases hkind rfl with h | ⟨h0, hcolon, hquest⟩ |
        ⟨x0, x1, a, s1, b, htake, hx0, hx1, hs1, ha, hb, hadot, haq, c2, tl2, hct2, hc2⟩ |
        ⟨x0, x1, s, a, htake, hx0, hx1, hs, ha, c2, tl2, hct2, hc2⟩
      · have hv := volumeNameLen_drive X h
        rw [hv]
        have hlen : 2 ≤ X.length := by
          by_contra hc
          rw [List.get?_eq_none.mpr (by omega)] at h
          cases h
        have hlenV : (FromSlash .windows (X.take 2)).length = 2 := by
          simp [FromSlash, List.length_take]
          omega
        rw [hlenV]
        apply volumeNameLen_drive
        obtain ⟨a, b, tl, hX⟩ : ∃ a b tl, X = a :: b :: tl := by
          match X, hlen with
          | a :: b :: tl, _ => exact ⟨a, b, tl, rfl⟩
        rw [hX] at h ⊢
        simp only [List.get?_cons_succ, List.get?_cons_zero, Option.some.injEq] at h
        subst h
        simp [FromSlash]
      · rw [h0]
        simp only [List.take_zero]
        have hF0 : FromSlash .windows [] = [] := rfl
        rw [hF0, List.nil_append, List.length_nil]
        apply volumeNameLen_render_plain .windows rooted (S ++ [y]) (by simp)
          (CleanShape_elem .windows rooted _ hSy)
        intro a ha
        have hin : ∀ x ∈ a, x ∈ X := by
          intro x hx
          apply hsubX
          rcases List.mem_append.mp ha with h1 | h1
          · exact List.mem_append_left _ (hchars a h1 x hx)
          · rw [List.mem_singleton.mp h1] at hx
            exact List.mem_append_right _ (hsub x hx)
        exact ⟨fun h => hcolon (hin _ h), fun h => hquest (hin _ h)⟩
      · -- a UNC volume name
        have hr : rooted = true := by
          rw [hct] at hct2
          simp only [List.cons.injEq] at hct2
          rw [← hroot, hct2.1, hc2]
        subst hr
        rw [htake, renderElems_rooted]
        have hfa : FromSlash .windows a = a := by
          apply FromSlash_of_not_mem
          intro h
          have := ha '/' h
          revert this
          decide
        have hfb : FromSlash .windows b = b := by
          apply FromSlash_of_not_mem
          intro h
          have := hb '/' h
          revert this
          decide
        have hsepF : ∀ z, IsPathSeparator .windows z = true → FromSlash .windows [z] = ['\\'] := by
          intro z hz
          have : z = '\\' ∨ z = '/' := by simpa [IsPathSeparator] using hz
          rcases this with h | h <;> subst h <;> rfl
        have hV : FromSlash .windows (x0 :: x1 :: (a ++ s1 :: b)) =
            '\\' :: '\\' :: (a ++ '\\' :: b) := by
          have e1 : x0 :: x1 :: (a ++ s1 :: b) = [x0] ++ ([x1] ++ (a ++ ([s1] ++ b))) := by simp
          rw [e1, FromSlash_append, FromSlash_append, FromSlash_append, FromSlash_append,
            hsepF x0 hx0, hsepF x1 hx1, hsepF s1 hs1, hfa, hfb]
          simp
        rw [hV]
        have hbs : IsPathSeparator .windows '\\' = true := by decide
        obtain ⟨p2, prest, hp2, hp2dot, hp2q⟩ : ∃ p2 prest,
            a ++ '\\' :: b = p2 :: prest ∧ p2 ≠ '.' ∧ p2 ≠ '?' := by
          cases a with
          | nil => exact ⟨'\\', b, rfl, by decide, by decide⟩
          | cons a0 a1 =>
            refine ⟨a0, a1 ++ '\\' :: b, rfl, ?_, ?_⟩
            · intro h; apply hadot; rw [h]; rfl
            · intro h; apply haq; rw [h]; rfl
        have hY : ('\\' :: '\\' :: (a ++ '\\' :: b)) ++
            Separator .windows :: [Separator .windows].intercalate (S ++ [y]) =
            '\\' :: '\\' :: p2 :: (prest ++
              Separator .windows :: [Separator .windows].intercalate (S ++ [y])) := by
          simp only [List.cons_append, hp2]
        rw [hY, volumeNameLen_unc _ _ _ _ hbs hbs hp2dot hp2q]
        unfold uncLen
        rw [if_pos (by simp)]
        have hd : ('\\' :: '\\' :: p2 :: (prest ++
            Separator .windows :: [Separator .windows].intercalate (S ++ [y]))).drop 2 =
            a ++ '\\' :: (b ++ Separator .windows ::
              [Separator .windows].intercalate (S ++ [y])) := by
          simp only [List.drop_succ_cons, List.drop_zero]
          rw [← List.cons_append, ← hp2]
          simp
        rw [hd, uncLenFrom_second .windows a b _ '\\' (Separator .windows) 2 ha hb hbs
          (IsPathSeparator_Separator .windows)]
        simp
        omega
      · -- a volume name that starts with two separators and a question mark
        have hr : rooted = true := by
          rw [hct] at hct2
          simp only [List.cons.injEq] at hct2
          rw [← hroot, hct2.1, hc2]
        subst hr
        rw [htake, renderElems_rooted]
        have hfa : FromSlash .windows a = a := by
          apply FromSlash_of_not_mem
          intro h
          have := ha '/' h
          revert this
          decide
        have hsepF : ∀ z, IsPathSeparator .windows z = true → FromSlash .windows [z] = ['\\'] := by
          intro z hz
          have : z = '\\' ∨ z = '/' := by simpa [IsPathSeparator] using hz
          rcases this with h | h <;> subst h <;> rfl
        have hV : FromSlash .windows (x0 :: x1 :: '?' :: s :: a) =
            '\\' :: '\\' :: '?' :: '\\' :: a := by
          have e1 : x0 :: x1 :: '?' :: s :: a = [x0] ++ ([x1] ++ (['?'] ++ ([s] ++ a))) := by simp
          have e2 : FromSlash .windows ['?'] = ['?'] := rfl
          rw [e1, FromSlash_append, FromSlash_append, FromSlash_append, FromSlash_append,
            hsepF x0 hx0, hsepF x1 hx1, hsepF s hs, e2, hfa]
          simp
        rw [hV]
        have hbs : IsPathSeparator .windows '\\' = true := by decide
        have hY : ('\\' :: '\\' :: '?' :: '\\' :: a) ++
            Separator .windows :: [Separator .windows].intercalate (S ++ [y]) =
            '\\' :: '\\' :: '?' :: '\\' :: (a ++
              Separator .windows :: [Separator .windows].intercalate (S ++ [y])) := by
          simp
        rw [hY, volumeNameLen_device_text _ _ _ _ a _ hbs hbs hbs
          (IsPathSeparator_Separator .windows) ha]
        simp
        omega
  · -- the kind of volume name
    cases os with
    | unix => exact Or.inr (Or.inr (Or.inl rfl))
    | windows =>
      rcases hkind rfl with h | ⟨h0, -, -⟩ | ⟨x0, x1, a, s1, b, -, -, -, -, -, -, -, -, c2, tl2,
        hct2, hc2⟩ | ⟨x0, x1, s, a, -, -, -, -, -, c2, tl2, hct2, hc2⟩
      · have hv := volumeNameLen_drive X h
        rw [hv]
        have hlen : 2 ≤ X.length := by
          by_contra hc
          rw [List.get?_eq_none.mpr (by omega)] at h
          cases h
        obtain ⟨a, b, tl, hX⟩ : ∃ a b tl, X = a :: b :: tl := by
          match X, hlen with
          | a :: b :: tl, _ => exact ⟨a, b, tl, rfl⟩
        rw [hX] at h ⊢
        simp only [List.get?_cons_succ, List.get?_cons_zero, Option.some.injEq] at h
        subst h
        exact Or.inr (Or.inr (Or.inr ⟨_, by simp [FromSlash]; rfl⟩))
      · rw [h0]
        exact Or.inr (Or.inr (Or.inl rfl))
      · left
        rw [hct] at hct2
        simp only [List.cons.injEq] at hct2
        rw [← hroot, hct2.1, hc2]
      · left
        rw [hct] at hct2
        simp only [List.cons.injEq] at hct2
        rw [← hroot, hct2.1, hc2]

theorem Join_nil_left (os : GOOS) (name : GoString) (hne : name ≠ []) :
    Join os [[], name] = Clean os name := by
  obtain ⟨a, as, ha⟩ := List.exists_cons_of_ne_nil hne
  subst ha
  cases os with
  | unix => simp [Join, intercalate_singleton]
  | windows => simp [Join, joinStepWindows]

/-- The Windows `join` puts no separator after a directory that ends in a
colon. -/
theorem Join_glue (base name : GoString) (hl : base.getLast? = some ':') :
    Join .windows [base, name] = Clean .windows (base ++ name) := by
  have hb : base ≠ [] := by
    intro h
    rw [h] at hl
    cases hl
  have hstep0 : joinStepWindows [] base = base := by simp [joinStepWindows]
  have hfold : [base, name].foldl joinStepWindows [] = joinStepWindows base name := by
    simp [List.foldl, hstep0]
  have hj : joinStepWindows base name = base ++ name := by
    simp only [joinStepWindows, hl]
    rw [if_neg (by decide)]
    simp
  unfold Join
  simp only [hfold, hj]
  cases hbf : base ++ name with
  | nil => simp [hb] at hbf
  | cons a as => rfl

/-- A Windows path without colon and question mark that does not start with two
separators has no volume name. -/
theorem volumeNameLen_plain_text (X : GoString) (hcolon : ':' ∉ X) (hquest : '?' ∉ X)
    (htwo : ¬ (IsPathSeparator .windows (X.headD 'x') = true ∧
      IsPathSeparator .windows (X.getD 1 'x') = true)) :
    volumeNameLen .windows X = 0 := by
  cases X with
  | nil => rfl
  | cons a rest =>
    by_cases ha : IsPathSeparator .windows a = true
    · cases rest with
      | nil =>
        have : a = '\\' ∨ a = '/' := by simpa [IsPathSeparator] using ha
        rcases this with h | h <;> subst h <;> decide
      | cons b tl =>
        have hb : IsPathSeparator .windows b = false := by
          cases hbs : IsPathSeparator .windows b with
          | false => rfl
          | true => exact absurd ⟨ha, hbs⟩ htwo
        exact volumeNameLen_rooted_plain .windows a b tl ha hb
          (fun e => hcolon (by rw [← e]; simp)) (fun e => hquest (by rw [← e]; simp))
    · apply volumeNameLen_of_plain .windows a rest (by simpa using ha)
      intro h
      cases rest with
      | nil => simp at h
      | cons b tl =>
        simp only [List.head?_cons, Option.some.injEq] at h
        exact hcolon (by rw [h]; simp)

/-- The directory an archive is extracted to lies apart from the archive: the
uploaded file is not under it.  On Windows the base directory starts with a
drive letter and has no further colon, or it has no colon, no question mark and
does not start with two separators, or it is a UNC path with host and share
(two separators, not followed by a dot or a question mark, and a later
separator that is not the last character) or a path that starts with `\\?\`
and goes on, neither ending in a colon. -/
theorem extract_dir_apart (os : GOOS) (lowerRune : Char → Char) (base name : GoString)
    (hbase : os = .windows →
      (base.get? 1 = some ':' ∧ ':' ∉ base.drop 2) ∨
      (':' ∉ base ∧ '?' ∉ base ∧
        ¬ (IsPathSeparator os (base.headD 'x') = true ∧
          IsPathSeparator os (base.getD 1 'x') = true)) ∨
      (IsPathSeparator os (base.headD 'x') = true ∧
        IsPathSeparator os (base.getD 1 'x') = true ∧
        base.getD 2 'x' ≠ '.' ∧ base.getD 2 'x' ≠ '?' ∧
        (∃ i, 2 ≤ i ∧ i + 1 < base.length ∧ IsPathSeparator os (base.getD i 'x') = true) ∧
        base.getLast? ≠ some ':') ∨
      (IsPathSeparator os (base.headD 'x') = true ∧
        IsPathSeparator os (base.getD 1 'x') = true ∧ base.getD 2 'x' = '?' ∧
        IsPathSeparator os (base.getD 3 'x') = true ∧ 4 < base.length ∧
        base.getLast? ≠ some ':'))
    (hvalid : isValidFilename os name = true)
    (hzip : HasSuffix (ToLower lowerRune name) ".zip".toList = true) :
    HasPrefix (Join os [base, name])
      (Clean os (TrimSuffix (Join os [base, name]) (Ext os (Join os [base, name]))) ++
        [Separator os]) = false := by
  obtain ⟨m, c4, hm, hc4dot, hc4sep⟩ := zip_last lowerRune name hzip
  obtain ⟨n0, e, hne, hfree, hn0⟩ := last_element (IsPathSeparator os) name
  -- the last element of the name ends in the last character of the name
  have hrev : e.reverse ++ n0.reverse = c4 :: m.reverse := by
    have := congrArg List.reverse (hne.symm.trans hm)
    simpa using this
  have helast : ∃ e1, e = e1 ++ [c4] := by
    cases he : e.reverse with
    | nil =>
      rw [he, List.nil_append] at hrev
      rcases hn0 with h | ⟨P, c, hP, hc⟩
      · rw [h] at hrev
        cases hrev
      · rw [hP] at hrev
        simp at hrev
        rw [hrev.1, hc4sep os] at hc
        cases hc
    | cons a as =>
      rw [he] at hrev
      simp at hrev
      refine ⟨as.reverse, ?_⟩
      have := congrArg List.reverse he
      simp at this
      rw [this, hrev.1]
  obtain ⟨e1, he1⟩ := helast
  have he : IsNameElem os e := by
    refine ⟨?_, ?_, ?_, hfree⟩
    · rw [he1]; simp
    · rw [he1]
      intro h
      cases e1 with
      | nil => simp at h; exact hc4dot h
      | cons a as => simp at h
    · rw [he1]
      intro h
      cases e1 with
      | nil => simp at h
      | cons a as =>
        cases as with
        | nil => simp at h; exact hc4dot h.2
        | cons b bs => simp at h
  have hhead := valid_last_element os name n0 e hne he hn0 hvalid
  obtain ⟨-, hcolon, hquest, -⟩ := isValidFilename_inv os name hvalid
  have hnamene : name ≠ [] := by rw [hm]; simp
  have hen : ∀ x ∈ e, x ∈ name := fun x hx => by rw [hne]; exact List.mem_append_right _ hx
  by_cases hb : base = []
  · -- no base directory: the name alone
    subst hb
    rw [Join_nil_left os name hnamene]
    have hv0 := valid_volume os name n0 e hne he hvalid
    exact extract_apart_of_text os name n0 e (by rw [hv0, hne]; rfl) hn0 he hhead
      (fun _ => Or.inr (Or.inl ⟨hv0, hcolon, hquest⟩))
  cases os with
  | unix =>
    obtain ⟨T, hJ, ⟨P, c, hP, hc⟩, -, -⟩ :=
      Join_last .unix base name n0 e hb hne hfree hn0 (fun h => by cases h) hquest
    rw [hJ]
    exact extract_apart_of_text .unix (base ++ T ++ e) (P ++ [c]) e
      (by rw [hP]; rfl) (Or.inr ⟨P, c, rfl, hc⟩) he hhead (fun h => by cases h)
  | windows =>
    rcases hbase rfl with ⟨hdrive, hcol⟩ | ⟨hcol, hq, htwo⟩ |
      ⟨hb0, hb1, hb2dot, hb2q, ⟨i, hi2, hilen, hisep⟩, hlast⟩ |
      ⟨hb0, hb1, hb2, hb3, hlen4, hlast⟩
    · -- a drive letter
      obtain ⟨a, b, tl, hbase3⟩ : ∃ a b tl, base = a :: b :: tl := by
        match base, hdrive with
        | a :: b :: tl, _ => exact ⟨a, b, tl, rfl⟩
      have hbcolon : b = ':' := by
        rw [hbase3] at hdrive
        simpa using hdrive
      subst hbcolon
      have hcol2 : ':' ∉ tl := by
        rw [hbase3] at hcol
        simpa using hcol
      by_cases htl : tl = []
      · -- the drive alone: the name follows the colon
        subst htl
        rw [hbase3, Join_glue [a, ':'] name rfl]
        have hX1 : ([a, ':'] ++ name).get? 1 = some ':' := rfl
        exact extract_apart_of_text .windows ([a, ':'] ++ name) n0 e
          (by rw [volumeNameLen_drive _ hX1, hne]; rfl) hn0 he hhead (fun _ => Or.inl hX1)
      · have hlast : base.getLast? ≠ some ':' := by
          intro hl
          obtain ⟨B, hB⟩ := List.getLast?_eq_some_iff.mp hl
          rw [hbase3] at hB
          obtain ⟨tl1, l, htl1⟩ : ∃ tl1 l, tl = tl1 ++ [l] := by
            rcases List.eq_nil_or_concat tl with h | ⟨tl1, l, h⟩
            · exact absurd h htl
            · exact ⟨tl1, l, by rw [h]; simp⟩
          rw [htl1] at hB hcol2
          have : a :: ':' :: (tl1 ++ [l]) = (a :: ':' :: tl1) ++ [l] := by simp
          rw [this] at hB
          have hl2 := (List.append_inj' hB rfl).2
          simp at hl2
          rw [hl2] at hcol2
          simp at hcol2
        obtain ⟨T, hJ, ⟨P, c, hP, hc⟩, -, -⟩ :=
          Join_last .windows base name n0 e hb hne hfree hn0 (fun _ => hlast) hquest
        rw [hJ]
        have hX1 : (base ++ T ++ e).get? 1 = some ':' := by
          rw [hbase3]
          rfl
        have hPlen : 2 ≤ P.length := by
          have := congrArg List.length hP
          rw [hbase3] at this
          obtain ⟨t0, tl', ht⟩ := List.exists_cons_of_ne_nil htl
          rw [ht] at this
          simp at this
          omega
        have hdrop : (base ++ T ++ e).drop (volumeNameLen .windows (base ++ T ++ e)) =
            (P.drop 2 ++ [c]) ++ e := by
          rw [volumeNameLen_drive _ hX1, hP, List.append_assoc,
            List.drop_append_of_le_length hPlen]
          simp
        exact extract_apart_of_text .windows (base ++ T ++ e) (P.drop 2 ++ [c]) e hdrop
          (Or.inr ⟨P.drop 2, c, rfl, hc⟩) he hhead (fun _ => Or.inl hX1)
    · -- no volume name
      have hlast : base.getLast? ≠ some ':' := by
        intro hl
        exact hcol (List.mem_of_getLast?_eq_some hl)
      obtain ⟨T, hJ, ⟨P, c, hP, hc⟩, hTchars, hThead⟩ :=
        Join_last .windows base name n0 e hb hne hfree hn0 (fun _ => hlast) hquest
      rw [hJ]
      have hXcolon : ':' ∉ base ++ T ++ e := by
        intro h
        rcases List.mem_append.mp h with h1 | h1
        · rcases List.mem_append.mp h1 with h2 | h2
          · exact hcol h2
          · rcases hTchars _ h2 with h3 | h3
            · exact hcolon h3
            · revert h3; decide
        · exact hcolon (hen _ h1)
      have hXquest : '?' ∉ base ++ T ++ e := by
        intro h
        rcases List.mem_append.mp h with h1 | h1
        · rcases List.mem_append.mp h1 with h2 | h2
          · exact hq h2
          · rcases hTchars _ h2 with h3 | h3
            · exact hquest h3
            · revert h3; decide
        · exact hquest (hen _ h1)
      have hXtwo : ¬ (IsPathSeparator .windows ((base ++ T ++ e).headD 'x') = true ∧
          IsPathSeparator .windows ((base ++ T ++ e).getD 1 'x') = true) := by
        obtain ⟨b0, btl, hbb⟩ := List.exists_cons_of_ne_nil hb
        cases btl with
        | cons b1 btl2 =>
          rw [hbb] at htwo ⊢
          exact htwo
        | nil =>
          rw [hbb]
          rintro ⟨h1, h2⟩
          have h1' : IsPathSeparator .windows b0 = true := h1
          cases hT : T with
          | nil =>
            rw [hT] at h2
            obtain ⟨x0, xs, hex⟩ := List.exists_cons_of_ne_nil he.1
            rw [hex] at h2
            have : IsPathSeparator .windows x0 = true := h2
            rw [hfree x0 (by rw [hex]; simp)] at this
            cases this
          | cons z zs =>
            rw [hT] at h2
            have : IsPathSeparator .windows z = true := h2
            rw [hThead rfl b0 hbb h1' z zs hT] at this
            cases this
      have hv0 := volumeNameLen_plain_text (base ++ T ++ e) hXcolon hXquest hXtwo
      exact extract_apart_of_text .windows (base ++ T ++ e) (P ++ [c]) e
        (by rw [hv0, hP]; rfl) (Or.inr ⟨P, c, rfl, hc⟩) he hhead
        (fun _ => Or.inr (Or.inl ⟨hv0, hXcolon, hXquest⟩))
    · -- a UNC path
      obtain ⟨b0, b1, rest2, hbase3⟩ : ∃ b0 b1 rest2, base = b0 :: b1 :: rest2 := by
        match base, hilen with
        | [], h => simp at h
        | [_], h => simp at h
        | b0 :: b1 :: rest2, _ => exact ⟨b0, b1, rest2, rfl⟩
      subst hbase3
      have hb0' : IsPathSeparator .windows b0 = true := hb0
      have hb1' : IsPathSeparator .windows b1 = true := hb1
      -- the separator after the host
      have hj : i - 2 < rest2.length := by
        simp only [List.length_cons] at hilen
        omega
      have hgetj : rest2.getD (i - 2) 'x' = (b0 :: b1 :: rest2).getD i 'x' := by
        obtain ⟨j, hj2⟩ : ∃ j, i = j + 2 := ⟨i - 2, by omega⟩
        subst hj2
        simp
      have hsepj : ∃ x ∈ rest2, IsPathSeparator .windows x = true := by
        refine ⟨rest2.getD (i - 2) 'x', ?_, by rw [hgetj]; exact hisep⟩
        rw [List.getD_eq_getElem _ _ hj]
        exact List.getElem_mem _
      obtain ⟨a, s, bt, hrest2, hs, ha⟩ := first_separator (IsPathSeparator .windows) rest2 hsepj
      have hbt : bt ≠ [] := by
        intro hbt0
        rw [hbt0] at hrest2
        have hlen2 : rest2.length = a.length + 1 := by rw [hrest2]; simp
        have hja : i - 2 < a.length := by
          simp only [List.length_cons] at hilen
          omega
        have hmem : rest2.getD (i - 2) 'x' ∈ a := by
          rw [List.getD_eq_getElem _ _ hj]
          have : rest2[i - 2] = a[i - 2] := by
            simp only [hrest2]
            rw [List.getElem_append_left hja]
          rw [this]
          exact List.getElem_mem _
        have := ha _ hmem
        rw [hgetj] at this
        rw [this] at hisep
        cases hisep
      subst hrest2
      have hadot : a.head? ≠ some '.' := by
        intro h
        apply hb2dot
        cases a with
        | nil => simp at h
        | cons a0 a1 =>
          simp only [List.head?_cons, Option.some.injEq] at h
          rw [h]
          rfl
      have haq : a.head? ≠ some '?' := by
        intro h
        apply hb2q
        cases a with
        | nil => simp at h
        | cons a0 a1 =>
          simp only [List.head?_cons, Option.some.injEq] at h
          rw [h]
          rfl
      obtain ⟨T, hJ, ⟨P, c, hP, hc⟩, -, -⟩ :=
        Join_last .windows (b0 :: b1 :: (a ++ s :: bt)) name n0 e hb hne hfree hn0
          (fun _ => hlast) hquest
      rw [hJ]
      -- the separator after the share
      obtain ⟨M1, hM⟩ : ∃ M1, bt ++ T = M1 ++ [c] := by
        rcases List.eq_nil_or_concat (bt ++ T) with h | ⟨M1, m, h⟩
        · exact absurd (List.append_eq_nil.mp h).1 hbt
        · refine ⟨M1, ?_⟩
          have h2 : bt ++ T = M1 ++ [m] := by rw [h]; simp
          have e1 : (b0 :: b1 :: (a ++ s :: bt)) ++ T =
              (b0 :: b1 :: (a ++ s :: M1)) ++ [m] := by
            have : (b0 :: b1 :: (a ++ s :: bt)) ++ T = b0 :: b1 :: (a ++ s :: (bt ++ T)) := by
              simp
            rw [this, h2]
            simp
          rw [hP] at e1
          have := (List.append_inj' e1 rfl).2
          simp only [List.cons.injEq, and_true] at this
          rw [h2, this]
      obtain ⟨b, s2, rest1, hMb, hs2, hbfree⟩ :=
        first_separator (IsPathSeparator .windows) (bt ++ T) ⟨c, by rw [hM]; simp, hc⟩
      have hXeq : (b0 :: b1 :: (a ++ s :: bt)) ++ T ++ e =
          b0 :: b1 :: (a ++ s :: (b ++ s2 :: (rest1 ++ e))) := by
        have : (b0 :: b1 :: (a ++ s :: bt)) ++ T ++ e =
            b0 :: b1 :: (a ++ s :: ((bt ++ T) ++ e)) := by simp
        rw [this, hMb]
        simp
      have hR0 : ∃ P2 c2, s2 :: rest1 = P2 ++ [c2] ∧ IsPathSeparator .windows c2 = true := by
        rcases List.eq_nil_or_concat rest1 with h | ⟨r, l, h⟩
        · exact ⟨[], s2, by rw [h]; rfl, hs2⟩
        · refine ⟨s2 :: r, c, ?_, hc⟩
          have h2 : rest1 = r ++ [l] := by rw [h]; simp
          have e1 : M1 ++ [c] = (b ++ s2 :: r) ++ [l] := by
            rw [← hM, hMb, h2]
            simp
          have := (List.append_inj' e1 rfl).2
          simp only [List.cons.injEq, and_true] at this
          rw [h2, this]
          rfl
      have hv := volumeNameLen_unc_text b0 b1 s s2 a b (rest1 ++ e) hb0' hb1' hs hs2 ha hbfree
        hadot haq
      rw [hXeq]
      have hsplit : b0 :: b1 :: (a ++ s :: (b ++ s2 :: (rest1 ++ e))) =
          (b0 :: b1 :: (a ++ s :: b)) ++ (s2 :: (rest1 ++ e)) := by simp
      have hlenV : (b0 :: b1 :: (a ++ s :: b)).length = 2 + a.length + 1 + b.length := by
        simp
        omega
      have hdrop : (b0 :: b1 :: (a ++ s :: (b ++ s2 :: (rest1 ++ e)))).drop
          (volumeNameLen .windows (b0 :: b1 :: (a ++ s :: (b ++ s2 :: (rest1 ++ e))))) =
          (s2 :: rest1) ++ e := by
        rw [hv, hsplit, ← hlenV, List.drop_left]
        rfl
      have htake : (b0 :: b1 :: (a ++ s :: (b ++ s2 :: (rest1 ++ e)))).take
          (volumeNameLen .windows (b0 :: b1 :: (a ++ s :: (b ++ s2 :: (rest1 ++ e))))) =
          b0 :: b1 :: (a ++ s :: b) := by
        rw [hv, hsplit, ← hlenV, List.take_left]
      exact extract_apart_of_text .windows _ (s2 :: rest1) e hdrop (Or.inr hR0) he hhead
        (fun _ => Or.inr (Or.inr (Or.inl ⟨b0, b1, a, s, b, htake, hb0', hb1', hs, ha, hbfree,
          hadot, haq, s2, rest1 ++ e, rfl, hs2⟩)))
    · -- a path that starts with two separators, a question mark and a separator
      obtain ⟨b0, b1, b2, b3, b4, rest5, hbase5⟩ :
          ∃ b0 b1 b2 b3 b4 rest5, base = b0 :: b1 :: b2 :: b3 :: b4 :: rest5 := by
        match base, hlen4 with
        | [], h => simp at h
        | [_], h => simp at h
        | [_, _], h => simp at h
        | [_, _, _], h => simp at h
        | [_, _, _, _], h => simp at h
        | b0 :: b1 :: b2 :: b3 :: b4 :: rest5, _ => exact ⟨b0, b1, b2, b3, b4, rest5, rfl⟩
      subst hbase5
      have hb0' : IsPathSeparator .windows b0 = true := hb0
      have hb1' : IsPathSeparator .windows b1 = true := hb1
      have hb2' : b2 = '?' := hb2
      have hb3' : IsPathSeparator .windows b3 = true := hb3
      subst hb2'
      obtain ⟨T, hJ, ⟨P, c, hP, hc⟩, -, -⟩ :=
        Join_last .windows (b0 :: b1 :: '?' :: b3 :: b4 :: rest5) name n0 e hb hne hfree hn0
          (fun _ => hlast) hquest
      rw [hJ]
      obtain ⟨M1, hM⟩ : ∃ M1, (b4 :: rest5) ++ T = M1 ++ [c] := by
        rcases List.eq_nil_or_concat ((b4 :: rest5) ++ T) with h | ⟨M1, m, h⟩
        · simp at h
        · refine ⟨M1, ?_⟩
          have h2 : (b4 :: rest5) ++ T = M1 ++ [m] := by rw [h]; simp
          have e1 : (b0 :: b1 :: '?' :: b3 :: b4 :: rest5) ++ T =
              (b0 :: b1 :: '?' :: b3 :: M1) ++ [m] := by
            have : (b0 :: b1 :: '?' :: b3 :: b4 :: rest5) ++ T =
                b0 :: b1 :: '?' :: b3 :: ((b4 :: rest5) ++ T) := by simp
            rw [this, h2]
            simp
          rw [hP] at e1
          have := (List.append_inj' e1 rfl).2
          simp only [List.cons.injEq, and_true] at this
          rw [h2, this]
      obtain ⟨a, s2, rest1, hMa, hs2, hafree⟩ :=
        first_separator (IsPathSeparator .windows) ((b4 :: rest5) ++ T)
          ⟨c, by rw [hM]; simp, hc⟩
      have hXeq : (b0 :: b1 :: '?' :: b3 :: b4 :: rest5) ++ T ++ e =
          b0 :: b1 :: '?' :: b3 :: (a ++ s2 :: (rest1 ++ e)) := by
        have : (b0 :: b1 :: '?' :: b3 :: b4 :: rest5) ++ T ++ e =
            b0 :: b1 :: '?' :: b3 :: (((b4 :: rest5) ++ T) ++ e) := by simp
        rw [this, hMa]
        simp
      have hR0 : ∃ P2 c2, s2 :: rest1 = P2 ++ [c2] ∧ IsPathSeparator .windows c2 = true := by
        rcases List.eq_nil_or_concat rest1 with h | ⟨r, l, h⟩
        · exact ⟨[], s2, by rw [h]; rfl, hs2⟩
        · refine ⟨s2 :: r, c, ?_, hc⟩
          have h2 : rest1 = r ++ [l] := by rw [h]; simp
          have e1 : M1 ++ [c] = (a ++ s2 :: r) ++ [l] := by
            rw [← hM, hMa, h2]
            simp
          have := (List.append_inj' e1 rfl).2
          simp only [List.cons.injEq, and_true] at this
          rw [h2, this]
          rfl
      have hv := volumeNameLen_device_text b0 b1 b3 s2 a (rest1 ++ e) hb0' hb1' hb3' hs2 hafree
      rw [hXeq]
      have hsplit : b0 :: b1 :: '?' :: b3 :: (a ++ s2 :: (rest1 ++ e)) =
          (b0 :: b1 :: '?' :: b3 :: a) ++ (s2 :: (rest1 ++ e)) := by simp
      have hlenV : (b0 :: b1 :: '?' :: b3 :: a).length = 4 + a.length := by
        simp
        omega
      have hdrop : (b0 :: b1 :: '?' :: b3 :: (a ++ s2 :: (rest1 ++ e))).drop
          (volumeNameLen .windows (b0 :: b1 :: '?' :: b3 :: (a ++ s2 :: (rest1 ++ e)))) =
          (s2 :: rest1) ++ e := by
        rw [hv, hsplit, ← hlenV, List.drop_left]
        rfl
      have htake : (b0 :: b1 :: '?' :: b3 :: (a ++ s2 :: (rest1 ++ e))).take
          (volumeNameLen .windows (b0 :: b1 :: '?' :: b3 :: (a ++ s2 :: (rest1 ++ e)))) =
          b0 :: b1 :: '?' :: b3 :: a := by
        rw [hv, hsplit, ← hlenV, List.take_left]
      exact extract_apart_of_text .windows _ (s2 :: rest1) e hdrop (Or.inr hR0) he hhead
        (fun _ => Or.inr (Or.inr (Or.inr ⟨b0, b1, b3, a, htake, hb0', hb1', hb3', hafree,
          s2, rest1 ++ e, rfl, hs2⟩)))

/-- The loop of `unzipFile` leaves what there is at a path that is not under
the cleaned destination followed by a separator. -/
theorem unzipEntries_keeps_node (os : GOOS) (src dest q : GoString) (n : Node)
    (hq : HasPrefix q (Clean os dest ++ [Separator os]) = false) :
    ∀ (entries : List ZipEntry) (fs : FileSystem), fs q = some n →
      (unzipEntries os src dest fs entries).1 q = some n
  | [], fs, h => h
  | f :: rest, fs, h => by
    unfold unzipEntries
    simp only []
    by_cases hlegal : HasPrefix (Join os [dest, f.Name]) (Clean os dest ++ [Separator os]) = true
    · have hne : q ≠ Join os [dest, f.Name] := by
        intro e
        rw [e, hlegal] at hq
        cases hq
      simp only [hlegal, Bool.not_true, Bool.false_eq_true, if_false]
      by_cases hisdir : f.IsDir = true
      · simp only [hisdir, if_true]
        exact unzipEntries_keeps_node os src dest q n hq rest _ (MkdirAll_keeps os fs _ q _ h)
      · simp only [hisdir, Bool.false_eq_true, if_false]
        have hM := MkdirAll_keeps os fs (Dir os (Join os [dest, f.Name])) q _ h
        rcases hmk : MkdirAll os fs (Dir os (Join os [dest, f.Name])) with ⟨fs1, ok⟩
        rw [hmk] at hM
        cases ok with
        | false => exact hM
        | true =>
          simp only []
          cases hop : OpenFile fs1 (Join os [dest, f.Name]) f.Mode with
          | none => exact hM
          | some fs2 =>
            simp only []
            have hO : fs2 q = some n := by
              rw [← hM]
              by_contra hc
              exact hne (OpenFile_frame fs1 fs2 _ _ hop q hc)
            by_cases hof : (f.OpenFails || decide (Join os [dest, f.Name] = src)) = true
            · simp only [hof, if_true]
              exact hO
            · simp only [hof, Bool.false_eq_true, if_false]
              have hW : writeFileData fs2 (Join os [dest, f.Name]) f.Data q = some n := by
                rw [← hO]
                by_contra hc
                exact hne (writeFileData_frame fs2 _ f.Data q hc)
              by_cases hcf : f.CopyFails = true
              · simp only [hcf, if_true]
                exact hW
              · simp only [hcf, Bool.false_eq_true, if_false]
                exact unzipEntries_keeps_node os src dest q n hq rest _ hW
    · simp only [hlegal, Bool.not_false, if_true]
      exact h

theorem unzipFile_keeps_node (os : GOOS) (zipOpenReader : List UInt8 → Option (List ZipEntry))
    (fs : FileSystem) (src dest q : GoString) (n : Node)
    (hq : HasPrefix q (Clean os dest ++ [Separator os]) = false) (h : fs q = some n) :
    (unzipFile os zipOpenReader fs src dest).1 q = some n := by
  unfold unzipFile
  cases hsrc : fs src with
  | none => exact h
  | some m =>
    cases m with
    | dir => exact h
    | file perm data =>
      simp only []
      cases hz : zipOpenReader data with
      | none => exact h
      | some entries =>
        simp only []
        exact unzipEntries_keeps_node os src dest q n hq entries _ (MkdirAll_keeps os fs _ q _ h)

theorem mkdirUp_head (fs fs1 : FileSystem) (d : GoString) (ds : List GoString)
    (h : mkdirUp fs (d :: ds) = (fs1, true)) : fs1 d = some .dir := by
  unfold mkdirUp at h
  cases hd : fs d with
  | none =>
    rw [hd] at h
    simp only [] at h
    rcases hm : mkdirUp fs ds with ⟨fs0, ok⟩
    rw [hm] at h
    cases ok with
    | false => simp at h
    | true =>
      simp only [Prod.mk.injEq, and_true] at h
      rw [← h, FileSystem_set_self]
  | some n =>
    rw [hd] at h
    cases n with
    | dir =>
      simp only [Prod.mk.injEq, and_true] at h
      rw [← h, hd]
    | file p data => simp at h

/-- Once `MkdirAll` has made a directory, it succeeds again and changes nothing
when one file, not in place of that directory, has been written since. -/
theorem MkdirAll_again (os : GOOS) (fs fs2 : FileSystem) (p F : GoString)
    (hok : (MkdirAll os fs p).2 = true)
    (hsame : ∀ q, q ≠ F → fs2 q = (MkdirAll os fs p).1 q)
    (hF : (MkdirAll os fs p).1 F ≠ some .dir) :
    MkdirAll os fs2 p = (fs2, true) := by
  unfold MkdirAll at hok hsame hF ⊢
  by_cases hp : p = []
  · simp [hp] at hok
  · simp only [hp, if_false] at hok hsame hF ⊢
    cases hch : (dirChain os p).reverse with
    | nil => rfl
    | cons d ds =>
      rw [hch] at hok hsame hF
      have h1 : mkdirUp fs (d :: ds) = ((mkdirUp fs (d :: ds)).1, true) := by
        rw [← hok]
      have h2 := mkdirUp_head fs _ d ds h1
      have hdF : d ≠ F := by
        intro e
        apply hF
        rw [← e]
        exact h2
      have h3 : fs2 d = some .dir := by rw [hsame d hdF, h2]
      unfold mkdirUp
      rw [h3]

theorem WriteFile_over_file (fs : FileSystem) (path : GoString) (data : List UInt8)
    (perm : Nat) (h : fs path ≠ some .dir) : ∃ fs2, WriteFile fs path data perm = some fs2 := by
  unfold WriteFile OpenFile
  cases hp : fs path with
  | none => exact ⟨_, rfl⟩
  | some n =>
    cases n with
    | dir => exact absurd hp h
    | file p d => exact ⟨_, rfl⟩

theorem WriteFile_not_dir (fs fs2 : FileSystem) (path : GoString) (data : List UInt8)
    (perm : Nat) (h : WriteFile fs path data perm = some fs2) : fs path ≠ some .dir := by
  intro hd
  unfold WriteFile OpenFile at h
  rw [hd] at h
  cases h

/-- The rest of the handler after a successful write: the success response. -/
theorem handleUploadStore_written (env : Env) (config : Config) (uploadTime : Int)
    (bodyFails : Bool) (st : ServerState) (r : Request) (clientIP : GoString)
    (t : UploadTarget) (fs2 : FileSystem)
    (hdir : (MkdirAll env.os st.fs (Dir env.os t.fullPath)).2 = true)
    (hread : ReadAllMaxBytes (wrapInt64 (wrapInt64 (config.MaxUpload * 1024) * 1024))
      r.Body bodyFails = .ok r.Body)
    (hwrite : WriteFile (MkdirAll env.os st.fs (Dir env.os t.fullPath)).1 t.fullPath r.Body 420 =
      some fs2) :
    ∃ body, (handleUploadStore env config uploadTime bodyFails st r clientIP t).1 =
      .json body := by
  unfold handleUploadStore
  rcases hmk : MkdirAll env.os st.fs (Dir env.os t.fullPath) with ⟨fs1, ok⟩
  rw [hmk] at hdir hwrite
  simp only at hdir hwrite
  subst hdir
  simp only [hread, hwrite]
  by_cases hauto : autoExtract env r t.filename = true
  · simp only [hauto, if_true]
    rcases hu : unzipFile env.os env.zipOpenReader fs2 t.fullPath
      (extractDirOf env t.fullPath) with ⟨fs3, e⟩
    cases e <;> exact ⟨_, rfl⟩
  · simp only [hauto, Bool.false_eq_true, if_false]
    exact ⟨_, rfl⟩

/-- The target that the path stage gives for a request path `/upload/key/name`. -/
theorem handleUploadPath_ok_parts (os : GOOS) (wd : GoString) (config : Config) (r : Request)
    (key name : GoString) (t : UploadTarget)
    (hpath : r.Path = "/upload/".toList ++ key ++ '/' :: name) (hslash : '/' ∉ key)
    (h : handleUploadPath os wd config r = .ok t) :
    isValidFilename os name = true ∧ t.pathKey = key ∧ t.filename = name ∧
      config.Paths.lookup key = some t.baseDir ∧ t.fullPath = Join os [t.baseDir, name] := by
  have hkey : key ≠ [] := by
    intro hk
    unfold handleUploadPath at h
    simp only [hpath, upload_path_parts key name hslash] at h
    simp [hk] at h
  have hname : name ≠ [] := by
    intro hk
    unfold handleUploadPath at h
    simp only [hpath, upload_path_parts key name hslash] at h
    simp [hk] at h
  rw [handleUploadPath_parts os wd config r key name hpath hkey hslash hname] at h
  cases hl : config.Paths.lookup key with
  | none =>
    rw [hl] at h
    cases h
  | some baseDir =>
    rw [hl] at h
    simp only [] at h
    split_ifs at h with h1 h2
    simp only [Except.ok.injEq] at h
    rw [← h]
    exact ⟨by simpa using h1, rfl, rfl, rfl, rfl⟩

theorem handleUploadPath_congr (os : GOOS) (wd : GoString) (config : Config) (r r2 : Request)
    (h : r2.Path = r.Path) :
    handleUploadPath os wd config r2 = handleUploadPath os wd config r := by
  unfold handleUploadPath
  rw [h]

/-- C18. Persist and last-write-wins: for every accepted upload (a POST that
passes verification, to `/upload/key/name`, with a target from the path stage)
whose directory is made, whose body arrives whole within the limit and whose
file write succeeds, the response is the success response and reports the
length of the body as `size`, `key` as path key, `name` as file name and the
target as path; the write leaves the body, byte for byte, at the target, and
the target still holds it after the request, an extraction included as long as
the target is not itself under the directory extracted to, followed by a
separator; it never is on Unix, nor on Windows for a base directory that starts
with a drive letter and has no further colon, or that has no colon, no question
mark and does not start with two separators, or that is a UNC path with host
and share (two separators, not followed by a dot or a question mark, and a later
separator that is not the last character) or a path that starts with `\\?\`
and goes on, neither ending in a colon.  A second accepted upload to the
same path, with `extract` not `true` in either request and a body that arrives
whole within the limit, succeeds as well and leaves the target holding the
second body, whatever the first body was. -/
theorem persist_last_write_wins (env : Env) (srv : Server) (now uploadTime : Int)
    (bodyFails : Bool) (st : ServerState) (r : Request) (reason : Reason)
    (key name : GoString) (t : UploadTarget) (fs2 : FileSystem)
    (hpost : r.Method = "POST".toList)
    (hauth : verifyRequest env.E srv now r = .ok (true, reason))
    (hpath : r.Path = "/upload/".toList ++ key ++ '/' :: name) (hslash : '/' ∉ key)
    (htarget : handleUploadPath env.os env.wd srv.config r = .ok t)
    (hdir : (MkdirAll env.os st.fs (Dir env.os t.fullPath)).2 = true)
    (hread : ReadAllMaxBytes (wrapInt64 (wrapInt64 (srv.config.MaxUpload * 1024) * 1024))
      r.Body bodyFails = .ok r.Body)
    (hwrite : WriteFile (MkdirAll env.os st.fs (Dir env.os t.fullPath)).1 t.fullPath r.Body 420 =
      some fs2) :
    ∃ body, responseOf (handleUpload env srv now uploadTime bodyFails st r) =
        some (.json body) ∧
      body.status = "ok".toList ∧ body.size = r.Body.length ∧ body.path_key = key ∧
      body.filename = name ∧ body.path = t.fullPath ∧
      (∃ perm, fs2 t.fullPath = some (.file perm r.Body)) ∧
      ((autoExtract env r name = true →
          HasPrefix t.fullPath (Clean env.os (TrimSuffix t.fullPath (Ext env.os t.fullPath)) ++
            [Separator env.os]) = false) →
        ∃ perm, (stateAfter st (handleUpload env srv now uploadTime bodyFails st r)).fs
          t.fullPath = some (.file perm r.Body)) ∧
      ((env.os = .windows →
          (t.baseDir.get? 1 = some ':' ∧ ':' ∉ t.baseDir.drop 2) ∨
          (':' ∉ t.baseDir ∧ '?' ∉ t.baseDir ∧
            ¬ (IsPathSeparator env.os (t.baseDir.headD 'x') = true ∧
              IsPathSeparator env.os (t.baseDir.getD 1 'x') = true)) ∨
          (IsPathSeparator env.os (t.baseDir.headD 'x') = true ∧
            IsPathSeparator env.os (t.baseDir.getD 1 'x') = true ∧
            t.baseDir.getD 2 'x' ≠ '.' ∧ t.baseDir.getD 2 'x' ≠ '?' ∧
            (∃ i, 2 ≤ i ∧ i + 1 < t.baseDir.length ∧
              IsPathSeparator env.os (t.baseDir.getD i 'x') = true) ∧
            t.baseDir.getLast? ≠ some ':') ∨
          (IsPathSeparator env.os (t.baseDir.headD 'x') = true ∧
            IsPathSeparator env.os (t.baseDir.getD 1 'x') = true ∧
            t.baseDir.getD 2 'x' = '?' ∧
            IsPathSeparator env.os (t.baseDir.getD 3 'x') = true ∧ 4 < t.baseDir.length ∧
            t.baseDir.getLast? ≠ some ':')) →
        autoExtract env r name = true →
        HasPrefix t.fullPath (Clean env.os (TrimSuffix t.fullPath (Ext env.os t.fullPath)) ++
          [Separator env.os]) = false) ∧
      ∀ (now2 uploadTime2 : Int) (bodyFails2 : Bool) (r2 : Request) (reason2 : Reason),
        r2.Method = "POST".toList →
        verifyRequest env.E srv now2 r2 = .ok (true, reason2) →
        r2.Path = r.Path →
        r.Query.Get "extract".toList ≠ "true".toList →
        r2.Query.Get "extract".toList ≠ "true".toList →
        ReadAllMaxBytes (wrapInt64 (wrapInt64 (srv.config.MaxUpload * 1024) * 1024))
          r2.Body bodyFails2 = .ok r2.Body →
        ∃ body2, responseOf (handleUpload env srv now2 uploadTime2 bodyFails2
            (stateAfter st (handleUpload env srv now uploadTime bodyFails st r)) r2) =
              some (.json body2) ∧
          body2.status = "ok".toList ∧ body2.size = r2.Body.length ∧
          body2.path = t.fullPath ∧
          ∃ perm, (stateAfter (stateAfter st (handleUpload env srv now uploadTime bodyFails st r))
            (handleUpload env srv now2 uploadTime2 bodyFails2
              (stateAfter st (handleUpload env srv now uploadTime bodyFails st r)) r2)).fs
            t.fullPath = some (.file perm r2.Body) := by
  obtain ⟨hvalid, hk, hn, -, hfull⟩ :=
    handleUploadPath_ok_parts env.os env.wd srv.config r key name t hpath hslash htarget
  rw [handleUpload_store env srv now uploadTime bodyFails st r reason t hpost hauth htarget]
  obtain ⟨body, hbody⟩ := handleUploadStore_written env srv.config uploadTime bodyFails st r
    (getClientIP r) t fs2 hdir hread hwrite
  obtain ⟨fs2b, -, hw2, -, -, hfs, hb⟩ := handleUploadStore_json env srv.config uploadTime
    bodyFails st r (getClientIP r) t body hbody
  have hfs2 : fs2b = fs2 := by
    rw [hwrite] at hw2
    exact (Option.some.inj hw2).symm
  subst hfs2
  obtain ⟨⟨p, hfile⟩, hother⟩ := WriteFile_content _ _ _ _ _ hwrite
  have hstate : stateAfter st (.ok (handleUploadStore env srv.config uploadTime bodyFails st r
      (getClientIP r) t)) =
      (handleUploadStore env srv.config uploadTime bodyFails st r (getClientIP r) t).2.1 := rfl
  rw [hstate]
  refine ⟨body, by simp [responseOf, hbody], by rw [hb], by rw [hb], by rw [hb, hk],
    by rw [hb, hn], by rw [hb], ⟨p, hfile⟩, ?_, ?_, ?_⟩
  · intro hcond
    rw [hfs]
    split_ifs with ha
    · rw [hn] at ha
      exact ⟨p, unzipFile_keeps_node _ _ _ _ _ _ _ (hcond ha) hfile⟩
    · exact ⟨p, hfile⟩
  · intro hbase ha
    have hzip : HasSuffix (ToLower env.lowerRune name) ".zip".toList = true := by
      unfold autoExtract at ha
      simp only [Bool.and_eq_true] at ha
      exact ha.2
    have hapart := extract_dir_apart env.os env.lowerRune t.baseDir name hbase hvalid hzip
    rw [← hfull] at hapart
    exact hapart
  · intro now2 uploadTime2 bodyFails2 r2 reason2 hpost2 hauth2 hpath2 hx1 hx2 hread2
    have ha1 : autoExtract env r t.filename = false := by
      unfold autoExtract
      rw [decide_eq_false hx1, Bool.false_and]
    rw [ha1] at hfs
    simp only [Bool.false_eq_true, if_false] at hfs
    generalize (handleUploadStore env srv.config uploadTime bodyFails st r
      (getClientIP r) t).2.1 = st1 at hfs
    have htarget2 : handleUploadPath env.os env.wd srv.config r2 = .ok t := by
      rw [handleUploadPath_congr env.os env.wd srv.config r r2 hpath2, htarget]
    rw [handleUpload_store env srv now2 uploadTime2 bodyFails2 st1 r2 reason2 t hpost2 hauth2
      htarget2]
    have hmk2 : MkdirAll env.os st1.fs (Dir env.os t.fullPath) = (st1.fs, true) := by
      rw [hfs]
      exact MkdirAll_again env.os st.fs _ _ t.fullPath hdir hother
        (WriteFile_not_dir _ _ _ _ _ hwrite)
    have hnd : st1.fs t.fullPath ≠ some .dir := by
      rw [hfs, hfile]
      simp
    obtain ⟨fs3, hwrite2⟩ := WriteFile_over_file st1.fs t.fullPath r2.Body 420 hnd
    have hdir2 : (MkdirAll env.os st1.fs (Dir env.os t.fullPath)).2 = true := by rw [hmk2]
    have hwrite2b : WriteFile (MkdirAll env.os st1.fs (Dir env.os t.fullPath)).1 t.fullPath
        r2.Body 420 = some fs3 := by rw [hmk2]; exact hwrite2
    obtain ⟨body2, hbody2⟩ := handleUploadStore_written env srv.config uploadTime2 bodyFails2
      st1 r2 (getClientIP r2) t fs3 hdir2 hread2 hwrite2b
    obtain ⟨fs3b, -, hw3, -, -, hfs3, hb2⟩ := handleUploadStore_json env srv.config uploadTime2
      bodyFails2 st1 r2 (getClientIP r2) t body2 hbody2
    have hfs3e : fs3b = fs3 := by
      rw [hwrite2b] at hw3
      exact (Option.some.inj hw3).symm
    subst hfs3e
    have ha2 : autoExtract env r2 t.filename = false := by
      unfold autoExtract
      rw [decide_eq_false hx2, Bool.false_and]
    rw [ha2] at hfs3
    simp only [Bool.false_eq_true, if_false] at hfs3
    obtain ⟨⟨p2, hfile2⟩, -⟩ := WriteFile_content _ _ _ _ _ hwrite2
    have hstate2 : stateAfter st1 (.ok (handleUploadStore env srv.config uploadTime2 bodyFails2
        st1 r2 (getClientIP r2) t)) =
        (handleUploadStore env srv.config uploadTime2 bodyFails2 st1 r2
          (getClientIP r2) t).2.1 := rfl
    rw [hstate2, hfs3]
    exact ⟨body2, by simp [responseOf, hbody2], by rw [hb2], by rw [hb2], by rw [hb2],
      p2, hfile2⟩

/-- C18, witness: the example archive uploaded as `site.zip` with
`extract=true` is answered with size 2, path key `web` and file name `site.zip`,
and `C:\www\site.zip` holds the two bytes after the extraction has run; and
after an upload of three bytes to the same path without `extract`, a second
upload of one byte succeeds and leaves `C:\www\site.zip` holding that byte. -/
theorem persist_last_write_wins_witness :
    (exampleUpload "/upload/web/site.zip" true [80, 75]).Method = "POST".toList ∧
    verifyRequest exampleEnv.E exampleOpenServer 1700000000
      (exampleUpload "/upload/web/site.zip" true [80, 75]) = .ok (true, .empty) ∧
    autoExtract exampleEnv (exampleUpload "/upload/web/site.zip" true [80, 75])
      "site.zip".toList = true ∧
    (∃ body, responseOf (handleUpload exampleEnv exampleOpenServer 1700000000 1700000001 false
        exampleState (exampleUpload "/upload/web/site.zip" true [80, 75])) =
          some (.json body) ∧
      body.size = 2 ∧ body.path_key = "web".toList ∧ body.filename = "site.zip".toList ∧
      body.path = "C:\\www\\site.zip".toList ∧
      ∃ perm, (stateAfter exampleState (handleUpload exampleEnv exampleOpenServer 1700000000
        1700000001 false exampleState
        (exampleUpload "/upload/web/site.zip" true [80, 75]))).fs
          "C:\\www\\site.zip".toList = some (.file perm [80, 75])) ∧
    (∃ body2, responseOf (handleUpload exampleEnv exampleOpenServer 1700000050 1700000051 false
        (stateAfter exampleState (handleUpload exampleEnv exampleOpenServer 1700000000
          1700000001 false exampleState (exampleUpload "/upload/web/site.zip" false [1, 2, 3])))
        (exampleUpload "/upload/web/site.zip" false [9])) = some (.json body2) ∧
      body2.size = 1 ∧
      ∃ perm, (stateAfter
        (stateAfter exampleState (handleUpload exampleEnv exampleOpenServer 1700000000
          1700000001 false exampleState (exampleUpload "/upload/web/site.zip" false [1, 2, 3])))
        (handleUpload exampleEnv exampleOpenServer 1700000050 1700000051 false
          (stateAfter exampleState (handleUpload exampleEnv exampleOpenServer 1700000000
            1700000001 false exampleState
            (exampleUpload "/upload/web/site.zip" false [1, 2, 3])))
          (exampleUpload "/upload/web/site.zip" false [9]))).fs
          "C:\\www\\site.zip".toList = some (.file perm [9])) :=
  ⟨rfl, rfl, by decide,
    (persist_last_write_wins exampleEnv exampleOpenServer 1700000000 1700000001 false
      exampleState (exampleUpload "/upload/web/site.zip" true [80, 75]) .empty
      "web".toList "site.zip".toList
      ⟨"web".toList, "site.zip".toList, "C:\\www".toList, "C:\\www\\site.zip".toList,
        "C:\\www".toList, "C:\\www\\site.zip".toList⟩
      (writeFileData (exampleFS.set "C:\\www\\site.zip".toList (.file 420 []))
        "C:\\www\\site.zip".toList [80, 75]) rfl rfl (by decide) (by decide) (by decide)
      (by decide) (by decide) (by
        have hd : Dir exampleEnv.os "C:\\www\\site.zip".toList = "C:\\www".toList := by
          decide
        show WriteFile (MkdirAll exampleEnv.os exampleFS
          (Dir exampleEnv.os "C:\\www\\site.zip".toList)).1 "C:\\www\\site.zip".toList
            [80, 75] 420 = _
        rw [hd]
        rfl)).imp
      fun body h => ⟨h.1, h.2.2.1, h.2.2.2.1, h.2.2.2.2.1, h.2.2.2.2.2.1,
        h.2.2.2.2.2.2.2.1
          (h.2.2.2.2.2.2.2.2.1 (fun _ => Or.inl ⟨by decide, by decide⟩))⟩,
    (persist_last_write_wins exampleEnv exampleOpenServer 1700000000 1700000001 false
      exampleState (exampleUpload "/upload/web/site.zip" false [1, 2, 3]) .empty
      "web".toList "site.zip".toList
      ⟨"web".toList, "site.zip".toList, "C:\\www".toList, "C:\\www\\site.zip".toList,
        "C:\\www".toList, "C:\\www\\site.zip".toList⟩
      (writeFileData (exampleFS.set "C:\\www\\site.zip".toList (.file 420 []))
        "C:\\www\\site.zip".toList [1, 2, 3]) rfl rfl (by decide) (by decide) (by decide)
      (by decide) (by decide) (by
        have hd : Dir exampleEnv.os "C:\\www\\site.zip".toList = "C:\\www".toList := by
          decide
        show WriteFile (MkdirAll exampleEnv.os exampleFS
          (Dir exampleEnv.os "C:\\www\\site.zip".toList)).1 "C:\\www\\site.zip".toList
            [1, 2, 3] 420 = _
        rw [hd]
        rfl)).elim
      fun _ h =>
        (h.2.2.2.2.2.2.2.2.2 1700000050 1700000051 false
          (exampleUpload "/upload/web/site.zip" false [9]) .empty rfl rfl rfl
          (by decide) (by decide) (by decide)).imp
          fun body2 h2 => ⟨h2.1, h2.2.2.1, h2.2.2.2.2⟩⟩


/-! ## C22: expiry over the whole timestamp range -/

/-- A request whose time stamp parses is rejected, with security on, as soon as
the difference computed in `int64` arithmetic exceeds the limit: by the allow
list, for a missing signature header, or as expired. -/
theorem verifyRequest_of_stale (E : Ed25519) (srv : Server) (now : Int) (r : Request) (ts : Int)
    (hen : srv.config.Security.Enabled = true)
    (hparse : ParseInt (r.Header.Get "X-Timestamp".toList) = some ts)
    (hstale : (if wrapInt64 (now - ts) < 0 then wrapInt64 (-wrapInt64 (now - ts))
      else wrapInt64 (now - ts)) > srv.config.Security.TimestampLimit) :
    ∃ reason, verifyRequest E srv now r = .ok (false, reason) := by
  have hts : r.Header.Get "X-Timestamp".toList ≠ [] := by
    intro h; rw [h] at hparse; simp [ParseInt] at hparse
  unfold verifyRequest
  simp only [hen, Bool.not_true, Bool.false_eq_true, if_false]
  split_ifs with h1 h2
  · exact ⟨_, rfl⟩
  · exact ⟨_, rfl⟩
  · simp only [hparse, hstale, if_true]
    exact ⟨_, rfl⟩

/-- C22 fails on the code. With security on and a time stamp text that parses
to `ts`: when the true distance `|now - ts|` is itself an `int64`, a distance above
the limit is rejected, whatever the other headers are; but when `now - ts` is
`2^63` the subtraction wraps to `-2^63`, its negation wraps to `-2^63` again, no
`int64` limit is below that, and a request that passes the allow-list with a
signature valid for its message is accepted although the true distance `2^63`
exceeds the limit. -/
theorem expiry_wraps_around (E : Ed25519) (srv : Server) (now ts : Int) (r : Request)
    (hen : srv.config.Security.Enabled = true)
    (hparse : ParseInt (r.Header.Get "X-Timestamp".toList) = some ts) :
    (|now - ts| ≤ maxInt64 → srv.config.Security.TimestampLimit < |now - ts| →
      ∃ reason, verifyRequest E srv now r = .ok (false, reason)) ∧
    (now - ts = 9223372036854775808 → IsInt64 srv.config.Security.TimestampLimit →
      srv.config.Security.TimestampLimit < |now - ts| ∧
      ∀ sigBytes : List UInt8,
        (srv.config.Security.AllowedIPs = [] ∨
          (srv.config.Security.AllowedIPs.any fun ip =>
            ip = getClientIP r || ip = "*".toList) = true) →
        DecodeString (r.Header.Get "X-Signature".toList) = some sigBytes →
        ed25519Verify E srv.publicKey
          (r.Header.Get "X-Timestamp".toList ++ r.Header.Get "X-Nonce".toList ++ r.Path)
          sigBytes = .ok true →
        verifyRequest E srv now r = .ok (true, .empty)) := by
  constructor
  · intro hrange hlt
    apply verifyRequest_of_stale E srv now r ts hen hparse
    rw [diff_eq_abs now ts hrange]
    exact hlt
  · intro hd hL
    have hdiff : (if wrapInt64 (now - ts) < 0 then wrapInt64 (-wrapInt64 (now - ts))
        else wrapInt64 (now - ts)) = minInt64 := by
      rw [hd]
      decide
    refine ⟨?_, ?_⟩
    · rw [hd]
      unfold IsInt64 maxInt64 at hL
      have : |(9223372036854775808 : Int)| = 9223372036854775808 := abs_of_nonneg (by decide)
      rw [this]
      omega
    · intro sigBytes hip hdec hver
      have hsigne : r.Header.Get "X-Signature".toList ≠ [] := by
        intro h0
        rw [h0] at hdec
        simp only [DecodeString, Option.some.injEq] at hdec
        subst hdec
        simp [ed25519Verify, SignatureSize] at hver
        split_ifs at hver
        simp at hver
      rw [verifyRequest_of_fresh E srv now r ts hen hip hsigne hparse
        (by rw [hdiff]; unfold IsInt64 at hL; exact not_lt.2 hL.1)]
      simp only [hdec, hver]

/-- Witness of the C22 theorem: limit 300 at server time 1700000000. The time
stamp `1699999699` (distance 301) is rejected as expired; the time stamp
`-9223372035154775808` (distance `2^63`), signed with the example key, is
accepted. -/
theorem expiry_wraps_around_witness :
    (∃ reason, verifyRequest toyEd25519 (exampleServer 300 []) 1700000000
      (exampleSignedRequest "/upload/web/site.zip".toList "1699999699".toList
        (GenerateNonce exampleRnd)) = .ok (false, reason)) ∧
    ((exampleServer 300 []).config.Security.TimestampLimit <
        |(1700000000 : Int) - (-9223372035154775808)| ∧
      verifyRequest toyEd25519 (exampleServer 300 []) 1700000000
        (exampleSignedRequest "/upload/web/site.zip".toList "-9223372035154775808".toList
          (GenerateNonce exampleRnd)) = .ok (true, .empty)) :=
  ⟨(expiry_wraps_around toyEd25519 (exampleServer 300 []) 1700000000 1699999699
      (exampleSignedRequest "/upload/web/site.zip".toList "1699999699".toList
        (GenerateNonce exampleRnd)) rfl (by decide)).1 (by decide) (by decide),
   ((expiry_wraps_around toyEd25519 (exampleServer 300 []) 1700000000 (-9223372035154775808)
      (exampleSignedRequest "/upload/web/site.zip".toList "-9223372035154775808".toList
        (GenerateNonce exampleRnd)) rfl (by decide)).2 (by decide) (by decide)).1,
   ((expiry_wraps_around toyEd25519 (exampleServer 300 []) 1700000000 (-9223372035154775808)
      (exampleSignedRequest "/upload/web/site.zip".toList "-9223372035154775808".toList
        (GenerateNonce exampleRnd)) rfl (by decide)).2 (by decide) (by decide)).2 _
      (Or.inl rfl) (DecodeString_EncodeToString _) (by decide)⟩

/-! ## C23: replay within the window -/

/-- A signature text that decodes to bytes which verify is not empty. -/
theorem signature_ne_nil (E : Ed25519) (publicKey : List UInt8) (message signature : GoString)
    (sigBytes : List UInt8) (hdec : DecodeString signature = some sigBytes)
    (hver : ed25519Verify E publicKey message sigBytes = .ok true) : signature ≠ [] := by
  intro h0
  rw [h0] at hdec
  simp only [DecodeString, Option.some.injEq] at hdec
  subst hdec
  simp [ed25519Verify, SignatureSize] at hver
  split_ifs at hver
  simp at hver

/-- An accepted request (security enabled) has passed the allow-list. -/
theorem verifyRequest_accept_gates (E : Ed25519) (srv : Server) (now : Int) (r : Request)
    (reason : Reason) (hen : srv.config.Security.Enabled = true)
    (hacc : verifyRequest E srv now r = .ok (true, reason)) :
    srv.config.Security.AllowedIPs = [] ∨
      (srv.config.Security.AllowedIPs.any fun ip =>
        ip = getClientIP r || ip = "*".toList) = true := by
  by_cases h0 : srv.config.Security.AllowedIPs = []
  · exact Or.inl h0
  · right
    by_contra hany
    have hlen : srv.config.Security.AllowedIPs.length > 0 := List.length_pos.2 h0
    have hcond : (decide (srv.config.Security.AllowedIPs.length > 0) &&
        !(srv.config.Security.AllowedIPs.any fun ip =>
          decide (ip = getClientIP r) || decide (ip = "*".toList))) = true := by
      rw [decide_eq_true hlen, Bool.true_and, Bool.not_eq_true']
      exact Bool.eq_false_iff.2 hany
    unfold verifyRequest at hacc
    simp only [hen, Bool.not_true, Bool.false_eq_true, if_false, hcond, if_true] at hacc
    simp at hacc

/-- C23. `verifyRequest` reads the configuration, the request and the clock and
nothing else (no nonce is recorded), and a request it has accepted at one server
time is accepted again at every server time `now'` whose distance to the time
stamp of the request is at most the limit (an `int64`), under the same
configuration; whatever the state of the server then is, the upload handler takes
the replayed request past authentication, to the path checks and the store. -/
theorem replay_within_window (E : Ed25519) (srv : Server) (now now' ts : Int) (r : Request)
    (reason : Reason)
    (hL : srv.config.Security.TimestampLimit ≤ maxInt64)
    (hparse : ParseInt (r.Header.Get "X-Timestamp".toList) = some ts)
    (hacc : verifyRequest E srv now r = .ok (true, reason))
    (hwin : |now' - ts| ≤ srv.config.Security.TimestampLimit) :
    verifyRequest E srv now' r = .ok (true, .empty) ∧
    ∀ (env : Env) (uploadTime : Int) (bodyFails : Bool) (st : ServerState),
      env.E = E → r.Method = "POST".toList →
      handleUpload env srv now' uploadTime bodyFails st r =
        match handleUploadPath env.os env.wd srv.config r with
        | .error e => .ok (.error 400 (.path e), st, [.errorPath (getClientIP r) e])
        | .ok t => .ok (handleUploadStore env srv.config uploadTime bodyFails st r
            (getClientIP r) t) := by
  have hmain : verifyRequest E srv now' r = .ok (true, .empty) := by
    cases hen : srv.config.Security.Enabled with
    | false => exact verifyRequest_disabled E srv now' r hen
    | true =>
      have hip := verifyRequest_accept_gates E srv now r reason hen hacc
      obtain ⟨sigBytes, hdec, hver⟩ := verifyRequest_accept_inv E srv now r reason hen hacc
      have hsig := signature_ne_nil E _ _ _ sigBytes hdec hver
      rw [verifyRequest_of_fresh E srv now' r ts hen hip hsig hparse
        (by rw [diff_eq_abs now' ts (le_trans hwin hL)]; exact not_lt.2 hwin)]
      simp only [hdec, hver]
  refine ⟨hmain, ?_⟩
  intro env uploadTime bodyFails st hE hpost
  subst hE
  cases hp : handleUploadPath env.os env.wd srv.config r with
  | error e => exact handleUpload_path_error env srv now' uploadTime bodyFails st r _ e hpost hmain hp
  | ok t => exact handleUpload_store env srv now' uploadTime bodyFails st r _ t hpost hmain hp

/-- Witness of C23: the example request with time stamp 1699999900, accepted at
server time 1700000000 under the limit 300, is accepted again at server time
1700000200. -/
theorem replay_within_window_witness :
    verifyRequest toyEd25519 (exampleServer 300 []) 1700000000
      (exampleSignedRequest "/upload/web/site.zip".toList "1699999900".toList
        (GenerateNonce exampleRnd)) = .ok (true, .empty) ∧
    verifyRequest toyEd25519 (exampleServer 300 []) 1700000200
      (exampleSignedRequest "/upload/web/site.zip".toList "1699999900".toList
        (GenerateNonce exampleRnd)) = .ok (true, .empty) :=
  ⟨by decide,
   (replay_within_window toyEd25519 (exampleServer 300 []) 1700000000 1700000200 1699999900
      (exampleSignedRequest "/upload/web/site.zip".toList "1699999900".toList
        (GenerateNonce exampleRnd)) .empty (by decide) (by decide) (by decide) (by decide)).1⟩

/-! ## C24: the client address -/

/-- The first piece of a split is the text before the first separator. -/
theorem splitBy_headD (p : Char → Bool) : ∀ s : GoString,
    (splitBy p s).headD [] = s.takeWhile (fun c => !p c)
  | [] => by simp [splitBy]
  | c :: cs => by
    have ih := splitBy_headD p cs
    unfold splitBy
    by_cases hc : p c = true
    · simp [hc]
    · cases hs : splitBy p cs with
      | nil => exact absurd hs (splitBy_ne_nil p cs)
      | cons e es =>
        rw [hs] at ih
        simp only [List.headD_cons] at ih
        simp [hc, ih]

/-- What `TrimSpace` removes: white space before and after the result, which
itself neither starts nor ends with white space. -/
theorem TrimSpace_parts (s : GoString) :
    ∃ pre post : GoString, s = pre ++ TrimSpace s ++ post ∧
      (∀ c ∈ pre, isSpace c = true) ∧ (∀ c ∈ post, isSpace c = true) ∧
      (∀ c, (TrimSpace s).head? = some c → isSpace c = false) ∧
      (∀ c, (TrimSpace s).getLast? = some c → isSpace c = false) := by
  refine ⟨s.takeWhile isSpace, (((s.dropWhile isSpace).reverse).takeWhile isSpace).reverse,
    ?_, ?_, ?_, ?_, ?_⟩
  · unfold TrimSpace
    have h1 := List.takeWhile_append_dropWhile isSpace s
    have h2 := List.takeWhile_append_dropWhile isSpace (s.dropWhile isSpace).reverse
    have h3 : s.dropWhile isSpace =
        ((s.dropWhile isSpace).reverse.dropWhile isSpace).reverse ++
          ((s.dropWhile isSpace).reverse.takeWhile isSpace).reverse := by
      rw [← List.reverse_append, h2, List.reverse_reverse]
    rw [List.append_assoc, ← h3, h1]
  · intro c hc
    exact (List.mem_takeWhile_imp hc)
  · intro c hc
    exact (List.mem_takeWhile_imp (List.mem_reverse.1 hc))
  · intro c hc
    unfold TrimSpace at hc
    have hmem : c ∈ ((s.dropWhile isSpace).reverse.dropWhile isSpace).reverse :=
      List.mem_of_mem_head? hc
    have hsub : ((s.dropWhile isSpace).reverse.dropWhile isSpace).reverse.IsPrefix
        (s.dropWhile isSpace) := by
      have h2 := List.takeWhile_append_dropWhile isSpace (s.dropWhile isSpace).reverse
      refine ⟨((s.dropWhile isSpace).reverse.takeWhile isSpace).reverse, ?_⟩
      rw [← List.reverse_append, h2, List.reverse_reverse]
    obtain ⟨t, ht⟩ := hsub
    cases hr : ((s.dropWhile isSpace).reverse.dropWhile isSpace).reverse with
    | nil => rw [hr] at hc; simp at hc
    | cons x xs =>
      rw [hr] at hc ht
      simp only [List.head?_cons, Option.some.injEq] at hc
      subst hc
      have h0 : (s.dropWhile isSpace).head? = some x := by rw [← ht]; rfl
      have := List.head?_dropWhile_not isSpace s
      rw [h0] at this
      simpa using this
  · intro c hc
    unfold TrimSpace at hc
    rw [List.getLast?_reverse] at hc
    have := List.head?_dropWhile_not isSpace (s.dropWhile isSpace).reverse
    rw [hc] at this
    simpa using this

/-- What `LastIndex` finds: the text is cut at a separator after which there is
none. -/
theorem LastIndex_some (sep : Char) : ∀ (s : GoString) (i : Nat), LastIndex s sep = some i →
    ∃ rest, s = s.take i ++ sep :: rest ∧ sep ∉ rest
  | [], i, h => by simp [LastIndex] at h
  | c :: cs, i, h => by
    unfold LastIndex at h
    cases hl : LastIndex cs sep with
    | some j =>
      rw [hl] at h
      simp only [Option.some.injEq] at h
      subst h
      obtain ⟨rest, h1, h2⟩ := LastIndex_some sep cs j hl
      refine ⟨rest, ?_, h2⟩
      simp only [List.take_succ_cons, List.cons_append, List.cons.injEq, true_and]
      exact h1
    | none =>
      rw [hl] at h
      simp only at h
      split_ifs at h with hc
      simp only [Option.some.injEq] at h
      subst h
      subst hc
      refine ⟨cs, by simp, ?_⟩
      intro hmem
      have : ∀ (t : GoString), c ∈ t → LastIndex t c ≠ none := by
        intro t
        induction t with
        | nil => simp
        | cons x xs ih =>
          intro hx
          unfold LastIndex
          cases hq : LastIndex xs c with
          | some j => simp
          | none =>
            simp only
            rcases List.mem_cons.1 hx with e | e
            · simp [e]
            · exact absurd hq (ih e)
      exact this cs hmem hl

/-- The result `-1` of `LastIndex`: the separator does not occur. -/
theorem LastIndex_none (sep : Char) : ∀ (s : GoString), LastIndex s sep = none ↔ sep ∉ s
  | [] => by simp [LastIndex]
  | c :: cs => by
    have ih := LastIndex_none sep cs
    unfold LastIndex
    cases hl : LastIndex cs sep with
    | some j =>
      rw [hl] at ih
      simp only [false_iff, not_not, reduceCtorEq] at ih
      simp [ih]
    | none =>
      rw [hl] at ih
      simp only [true_iff] at ih
      by_cases hc : c = sep
      · simp [hc]
      · simp [hc, ih, Ne.symm hc]

/-- C24. `getClientIP` by case. When `X-Forwarded-For` is non-empty the result is
the text before its first comma without the white space around it: that text is
white space, the result, white space, and the result neither starts nor ends with
white space. Otherwise, when `X-Real-IP` is non-empty, the result is that header
as it is. Otherwise the result is `RemoteAddr` cut before its last colon (what
follows the result in `RemoteAddr` is a colon and a text without colon), and
`RemoteAddr` itself when it holds no colon. -/
theorem client_ip_resolution (r : Request) :
    (r.Header.Get "X-Forwarded-For".toList ≠ [] →
      ∃ pre post : GoString,
        (r.Header.Get "X-Forwarded-For".toList).takeWhile (fun c => c ≠ ',') =
          pre ++ getClientIP r ++ post ∧
        (∀ c ∈ pre, isSpace c = true) ∧ (∀ c ∈ post, isSpace c = true) ∧
        (∀ c, (getClientIP r).head? = some c → isSpace c = false) ∧
        (∀ c, (getClientIP r).getLast? = some c → isSpace c = false)) ∧
    (r.Header.Get "X-Forwarded-For".toList = [] → r.Header.Get "X-Real-IP".toList ≠ [] →
      getClientIP r = r.Header.Get "X-Real-IP".toList) ∧
    (r.Header.Get "X-Forwarded-For".toList = [] → r.Header.Get "X-Real-IP".toList = [] →
      ':' ∈ r.RemoteAddr →
      ∃ rest : GoString, r.RemoteAddr = getClientIP r ++ ':' :: rest ∧ ':' ∉ rest) ∧
    (r.Header.Get "X-Forwarded-For".toList = [] → r.Header.Get "X-Real-IP".toList = [] →
      ':' ∉ r.RemoteAddr → getClientIP r = r.RemoteAddr) := by
  refine ⟨?_, ?_, ?_, ?_⟩
  · intro hx
    have hg : getClientIP r =
        TrimSpace ((r.Header.Get "X-Forwarded-For".toList).takeWhile (fun c => c ≠ ',')) := by
      unfold getClientIP
      simp only [hx, ne_eq, not_false_eq_true, if_true, Split, splitBy_headD]
      congr 1
      simp
    rw [hg]
    exact TrimSpace_parts _
  · intro hx hr
    simp only [getClientIP]
    rw [if_neg (not_not_intro hx), if_pos hr]
  · intro hx hr hc
    cases hl : LastIndex r.RemoteAddr ':' with
    | none => exact absurd hc ((LastIndex_none ':' r.RemoteAddr).1 hl)
    | some i =>
      have hg : getClientIP r = r.RemoteAddr.take i := by
        simp only [getClientIP]
        rw [if_neg (not_not_intro hx), if_neg (not_not_intro hr), hl]
      rw [hg]
      exact LastIndex_some ':' r.RemoteAddr i hl
  · intro hx hr hc
    have hl := (LastIndex_none ':' r.RemoteAddr).2 hc
    simp only [getClientIP]
    rw [if_neg (not_not_intro hx), if_neg (not_not_intro hr), hl]

/-- Witness of C24: a proxied request with the header ` 203.0.113.7 , 10.0.0.1`
resolves to `203.0.113.7`; without that header `X-Real-IP` is returned; without
both, `[::1]:50000` resolves to `[::1]` and the colon-free `pipe` to itself. -/
theorem client_ip_resolution_witness :
    getClientIP (exampleAddressRequest " 203.0.113.7 , 10.0.0.1".toList "198.51.100.2".toList
      "10.0.0.5:50000".toList) = "203.0.113.7".toList ∧
    (∃ pre post : GoString,
      ((exampleAddressRequest " 203.0.113.7 , 10.0.0.1".toList "198.51.100.2".toList
        "10.0.0.5:50000".toList).Header.Get "X-Forwarded-For".toList).takeWhile
          (fun c => c ≠ ',') =
        pre ++ getClientIP (exampleAddressRequest " 203.0.113.7 , 10.0.0.1".toList
          "198.51.100.2".toList "10.0.0.5:50000".toList) ++ post ∧
      (∀ c ∈ pre, isSpace c = true) ∧ (∀ c ∈ post, isSpace c = true) ∧
      (∀ c, (getClientIP (exampleAddressRequest " 203.0.113.7 , 10.0.0.1".toList
        "198.51.100.2".toList "10.0.0.5:50000".toList)).head? = some c → isSpace c = false) ∧
      (∀ c, (getClientIP (exampleAddressRequest " 203.0.113.7 , 10.0.0.1".toList
        "198.51.100.2".toList "10.0.0.5:50000".toList)).getLast? = some c →
          isSpace c = false)) ∧
    getClientIP (exampleAddressRequest [] "198.51.100.2".toList "10.0.0.5:50000".toList) =
      "198.51.100.2".toList ∧
    (∃ rest : GoString,
      (exampleAddressRequest [] [] "[::1]:50000".toList).RemoteAddr =
        getClientIP (exampleAddressRequest [] [] "[::1]:50000".toList) ++ ':' :: rest ∧
      ':' ∉ rest) ∧
    getClientIP (exampleAddressRequest [] [] "[::1]:50000".toList) = "[::1]".toList ∧
    getClientIP (exampleAddressRequest [] [] "pipe".toList) = "pipe".toList :=
  ⟨by decide,
   (client_ip_resolution _).1 (by decide),
   (client_ip_resolution (exampleAddressRequest [] "198.51.100.2".toList
      "10.0.0.5:50000".toList)).2.1 (by decide) (by decide),
   (client_ip_resolution _).2.2.1 (by decide) (by decide) (by decide),
   by decide,
   (client_ip_resolution (exampleAddressRequest [] [] "pipe".toList)).2.2.2 (by decide)
      (by decide) (by decide)⟩

/-! ## C21: the path that the client signs and the path that the server reads -/

/-- Reading while `p` holds stops at a character where `p` fails. -/
theorem takeWhile_append_stop (p : Char → Bool) (c : Char) (hc : p c = false) (b : GoString) :
    ∀ a : GoString, (a ++ c :: b).takeWhile p = a.takeWhile p
  | [] => by simp [List.takeWhile, hc]
  | x :: a => by
    have ih := takeWhile_append_stop p c hc b a
    by_cases hx : p x = true
    · simp [List.takeWhile, hx, ih]
    · simp [List.takeWhile, hx]

/-- A text without `%` is its own unescaped form. -/
theorem unescape_free : ∀ s : GoString, '%' ∉ s → unescape s = some s
  | [], _ => by simp [unescape]
  | c :: s, h => by
    have hc : c ≠ '%' := fun e => h (by simp [e])
    have ih := unescape_free s (fun hm => h (List.mem_cons_of_mem _ hm))
    unfold unescape
    rw [if_neg hc, ih]
    rfl

/-- What `parse` keeps before the query: the text up to the first `?`, also in
the case of the single final `?` that sets `ForceQuery`. -/
theorem forceQuery_rest (s : GoString) :
    (if (HasSuffix s ['?'] && decide (s.count '?' = 1)) = true then s.take (s.length - 1)
      else (Cut s '?').1) = s.takeWhile (fun c => c != '?') := by
  split_ifs with h
  · rw [Bool.and_eq_true, decide_eq_true_eq] at h
    obtain ⟨h1, h2⟩ := h
    have hs : ∃ t, s = t ++ ['?'] := by
      unfold HasSuffix at h1
      have := List.isPrefixOf_iff_prefix.1 h1
      obtain ⟨w, hw⟩ := this
      refine ⟨w.reverse, ?_⟩
      have := congrArg List.reverse hw
      simp only [List.reverse_append, List.reverse_reverse] at this
      exact this.symm
    obtain ⟨t, rfl⟩ := hs
    have ht : '?' ∉ t := by
      rw [List.count_append] at h2
      have : List.count '?' ['?'] = 1 := by decide
      rw [this] at h2
      exact List.count_eq_zero.1 (by omega)
    have hall : ∀ a ∈ t, (fun c : Char => c != '?') a = true := by
      intro a ha
      simp only [bne_iff_ne, ne_eq]
      intro e
      exact ht (e ▸ ha)
    rw [List.takeWhile_append_of_pos hall]
    simp
  · rfl

/-- The URL text before the fragment, for an `http` or `https` server with a
plain authority: `parse` finds the scheme, the authority, and as path the text
from the first `/` after the authority up to the first `?`. -/
theorem parse_authority_path (parseAuthority : GoString → Option GoString)
    (scheme authority host X : GoString)
    (hscheme : scheme = "http".toList ∨ scheme = "https".toList)
    (hauth : ∀ c ∈ authority, c ≠ '/' ∧ c ≠ '?' ∧ c ≠ '#')
    (hhost : parseAuthority authority = some host)
    (hctl : stringContainsCTLByte (authority ++ X) = false)
    (hpct : '%' ∉ X) :
    ∃ fq rq, parse parseAuthority (scheme ++ "://".toList ++ authority ++ '/' :: X) =
      some ⟨scheme, [], host, '/' :: X.takeWhile (fun c => c != '?'), fq, rq, []⟩ := by
  have hq : ∀ a ∈ authority, (fun c : Char => c != '?') a = true := by
    intro a ha
    simp only [bne_iff_ne, ne_eq]
    exact (hauth a ha).2.1
  have hs : ∀ a ∈ authority, (fun c : Char => c != '/') a = true := by
    intro a ha
    simp only [bne_iff_ne, ne_eq]
    exact (hauth a ha).1
  have hrest : (['/', '/'] ++ authority ++ '/' :: X).takeWhile (fun c => c != '?') =
      ['/', '/'] ++ authority ++ '/' :: X.takeWhile (fun c => c != '?') := by
    rw [List.append_assoc, List.takeWhile_append_of_pos (by decide),
      List.takeWhile_append_of_pos hq, List.takeWhile_cons_of_pos (by decide),
      List.append_assoc]
  have hpath : '%' ∉ '/' :: X.takeWhile (fun c => c != '?') := by
    intro hm
    rcases List.mem_cons.1 hm with e | e
    · exact absurd e (by decide)
    · exact hpct ((List.takeWhile_sublist _).subset e)
  have hun := unescape_free _ hpath
  have hctl2 : stringContainsCTLByte (authority ++ '/' :: X) = false := by
    unfold stringContainsCTLByte at hctl ⊢
    rw [List.any_append] at hctl ⊢
    rw [Bool.or_eq_false_iff] at hctl ⊢
    refine ⟨hctl.1, ?_⟩
    rw [List.any_cons, hctl.2]
    decide
  have hfq := forceQuery_rest (['/', '/'] ++ authority ++ '/' :: X)
  rw [hrest] at hfq
  have ha1 : (authority ++ '/' :: X.takeWhile (fun c => c != '?')).takeWhile
      (fun c => c != '/') = authority := by
    rw [List.takeWhile_append_of_pos hs, List.takeWhile_cons_of_neg (by decide),
      List.append_nil]
  have ha2 : (authority ++ '/' :: X.takeWhile (fun c => c != '?')).dropWhile
      (fun c => c != '/') = '/' :: X.takeWhile (fun c => c != '?') := by
    rw [List.dropWhile_append_of_pos hs, List.dropWhile_cons_of_neg (by decide)]
  rcases hscheme with rfl | rfl
  · have h1 : stringContainsCTLByte ("http".toList ++ "://".toList ++ authority ++ '/' :: X) =
        false := by
      rw [List.append_assoc]
      unfold stringContainsCTLByte at hctl2 ⊢
      rw [List.any_append, hctl2]
      decide
    have h2 : getScheme ("http".toList ++ "://".toList ++ authority ++ '/' :: X) =
        some ("http".toList, ['/', '/'] ++ authority ++ '/' :: X) := rfl
    have h3 : "http".toList ++ "://".toList ++ authority ++ '/' :: X ≠ ['*'] := by
      intro e
      have := congrArg List.head? e
      simp at this
    refine ⟨HasSuffix (['/', '/'] ++ authority ++ '/' :: X) ['?'] &&
        decide ((['/', '/'] ++ authority ++ '/' :: X).count '?' = 1),
      if (HasSuffix (['/', '/'] ++ authority ++ '/' :: X) ['?'] &&
        decide ((['/', '/'] ++ authority ++ '/' :: X).count '?' = 1)) = true then []
      else (Cut (['/', '/'] ++ authority ++ '/' :: X) '?').2, ?_⟩
    unfold parse
    rw [if_neg (by rw [h1]; decide), if_neg h3, h2]
    simp only
    rw [hfq]
    simp only [HasPrefix, List.isPrefixOf, List.cons_append, List.nil_append, beq_self_eq_true,
      Bool.true_and, Bool.not_true, Bool.false_and, Bool.false_eq_true, if_false, List.drop,
      ha1, ha2, hhost, hun, Bool.and_true]
    rw [show ToLower (fun c => c) "http".toList = "http".toList by decide]
    simp only [List.append_eq, List.nil_append, ha1, ha2, hhost, hun]
    simp
  · have h1 : stringContainsCTLByte ("https".toList ++ "://".toList ++ authority ++ '/' :: X) =
        false := by
      rw [List.append_assoc]
      unfold stringContainsCTLByte at hctl2 ⊢
      rw [List.any_append, hctl2]
      decide
    have h2 : getScheme ("https".toList ++ "://".toList ++ authority ++ '/' :: X) =
        some ("https".toList, ['/', '/'] ++ authority ++ '/' :: X) := rfl
    have h3 : "https".toList ++ "://".toList ++ authority ++ '/' :: X ≠ ['*'] := by
      intro e
      have := congrArg List.head? e
      simp at this
    refine ⟨HasSuffix (['/', '/'] ++ authority ++ '/' :: X) ['?'] &&
        decide ((['/', '/'] ++ authority ++ '/' :: X).count '?' = 1),
      if (HasSuffix (['/', '/'] ++ authority ++ '/' :: X) ['?'] &&
        decide ((['/', '/'] ++ authority ++ '/' :: X).count '?' = 1)) = true then []
      else (Cut (['/', '/'] ++ authority ++ '/' :: X) '?').2, ?_⟩
    unfold parse
    rw [if_neg (by rw [h1]; decide), if_neg h3, h2]
    simp only
    rw [hfq]
    simp only [HasPrefix, List.isPrefixOf, List.cons_append, List.nil_append, beq_self_eq_true,
      Bool.true_and, Bool.not_true, Bool.false_and, Bool.false_eq_true, if_false, List.drop,
      ha1, ha2, hhost, hun, Bool.and_true]
    rw [show ToLower (fun c => c) "https".toList = "https".toList by decide]
    simp only [List.append_eq, List.nil_append, ha1, ha2, hhost, hun]
    simp

/-- The URL text that `http.NewRequest` parses, for an `http` or `https` server
with a plain authority and no `%` after it: the parsed path is the text from the
first `/` after the authority up to the first `#` or `?`. -/
theorem Parse_authority_path (parseAuthority : GoString → Option GoString)
    (scheme authority host Y : GoString)
    (hscheme : scheme = "http".toList ∨ scheme = "https".toList)
    (hauth : ∀ c ∈ authority, c ≠ '/' ∧ c ≠ '?' ∧ c ≠ '#')
    (hhost : parseAuthority authority = some host)
    (hctl : stringContainsCTLByte (authority ++ Y) = false)
    (hpct : '%' ∉ Y) :
    ∃ u, Parse parseAuthority (scheme ++ "://".toList ++ authority ++ '/' :: Y) = some u ∧
      u.Scheme = scheme ∧ u.Host = host ∧
      u.Path = '/' :: Y.takeWhile (fun c => c != '#' && c != '?') := by
  have hh : ∀ a ∈ authority, (fun c : Char => c != '#') a = true := by
    intro a ha
    simp only [bne_iff_ne, ne_eq]
    exact (hauth a ha).2.2
  have hsch : ∀ a ∈ scheme ++ "://".toList, (fun c : Char => c != '#') a = true := by
    rcases hscheme with rfl | rfl <;> decide
  have hcut1 : (Cut (scheme ++ "://".toList ++ authority ++ '/' :: Y) '#').1 =
      scheme ++ "://".toList ++ authority ++ '/' :: Y.takeWhile (fun c => c != '#') := by
    unfold Cut
    simp only
    rw [show scheme ++ "://".toList ++ authority ++ '/' :: Y =
        (scheme ++ "://".toList) ++ (authority ++ '/' :: Y) by simp only [List.append_assoc],
      List.takeWhile_append_of_pos hsch, List.takeWhile_append_of_pos hh,
      List.takeWhile_cons_of_pos (by decide)]
    simp only [List.append_assoc]
  have hcut2 : (Cut (scheme ++ "://".toList ++ authority ++ '/' :: Y) '#').2 =
      (Y.dropWhile (fun c => c != '#')).drop 1 := by
    unfold Cut
    simp only
    rw [show scheme ++ "://".toList ++ authority ++ '/' :: Y =
        (scheme ++ "://".toList) ++ (authority ++ '/' :: Y) by simp only [List.append_assoc],
      List.dropWhile_append_of_pos hsch, List.dropWhile_append_of_pos hh,
      List.dropWhile_cons_of_pos (by decide)]
  have hfrag : '%' ∉ (Y.dropWhile (fun c => c != '#')).drop 1 := by
    intro hm
    exact hpct ((List.dropWhile_sublist _).subset ((List.drop_sublist _ _).subset hm))
  have hctl2 : stringContainsCTLByte (authority ++ Y.takeWhile (fun c => c != '#')) = false := by
    unfold stringContainsCTLByte at hctl ⊢
    rw [List.any_eq_false] at hctl ⊢
    intro x hx
    apply hctl x
    rcases List.mem_append.1 hx with h | h
    · exact List.mem_append_left _ h
    · exact List.mem_append_right _ ((List.takeWhile_sublist _).subset h)
  have hpct2 : '%' ∉ Y.takeWhile (fun c => c != '#') := fun hm =>
    hpct ((List.takeWhile_sublist _).subset hm)
  obtain ⟨fq, rq, hparse⟩ := parse_authority_path parseAuthority scheme authority host
    (Y.takeWhile (fun c => c != '#')) hscheme hauth hhost hctl2 hpct2
  have htt : (Y.takeWhile (fun c => c != '#')).takeWhile (fun c => c != '?') =
      Y.takeWhile (fun c => c != '#' && c != '?') := by
    rw [List.takeWhile_takeWhile]
    congr 1
    funext c
    by_cases h1 : c = '#' <;> by_cases h2 : c = '?' <;> simp [h1, h2]
  rw [htt] at hparse
  unfold Parse
  rw [hcut1, hcut2, hparse]
  simp only
  split_ifs with hf
  · exact ⟨_, rfl, rfl, rfl, rfl⟩
  · rw [unescape_free _ hfrag]
    exact ⟨_, rfl, rfl, rfl, rfl⟩

/-- The text that `UploadFile` signs starts with a slash. -/
theorem urlPath_eq (os : GOOS) (pathKey filePath : GoString) :
    UploadFile.urlPath os pathKey filePath =
      '/' :: ("upload/".toList ++ pathKey ++ '/' :: Base os filePath) := by
  unfold UploadFile.urlPath
  simp

/-- C21, on the code. For an `http` or `https` server URL made of a scheme and
an authority that Go accepts, a path key and a file name without control
character and without `%`, and a private key that signs: `UploadFile` signs the
text `/upload/<pathKey>/<filename>`, without query suffix, and requests the URL
made of the server URL, that text, and `?extract=true` when asked; the path that
the server reads for this request is that text up to its first `#` or `?`. So
the message the client signed is the message `verifyRequest` makes if and only
if neither `#` nor `?` occurs in the path key and the file name. -/
theorem client_signs_raw_path (E : Ed25519) (parseAuthority : GoString → Option GoString)
    (os : GOOS) (unixNow : Int) (rnd : List UInt8)
    (scheme authority host pathKey filePath privateKey : GoString) (extract : Bool)
    (fileContent : List UInt8) (h : SignedHeaders)
    (hscheme : scheme = "http".toList ∨ scheme = "https".toList)
    (hauth : ∀ c ∈ authority, c ≠ '/' ∧ c ≠ '?' ∧ c ≠ '#')
    (hhost : parseAuthority authority = some host) (hhost0 : host ≠ [])
    (hctl : stringContainsCTLByte (authority ++ (pathKey ++ Base os filePath)) = false)
    (hpct : '%' ∉ pathKey ++ Base os filePath)
    (hkey : privateKey ≠ [])
    (hsign : CreateSignedHeaders E unixNow rnd privateKey
      ("/upload/".toList ++ pathKey ++ '/' :: Base os filePath) = .ok h) :
    ∃ req, UploadFile E parseAuthority os unixNow rnd (scheme ++ "://".toList ++ authority)
        pathKey filePath privateKey extract fileContent = .ok req ∧
      req.Header.Get "X-Timestamp".toList = h.timestamp ∧
      req.Header.Get "X-Nonce".toList = h.nonce ∧
      req.Header.Get "X-Signature".toList = h.signature ∧
      Parse parseAuthority (scheme ++ "://".toList ++ authority ++
        ("/upload/".toList ++ pathKey ++ '/' :: Base os filePath) ++
        (if extract then "?extract=true".toList else [])) = some req.URL ∧
      serverPath req.URL = some (("/upload/".toList ++ pathKey ++ '/' :: Base os filePath).takeWhile
        (fun c => c != '#' && c != '?')) ∧
      (h.timestamp ++ h.nonce ++ ("/upload/".toList ++ pathKey ++ '/' :: Base os filePath) =
          req.Header.Get "X-Timestamp".toList ++ req.Header.Get "X-Nonce".toList ++
            ("/upload/".toList ++ pathKey ++ '/' :: Base os filePath).takeWhile
              (fun c => c != '#' && c != '?') ↔
        '#' ∉ pathKey ++ Base os filePath ∧ '?' ∉ pathKey ++ Base os filePath) := by
  have hP : "/upload/".toList ++ pathKey ++ '/' :: Base os filePath =
      '/' :: ("upload/".toList ++ pathKey ++ '/' :: Base os filePath) := by simp
  have hmem : ∀ c, c ∈ "upload/".toList ++ pathKey ++ '/' :: Base os filePath ↔
      c ∈ "upload/".toList ∨ c = '/' ∨ c ∈ pathKey ++ Base os filePath := by
    intro c
    simp only [List.mem_append, List.mem_cons]
    tauto
  have hsfx : ∀ c ∈ (if extract then "?extract=true".toList else []),
      c ∈ "?extract=true".toList := by
    intro c hc
    cases extract
    · simp at hc
    · exact hc
  have hA : ∀ x ∈ "upload/".toList,
      ¬((decide (x.toNat < 32) || decide (x.toNat = 127)) = true) := by decide
  have hB : ∀ x ∈ "?extract=true".toList,
      ¬((decide (x.toNat < 32) || decide (x.toNat = 127)) = true) := by decide
  have hctlY : stringContainsCTLByte (authority ++
      (("upload/".toList ++ pathKey ++ '/' :: Base os filePath) ++
        (if extract then "?extract=true".toList else []))) = false := by
    unfold stringContainsCTLByte at hctl ⊢
    rw [List.any_eq_false] at hctl ⊢
    intro x hx
    rcases List.mem_append.1 hx with h1 | h1
    · exact hctl x (List.mem_append_left _ h1)
    · rcases List.mem_append.1 h1 with h2 | h2
      · rcases (hmem x).1 h2 with h3 | h3 | h3
        · exact hA x h3
        · subst h3; decide
        · exact hctl x (List.mem_append_right _ h3)
      · exact hB x (hsfx x h2)
  have hpctY : '%' ∉ ("upload/".toList ++ pathKey ++ '/' :: Base os filePath) ++
      (if extract then "?extract=true".toList else []) := by
    intro hm
    rcases List.mem_append.1 hm with h2 | h2
    · rcases (hmem _).1 h2 with h3 | h3 | h3
      · revert h3; decide
      · revert h3; decide
      · exact hpct h3
    · have := hsfx _ h2
      revert this; decide
  obtain ⟨u, hu, hus, huh, hup⟩ := Parse_authority_path parseAuthority scheme authority host
    (("upload/".toList ++ pathKey ++ '/' :: Base os filePath) ++
      (if extract then "?extract=true".toList else [])) hscheme hauth hhost hctlY hpctY
  have htake : (("upload/".toList ++ pathKey ++ '/' :: Base os filePath) ++
      (if extract then "?extract=true".toList else [])).takeWhile
        (fun c => c != '#' && c != '?') =
      ("upload/".toList ++ pathKey ++ '/' :: Base os filePath).takeWhile
        (fun c => c != '#' && c != '?') := by
    cases extract
    · simp
    · exact takeWhile_append_stop _ '?' (by decide) _ _
  rw [htake] at hup
  have hfull : UploadFile.fullURL os (scheme ++ "://".toList ++ authority) pathKey filePath
      extract = scheme ++ "://".toList ++ authority ++
        '/' :: (("upload/".toList ++ pathKey ++ '/' :: Base os filePath) ++
          (if extract then "?extract=true".toList else [])) := by
    unfold UploadFile.fullURL
    rw [urlPath_eq]
    cases extract <;> simp
  have hpath : u.Path = ("/upload/".toList ++ pathKey ++ '/' :: Base os filePath).takeWhile
      (fun c => c != '#' && c != '?') := by
    rw [hup, hP, List.takeWhile_cons_of_pos (by decide)]
  have hsign2 : CreateSignedHeaders E unixNow rnd privateKey
      (UploadFile.urlPath os pathKey filePath) = .ok h := by
    rw [urlPath_eq, ← hP]
    exact hsign
  have e1 : Values.Get (fun key =>
      if key = "Content-Type".toList then ["application/octet-stream".toList]
      else if privateKey ≠ [] ∧ key = "X-Timestamp".toList then [h.timestamp]
      else if privateKey ≠ [] ∧ key = "X-Nonce".toList then [h.nonce]
      else if privateKey ≠ [] ∧ key = "X-Signature".toList then [h.signature]
      else []) "X-Timestamp".toList = h.timestamp := by
    simp only [Values.Get, hkey, ne_eq, not_false_eq_true, true_and]
    rfl
  have e2 : Values.Get (fun key =>
      if key = "Content-Type".toList then ["application/octet-stream".toList]
      else if privateKey ≠ [] ∧ key = "X-Timestamp".toList then [h.timestamp]
      else if privateKey ≠ [] ∧ key = "X-Nonce".toList then [h.nonce]
      else if privateKey ≠ [] ∧ key = "X-Signature".toList then [h.signature]
      else []) "X-Nonce".toList = h.nonce := by
    simp only [Values.Get, hkey, ne_eq, not_false_eq_true, true_and]
    rfl
  have e3 : Values.Get (fun key =>
      if key = "Content-Type".toList then ["application/octet-stream".toList]
      else if privateKey ≠ [] ∧ key = "X-Timestamp".toList then [h.timestamp]
      else if privateKey ≠ [] ∧ key = "X-Nonce".toList then [h.nonce]
      else if privateKey ≠ [] ∧ key = "X-Signature".toList then [h.signature]
      else []) "X-Signature".toList = h.signature := by
    simp only [Values.Get, hkey, ne_eq, not_false_eq_true, true_and]
    rfl
  refine ⟨⟨"POST".toList, u, (fun key =>
      if key = "Content-Type".toList then ["application/octet-stream".toList]
      else if privateKey ≠ [] ∧ key = "X-Timestamp".toList then [h.timestamp]
      else if privateKey ≠ [] ∧ key = "X-Nonce".toList then [h.nonce]
      else if privateKey ≠ [] ∧ key = "X-Signature".toList then [h.signature]
      else []), fileContent.length, fileContent⟩, ?_, e1, e2, e3, ?_, ?_, ?_⟩
  · unfold UploadFile
    simp only [hsign2, hfull, hu, hkey, ne_eq, not_false_eq_true, if_true]
  · rw [← hu]
    congr 1
    rw [hP]
    simp only [List.append_assoc, List.cons_append]
  · unfold serverPath
    have hne : u.Path ≠ [] := by rw [hup]; simp
    rw [if_pos ⟨by rw [hus]; exact hscheme, by rw [huh]; exact hhost0⟩, if_neg hne, hpath]
  · show h.timestamp ++ h.nonce ++ _ = Values.Get _ _ ++ Values.Get _ _ ++ _ ↔ _
    rw [e1, e2]
    constructor
    · intro heq
      have h3 := (List.append_cancel_left heq).symm
      rw [List.takeWhile_eq_self_iff] at h3
      constructor
      · intro hm
        have := h3 '#' (by rw [hP]; exact List.mem_cons_of_mem _ ((hmem _).2 (Or.inr (Or.inr hm))))
        revert this; decide
      · intro hm
        have := h3 '?' (by rw [hP]; exact List.mem_cons_of_mem _ ((hmem _).2 (Or.inr (Or.inr hm))))
        revert this; decide
    · rintro ⟨h1, h2⟩
      have h3 : ("/upload/".toList ++ pathKey ++ '/' :: Base os filePath).takeWhile
          (fun c => c != '#' && c != '?') =
          "/upload/".toList ++ pathKey ++ '/' :: Base os filePath := by
        rw [List.takeWhile_eq_self_iff]
        intro x hx
        rw [hP] at hx
        have hx1 : x ≠ '#' := by
          rintro rfl
          rcases List.mem_cons.1 hx with e | e
          · revert e; decide
          · rcases (hmem _).1 e with h4 | h4 | h4
            · revert h4; decide
            · revert h4; decide
            · exact h1 h4
        have hx2 : x ≠ '?' := by
          rintro rfl
          rcases List.mem_cons.1 hx with e | e
          · revert e; decide
          · rcases (hmem _).1 e with h4 | h4 | h4
            · revert h4; decide
            · revert h4; decide
            · exact h2 h4
        simp [hx1, hx2]
      rw [h3]

/-- Witness of the C21 theorem, on a Windows client, for the server
`http://10.0.0.1:8022`, the path key `web` and the example key, at time
1700000000. The file `C:\data\site.zip`, sent with `?extract=true`, reaches the
server under the path `/upload/web/site.zip` that was signed, and is accepted.
The file `C:\data\report#1.zip` is signed as `/upload/web/report#1.zip` and
reaches the server under the path `/upload/web/report`: the signature is
refused. -/
theorem client_signs_raw_path_witness :
    (∃ req, UploadFile toyEd25519 exampleParseAuthority .windows 1700000000 exampleRnd
        "http://10.0.0.1:8022".toList "web".toList "C:\\data\\site.zip".toList
        examplePrivateKeyHex true [1, 2, 3] = .ok req ∧
      serverPath req.URL = some "/upload/web/site.zip".toList ∧
      (exampleReceived req).map (verifyRequest toyEd25519 (exampleServer 300 []) 1700000000) =
        some (.ok (true, .empty))) ∧
    (∃ req, UploadFile toyEd25519 exampleParseAuthority .windows 1700000000 exampleRnd
        "http://10.0.0.1:8022".toList "web".toList "C:\\data\\report#1.zip".toList
        examplePrivateKeyHex false [1, 2, 3] = .ok req ∧
      req.Header.Get "X-Signature".toList =
        (exampleSignedHeaders "/upload/web/report#1.zip".toList).signature ∧
      serverPath req.URL = some "/upload/web/report".toList ∧
      (exampleReceived req).map (verifyRequest toyEd25519 (exampleServer 300 []) 1700000000) =
        some (.ok (false, .badSignature))) := by
  constructor
  · obtain ⟨req, hreq, -, -, -, -, hsp, -⟩ :=
      client_signs_raw_path toyEd25519 exampleParseAuthority .windows 1700000000 exampleRnd
        "http".toList "10.0.0.1:8022".toList "10.0.0.1:8022".toList "web".toList
        "C:\\data\\site.zip".toList examplePrivateKeyHex true [1, 2, 3]
        (exampleSignedHeaders "/upload/web/site.zip".toList)
        (Or.inl rfl) (by decide) (by decide) (by decide) (by decide) (by decide) (by decide)
        (by decide)
    refine ⟨req, hreq, hsp.trans (by decide), ?_⟩
    have hrun : ((UploadFile toyEd25519 exampleParseAuthority .windows 1700000000 exampleRnd
        "http://10.0.0.1:8022".toList "web".toList "C:\\data\\site.zip".toList
        examplePrivateKeyHex true [1, 2, 3]).toOption.bind exampleReceived).map
          (verifyRequest toyEd25519 (exampleServer 300 []) 1700000000) =
        some (.ok (true, .empty)) := by decide
    have e : ("http".toList ++ "://".toList ++ "10.0.0.1:8022".toList) =
        "http://10.0.0.1:8022".toList := by decide
    rw [e] at hreq
    rw [hreq] at hrun
    exact hrun
  · obtain ⟨req, hreq, -, -, hsig, -, hsp, -⟩ :=
      client_signs_raw_path toyEd25519 exampleParseAuthority .windows 1700000000 exampleRnd
        "http".toList "10.0.0.1:8022".toList "10.0.0.1:8022".toList "web".toList
        "C:\\data\\report#1.zip".toList examplePrivateKeyHex false [1, 2, 3]
        (exampleSignedHeaders "/upload/web/report#1.zip".toList)
        (Or.inl rfl) (by decide) (by decide) (by decide) (by decide) (by decide) (by decide)
        (by decide)
    refine ⟨req, hreq, hsig, hsp.trans (by decide), ?_⟩
    have hrun : ((UploadFile toyEd25519 exampleParseAuthority .windows 1700000000 exampleRnd
        "http://10.0.0.1:8022".toList "web".toList "C:\\data\\report#1.zip".toList
        examplePrivateKeyHex false [1, 2, 3]).toOption.bind exampleReceived).map
          (verifyRequest toyEd25519 (exampleServer 300 []) 1700000000) =
        some (.ok (false, .badSignature)) := by decide
    have e : ("http".toList ++ "://".toList ++ "10.0.0.1:8022".toList) =
        "http://10.0.0.1:8022".toList := by decide
    rw [e] at hreq
    rw [hreq] at hrun
    exact hrun

/-! ## Paths in general: what `Clean` and `Join` write -/

/-- `postClean` leaves the output as it is, or puts `.` and a separator before
it, or a separator and `.` before an output that starts with a separator. -/
theorem postClean_cases (os : GOOS) (volLen : Nat) (path out : GoString) :
    postClean os volLen path out = out ∨
      (os = .windows ∧ volLen = 0 ∧
        (postClean os volLen path out = '.' :: Separator os :: out ∨
          (postClean os volLen path out = Separator os :: '.' :: out ∧
            ∃ c0 rest, out = c0 :: rest ∧ IsPathSeparator os c0 = true))) := by
  unfold postClean
  split_ifs with h1 h2
  · exact Or.inr ⟨h1.1, h1.2.1, Or.inl rfl⟩
  · split
    · rename_i c0 rest
      split_ifs with h3
      · exact Or.inr ⟨h1.1, h1.2.1, Or.inr ⟨rfl, c0, _, rfl, h3⟩⟩
      · exact Or.inl rfl
    · exact Or.inl rfl
  · exact Or.inl rfl

/-- `Clean` on a path that goes on after its volume name: the volume name, then
the elements that the loop has kept, written out and passed through
`postClean`. -/
theorem Clean_form (os : GOOS) (X : GoString) (c : Char) (tl : GoString)
    (hdrop : X.drop (volumeNameLen os X) = c :: tl) :
    Clean os X = FromSlash os (X.take (volumeNameLen os X)) ++
      FromSlash os (postClean os (volumeNameLen os X) (c :: tl)
        (renderElems os (IsPathSeparator os c)
          ((splitElems os (c :: tl)).foldl (cleanStep (IsPathSeparator os c)) []))) ∧
    CleanShape os (IsPathSeparator os c)
      ((splitElems os (c :: tl)).foldl (cleanStep (IsPathSeparator os c)) []) := by
  refine ⟨?_, foldl_cleanStep_shape os _ _ _
    (fun e he => mem_splitBy_free _ _ e he) (CleanShape_nil os _)⟩
  unfold Clean
  simp only [hdrop]
  rw [FromSlash_append]

/-- The elements kept from two texts with a separator between them: those of
the second text worked into those of the first. -/
theorem foldl_split_sep (os : GOOS) (rooted : Bool) (A X : GoString) (s : Char)
    (hs : IsPathSeparator os s = true) :
    (splitElems os (A ++ s :: X)).foldl (cleanStep rooted) [] =
      (splitElems os X).foldl (cleanStep rooted)
        ((splitElems os A).foldl (cleanStep rooted) []) := by
  unfold splitElems
  rw [splitBy_append_sep _ s hs, foldl_cleanStep_append]

/-- The elements kept from a text that ends in a separator and a text that
follows it. -/
theorem foldl_split_end (os : GOOS) (rooted : Bool) (A X : GoString) (s : Char)
    (hs : IsPathSeparator os s = true) :
    (splitElems os ((A ++ [s]) ++ X)).foldl (cleanStep rooted) [] =
      (splitElems os X).foldl (cleanStep rooted)
        ((splitElems os (A ++ [s])).foldl (cleanStep rooted) []) := by
  have h1 : (A ++ [s]) ++ X = A ++ s :: X := by simp
  have h2 : splitElems os (A ++ [s]) = splitElems os A ++ [[]] := by
    unfold splitElems
    rw [splitBy_append_sep _ s hs]
    rfl
  rw [h1, foldl_split_sep os rooted A X s hs, h2, foldl_cleanStep_append]
  simp only [List.foldl_cons, List.foldl_nil, cleanStep_nil]

/-- `Join` of a directory and a name is `Clean` of the directory followed by a
separator and the name, or (on Windows) by the name without its leading
separators when the directory ends in a separator, or by the name when the
directory ends in a colon. -/
theorem Join_tail (os : GOOS) (dest name : GoString) (hd : dest ≠ []) :
    ∃ X, Join os [dest, name] = Clean os (dest ++ X) ∧
      ((∃ s, IsPathSeparator os s = true ∧ X = s :: name) ∨
        (os = .windows ∧ (∃ d s, dest = d ++ [s] ∧ IsPathSeparator os s = true) ∧
          (X = name.dropWhile (IsPathSeparator os) ∨
            (dest.length = 1 ∧ X = '.' :: '\\' :: name.dropWhile (IsPathSeparator os)))) ∨
        (os = .windows ∧ dest.getLast? = some ':' ∧ X = name)) := by
  cases os with
  | unix =>
    refine ⟨'/' :: name, ?_, Or.inl ⟨'/', rfl, rfl⟩⟩
    unfold Join
    simp only [List.dropWhile_cons, hd, decide_False, Bool.false_eq_true, if_false]
    rw [intercalate_cons_cons, intercalate_singleton]
  | windows =>
    cases hlast : dest.getLast? with
    | none => exact absurd (List.getLast?_eq_none_iff.mp hlast) hd
    | some last =>
      have hstep0 : joinStepWindows [] dest = dest := by simp [joinStepWindows]
      have hfold : [dest, name].foldl joinStepWindows [] = joinStepWindows dest name := by
        simp [List.foldl, hstep0]
      have hclean : ∀ X, joinStepWindows dest name = dest ++ X →
          Join .windows [dest, name] = Clean .windows (dest ++ X) := by
        intro X hX
        unfold Join
        simp only [hfold, hX]
        cases hbf : dest ++ X with
        | nil => simp [hd] at hbf
        | cons a as => rfl
      obtain ⟨d, hdl⟩ := List.getLast?_eq_some_iff.mp hlast
      by_cases hsep : IsPathSeparator .windows last = true
      · by_cases hrule : dest.length = 1 ∧
            pathHasPrefixFold .windows (name.dropWhile (IsPathSeparator .windows))
              "??".toList = true
        · refine ⟨'.' :: '\\' :: name.dropWhile (IsPathSeparator .windows), hclean _ ?_,
            Or.inr (Or.inl ⟨rfl, ⟨d, last, hdl, hsep⟩, Or.inr ⟨hrule.1, rfl⟩⟩)⟩
          simp only [joinStepWindows, hlast, hsep, if_true]
          rw [if_pos hrule]
        · refine ⟨name.dropWhile (IsPathSeparator .windows), hclean _ ?_,
            Or.inr (Or.inl ⟨rfl, ⟨d, last, hdl, hsep⟩, Or.inl rfl⟩)⟩
          simp only [joinStepWindows, hlast, hsep, if_true]
          rw [if_neg hrule]
      · by_cases hcol : last = ':'
        · refine ⟨name, hclean _ ?_, Or.inr (Or.inr ⟨rfl, by rw [hcol], rfl⟩)⟩
          simp only [joinStepWindows, hlast]
          rw [if_neg hsep, if_pos hcol]
        · refine ⟨'\\' :: name, hclean _ ?_, Or.inl ⟨'\\', rfl, rfl⟩⟩
          simp only [joinStepWindows, hlast]
          rw [if_neg hsep, if_neg hcol]

/-- A directory that goes on after its volume name, does not end in a colon, is
not a lone separator, and keeps its volume name when text is added: `Join` with
a name writes the volume name and then the elements of the name worked into the
elements of the directory. -/
theorem Join_form (os : GOOS) (dest : GoString) (c : Char) (tl : GoString)
    (hR : dest.drop (volumeNameLen os dest) = c :: tl)
    (hglue : os = .windows → dest.getLast? ≠ some ':')
    (hlone : os = .windows → 2 ≤ dest.length ∨ IsPathSeparator os c = false)
    (hstab : ∀ X, (2 ≤ dest.length ∨ ∃ s X', X = s :: X' ∧ IsPathSeparator os s = true) →
      volumeNameLen os (dest ++ X) = volumeNameLen os dest)
    (name : GoString) :
    ∃ E P, (E = splitElems os name ∨
        (os = .windows ∧ E = splitElems os (name.dropWhile (IsPathSeparator os)))) ∧
      Join os [dest, name] = FromSlash os (dest.take (volumeNameLen os dest)) ++
        FromSlash os (postClean os (volumeNameLen os dest) P
          (renderElems os (IsPathSeparator os c)
            (E.foldl (cleanStep (IsPathSeparator os c))
              ((splitElems os (c :: tl)).foldl (cleanStep (IsPathSeparator os c)) [])))) := by
  have hvlt : volumeNameLen os dest < dest.length := by
    by_contra hge
    rw [List.drop_eq_nil_of_le (by omega)] at hR
    cases hR
  have hd : dest ≠ [] := by
    intro h
    rw [h] at hvlt
    simp at hvlt
  have key : ∀ X, volumeNameLen os (dest ++ X) = volumeNameLen os dest →
      Clean os (dest ++ X) = FromSlash os (dest.take (volumeNameLen os dest)) ++
        FromSlash os (postClean os (volumeNameLen os dest) (c :: (tl ++ X))
          (renderElems os (IsPathSeparator os c)
            ((splitElems os (c :: (tl ++ X))).foldl (cleanStep (IsPathSeparator os c)) []))) := by
    intro X hv
    have hdropJ : (dest ++ X).drop (volumeNameLen os (dest ++ X)) = c :: (tl ++ X) := by
      rw [hv, List.drop_append_of_le_length (by omega), hR]
      rfl
    have htakeJ : (dest ++ X).take (volumeNameLen os (dest ++ X)) =
        dest.take (volumeNameLen os dest) := by
      rw [hv, List.take_append_of_le_length (by omega)]
    have := (Clean_form os (dest ++ X) c (tl ++ X) hdropJ).1
    rw [htakeJ, hv] at this
    exact this
  obtain ⟨X, hJ, hX⟩ := Join_tail os dest name hd
  rcases hX with ⟨s, hs, hXs⟩ | ⟨hw, ⟨d, s, hds, hs⟩, hXd⟩ | ⟨hw, hl, -⟩
  · -- a separator and the name
    refine ⟨splitElems os name, c :: (tl ++ X), Or.inl rfl, ?_⟩
    rw [hJ, key X (hstab X (Or.inr ⟨s, name, hXs, hs⟩)), hXs]
    have : c :: (tl ++ s :: name) = (c :: tl) ++ s :: name := rfl
    rw [this, foldl_split_sep os _ (c :: tl) name s hs]
  · -- the directory ends in a separator
    have h2 : 2 ≤ dest.length := by
      rcases hlone hw with h | h
      · exact h
      · by_contra hlt
        have h1 : dest.length = 1 := by
          have : 0 < dest.length := List.length_pos.mpr hd
          omega
        have hv0 : volumeNameLen os dest = 0 := by omega
        rw [hv0, List.drop_zero, hds] at hR
        rw [hds] at h1
        simp at h1
        rw [h1] at hR
        simp at hR
        rw [← hR.1, hs] at h
        cases h
    rcases hXd with hXd | ⟨h1, -⟩
    · refine ⟨splitElems os (name.dropWhile (IsPathSeparator os)), c :: (tl ++ X),
        Or.inr ⟨hw, rfl⟩, ?_⟩
      rw [hJ, key X (hstab X (Or.inl h2))]
      -- the rest of the directory ends in the separator
      have hvd : volumeNameLen os dest ≤ d.length := by
        have := congrArg List.length hds
        simp at this
        omega
      have hRd : c :: tl = d.drop (volumeNameLen os dest) ++ [s] := by
        rw [← hR]
        generalize volumeNameLen os dest = v at hvd
        rw [hds, List.drop_append_of_le_length hvd]
      have : c :: (tl ++ X) = (c :: tl) ++ X := rfl
      rw [this, hRd, foldl_split_end os _ _ X s hs, hXd]
    · omega
  · exact absurd hl (hglue hw)

/-- Two texts that agree up to the first separator of each. -/
theorem free_prefix_eq (p : Char → Bool) (s t : Char) (hs : p s = true) (ht : p t = true)
    (x y : GoString) : ∀ (a b : GoString), (∀ z ∈ a, p z = false) → (∀ z ∈ b, p z = false) →
      (a ++ s :: x) <+: (b ++ t :: y) → a = b ∧ x <+: y
  | [], [], _, _, h => by
    have := List.cons_prefix_cons.mp h
    exact ⟨rfl, this.2⟩
  | [], b0 :: b, _, hb, h => by
    have := (List.cons_prefix_cons.mp h).1
    have h2 := hb b0 (List.mem_cons_self _ _)
    rw [← this, hs] at h2
    cases h2
  | a0 :: a, [], ha, _, h => by
    have := (List.cons_prefix_cons.mp h).1
    have h2 := ha a0 (List.mem_cons_self _ _)
    rw [this, ht] at h2
    cases h2
  | a0 :: a, b0 :: b, ha, hb, h => by
    have h1 := List.cons_prefix_cons.mp h
    obtain ⟨h2, h3⟩ := free_prefix_eq p s t hs ht x y a b
      (fun z hz => ha z (List.mem_cons_of_mem _ hz))
      (fun z hz => hb z (List.mem_cons_of_mem _ hz)) h1.2
    exact ⟨by rw [h1.1, h2], h3⟩

/-- A text with a separator is not the start of a text without one. -/
theorem free_prefix_absurd (p : Char → Bool) (s : Char) (hs : p s = true) (a x b : GoString)
    (hb : ∀ z ∈ b, p z = false) (h : (a ++ s :: x) <+: b) : False := by
  have hmem : s ∈ b := h.subset (by simp)
  rw [hb s hmem] at hs
  cases hs

/-- The elements written with separators between them and one after them: such
a text is the start of another such text only when the elements are the first
elements of the other text, which has more. -/
theorem intercalate_prefix_elems (c : Char) (p : Char → Bool) (hc : p c = true) :
    ∀ (Sd S2 : List GoString), Sd ≠ [] → (∀ a ∈ Sd, ∀ z ∈ a, p z = false) →
      (∀ a ∈ S2, ∀ z ∈ a, p z = false) →
      ([c].intercalate Sd ++ [c]) <+: [c].intercalate S2 → ∃ e more, S2 = Sd ++ e :: more
  | [], _, h, _, _, _ => absurd rfl h
  | [d], S2, _, hSd, hS2, h => by
    rw [intercalate_singleton] at h
    match S2, hS2, h with
    | [], _, h =>
      have := List.prefix_nil.mp h
      simp at this
    | [s], hS2, h =>
      rw [intercalate_singleton] at h
      exact (free_prefix_absurd p c hc d [] s (hS2 s (List.mem_singleton_self s)) h).elim
    | s :: s2 :: r, hS2, h =>
      rw [intercalate_cons_cons] at h
      obtain ⟨h1, -⟩ := free_prefix_eq p c c hc hc [] _ d s
        (hSd d (List.mem_singleton_self d)) (hS2 s (List.mem_cons_self _ _)) h
      exact ⟨s2, r, by rw [h1]; rfl⟩
  | d :: d2 :: ds, S2, _, hSd, hS2, h => by
    rw [intercalate_cons_cons, List.append_assoc, List.cons_append] at h
    match S2, hS2, h with
    | [], _, h =>
      have := List.prefix_nil.mp h
      simp at this
    | [s], hS2, h =>
      rw [intercalate_singleton] at h
      exact (free_prefix_absurd p c hc d _ s (hS2 s (List.mem_singleton_self s)) h).elim
    | s :: s2 :: r, hS2, h =>
      rw [intercalate_cons_cons] at h
      obtain ⟨h1, h2⟩ := free_prefix_eq p c c hc hc _ _ d s
        (hSd d (List.mem_cons_self _ _)) (hS2 s (List.mem_cons_self _ _)) h
      obtain ⟨e, more, h3⟩ := intercalate_prefix_elems c p hc (d2 :: ds) (s2 :: r) (by simp)
        (fun a ha => hSd a (List.mem_cons_of_mem _ ha))
        (fun a ha => hS2 a (List.mem_cons_of_mem _ ha)) h2
      exact ⟨e, more, by rw [h1, h3]; rfl⟩

/-- The text of elements that are not empty starts with the first element,
followed by a separator or the end. -/
theorem intercalate_first (c : Char) (d : GoString) (ds : List GoString) :
    ∃ W, [c].intercalate (d :: ds) ++ [c] = d ++ c :: W := by
  cases ds with
  | nil => exact ⟨[], by rw [intercalate_singleton]⟩
  | cons d2 ds =>
    exact ⟨[c].intercalate (d2 :: ds) ++ [c], by rw [intercalate_cons_cons]; simp⟩

theorem CleanShape_ne_dot (os : GOOS) (rooted : Bool) (S : List GoString)
    (h : CleanShape os rooted S) : ∀ a ∈ S, a ≠ ['.'] := by
  obtain ⟨k, N, hS, -, hN⟩ := h
  intro a ha
  rw [hS] at ha
  rcases List.mem_append.mp ha with h1 | h1
  · rw [List.eq_of_mem_replicate h1]
    decide
  · exact (hN a h1).2.1

theorem renderElems_relative (os : GOOS) (S : List GoString) (hne : S ≠ [])
    (hS : ∀ a ∈ S, a ≠ []) : renderElems os false S = [Separator os].intercalate S := by
  obtain ⟨x, xs, s, rest, -, -, ys, hys⟩ := ordinary_head (Separator os) S hne hS
  unfold renderElems
  simp only [Bool.false_eq_true, if_false]
  rw [if_neg (by rw [hys]; simp)]

theorem renderElems_nil (os : GOOS) : renderElems os false [] = ['.'] := by
  cases os <;> rfl

theorem intercalate_head_free (os : GOOS) (rooted : Bool) (S : List GoString)
    (hS : CleanShape os rooted S) (z : Char) (hz : IsPathSeparator os z = true) (W : GoString)
    (h : (z :: W) <+: [Separator os].intercalate S) : False := by
  have hE := CleanShape_elem os rooted S hS
  cases S with
  | nil =>
    have := List.prefix_nil.mp h
    cases this
  | cons s r =>
    obtain ⟨x, xs, hx⟩ := List.exists_cons_of_ne_nil (hE s (List.mem_cons_self _ _)).1
    obtain ⟨ys, hys⟩ := intercalate_head (Separator os) s r x xs hx
    rw [hys] at h
    have h1 := (List.cons_prefix_cons.mp h).1
    have h2 := (hE s (List.mem_cons_self _ _)).2 x (by rw [hx]; exact List.mem_cons_self _ _)
    rw [← h1, hz] at h2
    cases h2

/-- A text that starts with `.` and a separator is not the start of, and does
not start with, the text of elements that `Clean` has kept. -/
theorem dot_prefix_absurd (os : GOOS) (rooted : Bool) (S : List GoString)
    (hS : CleanShape os rooted S) (hne : S ≠ []) (z : Char) (hz : IsPathSeparator os z = true)
    (Z : GoString)
    (h : ([Separator os].intercalate S ++ [Separator os]) <+: '.' :: z :: Z) : False := by
  have hE := CleanShape_elem os rooted S hS
  obtain ⟨d, ds, rfl⟩ := List.exists_cons_of_ne_nil hne
  obtain ⟨W, hW⟩ := intercalate_first (Separator os) d ds
  rw [hW] at h
  have hdot : ∀ y ∈ ['.'], IsPathSeparator os y = false := by
    intro y hy
    rw [List.mem_singleton.mp hy]
    cases os <;> rfl
  obtain ⟨h1, -⟩ := free_prefix_eq (IsPathSeparator os) (Separator os) z
    (IsPathSeparator_Separator os) hz W Z d ['.'] (hE d (List.mem_cons_self _ _)).2 hdot h
  exact CleanShape_ne_dot os rooted _ hS d (List.mem_cons_self _ _) h1

/-- A joined path that passes the check of `unzipFile`: `postClean` has left it
as it was, the cleaned destination has elements, and the joined path has those
elements and more after them. -/
theorem legal_shape (os : GOOS) (rooted : Bool) (Sd S2 : List GoString) (v : Nat)
    (P : GoString) (hSd : CleanShape os rooted Sd) (hS2 : CleanShape os rooted S2)
    (hdot : os = .windows → v = 0 → rooted = false → Sd ≠ [])
    (hpre : (renderElems os rooted Sd ++ [Separator os]) <+:
      FromSlash os (postClean os v P (renderElems os rooted S2))) :
    postClean os v P (renderElems os rooted S2) = renderElems os rooted S2 ∧ Sd ≠ [] ∧
      ∃ e more, S2 = Sd ++ e :: more := by
  have hE1 := CleanShape_elem os rooted Sd hSd
  have hE2 := CleanShape_elem os rooted S2 hS2
  have hsep := IsPathSeparator_Separator os
  rcases postClean_cases os v P (renderElems os rooted S2) with
    h | ⟨hw, hv0, h | ⟨h, c0, rest, hout, hc0⟩⟩
  · -- the output as it was
    rw [h, FromSlash_render os rooted S2 (fun a ha => (hE2 a ha).2)] at hpre
    refine ⟨h, ?_⟩
    cases rooted with
    | true =>
      rw [renderElems_rooted, renderElems_rooted, List.cons_append] at hpre
      have h1 := (List.cons_prefix_cons.mp hpre).2
      by_cases hSdne : Sd = []
      · subst hSdne
        exact (intercalate_head_free os true S2 hS2 (Separator os) hsep [] h1).elim
      · exact ⟨hSdne, intercalate_prefix_elems (Separator os) (IsPathSeparator os) hsep Sd S2
          hSdne (fun a ha => (hE1 a ha).2) (fun a ha => (hE2 a ha).2) h1⟩
    | false =>
      by_cases hS2ne : S2 = []
      · subst hS2ne
        rw [renderElems_nil] at hpre
        have hmem : Separator os ∈ ['.'] := hpre.subset (by simp)
        exact absurd (List.mem_singleton.mp hmem) (Separator_ne_dot os)
      · rw [renderElems_relative os S2 hS2ne (fun a ha => (hE2 a ha).1)] at hpre
        by_cases hSdne : Sd = []
        · subst hSdne
          rw [renderElems_nil] at hpre
          obtain ⟨s, r, rfl⟩ := List.exists_cons_of_ne_nil hS2ne
          cases r with
          | nil =>
            rw [intercalate_singleton] at hpre
            exact (free_prefix_absurd (IsPathSeparator os) (Separator os) hsep ['.'] [] s
              (hE2 s (List.mem_cons_self _ _)).2 hpre).elim
          | cons s2 r =>
            rw [intercalate_cons_cons] at hpre
            have hdot1 : ∀ y ∈ ['.'], IsPathSeparator os y = false := by
              intro y hy
              rw [List.mem_singleton.mp hy]
              cases os <;> rfl
            obtain ⟨h1, -⟩ := free_prefix_eq (IsPathSeparator os) (Separator os) (Separator os)
              hsep hsep [] _ ['.'] s hdot1 (hE2 s (List.mem_cons_self _ _)).2 hpre
            exact absurd h1.symm (CleanShape_ne_dot os false _ hS2 s (List.mem_cons_self _ _))
        · rw [renderElems_relative os Sd hSdne (fun a ha => (hE1 a ha).1)] at hpre
          exact ⟨hSdne, intercalate_prefix_elems (Separator os) (IsPathSeparator os) hsep Sd S2
            hSdne (fun a ha => (hE1 a ha).2) (fun a ha => (hE2 a ha).2) hpre⟩
  · -- `.` and a separator put before the output
    exfalso
    subst hw
    rw [h] at hpre
    have hF : FromSlash .windows ('.' :: Separator .windows :: renderElems .windows rooted S2) =
        '.' :: '\\' :: FromSlash .windows (renderElems .windows rooted S2) := rfl
    rw [hF] at hpre
    cases rooted with
    | true =>
      rw [renderElems_rooted, List.cons_append] at hpre
      have := (List.cons_prefix_cons.mp hpre).1
      revert this
      decide
    | false =>
      have hSdne := hdot rfl hv0 rfl
      rw [renderElems_relative .windows Sd hSdne (fun a ha => (hE1 a ha).1)] at hpre
      exact dot_prefix_absurd .windows false Sd hSd hSdne '\\' rfl _ hpre
  · -- a separator and `.` put before an output that starts with a separator
    exfalso
    subst hw
    rw [h, hout] at hpre
    have hF : FromSlash .windows (Separator .windows :: '.' :: c0 :: rest) =
        '\\' :: '.' :: (if c0 = '/' then '\\' else c0) :: FromSlash .windows rest := rfl
    rw [hF] at hpre
    have hc0' : IsPathSeparator .windows (if c0 = '/' then '\\' else c0) = true := by
      split_ifs
      · rfl
      · exact hc0
    cases rooted with
    | true =>
      rw [renderElems_rooted, List.cons_append] at hpre
      have h1 := (List.cons_prefix_cons.mp hpre).2
      by_cases hSdne : Sd = []
      · subst hSdne
        have := (List.cons_prefix_cons.mp h1).1
        revert this
        decide
      · exact dot_prefix_absurd .windows true Sd hSd hSdne _ hc0' _ h1
    | false =>
      by_cases hSdne : Sd = []
      · subst hSdne
        rw [renderElems_nil] at hpre
        have := (List.cons_prefix_cons.mp hpre).1
        revert this
        decide
      · rw [renderElems_relative .windows Sd hSdne (fun a ha => (hE1 a ha).1)] at hpre
        have hp2 : ('\\' :: []) <+: [Separator GOOS.windows].intercalate Sd := by
          obtain ⟨d, ds, rfl⟩ := List.exists_cons_of_ne_nil hSdne
          obtain ⟨x, xs, hx⟩ := List.exists_cons_of_ne_nil (hE1 d (List.mem_cons_self _ _)).1
          obtain ⟨ys, hys⟩ := intercalate_head (Separator .windows) d ds x xs hx
          rw [hys, List.cons_append] at hpre
          rw [hys, ← (List.cons_prefix_cons.mp hpre).1]
          exact (List.prefix_cons_inj _).mpr (List.nil_prefix)
        exact intercalate_head_free .windows false Sd hSd '\\' rfl [] hp2

theorem CleanShape_init (os : GOOS) (rooted : Bool) (init : List GoString) (l : GoString)
    (h : CleanShape os rooted (init ++ [l])) : CleanShape os rooted init := by
  obtain ⟨k, N, hS, hk, hN⟩ := h
  rcases List.eq_nil_or_concat N with hN0 | ⟨N1, n, hN1⟩
  · subst hN0
    rw [List.append_nil] at hS
    cases k with
    | zero => simp at hS
    | succ j =>
      rw [List.replicate_succ'] at hS
      have := List.append_inj' hS rfl
      exact ⟨j, [], by rw [this.1]; simp, fun hr => absurd (hk hr) (by simp), by simp⟩
  · have hN2 : N = N1 ++ [n] := by rw [hN1]; simp
    rw [hN2, ← List.append_assoc] at hS
    have := List.append_inj' hS rfl
    exact ⟨k, N1, this.1, hk, fun a ha => hN a (by rw [hN2]; exact List.mem_append_left _ ha)⟩

theorem renderElems_append_last (os : GOOS) (rooted : Bool) (init : List GoString)
    (l : GoString) (hne : init ≠ []) (hS : ∀ a ∈ init ++ [l], a ≠ []) :
    renderElems os rooted (init ++ [l]) = renderElems os rooted init ++ Separator os :: l := by
  have hint : [Separator os].intercalate (init ++ [l]) =
      [Separator os].intercalate init ++ Separator os :: l := by
    rw [intercalate_append _ _ _ hne (by simp), intercalate_singleton]
  cases rooted with
  | true => rw [renderElems_rooted, renderElems_rooted, hint]; rfl
  | false =>
    rw [renderElems_relative os _ (by simp) hS,
      renderElems_relative os init hne (fun a ha => hS a (List.mem_append_left _ ha)), hint]

theorem renderElems_ne_dot (os : GOOS) (rooted : Bool) (S : List GoString) (hne : S ≠ [])
    (hS : CleanShape os rooted S) : renderElems os rooted S ≠ ['.'] := by
  have hE := CleanShape_elem os rooted S hS
  cases rooted with
  | true =>
    rw [renderElems_rooted]
    intro h
    have := (List.cons.inj h).1
    exact Separator_ne_dot os this
  | false =>
    rw [renderElems_relative os S hne (fun a ha => (hE a ha).1)]
    obtain ⟨d, ds, rfl⟩ := List.exists_cons_of_ne_nil hne
    intro h
    cases ds with
    | nil =>
      rw [intercalate_singleton] at h
      exact CleanShape_ne_dot os false _ hS d (List.mem_cons_self _ _) h
    | cons d2 ds =>
      rw [intercalate_cons_cons] at h
      have hlen := congrArg List.length h
      have hd : 0 < d.length := List.length_pos.mpr (hE d (List.mem_cons_self _ _)).1
      simp at hlen
      omega

/-- `Clean` on the elements that `Clean` has kept, written out with a separator
after them: the separator at the end goes. -/
theorem Clean_trailing_shape (os : GOOS) (rooted : Bool) (init : List GoString)
    (hne : init ≠ []) (hS : CleanShape os rooted init)
    (hv : volumeNameLen os (renderElems os rooted init ++ [Separator os]) = 0) :
    Clean os (renderElems os rooted init ++ [Separator os]) = renderElems os rooted init := by
  have hE := CleanShape_elem os rooted init hS
  obtain ⟨c, tl, hr, hc, hsplit⟩ := renderElems_cases os rooted init hne hE
  have hX : renderElems os rooted init ++ [Separator os] = c :: (tl ++ [Separator os]) := by
    rw [hr]; rfl
  have hdrop : (renderElems os rooted init ++ [Separator os]).drop
      (volumeNameLen os (renderElems os rooted init ++ [Separator os])) =
        c :: (tl ++ [Separator os]) := by
    rw [hv, List.drop_zero, hX]
  have hC := (Clean_form os _ c (tl ++ [Separator os]) hdrop).1
  rw [hv, List.take_zero] at hC
  have hsp : splitElems os (c :: (tl ++ [Separator os])) = splitElems os (c :: tl) ++ [[]] := by
    have : c :: (tl ++ [Separator os]) = (c :: tl) ++ Separator os :: [] := rfl
    rw [this]
    unfold splitElems
    rw [splitBy_append_sep _ _ (IsPathSeparator_Separator os)]
    rfl
  have hfold : (splitElems os (c :: (tl ++ [Separator os]))).foldl
      (cleanStep (IsPathSeparator os c)) [] = init := by
    rw [hsp, foldl_cleanStep_append, hsplit, hc]
    simp only [List.foldl_cons, List.foldl_nil, cleanStep_nil]
    cases rooted with
    | true =>
      simp only [if_true, List.foldl_cons, cleanStep_nil]
      exact foldl_cleanStep_fixed os true init hS
    | false =>
      simp only [Bool.false_eq_true, if_false]
      exact foldl_cleanStep_fixed os false init hS
  rw [hfold, hc] at hC
  have hpost : postClean os 0 (c :: (tl ++ [Separator os])) (renderElems os rooted init) =
      renderElems os rooted init := by
    unfold postClean
    rw [if_neg]
    rintro ⟨-, -, h⟩
    apply h
    rw [hr]
    exact List.isPrefixOf_iff_prefix.mpr ⟨[Separator os], rfl⟩
  rw [hpost, FromSlash_render os rooted init (fun a ha => (hE a ha).2)] at hC
  rw [hC]
  cases os <;> rfl

/-- `Dir` of a cleaned path with more than one element after the volume name,
or with one element after the root: the path without its last element. -/
theorem Dir_form (os : GOOS) (V : GoString) (rooted : Bool) (init : List GoString)
    (l : GoString) (hne : init ≠ []) (hS : CleanShape os rooted (init ++ [l]))
    (hvolF : volumeNameLen os (V ++ renderElems os rooted (init ++ [l])) = V.length)
    (hV : FromSlash os V = V)
    (hv0 : volumeNameLen os (renderElems os rooted init ++ [Separator os]) = 0) :
    Dir os (V ++ renderElems os rooted (init ++ [l])) = V ++ renderElems os rooted init := by
  have hE := CleanShape_elem os rooted _ hS
  have hSi := CleanShape_init os rooted init l hS
  have hl : ∀ x ∈ l, IsPathSeparator os x = false := (hE l (by simp)).2
  have hrender := renderElems_append_last os rooted init l hne (fun a ha => (hE a ha).1)
  have hvolname : VolumeName os (V ++ renderElems os rooted (init ++ [l])) = V := by
    unfold VolumeName
    rw [hvolF, List.take_left, hV]
  unfold Dir
  simp only [hvolname, hvolF, List.drop_left]
  rw [hrender, dropWhile_reverse_last (IsPathSeparator os) _ (Separator os) l
    (IsPathSeparator_Separator os) hl, Clean_trailing_shape os rooted init hne hSi hv0,
    if_neg (fun h => renderElems_ne_dot os rooted init hne hSi h.1)]

theorem FromSlash_length (os : GOOS) (s : GoString) : (FromSlash os s).length = s.length := by
  cases os <;> simp [FromSlash]

/-- The text of elements kept by `Clean` whose first element has neither colon
nor question mark has no volume name, whatever follows it but a colon. -/
theorem volumeNameLen_render_first (os : GOOS) (rooted : Bool) (S : List GoString)
    (hne : S ≠ []) (hS : CleanShape os rooted S)
    (hfirst : os = .windows → ∀ d, S.head? = some d → ':' ∉ d ∧ '?' ∉ d)
    (Z : GoString) (hZ : Z.head? ≠ some ':') :
    volumeNameLen os (renderElems os rooted S ++ Z) = 0 := by
  cases os with
  | unix => rfl
  | windows =>
    have hE := CleanShape_elem .windows rooted S hS
    obtain ⟨d, ds, rfl⟩ := List.exists_cons_of_ne_nil hne
    obtain ⟨hcol, hq⟩ := hfirst rfl d rfl
    obtain ⟨hdne, hdfree⟩ := hE d (List.mem_cons_self _ _)
    obtain ⟨x, xs, hx⟩ := List.exists_cons_of_ne_nil hdne
    have hxd : x ∈ d := by rw [hx]; exact List.mem_cons_self _ _
    cases rooted with
    | true =>
      obtain ⟨ys, hys⟩ := intercalate_head (Separator .windows) d ds x xs hx
      rw [renderElems_rooted, hys]
      exact volumeNameLen_rooted_plain .windows _ x _ (IsPathSeparator_Separator _)
        (hdfree x hxd) (fun e => hcol (e ▸ hxd)) (fun e => hq (e ▸ hxd))
    | false =>
      rw [renderElems_relative .windows _ (by simp) (fun a ha => (hE a ha).1)]
      have hgoal : ∀ W : GoString, W.head? ≠ some ':' →
          volumeNameLen .windows (d ++ W) = 0 := by
        intro W hW
        rw [hx, List.cons_append]
        apply volumeNameLen_of_plain .windows x _ (hdfree x hxd)
        cases xs with
        | nil => exact hW
        | cons y ys =>
          intro h
          have hy : y = ':' := by simpa using h
          apply hcol
          rw [hx, ← hy]
          simp
      cases ds with
      | nil =>
        rw [intercalate_singleton]
        exact hgoal Z hZ
      | cons d2 ds =>
        rw [intercalate_cons_cons, List.append_assoc]
        apply hgoal
        simp only [List.cons_append, List.head?_cons, ne_eq, Option.some.injEq]
        decide

/-- The characters of the elements that `Clean` keeps are characters of the
text. -/
theorem mem_kept_elems (os : GOOS) (rooted : Bool) (R : GoString) (a : GoString)
    (ha : a ∈ (splitElems os R).foldl (cleanStep rooted) []) : ∀ x ∈ a, x ∈ R := by
  rcases foldl_cleanStep_subset rooted _ [] a ha with h | h
  · simp at h
  · exact mem_of_mem_splitBy _ _ a h

/-- `Clean` on a directory that goes on after its volume name and has a volume
name or neither colon nor question mark: the volume name and the elements. -/
theorem Clean_dest_form (os : GOOS) (dest : GoString) (c : Char) (tl : GoString)
    (hR : dest.drop (volumeNameLen os dest) = c :: tl)
    (hpc : os = .windows → volumeNameLen os dest ≠ 0 ∨ (':' ∉ c :: tl ∧ '?' ∉ c :: tl)) :
    Clean os dest = FromSlash os (dest.take (volumeNameLen os dest)) ++
      renderElems os (IsPathSeparator os c)
        ((splitElems os (c :: tl)).foldl (cleanStep (IsPathSeparator os c)) []) := by
  obtain ⟨hC, hS⟩ := Clean_form os dest c tl hR
  have hE := CleanShape_elem os _ _ hS
  have hpost : postClean os (volumeNameLen os dest) (c :: tl)
      (renderElems os (IsPathSeparator os c)
        ((splitElems os (c :: tl)).foldl (cleanStep (IsPathSeparator os c)) [])) =
      renderElems os (IsPathSeparator os c)
        ((splitElems os (c :: tl)).foldl (cleanStep (IsPathSeparator os c)) []) := by
    cases os with
    | unix => exact postClean_of_volume _ _ _ _ (fun h => by cases h)
    | windows =>
      rcases hpc rfl with h | ⟨h1, h2⟩
      · exact postClean_of_volume _ _ _ _ (fun _ => h)
      · apply postClean_of_plain
        · intro hm
          rcases mem_renderElems _ _ _ _ hm with h3 | h3 | ⟨s, hs, hxs⟩
          · revert h3; decide
          · revert h3; decide
          · exact h1 (mem_kept_elems _ _ _ s hs _ hxs)
        · intro hm
          rcases mem_renderElems _ _ _ _ hm with h3 | h3 | ⟨s, hs, hxs⟩
          · revert h3; decide
          · revert h3; decide
          · exact h2 (mem_kept_elems _ _ _ s hs _ hxs)
  rw [hC, hpost, FromSlash_render os _ _ (fun a ha => (hE a ha).2)]

/-- A joined path that passes the check of `unzipFile`, for a destination that
goes on after its volume name, has neither colon nor question mark there, is
not a lone separator, keeps its volume name when text is added and (on Windows,
without volume name) is not cleaned to `.`: the volume name and the elements of
the cleaned destination, with more elements after them. -/
theorem Join_legal_form (os : GOOS) (dest : GoString) (c : Char) (tl : GoString)
    (hR : dest.drop (volumeNameLen os dest) = c :: tl)
    (hsane : os = .windows → ':' ∉ c :: tl ∧ '?' ∉ c :: tl)
    (hlone : os = .windows → 2 ≤ dest.length ∨ IsPathSeparator os c = false)
    (hstab : ∀ X, (2 ≤ dest.length ∨ ∃ s X', X = s :: X' ∧ IsPathSeparator os s = true) →
      volumeNameLen os (dest ++ X) = volumeNameLen os dest)
    (hdot : os = .windows → volumeNameLen os dest = 0 → Clean os dest ≠ ['.'])
    (name : GoString)
    (hlegal : HasPrefix (Join os [dest, name]) (Clean os dest ++ [Separator os]) = true) :
    ∃ E, (E = splitElems os name ∨
        (os = .windows ∧ E = splitElems os (name.dropWhile (IsPathSeparator os)))) ∧
      (splitElems os (c :: tl)).foldl (cleanStep (IsPathSeparator os c)) [] ≠ [] ∧
      (∃ e more, E.foldl (cleanStep (IsPathSeparator os c))
          ((splitElems os (c :: tl)).foldl (cleanStep (IsPathSeparator os c)) []) =
        (splitElems os (c :: tl)).foldl (cleanStep (IsPathSeparator os c)) [] ++ e :: more) ∧
      CleanShape os (IsPathSeparator os c) (E.foldl (cleanStep (IsPathSeparator os c))
          ((splitElems os (c :: tl)).foldl (cleanStep (IsPathSeparator os c)) [])) ∧
      Join os [dest, name] = FromSlash os (dest.take (volumeNameLen os dest)) ++
        renderElems os (IsPathSeparator os c) (E.foldl (cleanStep (IsPathSeparator os c))
          ((splitElems os (c :: tl)).foldl (cleanStep (IsPathSeparator os c)) [])) := by
  have hglue : os = .windows → dest.getLast? ≠ some ':' := by
    intro hw hl
    have hsuf : (c :: tl) <:+ dest := by rw [← hR]; exact List.drop_suffix _ _
    obtain ⟨pre, hpre⟩ := hsuf
    have h2 : (c :: tl).getLast? = some ':' := by
      rw [← hpre, List.getLast?_append_of_ne_nil _ (by simp)] at hl
      exact hl
    exact (hsane hw).1 (List.mem_of_getLast?_eq_some h2)
  have hSd := (Clean_form os dest c tl hR).2
  have hD := Clean_dest_form os dest c tl hR (fun hw => Or.inr (hsane hw))
  obtain ⟨E, P, hE, hJ⟩ := Join_form os dest c tl hR hglue hlone hstab name
  have hEfree : ∀ e ∈ E, ∀ x ∈ e, IsPathSeparator os x = false := by
    intro e he
    rcases hE with h | ⟨-, h⟩
    · rw [h] at he; exact mem_splitBy_free _ _ e he
    · rw [h] at he; exact mem_splitBy_free _ _ e he
  have hS2 := foldl_cleanStep_shape os (IsPathSeparator os c) E _ hEfree hSd
  generalize hSdef : (splitElems os (c :: tl)).foldl (cleanStep (IsPathSeparator os c)) [] = Sd
    at hSd hD hJ hS2 ⊢
  generalize hVdef : FromSlash os (dest.take (volumeNameLen os dest)) = V at hD hJ ⊢
  have hdot2 : os = .windows → volumeNameLen os dest = 0 → IsPathSeparator os c = false →
      Sd ≠ [] := by
    intro hw hv0 hr hnil
    apply hdot hw hv0
    rw [hD, ← hVdef, hv0, hnil, hr, List.take_zero, renderElems_nil]
    cases os <;> rfl
  have hpre : (renderElems os (IsPathSeparator os c) Sd ++ [Separator os]) <+:
      FromSlash os (postClean os (volumeNameLen os dest) P
        (renderElems os (IsPathSeparator os c) (E.foldl (cleanStep (IsPathSeparator os c)) Sd))) := by
    have h1 := List.isPrefixOf_iff_prefix.mp hlegal
    rw [hJ, hD, List.append_assoc] at h1
    exact (List.prefix_append_right_inj _).mp h1
  obtain ⟨hpost, hSdne, hmore⟩ := legal_shape os _ Sd _ _ P hSd hS2 hdot2 hpre
  refine ⟨E, hE, hSdne, hmore, hS2, ?_⟩
  rw [hJ, hpost, FromSlash_render os _ _ (fun a ha => (CleanShape_elem os _ _ hS2 a ha).2)]

/-- Under such a destination whose volume name, if it has one, is still the
volume name of the cleaned paths: the parent directory of a path that passes the
check of `unzipFile` is a start of that path. -/
theorem Dir_Join_start_form (os : GOOS) (dest : GoString) (c : Char) (tl : GoString)
    (hR : dest.drop (volumeNameLen os dest) = c :: tl)
    (hsane : os = .windows → ':' ∉ c :: tl ∧ '?' ∉ c :: tl)
    (hlone : os = .windows → 2 ≤ dest.length ∨ IsPathSeparator os c = false)
    (hstab : ∀ X, (2 ≤ dest.length ∨ ∃ s X', X = s :: X' ∧ IsPathSeparator os s = true) →
      volumeNameLen os (dest ++ X) = volumeNameLen os dest)
    (hdot : os = .windows → volumeNameLen os dest = 0 → Clean os dest ≠ ['.'])
    (hVvol : volumeNameLen os dest ≠ 0 → ∀ T, T ≠ [] →
      (IsPathSeparator os c = true → ∃ s T', T = s :: T' ∧ IsPathSeparator os s = true) →
      volumeNameLen os (FromSlash os (dest.take (volumeNameLen os dest)) ++ T) =
        volumeNameLen os dest)
    (name : GoString)
    (hlegal : HasPrefix (Join os [dest, name]) (Clean os dest ++ [Separator os]) = true) :
    Dir os (Join os [dest, name]) <+: Join os [dest, name] := by
  obtain ⟨E, -, hSdne, ⟨e, more, hmore⟩, hS2, hJ⟩ :=
    Join_legal_form os dest c tl hR hsane hlone hstab hdot name hlegal
  have hvlt : volumeNameLen os dest < dest.length := by
    by_contra hge
    rw [List.drop_eq_nil_of_le (by omega)] at hR
    cases hR
  have hVlen : (FromSlash os (dest.take (volumeNameLen os dest))).length =
      volumeNameLen os dest := by
    rw [FromSlash_length, List.length_take]
    omega
  -- the first element is one of the destination
  have hfirstSd : os = .windows → ∀ d,
      ((splitElems os (c :: tl)).foldl (cleanStep (IsPathSeparator os c)) []).head? = some d →
      ':' ∉ d ∧ '?' ∉ d := by
    intro hw d hd
    have hmem := List.mem_of_mem_head? hd
    exact ⟨fun h => (hsane hw).1 (mem_kept_elems _ _ _ d hmem _ h),
      fun h => (hsane hw).2 (mem_kept_elems _ _ _ d hmem _ h)⟩
  generalize hSdef : (splitElems os (c :: tl)).foldl (cleanStep (IsPathSeparator os c)) [] = Sd
    at hSdne hmore hS2 hJ hfirstSd
  generalize hVdef : FromSlash os (dest.take (volumeNameLen os dest)) = V at hJ hVlen hVvol
  have hV : FromSlash os V = V := by rw [← hVdef]; exact FromSlash_idem os _
  rw [hmore] at hS2 hJ
  -- the last element apart
  obtain ⟨init, l, hil⟩ : ∃ init l, Sd ++ e :: more = init ++ [l] :=
    ⟨(Sd ++ e :: more).dropLast, (Sd ++ e :: more).getLast (by simp),
      (List.dropLast_append_getLast (by simp)).symm⟩
  have hinit : ∃ tail, init = Sd ++ tail := by
    rcases List.eq_nil_or_concat more with h | ⟨m1, m, h⟩
    · refine ⟨[], ?_⟩
      rw [h] at hil
      have : Sd ++ [e] = init ++ [l] := hil
      rw [(List.append_inj' this rfl).1, List.append_nil]
    · refine ⟨e :: m1, ?_⟩
      have h2 : more = m1 ++ [m] := by rw [h]; simp
      rw [h2] at hil
      have : (Sd ++ e :: m1) ++ [m] = init ++ [l] := by rw [← hil]; simp
      exact ((List.append_inj' this rfl).1).symm
  obtain ⟨tail, htail⟩ := hinit
  have hinitne : init ≠ [] := by
    rw [htail]
    intro h
    exact hSdne (List.append_eq_nil.mp h).1
  have hhead : ∀ T : List GoString, (Sd ++ T).head? = Sd.head? := by
    intro T
    obtain ⟨d, ds, hd⟩ := List.exists_cons_of_ne_nil hSdne
    rw [hd]
    rfl
  rw [hil] at hS2 hJ
  have hSi := CleanShape_init os _ init l hS2
  have hv0 : volumeNameLen os (renderElems os (IsPathSeparator os c) init ++ [Separator os]) =
      0 := by
    apply volumeNameLen_render_first os _ init hinitne hSi
    · intro hw d hd
      rw [htail, hhead] at hd
      exact hfirstSd hw d hd
    · intro h
      have : Separator os = ':' := by simpa using h
      exact Separator_ne_colon os this
  have hvolF : volumeNameLen os (V ++ renderElems os (IsPathSeparator os c) (init ++ [l])) =
      V.length := by
    by_cases hv : volumeNameLen os dest = 0
    · have hV0 : V = [] := List.length_eq_zero.mp (by rw [hVlen, hv])
      rw [hV0, List.nil_append, List.length_nil]
      have := volumeNameLen_render_first os _ (init ++ [l]) (by simp) hS2
        (fun hw d hd => by
          have h1 : (init ++ [l]).head? = Sd.head? := by
            rw [htail, List.append_assoc, hhead]
          rw [h1] at hd
          exact hfirstSd hw d hd) [] (by simp)
      rw [List.append_nil] at this
      exact this
    · rw [hVlen]
      apply hVvol hv
      · obtain ⟨c1, tl1, h1, -, -⟩ := renderElems_cases os _ (init ++ [l]) (by simp)
          (CleanShape_elem os _ _ hS2)
        rw [h1]
        simp
      · intro hc
        obtain ⟨c1, tl1, h1, h2, -⟩ := renderElems_cases os _ (init ++ [l]) (by simp)
          (CleanShape_elem os _ _ hS2)
        exact ⟨c1, tl1, h1, by rw [h2, hc]⟩
  rw [hJ, Dir_form os V _ init l hinitne hS2 hvolF hV hv0,
    renderElems_append_last os _ init l hinitne (fun a ha => (CleanShape_elem os _ _ hS2 a ha).1),
    ← List.append_assoc]
  exact List.prefix_append _ _

/-- Under such a destination whose cleaned form does not end in the element
`..`, the entry `../evil.txt` fails the check of `unzipFile`. -/
theorem evil_rejected_form (os : GOOS) (dest : GoString) (c : Char) (tl : GoString)
    (hR : dest.drop (volumeNameLen os dest) = c :: tl)
    (hsane : os = .windows → ':' ∉ c :: tl ∧ '?' ∉ c :: tl)
    (hlone : os = .windows → 2 ≤ dest.length ∨ IsPathSeparator os c = false)
    (hstab : ∀ X, (2 ≤ dest.length ∨ ∃ s X', X = s :: X' ∧ IsPathSeparator os s = true) →
      volumeNameLen os (dest ++ X) = volumeNameLen os dest)
    (hdot : os = .windows → volumeNameLen os dest = 0 → Clean os dest ≠ ['.'])
    (hlast : ((splitElems os (c :: tl)).foldl (cleanStep (IsPathSeparator os c)) []).getLast? ≠
      some ['.', '.']) :
    HasPrefix (Join os [dest, "../evil.txt".toList]) (Clean os dest ++ [Separator os]) =
      false := by
  by_contra hne
  have hlegal : HasPrefix (Join os [dest, "../evil.txt".toList])
      (Clean os dest ++ [Separator os]) = true := by
    cases h : HasPrefix (Join os [dest, "../evil.txt".toList]) (Clean os dest ++ [Separator os])
    · exact absurd h hne
    · rfl
  obtain ⟨E, hE, hSdne, ⟨e, more, hmore⟩, -, -⟩ :=
    Join_legal_form os dest c tl hR hsane hlone hstab hdot _ hlegal
  have hE2 : E = ["..".toList, "evil.txt".toList] := by
    have hdw : ("../evil.txt".toList).dropWhile (IsPathSeparator os) = "../evil.txt".toList := by
      cases os <;> rfl
    rcases hE with h | ⟨-, h⟩
    · rw [h]; exact evil_split os
    · rw [h, hdw]; exact evil_split os
  generalize (splitElems os (c :: tl)).foldl (cleanStep (IsPathSeparator os c)) [] = Sd
    at hSdne hmore hlast
  cases hl : Sd.getLast? with
  | none => exact hSdne (List.getLast?_eq_none_iff.mp hl)
  | some l =>
    have hlne : l ≠ ['.', '.'] := fun h => hlast (by rw [hl, h])
    rw [hE2] at hmore
    simp only [List.foldl_cons, List.foldl_nil] at hmore
    have h1 : cleanStep (IsPathSeparator os c) Sd "..".toList = Sd.dropLast :=
      cleanStep_dotdot_back _ Sd l hl hlne
    rw [h1, cleanStep_name os _ _ _ (evil_name os)] at hmore
    have hlen := congrArg List.length hmore
    have hpos : 0 < Sd.length := List.length_pos.mpr hSdne
    simp at hlen
    omega

/-- `Base` of a cleaned path whose last element is `..`. -/
theorem Base_dotdot (os : GOOS) (V : GoString) (S : List GoString)
    (hS : CleanShape os false S) (hlast : S.getLast? = some ['.', '.'])
    (hvol : volumeNameLen os (V ++ renderElems os false S) = V.length) :
    Base os (V ++ renderElems os false S) = ['.', '.'] := by
  obtain ⟨init, hinit⟩ := List.getLast?_eq_some_iff.mp hlast
  obtain ⟨B, hB, hBsep, -⟩ := render_last os false init
  have hr : renderElems os false S = B ++ ['.', '.'] := by
    rw [hinit]
    exact hB _ (by simp)
  have hrev : ((V ++ (B ++ ['.', '.'])).reverse.dropWhile (IsPathSeparator os)).reverse =
      V ++ (B ++ ['.', '.']) := by
    have : (V ++ (B ++ ['.', '.'])).reverse = '.' :: '.' :: (B.reverse ++ V.reverse) := by simp
    rw [this, List.dropWhile_cons, if_neg (by cases os <;> decide), ← this, List.reverse_reverse]
  rw [hr] at hvol
  unfold Base
  rw [hr, if_neg (by simp)]
  simp only [hrev, hvol, List.drop_left]
  have htw : ((B ++ ['.', '.']).reverse.takeWhile fun c => !(IsPathSeparator os c)).reverse =
      ['.', '.'] := by
    have hfree : ∀ x ∈ ['.', '.'], IsPathSeparator os x = false := by
      intro x hx
      have : x = '.' := by simpa using hx
      rw [this]
      cases os <;> rfl
    rcases hBsep with h | ⟨P, s, h, hs⟩
    · rw [h, List.nil_append]
      exact takeWhile_reverse_free (IsPathSeparator os) _ hfree
    · rw [h, List.append_assoc]
      exact takeWhile_reverse_last (IsPathSeparator os) P s _ hs hfree
  rw [htw, if_neg (by simp)]

/-! ## The volume name of a Windows path: what it depends on -/

theorem toUpper_separator (x : Char) (h : IsPathSeparator .windows (toUpper x) = true) :
    IsPathSeparator .windows x = true := by
  by_cases hz : 'a' ≤ x ∧ x ≤ 'z'
  · exfalso
    have h1 : 97 ≤ x.toNat := hz.1
    have h2 : x.toNat ≤ 122 := hz.2
    revert h
    rw [← Char.ofNat_toNat x]
    generalize x.toNat = n at h1 h2
    interval_cases n <;> decide
  · simpa [toUpper, hz] using h

theorem toUpper_of_separator (s : Char) (h : IsPathSeparator .windows s = true) :
    toUpper s = s := by
  have : s = '\\' ∨ s = '/' := by simpa [IsPathSeparator] using h
  rcases this with h | h <;> subst h <;> decide

/-- No character that is not a separator is a separator in upper case. -/
theorem toUpper_ne_separator (p s : Char) (hp : IsPathSeparator .windows p = false)
    (hs : IsPathSeparator .windows s = true) : toUpper p ≠ toUpper s := by
  intro h
  rw [toUpper_of_separator s hs] at h
  have := toUpper_separator p (by rw [h]; exact hs)
  rw [hp] at this
  cases this

/-- What `pathHasPrefixFold` answers for a text does not depend on what follows
a separator of the text from which on the prefix has no separator. -/
theorem pathHasPrefixFold_stable (s c : Char) (X Y : GoString)
    (hs : IsPathSeparator .windows s = true) (hc : IsPathSeparator .windows c = true) :
    ∀ (P pre : GoString), (∀ x ∈ pre.drop P.length, IsPathSeparator .windows x = false) →
      pathHasPrefixFold .windows (P ++ s :: X) pre = pathHasPrefixFold .windows (P ++ c :: Y) pre
  | [], [], _ => by simp [pathHasPrefixFold, hs, hc]
  | [], p0 :: pre, h => by
    have hp0 : IsPathSeparator .windows p0 = false := h p0 (by simp)
    have h1 := toUpper_ne_separator p0 s hp0 hs
    have h2 := toUpper_ne_separator p0 c hp0 hc
    simp [pathHasPrefixFold, hp0, h1, h2]
  | a :: P, [], _ => by simp [pathHasPrefixFold]
  | a :: P, p0 :: pre, h => by
    have ih := pathHasPrefixFold_stable s c X Y hs hc P pre (by simpa using h)
    have e1 : pathHasPrefixFold .windows ((a :: P) ++ s :: X) (p0 :: pre) =
        ((if IsPathSeparator .windows p0 then IsPathSeparator .windows a
          else toUpper p0 = toUpper a) && pathHasPrefixFold .windows (P ++ s :: X) pre) := rfl
    have e2 : pathHasPrefixFold .windows ((a :: P) ++ c :: Y) (p0 :: pre) =
        ((if IsPathSeparator .windows p0 then IsPathSeparator .windows a
          else toUpper p0 = toUpper a) && pathHasPrefixFold .windows (P ++ c :: Y) pre) := rfl
    rw [e1, e2, ih]

/-- The loop of `uncLen` that stops before the end of the text has met its
second separator, and what follows that separator does not matter to it. -/
theorem uncLenFrom_stop (os : GOOS) : ∀ (cs : GoString) (i k : Nat),
    uncLenFrom os cs i k < i + cs.length →
    ∃ A c R, cs = A ++ c :: R ∧ uncLenFrom os cs i k = i + A.length ∧
      IsPathSeparator os c = true ∧ (k = 0 → A ≠ []) ∧
      ∀ s R', IsPathSeparator os s = true → uncLenFrom os (A ++ s :: R') i k = i + A.length
  | [], i, k, h => by simp [uncLenFrom] at h
  | c0 :: cs, i, k, h => by
    by_cases hc0 : IsPathSeparator os c0 = true
    · by_cases hk : k + 1 = 2
      · refine ⟨[], c0, cs, rfl, by simp [uncLenFrom, hc0, hk], hc0, fun h0 => by omega,
          fun s R' hs => by simp [uncLenFrom, hs, hk]⟩
      · have hstep : ∀ t, uncLenFrom os (c0 :: t) i k = uncLenFrom os t (i + 1) (k + 1) := by
          intro t
          rw [uncLenFrom, if_pos hc0, if_neg hk]
        rw [hstep] at h
        obtain ⟨A, c, R, hcs, hv, hc, -, hst⟩ := uncLenFrom_stop os cs (i + 1) (k + 1)
          (by simp only [List.length_cons] at h; omega)
        refine ⟨c0 :: A, c, R, by rw [hcs]; rfl, ?_, hc, fun _ => by simp, fun s R' hs => ?_⟩
        · rw [hstep, hv]
          simp only [List.length_cons]
          omega
        · rw [List.cons_append, hstep, hst s R' hs]
          simp only [List.length_cons]
          omega
    · have hstep : ∀ t, uncLenFrom os (c0 :: t) i k = uncLenFrom os t (i + 1) k := by
        intro t
        rw [uncLenFrom, if_neg hc0]
      rw [hstep] at h
      obtain ⟨A, c, R, hcs, hv, hc, -, hst⟩ := uncLenFrom_stop os cs (i + 1) k
        (by simp only [List.length_cons] at h; omega)
      refine ⟨c0 :: A, c, R, by rw [hcs]; rfl, ?_, hc, fun _ => by simp, fun s R' hs => ?_⟩
      · rw [hstep, hv]
        simp only [List.length_cons]
        omega
      · rw [List.cons_append, hstep, hst s R' hs]
        simp only [List.length_cons]
        omega

/-- `uncLen` that stops before the end of the path: the path up to there, a
separator, and a rest that does not matter. -/
theorem uncLen_stop (os : GOOS) (p : GoString) (n : Nat) (h : uncLen os p n < p.length) :
    ∃ V c R, p = V ++ c :: R ∧ V.length = uncLen os p n ∧ n < V.length ∧
      IsPathSeparator os c = true ∧
      ∀ s T, IsPathSeparator os s = true → uncLen os (V ++ s :: T) n = uncLen os p n := by
  have hn : n ≤ p.length := by
    by_contra hgt
    unfold uncLen at h
    rw [if_neg hgt] at h
    exact absurd h (lt_irrefl _)
  have hval : uncLen os p n = uncLenFrom os (p.drop n) n 0 := by
    unfold uncLen
    rw [if_pos hn]
  rw [hval] at h
  obtain ⟨A, c, R, hcs, hv, hc, hA, hst⟩ := uncLenFrom_stop os (p.drop n) n 0
    (by rw [List.length_drop]; omega)
  have hAne := hA rfl
  have hAlen : 0 < A.length := List.length_pos.mpr hAne
  have htake : (p.take n).length = n := by rw [List.length_take]; omega
  refine ⟨p.take n ++ A, c, R, ?_, ?_, ?_, hc, fun s T hs => ?_⟩
  · rw [List.append_assoc, ← hcs, List.take_append_drop]
  · rw [hval, hv, List.length_append, htake]
  · rw [List.length_append, htake]
    omega
  · have hd : ((p.take n ++ A) ++ s :: T).drop n = A ++ s :: T := by
      rw [List.append_assoc]
      have := List.drop_left (p.take n) (A ++ s :: T)
      rw [htake] at this
      exact this
    unfold uncLen
    rw [if_pos (by simp only [List.length_append, htake]; omega), hd, hst s T hs, if_pos hn,
      hv]

/-- `volumeNameLen` on a Windows path that starts with a separator and has no
drive letter. -/
theorem volumeNameLen_rooted_eq (p : GoString) (hcol : p.get? 1 ≠ some ':')
    (hhead : IsPathSeparator .windows (p.headD 'x') = true) :
    volumeNameLen .windows p =
      if pathHasPrefixFold .windows p "\\\\.\\UNC".toList then uncLen .windows p 8
      else if pathHasPrefixFold .windows p "\\\\.".toList ∨
          pathHasPrefixFold .windows p "\\\\?".toList ∨
          pathHasPrefixFold .windows p "\\??".toList then
        if p.length = 3 then 3
        else
          if (p.drop 4).any (IsPathSeparator .windows) then
            4 + ((p.drop 4).takeWhile fun c => !(IsPathSeparator .windows c)).length
          else p.length
      else if p.length ≥ 2 ∧ IsPathSeparator .windows (p.getD 1 'x') then uncLen .windows p 2
      else 0 := by
  have hne : p.length ≠ 0 := by
    intro h
    rw [List.length_eq_zero.mp h] at hhead
    exact absurd hhead (by decide)
  unfold volumeNameLen
  simp only []
  rw [if_neg (fun h => hcol h.2), if_neg (by rw [hhead]; simp [hne])]

/-- A Windows path that has a volume name, when it does not start with a
separator, has a drive letter. -/
theorem volumeNameLen_head (p : GoString) (hcol : p.get? 1 ≠ some ':')
    (h0 : volumeNameLen .windows p ≠ 0) : IsPathSeparator .windows (p.headD 'x') = true := by
  cases hh : IsPathSeparator .windows (p.headD 'x')
  · exfalso
    apply h0
    unfold volumeNameLen
    simp only []
    rw [if_neg (fun h => hcol h.2), if_pos (Or.inr (by rw [hh]; rfl))]
  · rfl

theorem pathHasPrefixFold_UNC (q : GoString)
    (h : pathHasPrefixFold .windows q "\\\\.\\UNC".toList = true) :
    pathHasPrefixFold .windows q "\\\\.".toList = true := by
  match q, h with
  | [], h => simp [pathHasPrefixFold] at h
  | [_], h => simp [pathHasPrefixFold] at h
  | [_, _], h => simp [pathHasPrefixFold] at h
  | [_, _, _], h => simp [pathHasPrefixFold] at h
  | q0 :: q1 :: q2 :: q3 :: r, h =>
    have e1 : pathHasPrefixFold .windows (q0 :: q1 :: q2 :: q3 :: r) "\\\\.\\UNC".toList =
        (IsPathSeparator .windows q0 && (IsPathSeparator .windows q1 &&
          (decide (toUpper '.' = toUpper q2) && (IsPathSeparator .windows q3 &&
            pathHasPrefixFold .windows r "UNC".toList)))) := rfl
    have e2 : pathHasPrefixFold .windows (q0 :: q1 :: q2 :: q3 :: r) "\\\\.".toList =
        (IsPathSeparator .windows q0 && (IsPathSeparator .windows q1 &&
          (decide (toUpper '.' = toUpper q2) && IsPathSeparator .windows q3))) := rfl
    rw [e1] at h
    rw [e2]
    simp only [Bool.and_eq_true] at h ⊢
    exact ⟨h.1, h.2.1, h.2.2.1, h.2.2.2.1⟩

/-- The volume name of a Windows path that is no drive letter and after which
the path goes on: a separator follows it, and it is the volume name of every
path that starts with it and a separator. -/
theorem volumeNameLen_stable (p : GoString) (hcol : p.get? 1 ≠ some ':')
    (h0 : volumeNameLen .windows p ≠ 0) (hlt : volumeNameLen .windows p < p.length) :
    ∃ V c tl, p = V ++ c :: tl ∧ V.length = volumeNameLen .windows p ∧
      IsPathSeparator .windows c = true ∧
      ∀ s T, IsPathSeparator .windows s = true →
        volumeNameLen .windows (V ++ s :: T) = volumeNameLen .windows p := by
  have hhead := volumeNameLen_head p hcol h0
  have hp := volumeNameLen_rooted_eq p hcol hhead
  -- what is to be shown of a path `V ‖ s ‖ T` once `V` has three characters
  have hq : ∀ V c tl, p = V ++ c :: tl → 3 ≤ V.length → ∀ s T,
      (V ++ s :: T).get? 1 ≠ some ':' ∧
        IsPathSeparator .windows ((V ++ s :: T).headD 'x') = true ∧
        (V ++ s :: T).getD 1 'x' = p.getD 1 'x' := by
    intro V c tl hV h3 s T
    match V, h3 with
    | v0 :: v1 :: v2 :: V', _ =>
      rw [hV] at hcol hhead
      rw [hV]
      exact ⟨hcol, hhead, rfl⟩
  have hshort : ∀ pre : GoString, pre.length = 3 → ∀ V c tl, p = V ++ c :: tl → 3 ≤ V.length →
      IsPathSeparator .windows c = true → ∀ s T, IsPathSeparator .windows s = true →
      pathHasPrefixFold .windows (V ++ s :: T) pre = pathHasPrefixFold .windows p pre := by
    intro pre hpre V c tl hV h3 hc s T hs
    rw [hV]
    apply pathHasPrefixFold_stable s c T tl hs hc
    rw [List.drop_eq_nil_of_le (by omega)]
    simp
  by_cases hB1 : pathHasPrefixFold .windows p "\\\\.\\UNC".toList = true
  · rw [if_pos hB1] at hp
    rw [hp] at hlt
    obtain ⟨V, c, R, hV, hVlen, hn, hc, hst⟩ := uncLen_stop .windows p 8 hlt
    refine ⟨V, c, R, hV, by rw [hp]; exact hVlen, hc, fun s T hs => ?_⟩
    obtain ⟨hq1, hq2, -⟩ := hq V c R hV (by omega) s T
    have hB1q : pathHasPrefixFold .windows (V ++ s :: T) "\\\\.\\UNC".toList = true := by
      rw [← hB1, hV]
      apply pathHasPrefixFold_stable s c T R hs hc
      rw [List.drop_eq_nil_of_le (by
        have : ("\\\\.\\UNC".toList).length = 7 := rfl
        omega)]
      simp
    rw [volumeNameLen_rooted_eq _ hq1 hq2, if_pos hB1q, hst s T hs, hp]
  · rw [if_neg hB1] at hp
    by_cases hB2 : pathHasPrefixFold .windows p "\\\\.".toList ∨
        pathHasPrefixFold .windows p "\\\\?".toList ∨
        pathHasPrefixFold .windows p "\\??".toList
    · rw [if_pos hB2] at hp
      by_cases h3 : p.length = 3
      · rw [if_pos h3] at hp
        omega
      · rw [if_neg h3] at hp
        by_cases hany : (p.drop 4).any (IsPathSeparator .windows) = true
        · rw [if_pos hany] at hp
          obtain ⟨a, c, R, hd, hc, ha⟩ := first_separator (IsPathSeparator .windows) (p.drop 4)
            (by simpa using hany)
          have htw := takeWhile_free (IsPathSeparator .windows) c hc R a ha
          rw [hd, htw] at hp
          have h4 : 4 ≤ p.length := by
            by_contra hlt4
            rw [List.drop_eq_nil_of_le (by omega)] at hd
            simp at hd
          have htake : (p.take 4).length = 4 := by rw [List.length_take]; omega
          have hV : p = (p.take 4 ++ a) ++ c :: R := by
            rw [List.append_assoc, ← hd, List.take_append_drop]
          have hVlen : (p.take 4 ++ a).length = 4 + a.length := by
            rw [List.length_append, htake]
          refine ⟨p.take 4 ++ a, c, R, hV, by rw [hp]; exact hVlen, hc, fun s T hs => ?_⟩
          obtain ⟨hq1, hq2, -⟩ := hq _ c R hV (by omega) s T
          have hB1q : ¬ pathHasPrefixFold .windows ((p.take 4 ++ a) ++ s :: T)
              "\\\\.\\UNC".toList = true := by
            have : pathHasPrefixFold .windows ((p.take 4 ++ a) ++ s :: T) "\\\\.\\UNC".toList =
                pathHasPrefixFold .windows p "\\\\.\\UNC".toList := by
              nth_rewrite 2 [hV]
              apply pathHasPrefixFold_stable s c T R hs hc
              intro x hx
              have hsub : x ∈ ("\\\\.\\UNC".toList).drop 4 := by
                have e : ("\\\\.\\UNC".toList).drop (p.take 4 ++ a).length =
                    (("\\\\.\\UNC".toList).drop 4).drop a.length := by
                  rw [List.drop_drop, hVlen, Nat.add_comm]
                rw [e] at hx
                exact List.mem_of_mem_drop hx
              have key : ∀ y ∈ ("\\\\.\\UNC".toList).drop 4,
                  IsPathSeparator .windows y = false := by decide
              exact key x hsub
            rw [this]
            exact hB1
          have hB2q : pathHasPrefixFold .windows ((p.take 4 ++ a) ++ s :: T) "\\\\.".toList ∨
              pathHasPrefixFold .windows ((p.take 4 ++ a) ++ s :: T) "\\\\?".toList ∨
              pathHasPrefixFold .windows ((p.take 4 ++ a) ++ s :: T) "\\??".toList := by
            rw [hshort "\\\\.".toList rfl _ c R hV (by omega) hc s T hs,
              hshort "\\\\?".toList rfl _ c R hV (by omega) hc s T hs,
              hshort "\\??".toList rfl _ c R hV (by omega) hc s T hs]
            exact hB2
          have hdq : ((p.take 4 ++ a) ++ s :: T).drop 4 = a ++ s :: T := by
            rw [List.append_assoc]
            have := List.drop_left (p.take 4) (a ++ s :: T)
            rw [htake] at this
            exact this
          have hanyq : (a ++ s :: T).any (IsPathSeparator .windows) = true := by
            rw [List.any_eq_true]
            exact ⟨s, by simp, hs⟩
          rw [volumeNameLen_rooted_eq _ hq1 hq2, if_neg hB1q, if_pos hB2q,
            if_neg (by simp only [List.length_append, List.length_cons, htake]; omega), hdq,
            if_pos hanyq, takeWhile_free (IsPathSeparator .windows) s hs T a ha, hp]
        · rw [if_neg hany] at hp
          omega
    · rw [if_neg hB2] at hp
      by_cases hunc : p.length ≥ 2 ∧ IsPathSeparator .windows (p.getD 1 'x') = true
      · rw [if_pos hunc] at hp
        rw [hp] at hlt
        obtain ⟨V, c, R, hV, hVlen, hn, hc, hst⟩ := uncLen_stop .windows p 2 hlt
        refine ⟨V, c, R, hV, by rw [hp]; exact hVlen, hc, fun s T hs => ?_⟩
        obtain ⟨hq1, hq2, hq3⟩ := hq V c R hV (by omega) s T
        have hB2q : ¬ (pathHasPrefixFold .windows (V ++ s :: T) "\\\\.".toList ∨
            pathHasPrefixFold .windows (V ++ s :: T) "\\\\?".toList ∨
            pathHasPrefixFold .windows (V ++ s :: T) "\\??".toList) := by
          rw [hshort "\\\\.".toList rfl _ c R hV (by omega) hc s T hs,
            hshort "\\\\?".toList rfl _ c R hV (by omega) hc s T hs,
            hshort "\\??".toList rfl _ c R hV (by omega) hc s T hs]
          exact hB2
        have hB1q : ¬ pathHasPrefixFold .windows (V ++ s :: T) "\\\\.\\UNC".toList = true :=
          fun h => hB2q (Or.inl (pathHasPrefixFold_UNC _ h))
        rw [volumeNameLen_rooted_eq _ hq1 hq2, if_neg hB1q, if_neg hB2q,
          if_pos ⟨by simp only [List.length_append, List.length_cons]; omega,
            by rw [hq3]; exact hunc.2⟩, hst s T hs, hp]
      · rw [if_neg hunc] at hp
        exact absurd hp h0

theorem IsPathSeparator_fromSlash (c : Char) :
    IsPathSeparator .windows (if c = '/' then '\\' else c) = IsPathSeparator .windows c := by
  by_cases h : c = '/'
  · rw [if_pos h, h]
    rfl
  · rw [if_neg h]

theorem FromSlash_cons (c : Char) (s : GoString) :
    FromSlash .windows (c :: s) = (if c = '/' then '\\' else c) :: FromSlash .windows s := rfl

theorem FromSlash_drop (os : GOOS) (n : Nat) (s : GoString) :
    (FromSlash os s).drop n = FromSlash os (s.drop n) := by
  cases os with
  | unix => rfl
  | windows => simp [FromSlash, List.map_drop]

theorem pathHasPrefixFold_FromSlash : ∀ (s pre : GoString),
    pathHasPrefixFold .windows (FromSlash .windows s) pre = pathHasPrefixFold .windows s pre
  | [], [] => rfl
  | [], _ :: _ => rfl
  | c :: s, [] => by
    rw [FromSlash_cons]
    simp only [pathHasPrefixFold]
    exact IsPathSeparator_fromSlash c
  | c :: s, p :: pre => by
    rw [FromSlash_cons]
    simp only [pathHasPrefixFold]
    rw [pathHasPrefixFold_FromSlash s pre, IsPathSeparator_fromSlash]
    by_cases hp : IsPathSeparator .windows p = true
    · rw [if_pos hp, if_pos hp]
    · rw [if_neg hp, if_neg hp]
      by_cases hc : c = '/'
      · rw [if_pos hc, hc]
        have hp' : IsPathSeparator .windows p = false := by simpa using hp
        have h1 := toUpper_ne_separator p '\\' hp' (by decide)
        have h2 := toUpper_ne_separator p '/' hp' (by decide)
        simp [h1, h2]
      · rw [if_neg hc]

theorem uncLenFrom_FromSlash : ∀ (cs : GoString) (i k : Nat),
    uncLenFrom .windows (FromSlash .windows cs) i k = uncLenFrom .windows cs i k
  | [], _, _ => rfl
  | c :: cs, i, k => by
    rw [FromSlash_cons]
    simp only [uncLenFrom]
    rw [IsPathSeparator_fromSlash, uncLenFrom_FromSlash cs (i + 1) (k + 1),
      uncLenFrom_FromSlash cs (i + 1) k]

theorem uncLen_FromSlash (p : GoString) (n : Nat) :
    uncLen .windows (FromSlash .windows p) n = uncLen .windows p n := by
  unfold uncLen
  rw [FromSlash_length, FromSlash_drop, uncLenFrom_FromSlash]

/-- The volume name of a Windows path does not depend on which separators are
written. -/
theorem volumeNameLen_FromSlash (p : GoString) :
    volumeNameLen .windows (FromSlash .windows p) = volumeNameLen .windows p := by
  have hlen := FromSlash_length .windows p
  have hget : ((FromSlash .windows p).get? 1 = some ':') = (p.get? 1 = some ':') := by
    match p with
    | [] => rfl
    | [_] => rfl
    | p0 :: p1 :: r =>
      rw [FromSlash_cons, FromSlash_cons]
      simp only [List.get?_cons_succ, List.get?_cons_zero, Option.some.injEq]
      by_cases h : p1 = '/'
      · rw [if_pos h, h]
        simp
      · rw [if_neg h]
  have hhead : IsPathSeparator .windows ((FromSlash .windows p).headD 'x') =
      IsPathSeparator .windows (p.headD 'x') := by
    match p with
    | [] => rfl
    | p0 :: r => exact IsPathSeparator_fromSlash p0
  have hd1 : IsPathSeparator .windows ((FromSlash .windows p).getD 1 'x') =
      IsPathSeparator .windows (p.getD 1 'x') := by
    match p with
    | [] => rfl
    | [_] => rfl
    | p0 :: p1 :: r => exact IsPathSeparator_fromSlash p1
  have hfun : ((fun c => !(IsPathSeparator .windows c)) ∘ fun c => if c = '/' then '\\' else c) =
      fun c => !(IsPathSeparator .windows c) := by
    funext c
    simp only [Function.comp, IsPathSeparator_fromSlash]
  have hfun2 : (IsPathSeparator .windows ∘ fun c => if c = '/' then '\\' else c) =
      IsPathSeparator .windows := by
    funext c
    simp only [Function.comp, IsPathSeparator_fromSlash]
  have hany : ((FromSlash .windows p).drop 4).any (IsPathSeparator .windows) =
      (p.drop 4).any (IsPathSeparator .windows) := by
    rw [FromSlash_drop]
    simp only [FromSlash, List.any_map, hfun2]
  have htw : (((FromSlash .windows p).drop 4).takeWhile
      fun c => !(IsPathSeparator .windows c)).length =
      ((p.drop 4).takeWhile fun c => !(IsPathSeparator .windows c)).length := by
    rw [FromSlash_drop]
    simp only [FromSlash, List.takeWhile_map, List.length_map, hfun]
  unfold volumeNameLen
  simp only [hlen, hget, hhead, hd1, uncLen_FromSlash, hany, htw, pathHasPrefixFold_FromSlash]

/-! ## The destinations that the proofs cover -/

theorem FromSlash_take (os : GOOS) (n : Nat) (s : GoString) :
    (FromSlash os s).take n = FromSlash os (s.take n) := by
  cases os with
  | unix => rfl
  | windows => simp [FromSlash, List.map_take]

/-- The destinations of the proofs: the paths that go on after their volume
name, are no lone separator and, when they have no volume name, have neither
colon nor question mark.  Such a path keeps its volume name when `Join` adds
text, and its volume name is that of the cleaned paths; after a volume name
that is no drive letter comes a separator. -/
theorem dest_facts (os : GOOS) (dest : GoString)
    (hgo : volumeNameLen os dest < dest.length)
    (hplain : os = .windows → volumeNameLen os dest = 0 → ':' ∉ dest ∧ '?' ∉ dest)
    (hlone : os = .windows → 2 ≤ dest.length ∨ IsPathSeparator os (dest.headD 'x') = false) :
    ∃ c tl, dest.drop (volumeNameLen os dest) = c :: tl ∧
      (os = .windows → 2 ≤ dest.length ∨ IsPathSeparator os c = false) ∧
      (∀ X, (2 ≤ dest.length ∨ ∃ s X', X = s :: X' ∧ IsPathSeparator os s = true) →
        volumeNameLen os (dest ++ X) = volumeNameLen os dest) ∧
      (volumeNameLen os dest ≠ 0 → ∀ T, T ≠ [] →
        (IsPathSeparator os c = true → ∃ s T', T = s :: T' ∧ IsPathSeparator os s = true) →
        volumeNameLen os (FromSlash os (dest.take (volumeNameLen os dest)) ++ T) =
          volumeNameLen os dest) ∧
      (volumeNameLen os dest ≠ 0 → dest.get? 1 ≠ some ':' → IsPathSeparator os c = true) := by
  have hne : dest ≠ [] := by
    intro h
    rw [h] at hgo
    simp at hgo
  cases os with
  | unix =>
    obtain ⟨c, tl, rfl⟩ := List.exists_cons_of_ne_nil hne
    exact ⟨c, tl, rfl, fun h => absurd h (by decide), fun _ _ => rfl, fun h => absurd rfl h,
      fun h => absurd rfl h⟩
  | windows =>
    by_cases hdrive : dest.get? 1 = some ':'
    · -- a drive letter
      have hv : volumeNameLen .windows dest = 2 := volumeNameLen_drive _ hdrive
      obtain ⟨a, b, c, tl, rfl⟩ : ∃ a b c tl, dest = a :: b :: c :: tl := by
        rw [hv] at hgo
        match dest, hgo with
        | a :: b :: c :: tl, _ => exact ⟨a, b, c, tl, rfl⟩
      have hb : b = ':' := by simpa using hdrive
      subst hb
      refine ⟨c, tl, by rw [hv]; rfl, fun _ => Or.inl (by simp), fun X _ => ?_, fun _ T _ _ => ?_,
        fun _ h => absurd rfl h⟩
      · rw [hv]
        exact volumeNameLen_drive _ rfl
      · rw [hv]
        exact volumeNameLen_drive _ rfl
    · by_cases hv0 : volumeNameLen .windows dest = 0
      · -- no volume name
        obtain ⟨hcol, hq⟩ := hplain rfl hv0
        obtain ⟨c, tl, rfl⟩ := List.exists_cons_of_ne_nil hne
        have hlone2 : 2 ≤ (c :: tl).length ∨ IsPathSeparator .windows c = false := hlone rfl
        refine ⟨c, tl, by rw [hv0]; rfl, fun _ => hlone2, fun X hX => ?_, fun h => absurd hv0 h,
          fun h => absurd hv0 h⟩
        rw [hv0]
        cases tl with
        | nil =>
          rcases hX with h | ⟨s, X', hXs, hs⟩
          · simp at h
          · rcases hlone2 with h | h
            · simp at h
            · rw [hXs]
              apply volumeNameLen_of_plain .windows c _ h
              intro e
              have : s = ':' := by simpa using e
              rw [this] at hs
              revert hs
              decide
        | cons c1 r =>
          have hc1col : c1 ≠ ':' := fun e => hcol (by rw [e]; simp)
          have hc1q : c1 ≠ '?' := fun e => hq (by rw [e]; simp)
          cases hc : IsPathSeparator .windows c
          · exact volumeNameLen_of_plain .windows c _ hc (by simpa using hc1col)
          · have hc1 : IsPathSeparator .windows c1 = false := by
              cases h1 : IsPathSeparator .windows c1
              · rfl
              · have := volumeNameLen_two_separators c c1 r hc h1
                omega
            exact volumeNameLen_rooted_plain .windows c c1 _ hc hc1 hc1col hc1q
      · -- a volume name that is no drive letter
        obtain ⟨V, c, tl, hV, hVlen, hc, hst⟩ := volumeNameLen_stable dest hdrive hv0 hgo
        have h2 : 2 ≤ dest.length := by omega
        have hdrop : dest.drop (volumeNameLen .windows dest) = c :: tl := by
          rw [← hVlen]
          nth_rewrite 1 [hV]
          exact List.drop_left _ _
        refine ⟨c, tl, hdrop, fun _ => Or.inl h2, fun X _ => ?_, fun _ T _ hT => ?_,
          fun _ _ => hc⟩
        · have : dest ++ X = V ++ c :: (tl ++ X) := by
            nth_rewrite 1 [hV]
            simp
          rw [this]
          exact hst c _ hc
        · obtain ⟨s, T', hTs, hs⟩ := hT hc
          have hvF := volumeNameLen_FromSlash dest
          have hcolF : (FromSlash .windows dest).get? 1 ≠ some ':' := by
            intro h
            apply hdrive
            have := volumeNameLen_drive _ h
            match dest, h with
            | p0 :: p1 :: r, h =>
              rw [FromSlash_cons, FromSlash_cons] at h
              simp only [List.get?_cons_succ, List.get?_cons_zero, Option.some.injEq] at h ⊢
              by_cases h1 : p1 = '/'
              · rw [if_pos h1] at h
                exact absurd h (by decide)
              · rw [if_neg h1] at h
                exact h
          obtain ⟨V2, c2, tl2, hV2, hV2len, -, hst2⟩ := volumeNameLen_stable
            (FromSlash .windows dest) hcolF (by rw [hvF]; exact hv0)
            (by rw [hvF, FromSlash_length]; exact hgo)
          have hV2eq : V2 = FromSlash .windows (dest.take (volumeNameLen .windows dest)) := by
            rw [← FromSlash_take, ← hvF, ← hV2len, hV2, List.take_left]
          rw [← hV2eq, hTs, hst2 s T' hs, hvF]

/-- A Windows path that starts with one separator has no volume name, unless a
colon follows the separator or the path starts with `\??`. -/
theorem volumeNameLen_single_separator (s x : Char) (r : GoString)
    (hs : IsPathSeparator .windows s = true) (hx : IsPathSeparator .windows x = false)
    (hcol : x ≠ ':') (hq : ¬ pathHasPrefixFold .windows (x :: r) "??".toList = true) :
    volumeNameLen .windows (s :: x :: r) = 0 := by
  have e1 : pathHasPrefixFold .windows (s :: x :: r) "\\\\.\\UNC".toList =
      (IsPathSeparator .windows s && (IsPathSeparator .windows x &&
        pathHasPrefixFold .windows r ".\\UNC".toList)) := rfl
  have e2 : pathHasPrefixFold .windows (s :: x :: r) "\\\\.".toList =
      (IsPathSeparator .windows s && (IsPathSeparator .windows x &&
        pathHasPrefixFold .windows r ".".toList)) := rfl
  have e3 : pathHasPrefixFold .windows (s :: x :: r) "\\\\?".toList =
      (IsPathSeparator .windows s && (IsPathSeparator .windows x &&
        pathHasPrefixFold .windows r "?".toList)) := rfl
  have e4 : pathHasPrefixFold .windows (s :: x :: r) "\\??".toList =
      (IsPathSeparator .windows s && pathHasPrefixFold .windows (x :: r) "??".toList) := rfl
  have hq' : pathHasPrefixFold .windows (x :: r) "??".toList = false := by
    cases h : pathHasPrefixFold .windows (x :: r) "??".toList
    · rfl
    · exact absurd h hq
  rw [volumeNameLen_rooted_eq (s :: x :: r) (by simpa using hcol) hs, e1, e2, e3, e4, hs, hx, hq']
  simp [hx]

/-- `Clean` of a Windows path that starts with one separator, where no colon
follows the separator and the path does not start with `\??`, does not start
with two separators. -/
theorem Clean_single_separator (s : Char) (X : GoString)
    (hs : IsPathSeparator .windows s = true)
    (hX : ∀ x, X.head? = some x → IsPathSeparator .windows x = false)
    (hq : ¬ pathHasPrefixFold .windows X "??".toList = true) :
    HasPrefix (Clean .windows (s :: X)) (Clean .windows [s] ++ [Separator .windows]) = false := by
  have hC : Clean .windows [s] = [Separator .windows] := by
    have : s = '\\' ∨ s = '/' := by simpa [IsPathSeparator] using hs
    rcases this with h | h <;> subst h <;> decide
  rw [hC]
  cases h : HasPrefix (Clean .windows (s :: X)) ([Separator .windows] ++ [Separator .windows])
  · rfl
  · exfalso
    have hp := List.isPrefixOf_iff_prefix.mp h
    by_cases hcol : X.head? = some ':'
    · -- a colon after the separator: a drive letter
      obtain ⟨r, rfl⟩ : ∃ r, X = ':' :: r := by
        cases X with
        | nil => simp at hcol
        | cons x r =>
          simp only [List.head?_cons, Option.some.injEq] at hcol
          exact ⟨r, by rw [hcol]⟩
      have hv : volumeNameLen .windows (s :: ':' :: r) = 2 := volumeNameLen_drive _ rfl
      have hsecond : ∃ a rest, Clean .windows (s :: ':' :: r) = a :: ':' :: rest := by
        unfold Clean
        simp only [hv, List.drop_succ_cons, List.drop_zero]
        cases r with
        | nil =>
          have hc : ¬ (IsPathSeparator .windows ':' = true) := by decide
          exact ⟨s, ['.'], by simp [hc]⟩
        | cons c r2 =>
          simp only [List.take_succ_cons, List.take_zero]
          exact ⟨_, _, rfl⟩
      obtain ⟨a, rest, hcl⟩ := hsecond
      rw [hcl] at hp
      have h2 := (List.cons_prefix_cons.mp (List.cons_prefix_cons.mp hp).2).1
      revert h2
      decide
    · have hv : volumeNameLen .windows (s :: X) = 0 := by
        cases X with
        | nil => cases (show s = '\\' ∨ s = '/' by simpa [IsPathSeparator] using hs) with
          | inl h => subst h; decide
          | inr h => subst h; decide
        | cons x r =>
          exact volumeNameLen_single_separator s x r hs (hX x rfl)
            (fun e => hcol (by rw [e]; rfl)) hq
      have hdrop : (s :: X).drop (volumeNameLen .windows (s :: X)) = s :: X := by
        rw [hv]
        rfl
      obtain ⟨hCl, hS⟩ := Clean_form .windows (s :: X) s X hdrop
      rw [hCl, hv, hs] at hp
      rw [hs] at hS
      have h0 : FromSlash .windows ((s :: X).take 0) = [] := rfl
      rw [h0, List.nil_append] at hp
      have hre : [Separator .windows] ++ [Separator .windows] =
          renderElems .windows true [] ++ [Separator .windows] := rfl
      rw [hre] at hp
      have := legal_shape .windows true [] _ 0 _ (CleanShape_nil .windows true) hS
        (fun _ _ h => absurd h (by decide)) hp
      exact this.2.1 rfl

/-- Under a destination that is a lone separator no joined path passes the
check of `unzipFile`: the check asks for two separators at the start, and
`Join` writes one. -/
theorem lone_separator_not_legal (s : Char) (hs : IsPathSeparator .windows s = true)
    (name : GoString) :
    HasPrefix (Join .windows [[s], name]) (Clean .windows [s] ++ [Separator .windows]) =
      false := by
  have hfold : [[s], name].foldl joinStepWindows [] = joinStepWindows [s] name := by
    simp [List.foldl, joinStepWindows]
  have hhead : ∀ x, (name.dropWhile (IsPathSeparator .windows)).head? = some x →
      IsPathSeparator .windows x = false := by
    intro x hx
    have := List.head?_dropWhile_not (IsPathSeparator .windows) name
    rw [hx] at this
    simpa using this
  by_cases hrule : pathHasPrefixFold .windows (name.dropWhile (IsPathSeparator .windows))
      "??".toList = true
  · have hJ : Join .windows [[s], name] =
        Clean .windows (s :: '.' :: '\\' :: name.dropWhile (IsPathSeparator .windows)) := by
      have hstep : joinStepWindows [s] name =
          s :: '.' :: '\\' :: name.dropWhile (IsPathSeparator .windows) := by
        have hlast : [s].getLast? = some s := rfl
        simp only [joinStepWindows, hlast, hs, if_true]
        rw [if_pos ⟨rfl, hrule⟩]
        rfl
      unfold Join
      simp only [hfold, hstep]
    rw [hJ]
    apply Clean_single_separator s _ hs
    · intro x hx
      simp only [List.head?_cons, Option.some.injEq] at hx
      rw [← hx]
      rfl
    · intro h
      have e : pathHasPrefixFold .windows
          ('.' :: '\\' :: name.dropWhile (IsPathSeparator .windows)) "??".toList =
          (decide (toUpper '?' = toUpper '.') &&
            pathHasPrefixFold .windows ('\\' :: name.dropWhile (IsPathSeparator .windows))
              "?".toList) := rfl
      have hne : ¬ (toUpper '?' = toUpper '.') := by decide
      rw [e] at h
      simp [hne] at h
  · have hJ : Join .windows [[s], name] =
        Clean .windows (s :: name.dropWhile (IsPathSeparator .windows)) := by
      have hstep : joinStepWindows [s] name =
          s :: name.dropWhile (IsPathSeparator .windows) := by
        have hlast : [s].getLast? = some s := rfl
        simp only [joinStepWindows, hlast, hs, if_true]
        rw [if_neg (fun h => hrule h.2)]
        rfl
      unfold Join
      simp only [hfold, hstep]
    rw [hJ]
    exact Clean_single_separator s _ hs hhead hrule

/-! ## C7: extraction stays under the destination -/

/-- With an empty destination no joined path passes the check of `unzipFile` on
Unix. -/
theorem Join_nil_not_legal (name : GoString) :
    HasPrefix (Join .unix [[], name]) (Clean .unix [] ++ [Separator .unix]) = false := by
  cases name with
  | nil => rfl
  | cons c tl =>
    rw [Join_nil_left .unix (c :: tl) (by simp), Clean_nil]
    obtain ⟨hC, hS⟩ := Clean_form .unix (c :: tl) c tl rfl
    cases h : HasPrefix (Clean .unix (c :: tl)) (['.'] ++ [Separator .unix])
    · rfl
    · exfalso
      have hp := List.isPrefixOf_iff_prefix.mp h
      rw [hC] at hp
      have h0 : FromSlash .unix ((c :: tl).take (volumeNameLen .unix (c :: tl))) = [] := rfl
      rw [h0, List.nil_append] at hp
      cases hr : IsPathSeparator .unix c
      · rw [hr] at hp hS
        have := legal_shape .unix false [] _ _ _ (CleanShape_nil .unix false) hS
          (fun h => absurd h (by decide)) hp
        exact this.2.1 rfl
      · rw [hr] at hp
        rw [postClean_of_volume .unix _ _ _ (fun h => absurd h (by decide)),
          renderElems_rooted] at hp
        have := (List.cons_prefix_cons.mp hp).1
        revert this
        decide

/-- The destinations of C7: on Unix any; on Windows one that goes on after its
volume name, has neither colon nor question mark there and, when it has no
volume name, is not cleaned to `.`.  Under such a destination either no joined
path passes the check of `unzipFile` (the empty destination, a lone separator),
or the destination keeps its volume name when `Join` adds text, and its volume
name is that of the cleaned paths. -/
theorem dest_any (os : GOOS) (dest : GoString)
    (hdest : os = .windows →
      volumeNameLen os dest < dest.length ∧
      (volumeNameLen os dest = 0 → Clean os dest ≠ ['.']) ∧
      ':' ∉ dest.drop (volumeNameLen os dest) ∧ '?' ∉ dest.drop (volumeNameLen os dest)) :
    (∀ name, HasPrefix (Join os [dest, name]) (Clean os dest ++ [Separator os]) = false) ∨
    ∃ c tl, dest.drop (volumeNameLen os dest) = c :: tl ∧
      (os = .windows → ':' ∉ c :: tl ∧ '?' ∉ c :: tl) ∧
      (os = .windows → 2 ≤ dest.length ∨ IsPathSeparator os c = false) ∧
      (∀ X, (2 ≤ dest.length ∨ ∃ s X', X = s :: X' ∧ IsPathSeparator os s = true) →
        volumeNameLen os (dest ++ X) = volumeNameLen os dest) ∧
      (os = .windows → volumeNameLen os dest = 0 → Clean os dest ≠ ['.']) ∧
      (volumeNameLen os dest ≠ 0 → ∀ T, T ≠ [] →
        (IsPathSeparator os c = true → ∃ s T', T = s :: T' ∧ IsPathSeparator os s = true) →
        volumeNameLen os (FromSlash os (dest.take (volumeNameLen os dest)) ++ T) =
          volumeNameLen os dest) := by
  by_cases hlone : os = .windows → 2 ≤ dest.length ∨ IsPathSeparator os (dest.headD 'x') = false
  · by_cases hne : dest = []
    · left
      subst hne
      cases os with
      | unix => exact Join_nil_not_legal
      | windows =>
        have := (hdest rfl).1
        simp at this
    · right
      have hgo : volumeNameLen os dest < dest.length := by
        cases os with
        | unix => exact List.length_pos.mpr hne
        | windows => exact (hdest rfl).1
      have hplain : os = .windows → volumeNameLen os dest = 0 → ':' ∉ dest ∧ '?' ∉ dest := by
        intro hw hv0
        have := (hdest hw).2.2
        rw [hv0, List.drop_zero] at this
        exact this
      obtain ⟨c, tl, hR, hl, hstab, hVvol, -⟩ := dest_facts os dest hgo hplain hlone
      refine ⟨c, tl, hR, fun hw => ?_, hl, hstab, fun hw => (hdest hw).2.1, hVvol⟩
      rw [← hR]
      exact (hdest hw).2.2
  · left
    obtain ⟨hw, hl⟩ : os = .windows ∧
        ¬ (2 ≤ dest.length ∨ IsPathSeparator os (dest.headD 'x') = false) := by
      by_contra h
      apply hlone
      intro hw
      by_contra h2
      exact h ⟨hw, h2⟩
    subst hw
    obtain ⟨s, rfl, hs⟩ : ∃ s, dest = [s] ∧ IsPathSeparator .windows s = true := by
      match dest, hl with
      | [], h => exact absurd (Or.inr rfl) h
      | [s], h =>
        refine ⟨s, rfl, ?_⟩
        cases hs : IsPathSeparator .windows s
        · exact absurd (Or.inr hs) h
        · rfl
      | _ :: _ :: _, h => exact absurd (Or.inl (by simp)) h
    exact lone_separator_not_legal s hs

/-- Under a destination of C7 the parent directory of a joined path that passes
the check of `unzipFile` is a start of that path. -/
theorem Dir_Join_start_any (os : GOOS) (dest : GoString)
    (hdest : os = .windows →
      volumeNameLen os dest < dest.length ∧
      (volumeNameLen os dest = 0 → Clean os dest ≠ ['.']) ∧
      ':' ∉ dest.drop (volumeNameLen os dest) ∧ '?' ∉ dest.drop (volumeNameLen os dest))
    (name : GoString)
    (hlegal : HasPrefix (Join os [dest, name]) (Clean os dest ++ [Separator os]) = true) :
    Dir os (Join os [dest, name]) <+: Join os [dest, name] := by
  rcases dest_any os dest hdest with h | ⟨c, tl, hR, hsane, hlone, hstab, hdot, hVvol⟩
  · rw [h name] at hlegal
    cases hlegal
  · exact Dir_Join_start_form os dest c tl hR hsane hlone hstab hdot hVvol name hlegal

theorem CleanShape_last_dotdot (os : GOOS) (rooted : Bool) (S : List GoString)
    (hS : CleanShape os rooted S) (hl : S.getLast? = some ['.', '.']) : rooted = false := by
  cases rooted with
  | false => rfl
  | true =>
    exfalso
    obtain ⟨k, N, hSeq, hk, hN⟩ := hS
    rw [hk rfl] at hSeq
    simp only [List.replicate_zero, List.nil_append] at hSeq
    rw [hSeq] at hl
    exact (hN _ (List.mem_of_getLast?_eq_some hl)).2.2.1 rfl

/-- Under a destination of C7 whose cleaned form does not end in the element
`..`, the entry `../evil.txt` fails the check of `unzipFile`. -/
theorem evil_rejected_any (os : GOOS) (dest : GoString)
    (hdest : os = .windows →
      volumeNameLen os dest < dest.length ∧
      (volumeNameLen os dest = 0 → Clean os dest ≠ ['.']) ∧
      ':' ∉ dest.drop (volumeNameLen os dest) ∧ '?' ∉ dest.drop (volumeNameLen os dest))
    (hbase : Base os (Clean os dest) ≠ ['.', '.']) :
    HasPrefix (Join os [dest, "../evil.txt".toList]) (Clean os dest ++ [Separator os]) =
      false := by
  rcases dest_any os dest hdest with h | ⟨c, tl, hR, hsane, hlone, hstab, hdot, hVvol⟩
  · exact h _
  refine evil_rejected_form os dest c tl hR hsane hlone hstab hdot (fun hl => hbase ?_)
  have hSd := (Clean_form os dest c tl hR).2
  have hr := CleanShape_last_dotdot os _ _ hSd hl
  have hD := Clean_dest_form os dest c tl hR (fun hw => Or.inr (hsane hw))
  have hvlt : volumeNameLen os dest < dest.length := by
    by_contra hge
    rw [List.drop_eq_nil_of_le (by omega)] at hR
    cases hR
  have hVlen : (FromSlash os (dest.take (volumeNameLen os dest))).length =
      volumeNameLen os dest := by
    rw [FromSlash_length, List.length_take]
    omega
  have hfirst : os = .windows → ∀ d,
      ((splitElems os (c :: tl)).foldl (cleanStep (IsPathSeparator os c)) []).head? = some d →
      ':' ∉ d ∧ '?' ∉ d := by
    intro hw d hd
    have hmem := List.mem_of_mem_head? hd
    exact ⟨fun h => (hsane hw).1 (mem_kept_elems _ _ _ d hmem _ h),
      fun h => (hsane hw).2 (mem_kept_elems _ _ _ d hmem _ h)⟩
  rw [hr] at hSd hD hl hfirst
  have hSne : (splitElems os (c :: tl)).foldl (cleanStep false) [] ≠ [] := by
    intro h
    rw [h] at hl
    cases hl
  rw [hD]
  apply Base_dotdot os _ _ hSd hl
  by_cases hv : volumeNameLen os dest = 0
  · have hV0 : FromSlash os (dest.take (volumeNameLen os dest)) = [] :=
      List.length_eq_zero.mp (by rw [hVlen, hv])
    rw [hV0, List.nil_append, List.length_nil]
    have := volumeNameLen_render_first os false _ hSne hSd hfirst [] (by simp)
    rw [List.append_nil] at this
    exact this
  · rw [hVlen]
    apply hVvol hv
    · obtain ⟨c1, tl1, h1, -, -⟩ := renderElems_cases os false _ hSne
        (CleanShape_elem os _ _ hSd)
      rw [h1]
      simp
    · intro hc
      rw [hr] at hc
      cases hc


/-- C7, as stated, fails in five ways.  With the relative destination `..` the
entry `../evil.txt` passes the check, no error is returned and the file is
written to `..\..\evil.txt`, which from the working directory `C:\srv\app` is
`C:\evil.txt`, outside the destination `C:\srv`.  The destination directory
itself is created although its path does not have the cleaned destination
followed by a separator as prefix.  An archive that lies in the destination
directory is emptied by `os.OpenFile` when an entry has its name, and
`unzipFile` returns the error of `f.Open()`.  On a volume that ignores case
the same happens to the archive `c:\srv\a.zip` with the destination `C:\srv`,
although its path does not start with the cleaned destination.  And with the
destination `\\server\share`, a volume name and no more, the entry
`../evil.txt` passes the check: the joined path is `\\server\share\evil.txt`,
the root of the share having no directory above it. -/
theorem zip_slip_rejection_counterexample :
    ((unzipFile .windows (fun _ => some [exampleFileEntry "../evil.txt" [120]])
        exampleRelativeFS "a.zip".toList "..".toList).2 = none ∧
      (unzipFile .windows (fun _ => some [exampleFileEntry "../evil.txt" [120]])
        exampleRelativeFS "a.zip".toList "..".toList).1 "..\\..\\evil.txt".toList =
          some (.file 420 [120]) ∧
      exampleRelativeFS "..\\..\\evil.txt".toList = none ∧
      HasPrefix (Abs .windows "C:\\srv\\app".toList "..\\..\\evil.txt".toList)
        (Abs .windows "C:\\srv\\app".toList "..".toList ++ [Separator .windows]) = false) ∧
    (exampleFS "C:\\www\\site".toList = none ∧
      (unzipFile .windows (fun _ => some exampleEntries) exampleFS "C:\\www\\site.zip".toList
        "C:\\www\\site".toList).1 "C:\\www\\site".toList = some .dir ∧
      HasPrefix "C:\\www\\site".toList
        (Clean .windows "C:\\www\\site".toList ++ [Separator .windows]) = false) ∧
    (exampleFS "C:\\srv\\a.zip".toList = some (.file 420 [80, 75]) ∧
      (unzipFile .windows (fun _ => some [exampleFileEntry "a.zip" [1]]) exampleFS
        "C:\\srv\\a.zip".toList "C:\\srv".toList).2 = some .entryOpen ∧
      (unzipFile .windows (fun _ => some [exampleFileEntry "a.zip" [1]]) exampleFS
        "C:\\srv\\a.zip".toList "C:\\srv".toList).1 "C:\\srv\\a.zip".toList =
          some (.file 420 [])) ∧
    (HasPrefix "c:\\srv\\a.zip".toList
        (Clean .windows "C:\\srv".toList ++ [Separator .windows]) = false ∧
      exampleFoldFS (exampleFoldKey "c:\\srv\\a.zip".toList) = some (.file 420 [80, 75]) ∧
      (unzipFileOn exampleFoldKey .windows (fun _ => some [exampleFileEntry "a.zip" [1]])
        exampleFoldFS "c:\\srv\\a.zip".toList "C:\\srv".toList).2 = some .entryOpen ∧
      (unzipFileOn exampleFoldKey .windows (fun _ => some [exampleFileEntry "a.zip" [1]])
        exampleFoldFS "c:\\srv\\a.zip".toList "C:\\srv".toList).1
          (exampleFoldKey "c:\\srv\\a.zip".toList) = some (.file 420 [])) ∧
    (volumeNameLen .windows "\\\\server\\share".toList =
        ("\\\\server\\share".toList).length ∧
      Base .windows (Clean .windows "\\\\server\\share".toList) ≠ "..".toList ∧
      Join .windows ["\\\\server\\share".toList, "../evil.txt".toList] =
        "\\\\server\\share\\evil.txt".toList ∧
      HasPrefix (Join .windows ["\\\\server\\share".toList, "../evil.txt".toList])
        (Clean .windows "\\\\server\\share".toList ++ [Separator .windows]) = true) := by
  refine ⟨⟨?_, ?_, ?_, ?_⟩, ⟨?_, ?_, ?_⟩, ⟨?_, ?_, ?_⟩, ⟨?_, ?_, ?_, ?_⟩, ⟨?_, ?_, ?_, ?_⟩⟩ <;>
    decide

/-- C7 (amended): `unzipFileOn` is `unzipFile` where `key` tells which file a
path names (`unzipFile` itself when every path names a file of its own).  For
every destination on Unix, and on Windows for a destination that goes on after
its volume name, has neither colon nor question mark there and, when it has no
volume name, is not cleaned to `.`: `unzipFileOn` changes nothing but files
named by a path that has the cleaned destination followed by a separator as
prefix, and missing directories named by a start of the destination path, which
it makes; so the archive is untouched when no path under the cleaned
destination names it.  An entry whose joined path fails the check ends the run
with the illegal-path error in the state that extracting the entries before it
has reached, nothing being rolled back and no later entry looked at;
`../evil.txt` is such an entry unless the cleaned destination ends in the
element `..`. -/
theorem zip_slip_rejection (key : GoString → GoString) (os : GOOS)
    (zipOpenReader : List UInt8 → Option (List ZipEntry))
    (fs : FileSystem) (src dest : GoString)
    (hdest : os = .windows →
      volumeNameLen os dest < dest.length ∧
      (volumeNameLen os dest = 0 → Clean os dest ≠ ['.']) ∧
      ':' ∉ dest.drop (volumeNameLen os dest) ∧ '?' ∉ dest.drop (volumeNameLen os dest)) :
    unzipFileOn (fun p => p) os zipOpenReader fs src dest =
      unzipFile os zipOpenReader fs src dest ∧
    (∀ k, (unzipFileOn key os zipOpenReader fs src dest).1 k ≠ fs k →
      (∃ q, HasPrefix q (Clean os dest ++ [Separator os]) = true ∧ key q = k) ∨
        ((∃ q, (q <+: dest ∨ q <+: Clean os dest) ∧ key q = k) ∧ fs k = none ∧
          (unzipFileOn key os zipOpenReader fs src dest).1 k = some .dir)) ∧
    ((∀ q, HasPrefix q (Clean os dest ++ [Separator os]) = true → key q ≠ key src) →
      (unzipFileOn key os zipOpenReader fs src dest).1 (key src) = fs (key src)) ∧
    (∀ perm data pre bad post, fs (key src) = some (.file perm data) →
      zipOpenReader data = some (pre ++ bad :: post) →
      (unzipEntriesOn key os src dest (MkdirAllOn key os fs dest).1 pre).2 = none →
      HasPrefix (Join os [dest, bad.Name]) (Clean os dest ++ [Separator os]) = false →
      unzipFileOn key os zipOpenReader fs src dest =
        ((unzipEntriesOn key os src dest (MkdirAllOn key os fs dest).1 pre).1,
          some (.illegalPath bad.Name))) ∧
    (Base os (Clean os dest) ≠ "..".toList →
      HasPrefix (Join os [dest, "../evil.txt".toList]) (Clean os dest ++ [Separator os]) =
        false) := by
  have hframe : ∀ k, (unzipFileOn key os zipOpenReader fs src dest).1 k ≠ fs k →
      (∃ q, HasPrefix q (Clean os dest ++ [Separator os]) = true ∧ key q = k) ∨
        ((∃ q, (q <+: dest ∨ q <+: Clean os dest) ∧ key q = k) ∧ fs k = none ∧
          (unzipFileOn key os zipOpenReader fs src dest).1 k = some .dir) := by
    unfold unzipFileOn
    cases hsrc : fs (key src) with
    | none => intro k h; exact absurd rfl h
    | some n =>
      cases n with
      | dir => intro k h; exact absurd rfl h
      | file perm data =>
        simp only []
        cases hz : zipOpenReader data with
        | none => intro k h; exact absurd rfl h
        | some entries =>
          simp only []
          have H1 : ∀ k, (MkdirAllOn key os fs dest).1 k ≠ fs k →
              (∃ q, HasPrefix q (Clean os dest ++ [Separator os]) = true ∧ key q = k) ∨
                ((∃ q, (q <+: dest ∨ q <+: Clean os dest) ∧ key q = k) ∧ fs k = none ∧
                  (MkdirAllOn key os fs dest).1 k = some .dir) := by
            intro k h
            obtain ⟨⟨q, h1, hk⟩, h2, h3⟩ := MkdirAllOn_frame key os fs dest k h
            exact Or.inr ⟨⟨q, Or.inl (mem_dirChain os dest q h1).1, hk⟩, h2, h3⟩
          have H2 : ∀ k, (unzipEntriesOn key os src dest (MkdirAllOn key os fs dest).1
                entries).1 k ≠ (MkdirAllOn key os fs dest).1 k →
              (∃ q, HasPrefix q (Clean os dest ++ [Separator os]) = true ∧ key q = k) ∨
                ((∃ q, (q <+: dest ∨ q <+: Clean os dest) ∧ key q = k) ∧
                  (MkdirAllOn key os fs dest).1 k = none ∧
                  (unzipEntriesOn key os src dest (MkdirAllOn key os fs dest).1 entries).1 k =
                    some .dir) := by
            intro k h
            rcases unzipEntriesOn_frame key os src dest (Dir_Join_start_any os dest hdest)
              entries _ k h with ⟨q, h1, hk⟩ | ⟨⟨q, h1, hk⟩, h2, h3⟩
            · exact Or.inl ⟨q, List.isPrefixOf_iff_prefix.mpr h1, hk⟩
            · exact Or.inr ⟨⟨q, Or.inr h1, hk⟩, h2, h3⟩
          exact frame_trans _ _ fs _ _ H1 H2
  refine ⟨unzipFileOn_id os zipOpenReader fs src dest, hframe, ?_, ?_,
    evil_rejected_any os dest hdest⟩
  · intro hsrc
    by_contra hne
    rcases hframe (key src) hne with ⟨q, h, hk⟩ | ⟨-, h0, -⟩
    · exact hsrc q h hk
    · apply hne
      unfold unzipFileOn
      rw [h0]
      exact h0
  · intro perm data pre bad post hsrc hz hpre hbad
    unfold unzipFileOn
    simp only [hsrc, hz]
    exact unzipEntriesOn_illegal key os src dest bad post hbad pre _ hpre

/-- C7, witness: on a volume that ignores case the example archive
`C:\www\site.zip` unpacked to `C:\www\site` stops at `../evil.txt` with the
illegal-path error; `index.html` extracted before it is in place, `late.txt`
after it is not written, nothing is written to `C:\www\evil.txt`, and the
archive is as it was, no path under the destination being a spelling of its
path. -/
theorem zip_slip_rejection_witness :
    (volumeNameLen .windows "C:\\www\\site".toList < ("C:\\www\\site".toList).length ∧
      volumeNameLen .windows "C:\\www\\site".toList ≠ 0) ∧
    (':' ∉ ("C:\\www\\site".toList).drop (volumeNameLen .windows "C:\\www\\site".toList) ∧
      '?' ∉ ("C:\\www\\site".toList).drop (volumeNameLen .windows "C:\\www\\site".toList)) ∧
    (unzipFileOn exampleFoldKey .windows (fun _ => some exampleEntries) exampleFoldFS
      "C:\\www\\site.zip".toList "C:\\www\\site".toList).1
        (exampleFoldKey "C:\\www\\site.zip".toList) =
      exampleFoldFS (exampleFoldKey "C:\\www\\site.zip".toList) ∧
    unzipFileOn exampleFoldKey .windows (fun _ => some exampleEntries) exampleFoldFS
      "C:\\www\\site.zip".toList "C:\\www\\site".toList =
        ((unzipEntriesOn exampleFoldKey .windows "C:\\www\\site.zip".toList
          "C:\\www\\site".toList
          (MkdirAllOn exampleFoldKey .windows exampleFoldFS "C:\\www\\site".toList).1
          (exampleEntries.take 2)).1,
          some (.illegalPath "../evil.txt".toList)) ∧
    (unzipEntriesOn exampleFoldKey .windows "C:\\www\\site.zip".toList "C:\\www\\site".toList
      (MkdirAllOn exampleFoldKey .windows exampleFoldFS "C:\\www\\site".toList).1
      (exampleEntries.take 2)).1 "c:\\www\\site\\index.html".toList =
        some (.file 420 [60, 104, 49, 62]) ∧
    (unzipEntriesOn exampleFoldKey .windows "C:\\www\\site.zip".toList "C:\\www\\site".toList
      (MkdirAllOn exampleFoldKey .windows exampleFoldFS "C:\\www\\site".toList).1
      (exampleEntries.take 2)).1 "c:\\www\\site\\late.txt".toList = none ∧
    (unzipEntriesOn exampleFoldKey .windows "C:\\www\\site.zip".toList "C:\\www\\site".toList
      (MkdirAllOn exampleFoldKey .windows exampleFoldFS "C:\\www\\site".toList).1
      (exampleEntries.take 2)).1 "c:\\www\\evil.txt".toList = none ∧
    HasPrefix (Join .windows ["C:\\www\\site".toList, "../evil.txt".toList])
      (Clean .windows "C:\\www\\site".toList ++ [Separator .windows]) = false := by
  have hdest : GOOS.windows = GOOS.windows →
      volumeNameLen .windows "C:\\www\\site".toList < ("C:\\www\\site".toList).length ∧
      (volumeNameLen .windows "C:\\www\\site".toList = 0 →
        Clean .windows "C:\\www\\site".toList ≠ ['.']) ∧
      ':' ∉ ("C:\\www\\site".toList).drop (volumeNameLen .windows "C:\\www\\site".toList) ∧
      '?' ∉ ("C:\\www\\site".toList).drop (volumeNameLen .windows "C:\\www\\site".toList) :=
    fun _ => ⟨by decide, fun h => absurd h (by decide), by decide, by decide⟩
  have hapart : ∀ q, HasPrefix q
      (Clean .windows "C:\\www\\site".toList ++ [Separator .windows]) = true →
      exampleFoldKey q ≠ exampleFoldKey "C:\\www\\site.zip".toList := by
    intro q hq heq
    have hP : Clean .windows "C:\\www\\site".toList ++ [Separator .windows] =
        "C:\\www\\site\\".toList := by decide
    rw [hP] at hq
    obtain ⟨t, rfl⟩ := List.isPrefixOf_iff_prefix.mp hq
    have h := congrArg (List.take 12) heq
    unfold exampleFoldKey ToLower at h
    rw [List.map_append, List.take_left' (by decide)] at h
    revert h
    decide
  exact ⟨⟨by decide, by decide⟩, ⟨by decide, by decide⟩,
    (zip_slip_rejection exampleFoldKey .windows (fun _ => some exampleEntries) exampleFoldFS
      "C:\\www\\site.zip".toList "C:\\www\\site".toList hdest).2.2.1 hapart,
    (zip_slip_rejection exampleFoldKey .windows (fun _ => some exampleEntries) exampleFoldFS
      "C:\\www\\site.zip".toList "C:\\www\\site".toList hdest).2.2.2.1 420 [80, 75]
      (exampleEntries.take 2) (exampleFileEntry "../evil.txt" [120])
      [exampleFileEntry "late.txt" [122]] (by decide) rfl (by decide) (by decide),
    by decide, by decide, by decide,
    (zip_slip_rejection exampleFoldKey .windows (fun _ => some exampleEntries) exampleFoldFS
      "C:\\www\\site.zip".toList "C:\\www\\site".toList hdest).2.2.2.2 (by decide)⟩

/-! ## C6: an ordinary relative path is accepted -/

/-- Cleaning twice: working the elements kept of a relative path into a rooted
path gives what working the elements of the path itself gives. -/
theorem foldl_cleanStep_reclean (os : GOOS) (E : List GoString)
    (hE : ∀ e ∈ E, ∀ x ∈ e, IsPathSeparator os x = false) :
    ∀ W : List GoString, (E.foldl (cleanStep false) []).foldl (cleanStep true) W =
      E.foldl (cleanStep true) W := by
  induction E using List.reverseRecOn with
  | nil => intro W; rfl
  | append_singleton E e ih =>
    intro W
    have hE1 : ∀ a ∈ E, ∀ x ∈ a, IsPathSeparator os x = false :=
      fun a ha => hE a (List.mem_append_left _ ha)
    have hS := foldl_cleanStep_shape os false E [] hE1 (CleanShape_nil os false)
    rw [List.foldl_append, List.foldl_append]
    simp only [List.foldl_cons, List.foldl_nil]
    rw [← ih hE1 W]
    generalize E.foldl (cleanStep false) [] = S at hS
    by_cases h1 : e = []
    · subst h1
      rw [cleanStep_nil, cleanStep_nil]
    by_cases h2 : e = ['.']
    · subst h2
      have : ∀ (r : Bool) (out : List GoString), cleanStep r out ['.'] = out := by
        intro r out
        simp [cleanStep]
      rw [this, this]
    by_cases h3 : e = ['.', '.']
    · subst h3
      cases hl : S.getLast? with
      | none =>
        have hS0 : S = [] := List.getLast?_eq_none_iff.mp hl
        subst hS0
        rw [cleanStep_dotdot_stay false [] (by simp)]
        simp
      | some l =>
        by_cases hld : l = ['.', '.']
        · rw [cleanStep_dotdot_stay false S (fun l2 h => by rw [hl] at h; cases h; exact hld)]
          simp only [Bool.false_eq_true, if_false, List.foldl_append, List.foldl_cons,
            List.foldl_nil]
        · rw [cleanStep_dotdot_back false S l hl hld]
          obtain ⟨S1, hS1⟩ := List.getLast?_eq_some_iff.mp hl
          have hlname : IsNameElem os l := by
            obtain ⟨k, N, hSeq, -, hN⟩ := hS
            have hlmem : l ∈ S := List.mem_of_getLast?_eq_some hl
            rw [hSeq] at hlmem
            rcases List.mem_append.mp hlmem with h | h
            · exact absurd (List.eq_of_mem_replicate h) hld
            · exact hN l h
          rw [hS1, List.dropLast_concat, List.foldl_append]
          simp only [List.foldl_cons, List.foldl_nil]
          rw [cleanStep_name os true _ l hlname,
            cleanStep_dotdot_back true _ l (by simp) hld, List.dropLast_concat]
    · have hname : IsNameElem os e := ⟨h1, h2, h3, hE e (by simp)⟩
      rw [cleanStep_name os false S e hname, List.foldl_append]
      rfl

/-- `Join` on Unix with a directory that is not empty: the elements of the name
worked into the elements of the directory. -/
theorem Join_unix_form (c : Char) (tl n : GoString) :
    Join .unix [c :: tl, n] = renderElems .unix (IsPathSeparator .unix c)
      ((splitElems .unix n).foldl (cleanStep (IsPathSeparator .unix c))
        ((splitElems .unix (c :: tl)).foldl (cleanStep (IsPathSeparator .unix c)) [])) := by
  obtain ⟨E, P, hE, hJ⟩ := Join_form .unix (c :: tl) c tl rfl (fun h => absurd h (by decide))
    (fun h => absurd h (by decide)) (fun _ _ => rfl) n
  have hE2 : E = splitElems .unix n := by
    rcases hE with h | ⟨h, -⟩
    · exact h
    · exact absurd h (by decide)
  rw [hJ, hE2, postClean_of_volume .unix _ _ _ (fun h => absurd h (by decide))]
  rfl

/-- On Unix the target of an ordinary relative path, made absolute, starts with
the base directory made absolute, when the base directory or the working
directory is absolute. -/
theorem Abs_ordinary_unix (wd base : GoString) (segs : List GoString) (hne : segs ≠ [])
    (hname : ∀ s ∈ segs, IsNameElem .unix s) (hplain : ∀ s ∈ segs, ':' ∉ s ∧ '?' ∉ s)
    (hwd : IsAbs .unix base = true ∨ IsAbs .unix wd = true) :
    HasPrefix (Abs .unix wd (Join .unix [base, ['/'].intercalate segs]))
      (Abs .unix wd base) = true := by
  by_cases habs : IsAbs .unix base = true
  · obtain ⟨hJabs, hJclean, hJpre⟩ :=
      Join_abs_ordinary .unix base habs (fun h => absurd h (by decide)) segs hne hname
    have hA1 : Abs .unix wd base = Clean .unix base := by simp [Abs, habs]
    have hA2 : Abs .unix wd (Join .unix [base, ['/'].intercalate segs]) =
        Join .unix [base, ['/'].intercalate segs] := by simp [Abs, hJabs, hJclean]
    rw [hA1, hA2]
    exact List.isPrefixOf_iff_prefix.mpr hJpre
  · have hwabs : IsAbs .unix wd = true := by
      rcases hwd with h | h
      · exact absurd h habs
      · exact h
    obtain ⟨wtl, hwd2⟩ : ∃ wtl, wd = '/' :: wtl := by
      cases wd with
      | nil => exact absurd hwabs (by decide)
      | cons w wtl =>
        refine ⟨wtl, ?_⟩
        have : w = '/' := by
          simp only [IsAbs, HasPrefix, List.isPrefixOf, Bool.and_eq_true, beq_iff_eq] at hwabs
          exact hwabs.1.symm
        rw [this]
    subst hwd2
    have hsplit : splitElems .unix (['/'].intercalate segs) = segs :=
      splitBy_intercalate _ '/' rfl segs hne (fun s hs => (hname s hs).2.2.2)
    have hfne : ['/'].intercalate segs ≠ [] := by
      obtain ⟨_, _, _, _, _, _, ys, hys⟩ := ordinary_head '/' segs hne (fun s hs => (hname s hs).1)
      rw [hys]; simp
    -- the target, as a relative path
    have hJ : ∃ S : List GoString, CleanShape .unix false S ∧
        Join .unix [base, ['/'].intercalate segs] = ['/'].intercalate (S ++ segs) ∧
        ∀ W : List GoString, (splitElems .unix base).foldl (cleanStep true) W =
          S.foldl (cleanStep true) W := by
      cases base with
      | nil =>
        refine ⟨[], CleanShape_nil .unix false, ?_, fun W => ?_⟩
        · rw [Join_nil_left .unix _ hfne, Clean_ordinary .unix segs hne hname hplain]
          rfl
        · rfl
      | cons c tl =>
        have hc : IsPathSeparator .unix c = false := by
          cases h : IsPathSeparator .unix c
          · rfl
          · exfalso
            apply habs
            have : c = '/' := by simpa [IsPathSeparator] using h
            rw [this]
            simp [IsAbs, HasPrefix, List.isPrefixOf]
        have hSb := foldl_cleanStep_shape .unix false (splitElems .unix (c :: tl)) []
          (fun e he => mem_splitBy_free _ _ e he) (CleanShape_nil .unix false)
        refine ⟨(splitElems .unix (c :: tl)).foldl (cleanStep false) [], hSb, ?_, fun W => ?_⟩
        · rw [Join_unix_form c tl, hc, hsplit, foldl_cleanStep_names .unix false segs _ hname,
            renderElems_relative .unix _ (by simp [hne])]
          · rfl
          · intro a ha
            rcases List.mem_append.mp ha with h | h
            · exact (CleanShape_elem .unix false _ hSb a h).1
            · exact (hname a h).1
        · exact (foldl_cleanStep_reclean .unix _ (fun e he => mem_splitBy_free _ _ e he) W).symm
    obtain ⟨S, hS, hJeq, hre⟩ := hJ
    have hSelem : ∀ a ∈ S ++ segs, a ≠ [] ∧ ∀ x ∈ a, IsPathSeparator .unix x = false := by
      intro a ha
      rcases List.mem_append.mp ha with h | h
      · exact CleanShape_elem .unix false _ hS a h
      · exact ⟨(hname a h).1, (hname a h).2.2.2⟩
    have hJrel : IsAbs .unix (Join .unix [base, ['/'].intercalate segs]) = false := by
      obtain ⟨x, xs, s, rest, hs, hsx, ys, hys⟩ :=
        ordinary_head '/' (S ++ segs) (by simp [hne]) (fun a ha => (hSelem a ha).1)
      have hx : IsPathSeparator .unix x = false :=
        (hSelem s (by rw [hs]; exact List.mem_cons_self _ _)).2 x
          (by rw [hsx]; exact List.mem_cons_self _ _)
      rw [hJeq, hys]
      cases hxe : decide (x = '/')
      · simp only [IsAbs, HasPrefix, List.isPrefixOf, Bool.and_eq_false_imp, beq_iff_eq]
        intro h
        rw [← h] at hx
        cases hx
      · have : x = '/' := of_decide_eq_true hxe
        rw [this] at hx
        cases hx
    have hA1 : Abs .unix ('/' :: wtl) base = Join .unix ['/' :: wtl, base] := by
      unfold Abs
      rw [if_neg habs]
    have hA2 : Abs .unix ('/' :: wtl) (Join .unix [base, ['/'].intercalate segs]) =
        Join .unix ['/' :: wtl, Join .unix [base, ['/'].intercalate segs]] := by
      unfold Abs
      rw [if_neg (by rw [hJrel]; simp)]
    have hsplitJ : splitElems .unix (['/'].intercalate (S ++ segs)) = S ++ segs :=
      splitBy_intercalate _ '/' rfl (S ++ segs) (by simp [hne]) (fun a ha => (hSelem a ha).2)
    have hsepT : IsPathSeparator .unix '/' = true := rfl
    rw [hA1, hA2, Join_unix_form '/' wtl, Join_unix_form '/' wtl, hJeq, hsplitJ, hsepT, hre,
      List.foldl_append, foldl_cleanStep_names .unix _ segs _ hname]
    rw [renderElems_rooted, renderElems_rooted]
    apply List.isPrefixOf_iff_prefix.mpr
    exact (List.prefix_cons_inj _).mpr
      (intercalate_prefix_join (Separator .unix) _ _ [] [] segs hne (Or.inl rfl))

/-- An ordinary relative path joined to a base directory that goes on with a
separator after its volume name (on Windows: a volume name that is not empty
and stays the volume name when text is added): the cleaned base directory is
the start of the result. -/
theorem Join_prefix_rooted (os : GOOS) (base : GoString) (c : Char) (rest : GoString)
    (hdrop : base.drop (volumeNameLen os base) = c :: rest)
    (hc : IsPathSeparator os c = true)
    (hvol : os = .windows → volumeNameLen os base ≠ 0)
    (hstab : ∀ Y, volumeNameLen os (base ++ Y) = volumeNameLen os base)
    (segs : List GoString) (hne : segs ≠ []) (hname : ∀ s ∈ segs, IsNameElem os s) :
    Clean os base <+: Join os [base, ['/'].intercalate segs] := by
  obtain ⟨hCb, hSb⟩ := Clean_rooted os base c rest hdrop hc hvol
  have hvlt : volumeNameLen os base < base.length := by
    by_contra hge
    rw [List.drop_eq_nil_of_le (by omega)] at hdrop
    simp at hdrop
  have hbne : base ≠ [] := by
    intro h; rw [h] at hvlt; simp at hvlt
  obtain ⟨x, xs, s, srest, hsegs, hs, ys, hys⟩ :=
    ordinary_head '/' segs hne (fun s hs => (hname s hs).1)
  have hx : IsPathSeparator os x = false :=
    (hname s (by rw [hsegs]; exact List.mem_cons_self _ _)).2.2.2 x
      (by rw [hs]; exact List.mem_cons_self _ _)
  obtain ⟨mid, hJ, hmid, hlast⟩ := Join_shape os base _ hbne x ys hys hx
    (fun hw => Or.inl (fun h1 => by
      have := hvol hw
      omega))
  obtain ⟨pre, c2, t, hdec, hc2, ht⟩ :=
    last_separator (IsPathSeparator os) (c :: rest) ⟨c, List.mem_cons_self _ _, hc⟩
  have hbase : base = base.take (volumeNameLen os base) ++ (pre ++ c2 :: t) := by
    rw [← hdec, ← hdrop, List.take_append_drop]
  have hglue : mid = [] → t = [] ∨ IsNameElem os t := by
    intro hm
    obtain ⟨last, hl, hcase⟩ := hlast hm
    rw [hbase] at hl
    exact glue_condition os _ pre c2 t ht last hl hcase
  have hvJ : volumeNameLen os (base ++ mid ++ ['/'].intercalate segs) = volumeNameLen os base := by
    rw [List.append_assoc]
    exact hstab _
  have hdropJ : (base ++ mid ++ ['/'].intercalate segs).drop
      (volumeNameLen os (base ++ mid ++ ['/'].intercalate segs)) =
        c :: (rest ++ mid ++ ['/'].intercalate segs) := by
    rw [hvJ, List.append_assoc, List.drop_append_of_le_length (by omega), hdrop]
    simp
  have htakeJ : (base ++ mid ++ ['/'].intercalate segs).take
      (volumeNameLen os (base ++ mid ++ ['/'].intercalate segs)) =
        base.take (volumeNameLen os base) := by
    rw [hvJ, List.append_assoc, List.take_append_of_le_length (by omega)]
  obtain ⟨hCJ, -⟩ := Clean_rooted os _ c _ hdropJ hc (fun h => by rw [hvJ]; exact hvol h)
  rw [htakeJ] at hCJ
  have hrw : c :: (rest ++ mid ++ ['/'].intercalate segs) =
      pre ++ c2 :: (t ++ mid ++ ['/'].intercalate segs) := by
    have : c :: (rest ++ mid ++ ['/'].intercalate segs) =
        (c :: rest) ++ mid ++ ['/'].intercalate segs := by simp
    rw [this, hdec]; simp
  have hshape := foldl_cleanStep_join os pre c2 t hc2 ht segs hne hname mid hmid hglue
  rw [← hrw, ← hdec] at hshape
  have hpre := intercalate_prefix_join (Separator os) _ _
    ((splitElems os pre).foldl (cleanStep true) []) t segs hne hshape
  rw [hJ, hCJ, hCb, renderElems_rooted, renderElems_rooted]
  exact (List.prefix_append_right_inj _).mpr ((List.prefix_cons_inj _).mpr hpre)

/-- A Windows path that starts with two separators and is a volume name and no
more: what is added to it is added to the volume name, or follows it. -/
theorem volumeNameLen_whole_le (full X : GoString)
    (h0 : IsPathSeparator .windows (full.headD 'x') = true)
    (h1 : IsPathSeparator .windows (full.getD 1 'x') = true)
    (hv : full.drop (volumeNameLen .windows full) = []) :
    full.length ≤ volumeNameLen .windows (full ++ X) := by
  obtain ⟨x0, x1, r, rfl⟩ : ∃ x0 x1 r, full = x0 :: x1 :: r := by
    match full, h0, h1 with
    | [], h, _ => exact absurd h (by decide)
    | [_], _, h =>
      have h' : IsPathSeparator .windows 'x' = true := h
      exact absurd h' (by decide)
    | x0 :: x1 :: r, _, _ => exact ⟨x0, x1, r, rfl⟩
  have hs0 : IsPathSeparator .windows x0 = true := h0
  have hs1 : IsPathSeparator .windows x1 = true := h1
  by_contra hlt
  have hlt' : volumeNameLen .windows (x0 :: x1 :: r ++ X) < (x0 :: x1 :: r).length := by omega
  have hcolq : (x0 :: x1 :: r ++ X).get? 1 ≠ some ':' := by
    intro h
    have : x1 = ':' := by simpa using h
    rw [this] at hs1
    exact absurd hs1 (by decide)
  have h2 := volumeNameLen_two_separators x0 x1 (r ++ X) hs0 hs1
  obtain ⟨V, c, tl, hV, hVlen, hc, hst⟩ := volumeNameLen_stable (x0 :: x1 :: r ++ X) hcolq
    (by
      have : x0 :: x1 :: (r ++ X) = x0 :: x1 :: r ++ X := rfl
      rw [← this]
      omega)
    (by
      simp only [List.length_append]
      omega)
  have hpre : (V ++ [c]) <+: (x0 :: x1 :: r) := by
    have hp1 : (V ++ [c]) <+: (x0 :: x1 :: r ++ X) := by
      rw [hV]
      exact ⟨tl, by simp⟩
    have hp2 : (x0 :: x1 :: r) <+: (x0 :: x1 :: r ++ X) := List.prefix_append _ _
    have hp3 : (V ++ [c]).length ≤ (x0 :: x1 :: r).length := by
      rw [List.length_append, hVlen]
      simp only [List.length_singleton]
      omega
    exact List.prefix_of_prefix_length_le hp1 hp2 hp3
  obtain ⟨tl0, htl0⟩ := hpre
  have hfull : x0 :: x1 :: r = V ++ c :: tl0 := by
    rw [← htl0]
    simp
  have hvfull : volumeNameLen .windows (x0 :: x1 :: r) = V.length := by
    rw [hfull, hst c tl0 hc, hVlen]
  rw [hvfull, hfull, List.drop_left] at hv
  cases hv

/-- `Clean` of a Windows path that starts with two separators starts with its
volume name. -/
theorem Clean_volume_start (Y : GoString)
    (h0 : IsPathSeparator .windows (Y.headD 'x') = true)
    (h1 : IsPathSeparator .windows (Y.getD 1 'x') = true) :
    FromSlash .windows (Y.take (volumeNameLen .windows Y)) <+: Clean .windows Y := by
  have h2 : 2 ≤ volumeNameLen .windows Y := by
    match Y, h0, h1 with
    | [], h, _ => exact absurd h (by decide)
    | [_], _, h =>
      have h' : IsPathSeparator .windows 'x' = true := h
      exact absurd h' (by decide)
    | x0 :: x1 :: cs, h0, h1 => exact volumeNameLen_two_separators x0 x1 cs h0 h1
  cases hd : Y.drop (volumeNameLen .windows Y) with
  | nil =>
    have hC : Clean .windows Y = FromSlash .windows Y := by
      unfold Clean
      simp only [hd]
      rw [if_pos ⟨by omega, h0, h1⟩]
    rw [hC]
    have htake : Y.take (volumeNameLen .windows Y) = Y := by
      have := List.take_append_drop (volumeNameLen .windows Y) Y
      rw [hd, List.append_nil] at this
      exact this
    rw [htake]
  | cons c tl =>
    rw [(Clean_form .windows Y c tl hd).1]
    exact List.prefix_append _ _

/-- A name joined to a Windows path that starts with two separators and is a
volume name and no more: the result starts with the cleaned path. -/
theorem Join_prefix_volume (full name : GoString)
    (h0 : IsPathSeparator .windows (full.headD 'x') = true)
    (h1 : IsPathSeparator .windows (full.getD 1 'x') = true)
    (hv : full.drop (volumeNameLen .windows full) = []) :
    Clean .windows full <+: Join .windows [full, name] := by
  have hfne : full ≠ [] := by
    intro h
    rw [h] at h0
    exact absurd h0 (by decide)
  have h2 : 2 ≤ full.length := by
    match full, h0, h1 with
    | [], h, _ => exact absurd h (by decide)
    | [_], _, h =>
      have h' : IsPathSeparator .windows 'x' = true := h
      exact absurd h' (by decide)
    | x0 :: x1 :: cs, _, _ => simp
  have hC := Clean_volume_start full h0 h1
  have htake : full.take (volumeNameLen .windows full) = full := by
    have := List.take_append_drop (volumeNameLen .windows full) full
    rw [hv, List.append_nil] at this
    exact this
  rw [htake] at hC
  have hCeq : Clean .windows full = FromSlash .windows full := by
    have h2v : 2 ≤ volumeNameLen .windows full := by
      match full, h0, h1 with
      | [], h, _ => exact absurd h (by decide)
      | [_], _, h =>
        have h' : IsPathSeparator .windows 'x' = true := h
        exact absurd h' (by decide)
      | x0 :: x1 :: cs, h0, h1 => exact volumeNameLen_two_separators x0 x1 cs h0 h1
    unfold Clean
    simp only [hv]
    rw [if_pos ⟨by omega, h0, h1⟩]
  obtain ⟨X, hJ, -⟩ := Join_tail .windows full name hfne
  have hle := volumeNameLen_whole_le full X h0 h1 hv
  have hq0 : IsPathSeparator .windows ((full ++ X).headD 'x') = true := by
    match full, h2 with
    | x0 :: x1 :: cs, _ => exact h0
  have hq1 : IsPathSeparator .windows ((full ++ X).getD 1 'x') = true := by
    match full, h2 with
    | x0 :: x1 :: cs, _ => exact h1
  have hCq := Clean_volume_start (full ++ X) hq0 hq1
  rw [hJ, hCeq]
  refine List.IsPrefix.trans ?_ hCq
  have : (full ++ X).take (volumeNameLen .windows (full ++ X)) =
      full ++ X.take (volumeNameLen .windows (full ++ X) - full.length) := by
    rw [List.take_append_eq_append_take, List.take_of_length_le hle]
  rw [this, FromSlash_append]
  exact List.prefix_append _ _

/-- An ordinary relative path joined to an absolute Windows path: the result
starts with the cleaned path. -/
theorem Join_prefix_abs (full : GoString) (segs : List GoString) (hne : segs ≠ [])
    (hname : ∀ s ∈ segs, IsNameElem .windows s) (habs : IsAbs .windows full = true) :
    Clean .windows full <+: Join .windows [full, ['/'].intercalate segs] := by
  by_cases hdrive : full.get? 1 = some ':'
  · exact (Join_abs_ordinary .windows full habs (fun _ => hdrive) segs hne hname).2.2
  · have hv0 : volumeNameLen .windows full ≠ 0 := by
      intro h
      unfold IsAbs at habs
      simp only [h, if_true] at habs
      cases habs
    by_cases hlt : volumeNameLen .windows full < full.length
    · obtain ⟨V, c, tl, hV, hVlen, hc, hst⟩ := volumeNameLen_stable full hdrive hv0 hlt
      have hdrop : full.drop (volumeNameLen .windows full) = c :: tl := by
        rw [← hVlen]
        nth_rewrite 1 [hV]
        exact List.drop_left _ _
      refine Join_prefix_rooted .windows full c tl hdrop hc (fun _ => hv0) (fun Y => ?_) segs hne
        hname
      have : full ++ Y = V ++ c :: (tl ++ Y) := by
        nth_rewrite 1 [hV]
        simp
      rw [this]
      exact hst c _ hc
    · have hd : full.drop (volumeNameLen .windows full) = [] :=
        List.drop_eq_nil_of_le (by omega)
      have h01 : IsPathSeparator .windows (full.headD 'x') = true ∧
          IsPathSeparator .windows (full.getD 1 'x') = true := by
        unfold IsAbs at habs
        simp only [hv0, if_false, hd] at habs
        by_cases h : (IsPathSeparator .windows (full.headD 'x') &&
            IsPathSeparator .windows (full.getD 1 'x')) = true
        · simpa using h
        · rw [if_neg h] at habs
          cases habs
      exact Join_prefix_volume full _ h01.1 h01.2 hd

/-- C6, as stated, fails in three ways.  A segment may contain two dots in a row
without beginning with one: `a..b.txt` meets every condition of the claim, yet
`isValidFilename` tests the cleaned name for the text `..` and rejects it, and
`handleUpload` answers 400.  A configured path key that contains `/` is never
found: with the key `a/b` configured, `/upload/a/b/file.txt` is read as key `a`
and answered 400.  And on Windows `filepath.Abs` asks the operating system,
which takes the last element `nul` for a device: the name `nul` meets every
condition and `isValidFilename` accepts it, yet the target `C:\www\nul` is
resolved to `\\.\nul`, which does not start with the base directory, and
`handleUpload` answers 400. -/
theorem ordinary_path_counterexample :
    ("a..b.txt".toList ≠ [] ∧ "a..b.txt".toList.head? ≠ some '.' ∧
      ∀ c ∈ "a..b.txt".toList, IsPathSeparator .windows c = false ∧ IsPathSeparator .unix c = false ∧
        c ∉ ['<', '>', ':', '"', '|', '?', '*', Char.ofNat 0]) ∧
    isValidFilename .windows "a..b.txt".toList = false ∧
    isValidFilename .unix "a..b.txt".toList = false ∧
    handleUploadPath .windows "C:\\srv".toList (exampleConfig 300 [])
      (exampleRequest "/upload/web/a..b.txt".toList [] [] []) = .error .invalidFilename ∧
    handleUploadPath .windows "C:\\srv".toList
      { exampleConfig 300 [] with Paths := [("a/b".toList, "C:\\www".toList)] }
      (exampleRequest "/upload/a/b/file.txt".toList [] [] []) =
      .error (.unknownPathKey "a".toList) ∧
    ("nul".toList ≠ [] ∧ "nul".toList.head? ≠ some '.' ∧
      ∀ c ∈ "nul".toList, IsPathSeparator .windows c = false ∧
        c ∉ ['<', '>', ':', '"', '|', '?', '*', Char.ofNat 0]) ∧
    isValidFilename .windows "nul".toList = true ∧
    exampleFullPath "C:\\www".toList = some "C:\\www".toList ∧
    exampleFullPath "C:\\www\\nul".toList = some "\\\\.\\nul".toList ∧
    handleUploadPathOn .windows exampleFullPath "C:\\srv".toList (exampleConfig 300 [])
      (exampleRequest "/upload/web/nul".toList [] [] []) = .error .pathCheckFailed := by
  refine ⟨by decide, by decide, by decide, by decide, by decide, by decide, by decide,
    by decide, by decide, by decide⟩

/-- C6, amended. For every relative path made of one or more non-empty segments
joined by `/`, in which no segment begins with `.`, no segment contains two dots
in a row, and no segment contains a path separator or one of the characters
`< > : " | ? *` or NUL, `isValidFilename` returns true; and for a configured path
key that is not empty and contains no `/`, the request path `/upload/key/path`
passes every path check of `handleUpload` (no 400) with the target
`filepath.Join(baseDir, path)`: on Unix, where `filepath.Abs` is a function of
the text, whenever the base directory or the working directory is absolute; on
Windows, where `filepath.Abs` asks the operating system, provided that the
operating system resolves the base directory to an absolute path and the target
to that path joined with the relative path, or does not resolve the base
directory, in which case `handleUpload` compares with the empty text. -/
theorem ordinary_path_accepted (os : GOOS) (segs : List GoString) (hne : segs ≠ [])
    (hseg : ∀ s ∈ segs, s ≠ [] ∧ s.head? ≠ some '.' ∧ Contains s "..".toList = false ∧
      ∀ c ∈ s, IsPathSeparator os c = false ∧
        c ∉ ['<', '>', ':', '"', '|', '?', '*', Char.ofNat 0]) :
    isValidFilename os (['/'].intercalate segs) = true ∧
    (∀ (FullPath : GoString → Option GoString) (wd : GoString) (config : Config) (r : Request),
      handleUploadPathOn .unix FullPath wd config r = handleUploadPath .unix wd config r) ∧
    ∀ (FullPath : GoString → Option GoString) (wd : GoString) (config : Config) (r : Request)
      (key base : GoString),
      key ≠ [] → '/' ∉ key → config.Paths.lookup key = some base →
      r.Path = "/upload/".toList ++ key ++ '/' :: ['/'].intercalate segs →
      (os = .unix → IsAbs os base = true ∨ IsAbs os wd = true) →
      (os = .windows →
        FullPath (if base = [] then ['.'] else base) = none ∨
        ∃ full, FullPath (if base = [] then ['.'] else base) = some full ∧
          IsAbs os full = true ∧
          AbsOn os FullPath wd (Join os [base, ['/'].intercalate segs]) =
            Join os [full, ['/'].intercalate segs]) →
      handleUploadPathOn os FullPath wd config r =
        .ok ⟨key, ['/'].intercalate segs, base, Join os [base, ['/'].intercalate segs],
          AbsOn os FullPath wd base,
          AbsOn os FullPath wd (Join os [base, ['/'].intercalate segs])⟩ ∧
      HasPrefix (AbsOn os FullPath wd (Join os [base, ['/'].intercalate segs]))
        (AbsOn os FullPath wd base) = true := by
  have hvalid := isValidFilename_ordinary os segs hne hseg
  refine ⟨hvalid, fun _ _ _ _ => rfl, ?_⟩
  intro FullPath wd config r key base hkey hslash hlookup hpath hunix hwin
  have hname : ∀ s ∈ segs, IsNameElem os s := fun s hs => (ordinary_segment os s (hseg s hs)).1
  have hplain : ∀ s ∈ segs, ':' ∉ s ∧ '?' ∉ s :=
    fun s hs => (ordinary_segment os s (hseg s hs)).2
  have hfne : ['/'].intercalate segs ≠ [] := by
    obtain ⟨_, _, _, _, _, _, ys, hys⟩ := ordinary_head '/' segs hne (fun s hs => (hseg s hs).1)
    rw [hys]; simp
  have hpre : HasPrefix (AbsOn os FullPath wd (Join os [base, ['/'].intercalate segs]))
      (AbsOn os FullPath wd base) = true := by
    cases os with
    | unix => exact Abs_ordinary_unix wd base segs hne hname hplain (hunix rfl)
    | windows =>
      rcases hwin rfl with hnone | ⟨full, hsome, hfam, hres⟩
      · have : AbsOn .windows FullPath wd base = [] := by
          unfold AbsOn
          simp only [hnone]
        rw [this]
        exact isPrefixOf_nil_left _
      · have : AbsOn .windows FullPath wd base = Clean .windows full := by
          unfold AbsOn
          simp only [hsome]
        rw [this, hres]
        exact List.isPrefixOf_iff_prefix.mpr (Join_prefix_abs full segs hne hname hfam)
  refine ⟨?_, hpre⟩
  unfold handleUploadPathOn
  simp only [hpath, upload_path_parts key _ hslash, List.length_cons, List.length_nil,
    List.getD_cons_zero, List.getD_cons_succ, hlookup, hvalid, hpre]
  simp [hkey, hfne]

/-- Witness of C6 (amended): `sub/dir/file.txt` under the key `web` on Windows,
with the base directory `C:\www` and with the base directory `\\server\share`,
for an operating system that gives these paths back. -/
theorem ordinary_path_accepted_witness :
    isValidFilename .windows "sub/dir/file.txt".toList = true ∧
    handleUploadPathOn .windows exampleFullPath "C:\\srv".toList (exampleConfig 300 [])
      (exampleRequest "/upload/web/sub/dir/file.txt".toList [] [] []) =
      .ok ⟨"web".toList, "sub/dir/file.txt".toList, "C:\\www".toList,
        "C:\\www\\sub\\dir\\file.txt".toList, "C:\\www".toList,
        "C:\\www\\sub\\dir\\file.txt".toList⟩ ∧
    handleUploadPathOn .windows exampleFullPath "C:\\srv".toList
      { exampleConfig 300 [] with Paths := [("web".toList, "\\\\server\\share".toList)] }
      (exampleRequest "/upload/web/sub/dir/file.txt".toList [] [] []) =
      .ok ⟨"web".toList, "sub/dir/file.txt".toList, "\\\\server\\share".toList,
        "\\\\server\\share\\sub\\dir\\file.txt".toList, "\\\\server\\share".toList,
        "\\\\server\\share\\sub\\dir\\file.txt".toList⟩ :=
  ⟨(ordinary_path_accepted .windows ["sub".toList, "dir".toList, "file.txt".toList]
      (by decide) (by decide)).1,
   ((ordinary_path_accepted .windows ["sub".toList, "dir".toList, "file.txt".toList]
      (by decide) (by decide)).2.2 exampleFullPath "C:\\srv".toList (exampleConfig 300 [])
      (exampleRequest "/upload/web/sub/dir/file.txt".toList [] [] []) "web".toList
      "C:\\www".toList (by decide) (by decide) (by decide) (by decide)
      (fun h => absurd h (by decide))
      (fun _ => Or.inr ⟨"C:\\www".toList, by decide, by decide, by decide⟩)).1,
   ((ordinary_path_accepted .windows ["sub".toList, "dir".toList, "file.txt".toList]
      (by decide) (by decide)).2.2 exampleFullPath "C:\\srv".toList
      { exampleConfig 300 [] with Paths := [("web".toList, "\\\\server\\share".toList)] }
      (exampleRequest "/upload/web/sub/dir/file.txt".toList [] [] []) "web".toList
      "\\\\server\\share".toList (by decide) (by decide) (by decide) (by decide)
      (fun h => absurd h (by decide))
      (fun _ => Or.inr ⟨"\\\\server\\share".toList, by decide, by decide, by decide⟩)).1⟩

end DeployReceiver
